import Mathlib

/-!
# Image/Webcam manipulation: a shallow embedding of `ImageManipulation.cpp`

The program keeps three global `cv::Mat` buffers (`original`, `prevFrame`, `modified`) and a
few configuration globals, and every manipulation reads `original` and writes `modified`.

## Numbers

* A channel is an `unsigned char`: `Fin 256`.
* A C++ `double` is modelled exactly.  Every finite binary64 value is an integer multiple of
  `2^-1074`, so a double `x` is represented by the integer `x * 2^1074` (an `Int`; the
  constant `one64 = 2^1074` stands for `1.0`).  Each arithmetic operation computes the exact
  rational result and rounds it to the nearest value with at most 53 significant bits, ties to
  even (`roundNat`); this is IEEE-754 round-to-nearest-even including the subnormal range.
  Overflow to infinity is not modelled: every quantity of this program is below `2^40`.
  Each C++ operation is rounded on its own (no fused multiply-add contraction).
* The `float` locals of the program only ever hold integers of magnitude at most 255, which
  binary32 holds exactly; they are promoted to `double` before every operation, except for the
  differences `originalBlue - blue` inside `getDistance` and `isClose`, which are `float`
  subtractions of two such integers and therefore exact as well.
* Storing a `double` into a channel truncates toward zero.  For a value outside `[0,255]` the
  C++ conversion is undefined; the model keeps the low eight bits of the truncated value, which
  is what the usual compiled code (conversion to a 32-bit integer, then a byte store) does.
* An `int` is an `Int`; no quantity of the program comes near the 32-bit range.

## Buffers, loops and the environment

* The per-pixel manipulations and `motionDetection` run `for` loops over all rows and columns
  (`forEachPixel`) and access buffers with `Nat` coordinates inside these bounds.
* `approximate` computes its coordinates.  Its reads and writes go through `Mat.atChecked` and
  `Mat.setChecked`, which fail with `Fault.outOfBounds` outside the buffer, so that bounds
  safety is a statement about the model.  The `while` and `for` loops inside an iteration are
  instances of `whileLoop`, which takes fuel and fails with `Fault.outOfFuel` when the loop
  has not ended; the outer `do` loop (`approximateLoop`) has fuel of its own.  Termination is
  the statement that an explicit amount of fuel suffices.
* `rand()` and `cv::waitKey` are streams given to the model (`rand i` is the `i`-th value the
  generator delivers, `waitKey i` the value of the `i`-th call); `cv::imshow` has no effect on
  the state.
-/

set_option maxRecDepth 100000

namespace ImageManipulation

/-! ## binary64 arithmetic -/

/-- Nearest integer to `p / D`, ties to the even neighbour. -/
def roundHalfEven (p D : Nat) : Nat :=
  if 2 * (p % D) < D then p / D
  else if D < 2 * (p % D) then p / D + 1
  else if (p / D) % 2 = 0 then p / D else p / D + 1

/-- Number of low bits of `q` that do not fit into a 53-bit significand: `0` when
`q < 2^53`, otherwise the `k` with `2^52 ≤ q / 2^k < 2^53`.  The first argument is fuel
(`q` itself always suffices); the large steps only shorten the evaluation. -/
def excessBits : Nat → Nat → Nat
  | 0, _ => 0
  | fuel + 1, q =>
    if q < 1 <<< 53 then 0
    else if 1 <<< 1077 ≤ q then excessBits fuel (q >>> 1024) + 1024
    else if 1 <<< 85 ≤ q then excessBits fuel (q >>> 32) + 32
    else excessBits fuel (q >>> 1) + 1

/-- Round the non-negative rational `p / d` (in units of `2^-1074`) to the nearest binary64
value, ties to even. -/
def roundNat (p d : Nat) : Nat :=
  roundHalfEven p (d <<< excessBits (p / d) (p / d)) <<< excessBits (p / d) (p / d)

/-- Round the rational `p / d` (in units of `2^-1074`) to the nearest binary64 value. -/
def roundDbl (p : Int) (d : Nat) : Int :=
  if 0 ≤ p then (roundNat p.toNat d : Int) else -(roundNat (-p).toNat d : Int)

/-- The double `1.0` in units of `2^-1074`. -/
def one64 : Nat := 1 <<< 1074

/-- Conversion of a C++ integer (`int`, `unsigned char`, or a `float` holding a small integer)
to `double`; exact for magnitudes below `2^53`. -/
def ofInt (n : Int) : Int := n * one64

/-- Conversion of a channel value to `double`. -/
def ofUchar (c : Fin 256) : Int := ofInt c.val

/-- The double nearest to the decimal literal `n / d` (for instance `.299` is `lit 299 1000`). -/
def lit (n d : Nat) : Int := roundDbl (n * one64) d

/-- The C++ addition `a + b` of two doubles. -/
def fadd (a b : Int) : Int := roundDbl (a + b) 1

/-- The C++ multiplication `a * b` of two doubles. -/
def fmul (a b : Int) : Int := roundDbl (a * b) one64

/-- The C++ division `a / b` of two doubles, for `b ≠ 0`. -/
def fdiv (a b : Int) : Int := roundDbl (a * one64 * Int.sign b) b.natAbs

/-- Bitwise integer square root: with `i` remaining bits, the largest `r' ≥ r` obtained by
adding bits below `2^i` such that `r' * r' ≤ M`. -/
def sqrtBits : Nat → Nat → Nat → Nat
  | 0, _, r => r
  | i + 1, M, r =>
    if (r + 1 <<< i) * (r + 1 <<< i) ≤ M then sqrtBits i M (r + 1 <<< i) else sqrtBits i M r

/-- Correctly rounded `sqrt`.  In units of `2^-1074` the exact root of `a` is `√(a * 2^1074)`;
the radicand is scaled by a power of four into `[2^104, 2^106)` so that its integer root is the
53-bit significand, and the discarded part decides the rounding. -/
def fsqrt (a : Int) : Int :=
  if a ≤ 0 then 0 else
  let N := a.toNat * one64
  let k := (excessBits N N - 52) / 2
  let n := sqrtBits 53 (N >>> (2 * k)) 0
  let m := if 4 * N < ((2 * n + 1) * (2 * n + 1)) <<< (2 * k) then n
           else if ((2 * n + 1) * (2 * n + 1)) <<< (2 * k) < 4 * N then n + 1
           else if n % 2 = 0 then n else n + 1
  ((m <<< k : Nat) : Int)

/-- Value of a double truncated toward zero (the integer part). -/
def trunc (a : Int) : Int := Int.tdiv a one64

/-- Store of a `double` into an `unsigned char`: truncate toward zero, keep the low 8 bits. -/
def toUchar (a : Int) : Fin 256 := ⟨(trunc a % 256).toNat, by omega⟩

/-- A double is exactly representable when rounding leaves it unchanged. -/
def IsDouble (a : Int) : Prop := roundDbl a 1 = a

instance (a : Int) : Decidable (IsDouble a) := by
  unfold IsDouble; exact inferInstance

/-- A natural number with at most 53 significant bits: the magnitudes (in units of `2^-1074`)
of the finite binary64 values. -/
def Rep (n : Nat) : Prop := ∃ m j : Nat, m < 2 ^ 53 ∧ n = m * 2 ^ j

/-! ## Buffers and globals -/

/-- A `cv::Vec3b` pixel: channel `[0]` is blue, `[1]` green, `[2]` red. -/
structure Pixel where
  b : Fin 256
  g : Fin 256
  r : Fin 256
deriving DecidableEq, Repr

def white : Pixel := ⟨255, 255, 255⟩

def black : Pixel := ⟨0, 0, 0⟩

/-- A `cv::Mat` of `Vec3b`: dimensions and the pixel at each (row, column).  `at` performs no
bounds check. -/
structure Mat where
  rows : Nat
  cols : Nat
  px : Nat → Nat → Pixel

/-- The write `m.at<cv::Vec3b>(r, c) = p` (all three channels). -/
def Mat.set (m : Mat) (r c : Nat) (p : Pixel) : Mat :=
  { m with px := fun r' c' => if r' = r ∧ c' = c then p else m.px r' c' }

/-- The global variables of the program. -/
structure Globals where
  original : Mat
  prevFrame : Mat
  modified : Mat
  bwThreshold : Int
  brightnessConstant : Int
  redMult : Int
  blueMult : Int
  greenMult : Int

/-- The loop `for (int i = 0; i < n; ++i) body(i)` threading a state. -/
def forUpTo {σ : Type} : Nat → (Nat → σ → σ) → σ → σ
  | 0, _, s => s
  | n + 1, body, s => body n (forUpTo n body s)

/-- The nested loop over all rows `r < rows` and columns `c < cols` used by every
manipulation. -/
def forEachPixel (rows cols : Nat) (body : Nat → Nat → Mat → Mat) (m : Mat) : Mat :=
  forUpTo rows (fun r mr => forUpTo cols (fun c mc => body r c mc) mr) m

/-! ## Per-pixel manipulations -/

/-- Body of `blackWhite`: compare the average of the channels with the threshold. -/
def blackWhitePixel (bwThreshold : Int) (p : Pixel) : Pixel :=
  if ofInt bwThreshold <
      fdiv (fadd (fadd (ofUchar p.b) (ofUchar p.g)) (ofUchar p.r)) (ofInt 3) then white
  else black

def blackWhite (s : Globals) : Globals :=
  { s with modified := (forEachPixel s.modified.rows s.modified.cols
      (fun r c m => m.set r c (blackWhitePixel s.bwThreshold (s.original.px r c))) s.modified) }

/-- The value `gray = .299 * red + .587 * green + .114 * blue` of `grayscale`. -/
def grayValue (p : Pixel) : Int :=
  fadd (fadd (fmul (lit 299 1000) (ofUchar p.r)) (fmul (lit 587 1000) (ofUchar p.g)))
    (fmul (lit 114 1000) (ofUchar p.b))

def grayscalePixel (p : Pixel) : Pixel :=
  ⟨toUchar (grayValue p), toUchar (grayValue p), toUchar (grayValue p)⟩

def grayscale (s : Globals) : Globals :=
  { s with modified := (forEachPixel s.original.rows s.original.cols
      (fun r c m => m.set r c (grayscalePixel (s.original.px r c))) s.modified) }

/-- One channel of `darken`: `channel * brightnessConstant` stored into a channel. -/
def darkenChannel (k : Int) (v : Fin 256) : Fin 256 := toUchar (fmul (ofUchar v) k)

def darkenPixel (k : Int) (p : Pixel) : Pixel :=
  ⟨darkenChannel k p.b, darkenChannel k p.g, darkenChannel k p.r⟩

def darken (s : Globals) : Globals :=
  { s with modified := (forEachPixel s.original.rows s.original.cols
      (fun r c m => m.set r c (darkenPixel s.brightnessConstant (s.original.px r c)))
      s.modified) }

/-- One channel of `rgbPercentages`: `channel * (mult / 100.0)` stored into a channel. -/
def percentChannel (mult : Int) (v : Fin 256) : Fin 256 :=
  toUchar (fmul (ofUchar v) (fdiv mult (ofInt 100)))

def rgbPercentagesPixel (blueMult greenMult redMult : Int) (p : Pixel) : Pixel :=
  ⟨percentChannel blueMult p.b, percentChannel greenMult p.g, percentChannel redMult p.r⟩

def rgbPercentages (s : Globals) : Globals :=
  { s with modified := (forEachPixel s.original.rows s.original.cols
      (fun r c m => m.set r c
        (rgbPercentagesPixel s.blueMult s.greenMult s.redMult (s.original.px r c)))
      s.modified) }

/-- Body of `purify`.  The channels are compared as `float`s holding the channel values, which
is the comparison of the values themselves. -/
def purifyPixel (p : Pixel) : Pixel :=
  if p.b > p.g ∧ p.b > p.r then ⟨255, 0, 0⟩
  else if p.g > p.b ∧ p.g > p.r then ⟨0, 255, 0⟩
  else ⟨0, 0, 255⟩

def purify (s : Globals) : Globals :=
  { s with modified := (forEachPixel s.original.rows s.original.cols
      (fun r c m => m.set r c (purifyPixel (s.original.px r c))) s.modified) }

/-! ## Edge detector -/

def getLuminosity (b g r : Int) : Int :=
  fadd (fadd (fmul (lit 2126 10000) r) (fmul (lit 7152 10000) g)) (fmul (lit 722 10000) b)

/-- The call `getLuminosity(o.at(r,c)[0], o.at(r,c)[1], o.at(r,c)[2])`. -/
def lumAt (o : Mat) (r c : Nat) : Int :=
  getLuminosity (ofUchar (o.px r c).b) (ofUchar (o.px r c).g) (ofUchar (o.px r c).r)

/-- The sum `vertY` of `strobelOutline` (C++ `+` associates to the left). -/
def vertY (o : Mat) (r c : Nat) : Int :=
  fadd (fadd (fadd (fadd (fadd
    (lumAt o (r + 1) (c + 1))
    (fmul (lumAt o r (c + 1)) (ofInt 2)))
    (lumAt o (r - 1) (c + 1)))
    (fmul (lumAt o r (c - 1)) (ofInt (-2))))
    (fmul (lumAt o (r + 1) (c - 1)) (ofInt (-1))))
    (fmul (lumAt o (r - 1) (c - 1)) (ofInt (-1)))

/-- The sum `horzX` of `strobelOutline`.  Its last term takes blue and green from
`(r - 1, c + 1)` and red from `(r + 1, c - 1)`, as the source does. -/
def horzX (o : Mat) (r c : Nat) : Int :=
  fadd (fadd (fadd (fadd (fadd
    (fmul (lumAt o (r + 1) (c - 1)) (ofInt (-1)))
    (fmul (lumAt o (r + 1) c) (ofInt (-2))))
    (fmul (lumAt o (r + 1) (c + 1)) (ofInt (-1))))
    (fmul (lumAt o (r - 1) c) (ofInt 2)))
    (lumAt o (r - 1) (c - 1)))
    (getLuminosity (ofUchar (o.px (r - 1) (c + 1)).b) (ofUchar (o.px (r - 1) (c + 1)).g)
      (ofUchar (o.px (r + 1) (c - 1)).r))

/-- The magnitude `mag = sqrt(pow(vertY, 2.0) + pow(horzX, 2.0))`; `pow(x, 2.0)` is the
correctly rounded square `x * x`. -/
def magnitude (o : Mat) (r c : Nat) : Int :=
  fsqrt (fadd (fmul (vertY o r c) (vertY o r c)) (fmul (horzX o r c) (horzX o r c)))

/-- The pixel assigned according to the magnitude. -/
def classify (mag : Int) : Pixel :=
  if ofInt 100 < mag then white
  else if ofInt 30 < mag then ⟨toUchar mag, toUchar mag, toUchar mag⟩
  else black

/-- The guard `r > 1 && r < original.rows - 1 && c > 1 && c < original.cols - 1`
(`int` arithmetic). -/
def processed (o : Mat) (r c : Nat) : Prop :=
  (1 : Int) < r ∧ (r : Int) < (o.rows : Int) - 1 ∧ (1 : Int) < c ∧ (c : Int) < (o.cols : Int) - 1

instance (o : Mat) (r c : Nat) : Decidable (processed o r c) := by
  unfold processed; exact inferInstance

def strobelOutline (s : Globals) : Globals :=
  { s with modified := (forEachPixel s.original.rows s.original.cols
      (fun r c m => if processed s.original r c then
          m.set r c (classify (magnitude s.original r c)) else m)
      s.modified) }

/-! ## Motion detector -/

/-- The test `cv::Mat::empty()`: the buffer has no elements. -/
def Mat.empty (m : Mat) : Bool := m.rows = 0 ∨ m.cols = 0

/-- The value `std::abs(x - y)` of two channels, stored into a `float`: the channels are
promoted to `int`, so the difference is the signed one, and the `float` holds it exactly. -/
def absDiff (x y : Fin 256) : Int := ofInt (|(x.val : Int) - (y.val : Int)|)

/-- Body of the comparison loop of `motionDetection` for a pixel of the current frame and the
pixel of the previous frame: `total = (double)bDiff + (double)gDiff + (double)rDiff`, white
when `total > 110`. -/
def motionPixel (cur prev : Pixel) : Pixel :=
  if ofInt 110 < fadd (fadd (absDiff cur.b prev.b) (absDiff cur.g prev.g)) (absDiff cur.r prev.r)
  then white else black

/-- The previous frame the comparison reads: `original.copyTo(prevFrame)` replaces an empty
`prevFrame` by a copy of `original`. -/
def retainedFrame (s : Globals) : Mat :=
  if s.prevFrame.empty then s.original else s.prevFrame

/-- The function `motionDetection`: the comparison loop writes `modified`, the copy loop writes
`prevFrame`; both run over the dimensions of `original`. -/
def motionDetection (s : Globals) : Globals :=
  { s with
    modified := (forEachPixel s.original.rows s.original.cols
      (fun r c m => m.set r c (motionPixel (s.original.px r c) ((retainedFrame s).px r c)))
      s.modified)
    prevFrame := (forEachPixel s.original.rows s.original.cols
      (fun r c m => m.set r c (s.original.px r c)) (retainedFrame s)) }

/-- The sum `|B-B'| + |G-G'| + |R-R'|` of the absolute channel differences of two pixels. -/
def channelDelta (p q : Pixel) : Int :=
  |(p.b.val : Int) - q.b.val| + |(p.g.val : Int) - q.g.val| + |(p.r.val : Int) - q.r.val|

/-! ## Triangle approximation -/

/-- How a run of `approximate` can fail in the model: an `at` access outside the buffer
(undefined behaviour in C++), or a loop that is not finished when the fuel given to the model
is used up. -/
inductive Fault where
  | outOfBounds
  | outOfFuel
deriving DecidableEq, Repr

/-- The read `m.at<cv::Vec3b>(r, c)` with `int` coordinates, checked against the buffer. -/
def Mat.atChecked (m : Mat) (r c : Int) : Except Fault Pixel :=
  if 0 ≤ r ∧ r < m.rows ∧ 0 ≤ c ∧ c < m.cols then .ok (m.px r.toNat c.toNat)
  else .error .outOfBounds

/-- The write `m.at<cv::Vec3b>(r, c) = p` with `int` coordinates, checked against the buffer. -/
def Mat.setChecked (m : Mat) (r c : Int) (p : Pixel) : Except Fault Mat :=
  if 0 ≤ r ∧ r < m.rows ∧ 0 ≤ c ∧ c < m.cols then .ok (m.set r.toNat c.toNat p)
  else .error .outOfBounds

/-- The loop `while (cond) body` on a state, with fuel: one unit per evaluation of the body. -/
def whileLoop {σ : Type} (cond : σ → Bool) (body : σ → Except Fault σ) :
    Nat → σ → Except Fault σ
  | 0, s => if cond s then .error .outOfFuel else .ok s
  | fuel + 1, s => if cond s then (body s).bind (whileLoop cond body fuel) else .ok s

/-- The closeness threshold `strength` chosen at the top of an iteration from `count`. -/
def strengthOf (count : Int) : Int :=
  if count < 2500 then 90
  else if count < 5000 then 60
  else if count < 6000 then 45
  else if count < 8000 then 30
  else 20

/-- The C++ subtraction `a - b`. -/
def fsub (a b : Int) : Int := roundDbl (a - b) 1

/-- The function `getDistance`.  Its `float` parameters hold channel values, so the `float`
differences are exact; `pow(x, 2)` and the sum are computed in `double`. -/
def getDistance (originalBlue originalGreen originalRed blue green red : Int) : Int :=
  fsqrt (fadd (fadd
    (fmul (fsub originalBlue blue) (fsub originalBlue blue))
    (fmul (fsub originalGreen green) (fsub originalGreen green)))
    (fmul (fsub originalRed red) (fsub originalRed red)))

/-- The function `isClose`: `1` when the distance is below `strength`, else `0`. -/
def isClose (originalB originalG originalR b g r : Int) (strength : Int) : Int :=
  if fsqrt (fadd (fadd
      (fmul (fsub originalB b) (fsub originalB b))
      (fmul (fsub originalG g) (fsub originalG g)))
      (fmul (fsub originalR r) (fsub originalR r))) < ofInt strength then 1
  else 0

/-- The call `getDistance(originalBlue, originalGreen, originalRed, p[0], p[1], p[2])` for the
seed colour and a pixel `p` of the source. -/
def distanceTo (seed p : Pixel) : Int :=
  getDistance (ofUchar seed.b) (ofUchar seed.g) (ofUchar seed.r)
    (ofUchar p.b) (ofUchar p.g) (ofUchar p.r)

/-- The call `isClose(originalBlue, originalGreen, originalRed, p[0], p[1], p[2], strength)`. -/
def closeTo (seed p : Pixel) (strength : Int) : Int :=
  isClose (ofUchar seed.b) (ofUchar seed.g) (ofUchar seed.r)
    (ofUchar p.b) (ofUchar p.g) (ofUchar p.r) strength

/-- The four gradients of an iteration. -/
structure Gradients where
  upperGrad : Int
  lowerGrad : Int
  rightGrad : Int
  leftGrad : Int
deriving DecidableEq, Repr

/-- The gradient of one direction: the sentinel `442` when the guard of that direction holds,
else the distance from the seed colour to the neighbour at `(r, c)`. -/
def gradient (o : Mat) (seed : Pixel) (guard : Bool) (r c : Int) : Except Fault Int :=
  if guard then .ok (ofInt 442) else (o.atChecked r c).bind (fun p => .ok (distanceTo seed p))

/-- The four gradient computations, in the order of the source: above (`randomR - 2 < 0`),
below (`randomR + 2 > rows`), right (`randomC + 2 > cols`), left (`randomC - 2 < 0`). -/
def gradients (o : Mat) (seed : Pixel) (randomR randomC : Int) : Except Fault Gradients :=
  (gradient o seed (randomR - 2 < 0) (randomR - 1) randomC).bind fun upperGrad =>
  (gradient o seed (randomR + 2 > o.rows) (randomR + 1) randomC).bind fun lowerGrad =>
  (gradient o seed (randomC + 2 > o.cols) randomR (randomC + 1)).bind fun rightGrad =>
  (gradient o seed (randomC - 2 < 0) randomR (randomC - 1)).bind fun leftGrad =>
  .ok ⟨upperGrad, lowerGrad, rightGrad, leftGrad⟩

/-- The selection of `smallest` and `secondSmallest` (1 = up, 2 = right, 3 = down, 4 = left).
Both are `double` variables: they first hold a gradient and are then overwritten by the
direction code.  In the third and fourth branch the last `else` is missing in the source, so
`secondSmallest` would keep the gradient there. -/
def selectDirections (g : Gradients) : Int × Int :=
  if min (min g.upperGrad g.lowerGrad) (min g.rightGrad g.leftGrad) = g.upperGrad then
    (ofInt 1,
      if min g.lowerGrad (min g.rightGrad g.leftGrad) = g.lowerGrad then ofInt 3
      else if min g.lowerGrad (min g.rightGrad g.leftGrad) = g.rightGrad then ofInt 2
      else ofInt 4)
  else if min (min g.upperGrad g.lowerGrad) (min g.rightGrad g.leftGrad) = g.rightGrad then
    (ofInt 2,
      if min (min g.upperGrad g.lowerGrad) g.leftGrad = g.upperGrad then ofInt 1
      else if min (min g.upperGrad g.lowerGrad) g.leftGrad = g.lowerGrad then ofInt 3
      else ofInt 4)
  else if min (min g.upperGrad g.lowerGrad) (min g.rightGrad g.leftGrad) = g.lowerGrad then
    (ofInt 3,
      if min g.upperGrad (min g.rightGrad g.leftGrad) = g.upperGrad then ofInt 1
      else if min g.upperGrad (min g.rightGrad g.leftGrad) = g.rightGrad then ofInt 2
      else if min g.upperGrad (min g.rightGrad g.leftGrad) = g.leftGrad then ofInt 4
      else min g.upperGrad (min g.rightGrad g.leftGrad))
  else
    (ofInt 4,
      if min (min g.upperGrad g.lowerGrad) g.rightGrad = g.upperGrad then ofInt 1
      else if min (min g.upperGrad g.lowerGrad) g.rightGrad = g.rightGrad then ofInt 2
      else if min (min g.upperGrad g.lowerGrad) g.rightGrad = g.lowerGrad then ofInt 3
      else min (min g.upperGrad g.lowerGrad) g.rightGrad)

/-- The walks "go up" and "go left": `x = start - 1; close = 1;
while (close && x > 1) { close = isClose(.., at(x), strength); --x; } ++x;`.  The state of the
loop is `(close, x)`; `readAt x` is the source pixel at position `x` of the seed's column
(going up) or row (going left). -/
def walkBack (fuel : Nat) (readAt : Int → Except Fault Pixel) (seed : Pixel)
    (strength start : Int) : Except Fault Int :=
  (whileLoop (fun s : Int × Int => decide (s.1 ≠ 0 ∧ s.2 > 1))
    (fun s => (readAt s.2).bind fun p => .ok (closeTo seed p strength, s.2 - 1))
    fuel (1, start - 1)).bind fun s => .ok (s.2 + 1)

/-- The walks "go right" and "go down": `x = start + 1; close = 1;
while (close && x + 1 < limit) { close = isClose(.., at(x), strength); ++x; } --x;` with
`limit` the number of columns (going right) or rows (going down). -/
def walkForth (fuel : Nat) (readAt : Int → Except Fault Pixel) (seed : Pixel)
    (strength start limit : Int) : Except Fault Int :=
  (whileLoop (fun s : Int × Int => decide (s.1 ≠ 0 ∧ s.2 + 1 < limit))
    (fun s => (readAt s.2).bind fun p => .ok (closeTo seed p strength, s.2 + 1))
    fuel (1, start + 1)).bind fun s => .ok (s.2 - 1)

def walkUp (fuel : Nat) (o : Mat) (seed : Pixel) (strength randomR randomC : Int) :
    Except Fault Int :=
  walkBack fuel (fun r => o.atChecked r randomC) seed strength randomR

def walkRight (fuel : Nat) (o : Mat) (seed : Pixel) (strength randomR randomC : Int) :
    Except Fault Int :=
  walkForth fuel (fun c => o.atChecked randomR c) seed strength randomC o.cols

def walkDown (fuel : Nat) (o : Mat) (seed : Pixel) (strength randomR randomC : Int) :
    Except Fault Int :=
  walkForth fuel (fun r => o.atChecked r randomC) seed strength randomR o.rows

def walkLeft (fuel : Nat) (o : Mat) (seed : Pixel) (strength randomR randomC : Int) :
    Except Fault Int :=
  walkBack fuel (fun c => o.atChecked randomR c) seed strength randomC

/-- The two triangle points `(pt1Row, pt1Col)` and `(pt2Row, pt2Col)`. -/
structure Points where
  pt1Row : Int
  pt1Col : Int
  pt2Row : Int
  pt2Col : Int
deriving DecidableEq, Repr

/-- The assignment after a walk in direction `dir`: the point is `pt1` when `dir` is
`smallest`, else `pt2`. -/
def storePoint (smallest dir : Int) (row col : Int) (pts : Points) : Points :=
  if smallest = ofInt dir then { pts with pt1Row := row, pt1Col := col }
  else { pts with pt2Row := row, pt2Col := col }

/-- The four walks of an iteration, each taken when its direction is `smallest` or
`secondSmallest`, in the order up, right, down, left; the points start as `0`. -/
def findPoints (fuel : Nat) (o : Mat) (seed : Pixel) (strength randomR randomC : Int)
    (smallest secondSmallest : Int) : Except Fault Points :=
  (if smallest = ofInt 1 ∨ secondSmallest = ofInt 1 then
      (walkUp fuel o seed strength randomR randomC).bind fun r =>
        .ok (storePoint smallest 1 r randomC ⟨0, 0, 0, 0⟩)
    else .ok ⟨0, 0, 0, 0⟩).bind fun pts1 =>
  (if smallest = ofInt 2 ∨ secondSmallest = ofInt 2 then
      (walkRight fuel o seed strength randomR randomC).bind fun c =>
        .ok (storePoint smallest 2 randomR c pts1)
    else .ok pts1).bind fun pts2 =>
  (if smallest = ofInt 3 ∨ secondSmallest = ofInt 3 then
      (walkDown fuel o seed strength randomR randomC).bind fun r =>
        .ok (storePoint smallest 3 r randomC pts2)
    else .ok pts2).bind fun pts3 =>
  (if smallest = ofInt 4 ∨ secondSmallest = ofInt 4 then
      (walkLeft fuel o seed strength randomR randomC).bind fun c =>
        .ok (storePoint smallest 4 randomR c pts3)
    else .ok pts3)

/-- The pixel painted by an iteration: the `float`s `originalBlue`, `originalGreen`,
`originalRed` stored back into channels. -/
def paint (seed : Pixel) : Pixel :=
  ⟨toUchar (ofUchar seed.b), toUchar (ofUchar seed.g), toUchar (ofUchar seed.r)⟩

/-- The straight segments: `x = lo; while (x <= stop) { modified.at(..) = seed colour; ++x; }`
where `writeAt x` is the write at position `x` of the seed's column (segment up and down) or
row (segment left and right).  The state of the loop is `(x, modified)`. -/
def drawSegment (fuel : Nat) (writeAt : Mat → Int → Except Fault Mat) (lo stop : Int)
    (modified : Mat) : Except Fault Mat :=
  (whileLoop (fun s : Int × Mat => decide (s.1 ≤ stop))
    (fun s => (writeAt s.2 s.1).bind fun m => .ok (s.1 + 1, m))
    fuel (lo, modified)).bind fun s => .ok s.2

/-- One scanline of a triangle: the inner loop
`for (c = randomC; c <= randomC + eachLine; ++c)` (triangles to the right) or
`for (c = randomC; c >= randomC - eachLine; --c)` (triangles to the left), painting the pixels
of row `r` that are close to the seed colour.  The state of the loop is `(c, modified)`. -/
def fillLine (fuel : Nat) (o : Mat) (seed : Pixel) (strength : Int) (right : Bool)
    (randomC eachLine r : Int) (modified : Mat) : Except Fault Mat :=
  (whileLoop
    (fun s : Int × Mat =>
      if right then decide (s.1 ≤ randomC + eachLine) else decide (s.1 ≥ randomC - eachLine))
    (fun s => (o.atChecked r s.1).bind fun p =>
      (if closeTo seed p strength ≠ 0 then s.2.setChecked r s.1 (paint seed)
        else .ok s.2).bind fun m =>
      .ok (if right then s.1 + 1 else s.1 - 1, m))
    fuel (randomC, modified)).bind fun s => .ok s.2

/-- The scanline loop of a triangle: `for (r = randomR; r >= randomR - vertDistance; --r)`
(triangles going up) or `for (r = randomR; r <= randomR + vertDistance; ++r)` (going down),
with `eachLine -= subPerLine` after each scanline.  The state of the loop is
`(r, eachLine, modified)`. -/
def fillTriangle (fuel : Nat) (o : Mat) (seed : Pixel) (strength : Int) (up right : Bool)
    (randomR randomC vertDistance horzDistance subPerLine : Int) (modified : Mat) :
    Except Fault Mat :=
  (whileLoop
    (fun s : Int × Int × Mat =>
      if up then decide (s.1 ≥ randomR - vertDistance)
      else decide (s.1 ≤ randomR + vertDistance))
    (fun s => (fillLine fuel o seed strength right randomC s.2.1 s.1 s.2.2).bind fun m =>
      .ok (if up then s.1 - 1 else s.1 + 1, s.2.1 - subPerLine, m))
    fuel (randomR, horzDistance, modified)).bind fun s => .ok s.2.2

/-- The variable `vertDistance` of the right-triangle branch. -/
def vertDistanceOf (randomR : Int) (pts : Points) : Int :=
  if |pts.pt2Row - randomR| = 0 then |pts.pt1Row - randomR| else |pts.pt2Row - randomR|

/-- The variable `horzDistance` of the right-triangle branch, `0` replaced by `1`. -/
def horzDistanceOf (randomC : Int) (pts : Points) : Int :=
  if (if |pts.pt2Col - randomC| = 0 then |pts.pt1Col - randomC| else |pts.pt2Col - randomC|) = 0
  then 1
  else (if |pts.pt2Col - randomC| = 0 then |pts.pt1Col - randomC| else |pts.pt2Col - randomC|)

/-- The drawing step of an iteration: a straight segment for opposite directions, else one of
the four triangles (first, fourth, third, second quadrant, in the order of the source). -/
def draw (fuel : Nat) (o : Mat) (seed : Pixel) (strength randomR randomC : Int)
    (smallest secondSmallest : Int) (pts : Points) (modified : Mat) : Except Fault Mat :=
  if (smallest = ofInt 1 ∧ secondSmallest = ofInt 3) ∨
      (smallest = ofInt 3 ∧ secondSmallest = ofInt 1) then
    drawSegment fuel (fun m r => m.setChecked r randomC (paint seed))
      (min pts.pt1Row pts.pt2Row) (max pts.pt1Row pts.pt2Row) modified
  else if (smallest = ofInt 2 ∧ secondSmallest = ofInt 4) ∨
      (smallest = ofInt 4 ∧ secondSmallest = ofInt 2) then
    drawSegment fuel (fun m c => m.setChecked randomR c (paint seed))
      (min pts.pt1Col pts.pt2Col) (max pts.pt1Col pts.pt2Col) modified
  else if (smallest = ofInt 2 ∧ secondSmallest = ofInt 1) ∨
      (smallest = ofInt 1 ∧ secondSmallest = ofInt 2) then
    fillTriangle fuel o seed strength true true randomR randomC (vertDistanceOf randomR pts)
      (horzDistanceOf randomC pts)
      (Int.tdiv (vertDistanceOf randomR pts) (horzDistanceOf randomC pts)) modified
  else if (smallest = ofInt 2 ∧ secondSmallest = ofInt 3) ∨
      (smallest = ofInt 3 ∧ secondSmallest = ofInt 2) then
    fillTriangle fuel o seed strength false true randomR randomC (vertDistanceOf randomR pts)
      (horzDistanceOf randomC pts)
      (Int.tdiv (vertDistanceOf randomR pts) (horzDistanceOf randomC pts)) modified
  else if (smallest = ofInt 4 ∧ secondSmallest = ofInt 3) ∨
      (smallest = ofInt 3 ∧ secondSmallest = ofInt 4) then
    fillTriangle fuel o seed strength false false randomR randomC (vertDistanceOf randomR pts)
      (horzDistanceOf randomC pts)
      (Int.tdiv (vertDistanceOf randomR pts) (horzDistanceOf randomC pts)) modified
  else
    fillTriangle fuel o seed strength true false randomR randomC (vertDistanceOf randomR pts)
      (horzDistanceOf randomC pts)
      (Int.tdiv (vertDistanceOf randomR pts) (horzDistanceOf randomC pts)) modified

/-- The body of the `do` loop of `approximate` for the seed `(randomR, randomC)`, from the
reads of the seed colour to the drawing; it returns the new `modified`. -/
def iterationAt (fuel : Nat) (o : Mat) (count randomR randomC : Int) (modified : Mat) :
    Except Fault Mat :=
  (o.atChecked randomR randomC).bind fun seed =>
  (gradients o seed randomR randomC).bind fun g =>
  (findPoints fuel o seed (strengthOf count) randomR randomC
    (selectDirections g).1 (selectDirections g).2).bind fun pts =>
  draw fuel o seed (strengthOf count) randomR randomC
    (selectDirections g).1 (selectDirections g).2 pts modified

/-- The state of `approximate` between iterations: the destination buffer, `count`, and how
many values `rand()` has delivered so far. -/
structure ApproxState where
  modified : Mat
  count : Int
  randCalls : Nat

/-- One pass through the body of the `do` loop: the seed is `rand() % rows`, `rand() % cols`
(two successive values of the generator), then the iteration, then `++count`.  `cv::imshow` only
displays the buffer. -/
def iteration (rand : Nat → Nat) (fuel : Nat) (o : Mat) (s : ApproxState) :
    Except Fault ApproxState :=
  (iterationAt fuel o s.count ((rand s.randCalls : Int) % o.rows)
    ((rand (s.randCalls + 1) : Int) % o.cols) s.modified).bind fun m =>
  .ok { modified := m, count := s.count + 1, randCalls := s.randCalls + 2 }

/-- The loop `do { ... } while (count < 10000 && cv::waitKey(2) != 27)`.  `cv::waitKey` is
only called when `count < 10000`; `waitKey i` is the value of its `i`-th call and `keyCalls`
the number of calls made so far.  The first argument is the fuel of this loop, `fuel` that of
the loops inside an iteration. -/
def approximateLoop (rand : Nat → Nat) (waitKey : Nat → Int) (fuel : Nat) (o : Mat) :
    Nat → Nat → ApproxState → Except Fault ApproxState
  | 0, _, _ => .error .outOfFuel
  | n + 1, keyCalls, s =>
    (iteration rand fuel o s).bind fun s1 =>
      if s1.count < 10000 then
        if waitKey keyCalls ≠ 27 then approximateLoop rand waitKey fuel o n (keyCalls + 1) s1
        else .ok s1
      else .ok s1

/-- The state in which the `do` loop starts: the destination filled with white by the first
loop of `approximate`, and `count = 0`. -/
def whiteCanvas (s : Globals) : ApproxState :=
  { modified := forEachPixel s.original.rows s.original.cols (fun r c m => m.set r c white)
      s.modified
    count := 0
    randCalls := 0 }

/-- The function `approximate`: the white canvas, then the `do` loop. -/
def approximate (rand : Nat → Nat) (waitKey : Nat → Int) (loopFuel fuel : Nat) (s : Globals) :
    Except Fault ApproxState :=
  approximateLoop rand waitKey fuel s.original loopFuel 0 (whiteCanvas s)

/-- The state after `k` passes through the body of the `do` loop, without the tests of the
loop condition. -/
def iterations (rand : Nat → Nat) (fuel : Nat) (o : Mat) :
    Nat → ApproxState → Except Fault ApproxState
  | 0, s => .ok s
  | k + 1, s => (iteration rand fuel o s).bind (iterations rand fuel o k)

/-! ## Notions used in the statements -/

/-- Squared Euclidean distance of two pixels in (B,G,R) space: the ColorDistance of two pixels
is below an integer `s ≥ 0` exactly when `sqDist` is below `s²`. -/
def sqDist (p q : Pixel) : Nat :=
  ((p.b.val : Int) - q.b.val).natAbs ^ 2 + ((p.g.val : Int) - q.g.val).natAbs ^ 2 +
    ((p.r.val : Int) - q.r.val).natAbs ^ 2

/-- The guard that sets the gradient of direction `dir` (1 = up, 2 = right, 3 = down,
4 = left) to the sentinel `442`. -/
def sentinelDir (o : Mat) (randomR randomC : Int) (dir : Int) : Bool :=
  if dir = 1 then decide (randomR - 2 < 0)
  else if dir = 2 then decide (randomC + 2 > o.cols)
  else if dir = 3 then decide (randomR + 2 > o.rows)
  else decide (randomC - 2 < 0)

/-- A run of the model that either returns a value with the property `P`, or stops for lack
of fuel, the latter only when `L` holds.  Such a run does not access a buffer out of bounds. -/
def Safe {α : Type} (P : α → Prop) (L : Prop) (x : Except Fault α) : Prop :=
  (∃ a, x = .ok a ∧ P a) ∨ (x = .error .outOfFuel ∧ L)

/-- The gradient of direction `dir` (1 = up, 2 = right, 3 = down, 4 = left). -/
def Gradients.of (g : Gradients) (dir : Int) : Int :=
  if dir = 1 then g.upperGrad
  else if dir = 2 then g.rightGrad
  else if dir = 3 then g.lowerGrad
  else g.leftGrad

/-- The minimum of the four gradients. -/
def Gradients.minimum (g : Gradients) : Int :=
  min (min g.upperGrad g.rightGrad) (min g.lowerGrad g.leftGrad)

/-- The exact comparison `ColorDistance(seed, p) < strength` of the Euclidean distance with an
integer `strength ≥ 0`. -/
def Near (seed p : Pixel) (strength : Int) : Prop :=
  ((sqDist seed p : Nat) : Int) < strength * strength

instance (seed p : Pixel) (strength : Int) : Decidable (Near seed p strength) := by
  unfold Near; exact inferInstance

/-- The vertex `(row, col)` stored for direction `dir` lies inside an `R × C` buffer, on the
seed's column or row and on that direction's side of the seed. -/
def VertexOk (R C : Nat) (randomR randomC : Int) (dir row col : Int) : Prop :=
  (dir = 1 → col = randomC ∧ 0 ≤ row ∧ row ≤ randomR) ∧
  (dir = 2 → row = randomR ∧ randomC ≤ col ∧ col < C) ∧
  (dir = 3 → col = randomC ∧ randomR ≤ row ∧ row < R) ∧
  (dir = 4 → row = randomR ∧ 0 ≤ col ∧ col ≤ randomC)

/-- The source pixel next to the seed in direction `dir` (1 = up, 2 = right, 3 = down,
4 = left): the pixel whose distance to the seed colour is the gradient of that direction. -/
def neighbour (o : Mat) (randomR randomC : Int) (dir : Int) : Pixel :=
  if dir = 1 then o.px (randomR - 1).toNat randomC.toNat
  else if dir = 2 then o.px randomR.toNat (randomC + 1).toNat
  else if dir = 3 then o.px (randomR + 1).toNat randomC.toNat
  else o.px randomR.toNat (randomC - 1).toNat

/-- The destination `m'` is the destination `m` with exactly the pixels of the set `S` set to
the colour `p`: the size is the same, every pixel of `S` holds `p`, every other pixel is
unchanged. -/
def PaintedOn (S : Nat → Nat → Prop) (p : Pixel) (m m' : Mat) : Prop :=
  m'.rows = m.rows ∧ m'.cols = m.cols ∧
    ∀ i j : Nat, (S i j → m'.px i j = p) ∧ (¬ S i j → m'.px i j = m.px i j)

/-- Column `j` lies on a scanline that starts at the seed's column and extends `eachLine`
columns to the right, or to the left; no column does when `eachLine` is negative. -/
def OnLine (right : Bool) (randomC eachLine j : Int) : Prop :=
  if right then randomC ≤ j ∧ j ≤ randomC + eachLine
  else randomC - eachLine ≤ j ∧ j ≤ randomC

/-- The candidate pixels of a right triangle with vertical extent `v`, horizontal extent `h`
and decrement `s` per scanline: `(i, j)` lies on scanline `k` for some `k = 0..v`, which is the
row `k` steps above (or below) the seed and extends `h - k * s` columns from the seed's
column. -/
def Candidate (up right : Bool) (randomR randomC v h s : Int) (i j : Int) : Prop :=
  ∃ k : Int, 0 ≤ k ∧ k ≤ v ∧ i = (if up then randomR - k else randomR + k) ∧
    OnLine right randomC (h - k * s) j

/-- The walk toward the vertical vertex: up or down. -/
def walkVertical (up : Bool) (fuel : Nat) (o : Mat) (seed : Pixel)
    (strength randomR randomC : Int) : Except Fault Int :=
  if up then walkUp fuel o seed strength randomR randomC
  else walkDown fuel o seed strength randomR randomC

/-- The walk toward the horizontal vertex: right or left. -/
def walkHorizontal (right : Bool) (fuel : Nat) (o : Mat) (seed : Pixel)
    (strength randomR randomC : Int) : Except Fault Int :=
  if right then walkRight fuel o seed strength randomR randomC
  else walkLeft fuel o seed strength randomR randomC

/-- The direction code of the vertical direction: 1 = up, 3 = down. -/
def verticalCode (up : Bool) : Int := if up then 1 else 3

/-- The direction code of the horizontal direction: 2 = right, 4 = left. -/
def horizontalCode (right : Bool) : Int := if right then 2 else 4

/-- The luminosity `L(p) = 0.2126*R + 0.7152*G + 0.0722*B` of a pixel, evaluated in double
arithmetic. -/
def luminosity (p : Pixel) : Int :=
  fadd (fadd (fmul (lit 2126 10000) (ofUchar p.r)) (fmul (lit 7152 10000) (ofUchar p.g)))
    (fmul (lit 722 10000) (ofUchar p.b))

/-- The vertical sum as the specification writes it,
`L(r+1,c+1) + 2*L(r,c+1) + L(r-1,c+1) - 2*L(r,c-1) - L(r+1,c-1) - L(r-1,c-1)`, evaluated from
left to right in double arithmetic. -/
def vertSum (o : Mat) (r c : Nat) : Int :=
  fsub (fsub (fsub (fadd (fadd
    (luminosity (o.px (r + 1) (c + 1)))
    (fmul (ofInt 2) (luminosity (o.px r (c + 1)))))
    (luminosity (o.px (r - 1) (c + 1))))
    (fmul (ofInt 2) (luminosity (o.px r (c - 1)))))
    (luminosity (o.px (r + 1) (c - 1))))
    (luminosity (o.px (r - 1) (c - 1)))

/-- The pixel whose luminosity is the last term `T` of the horizontal sum: blue and green
from `(r-1, c+1)`, red from `(r+1, c-1)`. -/
def mixedPixel (o : Mat) (r c : Nat) : Pixel :=
  ⟨(o.px (r - 1) (c + 1)).b, (o.px (r - 1) (c + 1)).g, (o.px (r + 1) (c - 1)).r⟩

/-- The horizontal sum as the specification writes it,
`-L(r+1,c-1) - 2*L(r+1,c) - L(r+1,c+1) + 2*L(r-1,c) + L(r-1,c-1) + T`, evaluated from left to
right in double arithmetic. -/
def horzSum (o : Mat) (r c : Nat) : Int :=
  fadd (fadd (fadd (fsub (fsub
    (-(luminosity (o.px (r + 1) (c - 1))))
    (fmul (ofInt 2) (luminosity (o.px (r + 1) c))))
    (luminosity (o.px (r + 1) (c + 1))))
    (fmul (ofInt 2) (luminosity (o.px (r - 1) c))))
    (luminosity (o.px (r - 1) (c - 1))))
    (luminosity (mixedPixel o r c))

/-- The exact luminosity of a pixel, times 10000: `2126*R + 7152*G + 722*B`. -/
def lumNum (p : Pixel) : Int := 2126 * p.r.val + 7152 * p.g.val + 722 * p.b.val

/-- The exact value of the vertical sum, times 10000. -/
def vertNum (o : Mat) (r c : Nat) : Int :=
  lumNum (o.px (r + 1) (c + 1)) + 2 * lumNum (o.px r (c + 1)) + lumNum (o.px (r - 1) (c + 1)) -
    2 * lumNum (o.px r (c - 1)) - lumNum (o.px (r + 1) (c - 1)) - lumNum (o.px (r - 1) (c - 1))

/-- The exact value of the horizontal sum, times 10000. -/
def horzNum (o : Mat) (r c : Nat) : Int :=
  -lumNum (o.px (r + 1) (c - 1)) - 2 * lumNum (o.px (r + 1) c) - lumNum (o.px (r + 1) (c + 1)) +
    2 * lumNum (o.px (r - 1) c) + lumNum (o.px (r - 1) (c - 1)) + lumNum (mixedPixel o r c)

/-- The exact value `floor(v * k)` for a channel value `v` and a constant `k` given in units
of `2^-1074`. -/
def exactDarken (k : Int) (v : Fin 256) : Int := ((v.val : Int) * k) / (one64 : Int)

/-- The channel `w` is what `darken` with the constant `k` makes of the channel `v`: the
integer part of the double product, at most `v`, and `floor(v * k)` or one more; one more only
when the double product is the integer `w` itself, the exact product lying at most `2^-46`
below it. -/
def Darkened (k : Int) (v w : Fin 256) : Prop :=
  (w.val : Int) = trunc (fmul (ofUchar v) k) ∧ w.val ≤ v.val ∧
  exactDarken k v ≤ w.val ∧ (w.val : Int) ≤ exactDarken k v + 1 ∧
  ((w.val : Int) = exactDarken k v + 1 →
    fmul (ofUchar v) k = ofInt w.val ∧ ofInt w.val - (v.val : Int) * k ≤ 2 ^ 1028)

/-- The exact value of the squared magnitude `vertical² + horizontal²`, times `10^8`. -/
def magSqNum (o : Mat) (r c : Nat) : Int :=
  vertNum o r c * vertNum o r c + horzNum o r c * horzNum o r c

/-! ## Concrete inputs -/

/-- A buffer filled with one colour. -/
def constMat (rows cols : Nat) (p : Pixel) : Mat := ⟨rows, cols, fun _ _ => p⟩

/-- A 4×4 all-mid-gray source with an all-white destination, threshold 128, brightness
constant `0.5` and channel percentages 150 (red), 100 (blue) and 33 (green). -/
def grayDemo : Globals :=
  { original := constMat 4 4 ⟨128, 128, 128⟩
    prevFrame := constMat 0 0 black
    modified := constMat 4 4 white
    bwThreshold := 128
    brightnessConstant := lit 1 2
    redMult := ofInt 150
    blueMult := ofInt 100
    greenMult := ofInt 33 }

/-- A 2×3 frame pair: the current frame differs from the retained one at `(1,2)` only, by
`(40,40,31)`, which sums to 111. -/
def motionDemo : Globals :=
  { grayDemo with
    original := ⟨2, 3, fun r c => if r = 1 ∧ c = 2 then ⟨50, 60, 101⟩ else ⟨10, 20, 70⟩⟩
    prevFrame := constMat 2 3 ⟨10, 20, 70⟩
    modified := constMat 2 3 ⟨7, 7, 7⟩ }

/-- A 1×2 source: `(5,5,5)` at `(0,0)` and `(9,9,9)` at `(0,1)`. -/
def tinyMat : Mat := ⟨1, 2, fun _ c => if c = 0 then ⟨5, 5, 5⟩ else ⟨9, 9, 9⟩⟩

/-- A 6×7 source: black above the diagonal `r + c = 4`, one blue pixel at `(3,5)`, gray
elsewhere. -/
def demoMat : Mat :=
  ⟨6, 7, fun r c =>
    if r = 3 ∧ c = 5 then ⟨200, 10, 10⟩
    else if r + c < 4 then ⟨0, 0, 0⟩
    else ⟨100, 100, 100⟩⟩

/-- The 6×7 source `demoMat` with an all-white destination of the same size. -/
def edgeDemo : Globals :=
  { grayDemo with
    original := demoMat
    modified := constMat 6 7 white }

/-- A 4×4 black source with the gray pixels `(12,12,12)` at `(2,1)` and `(9,9,9)` at `(3,2)`:
at `(2,2)` the exact sums are `-24` and `-18`, the exact magnitude is 30. -/
def edgeThirty : Globals :=
  { grayDemo with
    original := ⟨4, 4, fun r c =>
      if r = 2 ∧ c = 1 then ⟨12, 12, 12⟩ else if r = 3 ∧ c = 2 then ⟨9, 9, 9⟩ else black⟩ }

/-- A 4×4 black source with the gray pixel `(20,20,20)` at `(2,3)`: at `(2,2)` the exact
sums are `40` and `0`, the exact magnitude is 40. -/
def edgeForty : Globals :=
  { grayDemo with
    original := ⟨4, 4, fun r c => if r = 2 ∧ c = 3 then ⟨20, 20, 20⟩ else black⟩ }

/-! # Theorems -/

/-! ## Rounding to the nearest integer -/

theorem roundHalfEven_mul (n D : Nat) (hD : 0 < D) : roundHalfEven (n * D) D = n := by
  unfold roundHalfEven
  have h1 : n * D % D = 0 := Nat.mul_mod_left n D
  have h2 : n * D / D = n := Nat.mul_div_cancel n hD
  rw [h1, h2]
  simp [hD]

theorem roundHalfEven_bounds (p D : Nat) :
    p / D ≤ roundHalfEven p D ∧ roundHalfEven p D ≤ p / D + 1 := by
  unfold roundHalfEven
  split_ifs <;> omega

theorem roundHalfEven_mono {p p' D : Nat} (h : p ≤ p') :
    roundHalfEven p D ≤ roundHalfEven p' D := by
  have hdiv : p / D ≤ p' / D := Nat.div_le_div_right h
  rcases Nat.lt_or_ge (p / D) (p' / D) with hlt | hge
  · have := (roundHalfEven_bounds p D).2
    have := (roundHalfEven_bounds p' D).1
    omega
  · have heq : p / D = p' / D := le_antisymm hdiv hge
    have e1 := Nat.div_add_mod p D
    have e2 := Nat.div_add_mod p' D
    rw [heq] at e1
    have hr : p % D ≤ p' % D := by omega
    unfold roundHalfEven
    rw [heq]
    split_ifs <;> omega

theorem roundHalfEven_scale (p D c : Nat) (hc : 0 < c) :
    roundHalfEven (p * c) (D * c) = roundHalfEven p D := by
  unfold roundHalfEven
  have h1 : p * c / (D * c) = p / D := Nat.mul_div_mul_right p D hc
  have h2 : p * c % (D * c) = p % D * c := Nat.mul_mod_mul_right c p D
  rw [h1, h2]
  have a1 : 2 * (p % D * c) < D * c ↔ 2 * (p % D) < D := by
    rw [← Nat.mul_assoc]; exact Nat.mul_lt_mul_right hc
  have a2 : D * c < 2 * (p % D * c) ↔ D < 2 * (p % D) := by
    rw [← Nat.mul_assoc]; exact Nat.mul_lt_mul_right hc
  simp only [a1, a2]

/-- The rounded value is within half a unit of the exact quotient. -/
theorem roundHalfEven_error (p D : Nat) (hD : 0 < D) :
    2 * (roundHalfEven p D * D) ≤ 2 * p + D ∧ 2 * p ≤ 2 * (roundHalfEven p D * D) + D := by
  have e1 := Nat.div_add_mod p D
  have hlt := Nat.mod_lt p hD
  have e2 : (p / D + 1) * D = D * (p / D) + D := by ring
  have e3 : p / D * D = D * (p / D) := Nat.mul_comm _ _
  unfold roundHalfEven
  split_ifs <;> simp only [e2, e3] <;> omega

/-! ## The binade of a value -/

theorem excessBits_spec (fuel : Nat) : ∀ q, q ≤ fuel →
    q < 2 ^ (53 + excessBits fuel q) ∧
      (excessBits fuel q = 0 ∨ 2 ^ (52 + excessBits fuel q) ≤ q) := by
  induction fuel with
  | zero =>
    intro q hq
    have : q = 0 := by omega
    subst this
    simp [excessBits]
  | succ n ih =>
    intro q hq
    unfold excessBits
    simp only [Nat.one_shiftLeft, Nat.shiftRight_eq_div_pow]
    by_cases h1 : q < 2 ^ 53
    · rw [if_pos h1]
      exact ⟨h1, Or.inl rfl⟩
    · have hq53 : 2 ^ 53 ≤ q := Nat.le_of_not_lt h1
      have hqpos : 0 < q := lt_of_lt_of_le (by positivity) hq53
      rw [if_neg h1]
      have step : ∀ j : Nat, 0 < j → 2 ^ (53 + j) ≤ q →
          q < 2 ^ (53 + (excessBits n (q / 2 ^ j) + j)) ∧
            (excessBits n (q / 2 ^ j) + j = 0 ∨ 2 ^ (52 + (excessBits n (q / 2 ^ j) + j)) ≤ q) := by
        intro j hj hjq
        have hlt : q / 2 ^ j < q := Nat.div_lt_self hqpos (Nat.one_lt_two_pow (by omega))
        obtain ⟨a, b⟩ := ih (q / 2 ^ j) (by omega)
        have hge : 2 ^ 53 ≤ q / 2 ^ j := by
          rw [Nat.le_div_iff_mul_le (by positivity), ← pow_add]; exact hjq
        constructor
        · have := (Nat.div_lt_iff_lt_mul (by positivity : 0 < 2 ^ j)).1 a
          rw [← pow_add] at this
          rw [← Nat.add_assoc]; exact this
        · right
          rcases b with b | b
          · rw [b]
            have h52 : 2 ^ (52 + (0 + j)) ≤ 2 ^ (53 + j) := Nat.pow_le_pow_right (by norm_num) (by omega)
            exact le_trans h52 hjq
          · have := (Nat.le_div_iff_mul_le (by positivity : 0 < 2 ^ j)).1 b
            rw [← pow_add] at this
            rw [← Nat.add_assoc]; exact this
      by_cases h2 : 2 ^ 1077 ≤ q
      · simp only [h2, if_true]
        have e : 1077 = 53 + 1024 := rfl
        rw [e] at h2
        exact step 1024 (by norm_num) h2
      · rw [if_neg h2]
        by_cases h3 : 2 ^ 85 ≤ q
        · rw [if_pos h3]
          exact step 32 (by norm_num) h3
        · rw [if_neg h3]
          by_cases h4 : 2 ^ 54 ≤ q
          · exact step 1 (by norm_num) h4
          · -- 2^53 ≤ q < 2^54
            have hlt : q / 2 ^ 1 < 2 ^ 53 := by
              rw [Nat.div_lt_iff_lt_mul (by positivity)]
              have : (2:Nat) ^ 53 * 2 ^ 1 = 2 ^ 54 := by norm_num
              omega
            have hz : excessBits n (q / 2 ^ 1) = 0 := by
              cases n with
              | zero => simp [excessBits]
              | succ m =>
                unfold excessBits
                simp only [Nat.one_shiftLeft]
                rw [if_pos hlt]
            rw [hz]
            constructor
            · have : (2:Nat) ^ (53 + (0 + 1)) = 2 ^ 54 := by norm_num
              omega
            · right
              have : (2:Nat) ^ (52 + (0 + 1)) = 2 ^ 53 := by norm_num
              omega

/-- Number of excess bits of `q`, as used by `roundNat`. -/
theorem excess_lt (q : Nat) : q < 2 ^ (53 + excessBits q q) :=
  (excessBits_spec q q le_rfl).1

theorem excess_ge (q : Nat) : excessBits q q = 0 ∨ 2 ^ (52 + excessBits q q) ≤ q :=
  (excessBits_spec q q le_rfl).2

theorem excess_unique {q k : Nat} (h1 : 2 ^ (52 + k) ≤ q) (h2 : q < 2 ^ (53 + k)) :
    excessBits q q = k := by
  have a := excess_lt q
  have b := excess_ge q
  rcases Nat.lt_trichotomy (excessBits q q) k with h | h | h
  · have : 2 ^ (53 + excessBits q q) ≤ 2 ^ (52 + k) := Nat.pow_le_pow_right (by norm_num) (by omega)
    omega
  · exact h
  · rcases b with b | b
    · omega
    · have : 2 ^ (53 + k) ≤ 2 ^ (52 + excessBits q q) := Nat.pow_le_pow_right (by norm_num) (by omega)
      omega

theorem excess_small {q : Nat} (h : q < 2 ^ 53) : excessBits q q = 0 := by
  rcases excess_ge q with b | b
  · exact b
  · by_contra h0
    have : 2 ^ 53 ≤ 2 ^ (52 + excessBits q q) := Nat.pow_le_pow_right (by norm_num) (by omega)
    omega

theorem excess_mono {q q' : Nat} (h : q ≤ q') : excessBits q q ≤ excessBits q' q' := by
  by_contra hlt
  have hlt : excessBits q' q' < excessBits q q := Nat.lt_of_not_le hlt
  have a := excess_lt q'
  rcases excess_ge q with b | b
  · omega
  · have : 2 ^ (53 + excessBits q' q') ≤ 2 ^ (52 + excessBits q q) :=
      Nat.pow_le_pow_right (by norm_num) (by omega)
    omega

/-! ## Rounding to 53 significant bits -/

theorem roundNat_eq (p d : Nat) :
    roundNat p d =
      roundHalfEven p (d * 2 ^ excessBits (p / d) (p / d)) * 2 ^ excessBits (p / d) (p / d) := by
  unfold roundNat
  simp only [Nat.shiftLeft_eq]

/-- The significand produced by `roundNat` is at most `2^53`. -/
theorem roundNat_significand_le (p d : Nat) (hd : 0 < d) :
    roundHalfEven p (d * 2 ^ excessBits (p / d) (p / d)) ≤ 2 ^ 53 := by
  have hlt := excess_lt (p / d)
  rw [Nat.div_lt_iff_lt_mul hd] at hlt
  have hle : p ≤ 2 ^ 53 * (d * 2 ^ excessBits (p / d) (p / d)) := by
    have : 2 ^ (53 + excessBits (p / d) (p / d)) * d
        = 2 ^ 53 * (d * 2 ^ excessBits (p / d) (p / d)) := by ring
    omega
  have := roundHalfEven_mono (D := d * 2 ^ excessBits (p / d) (p / d)) hle
  rwa [roundHalfEven_mul _ _ (by positivity)] at this

/-- Above the subnormal range the significand produced by `roundNat` is at least `2^52`. -/
theorem roundNat_significand_ge (p d : Nat) (hd : 0 < d) (hk : excessBits (p / d) (p / d) ≠ 0) :
    2 ^ 52 ≤ roundHalfEven p (d * 2 ^ excessBits (p / d) (p / d)) := by
  rcases excess_ge (p / d) with h | h
  · exact absurd h hk
  · rw [Nat.le_div_iff_mul_le hd] at h
    have hle : 2 ^ 52 * (d * 2 ^ excessBits (p / d) (p / d)) ≤ p := by
      have : 2 ^ (52 + excessBits (p / d) (p / d)) * d
          = 2 ^ 52 * (d * 2 ^ excessBits (p / d) (p / d)) := by ring
      omega
    have := roundHalfEven_mono (D := d * 2 ^ excessBits (p / d) (p / d)) hle
    rwa [roundHalfEven_mul _ _ (by positivity)] at this

/-- Rounding is monotone. -/
theorem roundNat_mono {p p' : Nat} (d : Nat) (hd : 0 < d) (h : p ≤ p') :
    roundNat p d ≤ roundNat p' d := by
  rw [roundNat_eq, roundNat_eq]
  have hq : p / d ≤ p' / d := Nat.div_le_div_right h
  have hk := excess_mono hq
  rcases Nat.eq_or_lt_of_le hk with heq | hlt
  · rw [heq]
    exact Nat.mul_le_mul_right _ (roundHalfEven_mono h)
  · have h1 := roundNat_significand_le p d hd
    have h2 := roundNat_significand_ge p' d hd (by omega)
    calc roundHalfEven p (d * 2 ^ excessBits (p / d) (p / d)) * 2 ^ excessBits (p / d) (p / d)
        ≤ 2 ^ 53 * 2 ^ excessBits (p / d) (p / d) := Nat.mul_le_mul_right _ h1
      _ = 2 ^ (53 + excessBits (p / d) (p / d)) := by rw [pow_add]
      _ ≤ 2 ^ (52 + excessBits (p' / d) (p' / d)) := Nat.pow_le_pow_right (by norm_num) (by omega)
      _ = 2 ^ 52 * 2 ^ excessBits (p' / d) (p' / d) := by rw [pow_add]
      _ ≤ _ := Nat.mul_le_mul_right _ h2

theorem Rep.excess_dvd {n : Nat} (h : Rep n) : 2 ^ excessBits n n ∣ n := by
  obtain ⟨m, j, hm, rfl⟩ := h
  rcases excess_ge (m * 2 ^ j) with h0 | h0
  · rw [h0]; simp
  · have hjk : excessBits (m * 2 ^ j) (m * 2 ^ j) ≤ j := by
      by_contra hlt
      have hlt : j < excessBits (m * 2 ^ j) (m * 2 ^ j) := Nat.lt_of_not_le hlt
      have h1 : m * 2 ^ j < 2 ^ 53 * 2 ^ j := Nat.mul_lt_mul_of_pos_right hm (by positivity)
      rw [← pow_add] at h1
      have h2 : 2 ^ (53 + j) ≤ 2 ^ (52 + excessBits (m * 2 ^ j) (m * 2 ^ j)) :=
        Nat.pow_le_pow_right (by norm_num) (by omega)
      omega
    exact Dvd.dvd.mul_left (Nat.pow_dvd_pow 2 hjk) m

/-- Rounding leaves a representable value unchanged. -/
theorem roundNat_exact {n : Nat} (h : Rep n) (d : Nat) (hd : 0 < d) : roundNat (n * d) d = n := by
  rw [roundNat_eq, Nat.mul_div_cancel n hd]
  obtain ⟨t, ht⟩ := h.excess_dvd
  have e : n * d = t * (d * 2 ^ excessBits n n) := by
    conv_lhs => rw [ht]
    ring
  rw [e, roundHalfEven_mul _ _ (by positivity)]
  conv_rhs => rw [ht]
  ring

theorem roundNat_rep (p d : Nat) (hd : 0 < d) : Rep (roundNat p d) := by
  rw [roundNat_eq]
  rcases Nat.eq_or_lt_of_le (roundNat_significand_le p d hd) with h | h
  · rw [h]
    exact ⟨1, 53 + excessBits (p / d) (p / d), by norm_num, by rw [pow_add]; ring⟩
  · exact ⟨_, _, h, rfl⟩

theorem rep_of_lt {n : Nat} (h : n < 2 ^ 53) : Rep n := ⟨n, 0, h, by simp⟩

theorem Rep.mul_two_pow {n : Nat} (h : Rep n) (j : Nat) : Rep (n * 2 ^ j) := by
  obtain ⟨m, i, hm, rfl⟩ := h
  exact ⟨m, i + j, hm, by rw [pow_add]; ring⟩

theorem roundNat_zero (d : Nat) (hd : 0 < d) : roundNat 0 d = 0 := by
  have := roundNat_exact (rep_of_lt (by norm_num : 0 < 2 ^ 53)) d hd
  simpa using this

/-- Scaling numerator and denominator by the same factor does not change the result. -/
theorem roundNat_scale (p d c : Nat) (hc : 0 < c) : roundNat (p * c) (d * c) = roundNat p d := by
  rw [roundNat_eq, roundNat_eq, Nat.mul_div_mul_right p d hc]
  have : d * c * 2 ^ excessBits (p / d) (p / d) = d * 2 ^ excessBits (p / d) (p / d) * c := by ring
  rw [this, roundHalfEven_scale _ _ _ hc]

/-! ## Signed rounding -/

theorem roundDbl_natCast (p d : Nat) : roundDbl (p : Int) d = (roundNat p d : Int) := by
  unfold roundDbl
  simp

theorem roundDbl_neg_natCast (p d : Nat) (hd : 0 < d) :
    roundDbl (-(p : Int)) d = -(roundNat p d : Int) := by
  unfold roundDbl
  by_cases h : p = 0
  · subst h; simp [roundNat_zero d hd]
  · have : ¬ (0 ≤ -(p : Int)) := by omega
    rw [if_neg this]
    simp

theorem roundDbl_neg (p : Int) (d : Nat) (hd : 0 < d) : roundDbl (-p) d = -roundDbl p d := by
  rcases Int.eq_nat_or_neg p with ⟨n, rfl | rfl⟩
  · rw [roundDbl_neg_natCast n d hd, roundDbl_natCast]
  · rw [neg_neg, roundDbl_neg_natCast n d hd, roundDbl_natCast, neg_neg]

theorem roundDbl_nonneg {p : Int} (d : Nat) (h : 0 ≤ p) : 0 ≤ roundDbl p d := by
  obtain ⟨n, rfl⟩ := Int.eq_ofNat_of_zero_le h
  rw [roundDbl_natCast]
  exact Int.natCast_nonneg _

theorem roundDbl_nonpos {p : Int} (d : Nat) (hd : 0 < d) (h : p ≤ 0) : roundDbl p d ≤ 0 := by
  have := roundDbl_nonneg d (by omega : 0 ≤ -p)
  rw [roundDbl_neg p d hd] at this
  omega

theorem roundDbl_mono {p p' : Int} (d : Nat) (hd : 0 < d) (h : p ≤ p') :
    roundDbl p d ≤ roundDbl p' d := by
  rcases Int.eq_nat_or_neg p with ⟨n, rfl | rfl⟩ <;>
    rcases Int.eq_nat_or_neg p' with ⟨n', rfl | rfl⟩
  · rw [roundDbl_natCast, roundDbl_natCast]
    exact_mod_cast roundNat_mono d hd (by exact_mod_cast h)
  · have hn : n = 0 := by omega
    have hn' : n' = 0 := by omega
    subst hn; subst hn'; simp
  · rw [roundDbl_neg_natCast n d hd, roundDbl_natCast]
    have := Int.natCast_nonneg (roundNat n d)
    have := Int.natCast_nonneg (roundNat n' d)
    omega
  · rw [roundDbl_neg_natCast n d hd, roundDbl_neg_natCast n' d hd]
    have : roundNat n' d ≤ roundNat n d := roundNat_mono d hd (by omega)
    omega

theorem roundDbl_exact {n : Int} (h : Rep n.natAbs) (d : Nat) (hd : 0 < d) :
    roundDbl (n * d) d = n := by
  rcases Int.eq_nat_or_neg n with ⟨m, rfl | rfl⟩
  · have e : ((m : Int) * (d : Int)) = ((m * d : Nat) : Int) := by push_cast; ring
    rw [e, roundDbl_natCast]
    simp only [Int.natAbs_ofNat] at h
    rw [roundNat_exact h d hd]
  · have e : (-(m : Int) * (d : Int)) = -((m * d : Nat) : Int) := by push_cast; ring
    rw [e, roundDbl_neg_natCast _ d hd]
    simp only [Int.natAbs_neg, Int.natAbs_ofNat] at h
    rw [roundNat_exact h d hd]

theorem roundDbl_rep (p : Int) (d : Nat) (hd : 0 < d) : Rep (roundDbl p d).natAbs := by
  rcases Int.eq_nat_or_neg p with ⟨n, rfl | rfl⟩
  · rw [roundDbl_natCast]; simpa using roundNat_rep n d hd
  · rw [roundDbl_neg_natCast n d hd]; simpa using roundNat_rep n d hd

theorem roundDbl_scale (p : Int) (d c : Nat) (hc : 0 < c) (hd : 0 < d) :
    roundDbl (p * c) (d * c) = roundDbl p d := by
  rcases Int.eq_nat_or_neg p with ⟨n, rfl | rfl⟩
  · have e : ((n : Int) * (c : Int)) = ((n * c : Nat) : Int) := by push_cast; ring
    rw [e, roundDbl_natCast, roundDbl_natCast, roundNat_scale _ _ _ hc]
  · have e : (-(n : Int) * (c : Int)) = -((n * c : Nat) : Int) := by push_cast; ring
    rw [e, roundDbl_neg_natCast _ _ (by positivity), roundDbl_neg_natCast _ _ hd,
      roundNat_scale _ _ _ hc]

theorem isDouble_iff_rep (a : Int) : IsDouble a ↔ Rep a.natAbs := by
  unfold IsDouble
  constructor
  · intro h
    rw [← h]
    exact roundDbl_rep a 1 (by norm_num)
  · intro h
    have := roundDbl_exact h 1 (by norm_num)
    simpa using this

theorem one64_pos : 0 < one64 := by
  unfold one64
  rw [Nat.one_shiftLeft]
  positivity

theorem one64_eq : one64 = 2 ^ 1074 := by
  unfold one64
  rw [Nat.one_shiftLeft]

/-! ## The pixel loop -/

theorem Mat.set_px (m : Mat) (r c : Nat) (p : Pixel) (r' c' : Nat) :
    (m.set r c p).px r' c' = if r' = r ∧ c' = c then p else m.px r' c' := rfl

theorem Mat.set_rows (m : Mat) (r c : Nat) (p : Pixel) : (m.set r c p).rows = m.rows := rfl

theorem Mat.set_cols (m : Mat) (r c : Nat) (p : Pixel) : (m.set r c p).cols = m.cols := rfl

theorem forUpTo_cols_px (cond : Nat → Prop) [DecidablePred cond] (f : Nat → Pixel) (r₀ : Nat)
    (C : Nat) (m : Mat) (r c : Nat) :
    (forUpTo C (fun c mr => if cond c then mr.set r₀ c (f c) else mr) m).px r c =
      if r = r₀ ∧ c < C ∧ cond c then f c else m.px r c := by
  induction C with
  | zero => simp [forUpTo]
  | succ n ih =>
    simp only [forUpTo]
    by_cases hc : cond n
    · simp only [hc, if_true]
      rw [Mat.set_px]
      by_cases h1 : r = r₀ ∧ c = n
      · obtain ⟨h1, h2⟩ := h1
        subst h1; subst h2
        simp [hc]
      · rw [if_neg h1, ih]
        by_cases h2 : r = r₀ ∧ c < n ∧ cond c
        · rw [if_pos h2, if_pos ⟨h2.1, by omega, h2.2.2⟩]
        · rw [if_neg h2, if_neg]
          rintro ⟨h3, h4, h5⟩
          rcases Nat.lt_succ_iff_lt_or_eq.1 h4 with h6 | h6
          · exact h2 ⟨h3, h6, h5⟩
          · exact h1 ⟨h3, h6⟩
    · simp only [hc, if_false]
      rw [ih]
      by_cases h2 : r = r₀ ∧ c < n ∧ cond c
      · rw [if_pos h2, if_pos ⟨h2.1, by omega, h2.2.2⟩]
      · rw [if_neg h2, if_neg]
        rintro ⟨h3, h4, h5⟩
        rcases Nat.lt_succ_iff_lt_or_eq.1 h4 with h6 | h6
        · exact h2 ⟨h3, h6, h5⟩
        · subst h6; exact hc h5

theorem forUpTo_cols_dims (cond : Nat → Prop) [DecidablePred cond] (f : Nat → Pixel) (r₀ : Nat)
    (C : Nat) (m : Mat) :
    (forUpTo C (fun c mr => if cond c then mr.set r₀ c (f c) else mr) m).rows = m.rows ∧
    (forUpTo C (fun c mr => if cond c then mr.set r₀ c (f c) else mr) m).cols = m.cols := by
  induction C with
  | zero => simp [forUpTo]
  | succ n ih =>
    simp only [forUpTo]
    by_cases hc : cond n
    · simp only [hc, if_true]; rw [Mat.set_rows, Mat.set_cols]; exact ih
    · simp only [hc, if_false]; exact ih

/-- What the pixel loop leaves at each position: a position inside the loop bounds that
satisfies the guard holds the value written for it; every other position is untouched. -/
theorem forEachPixel_px (cond : Nat → Nat → Prop) [∀ r c, Decidable (cond r c)]
    (f : Nat → Nat → Pixel) (R C : Nat) (m : Mat) (r c : Nat) :
    (forEachPixel R C (fun r c mr => if cond r c then mr.set r c (f r c) else mr) m).px r c =
      if r < R ∧ c < C ∧ cond r c then f r c else m.px r c := by
  unfold forEachPixel
  induction R with
  | zero => simp [forUpTo]
  | succ n ih =>
    simp only [forUpTo]
    rw [forUpTo_cols_px (cond n) (f n) n C _ r c, ih]
    by_cases h1 : r = n ∧ c < C ∧ cond n c
    · obtain ⟨h1, h2, h3⟩ := h1
      subst h1
      rw [if_pos ⟨rfl, h2, h3⟩, if_pos ⟨by omega, h2, h3⟩]
    · rw [if_neg h1]
      by_cases h2 : r < n ∧ c < C ∧ cond r c
      · rw [if_pos h2, if_pos ⟨by omega, h2.2.1, h2.2.2⟩]
      · rw [if_neg h2, if_neg]
        rintro ⟨h3, h4, h5⟩
        rcases Nat.lt_succ_iff_lt_or_eq.1 h3 with h6 | h6
        · exact h2 ⟨h6, h4, h5⟩
        · subst h6; exact h1 ⟨rfl, h4, h5⟩

theorem forEachPixel_dims (cond : Nat → Nat → Prop) [∀ r c, Decidable (cond r c)]
    (f : Nat → Nat → Pixel) (R C : Nat) (m : Mat) :
    (forEachPixel R C (fun r c mr => if cond r c then mr.set r c (f r c) else mr) m).rows = m.rows ∧
    (forEachPixel R C (fun r c mr => if cond r c then mr.set r c (f r c) else mr) m).cols = m.cols := by
  unfold forEachPixel
  induction R with
  | zero => simp [forUpTo]
  | succ n ih =>
    simp only [forUpTo]
    have := forUpTo_cols_dims (cond n) (f n) n C
      (forUpTo n (fun r mr => forUpTo C (fun c mc => if cond r c then mc.set r c (f r c) else mc) mr) m)
    exact ⟨this.1.trans ih.1, this.2.trans ih.2⟩

/-- The pixel loop with an unguarded write. -/
theorem forEachPixel_set_px (f : Nat → Nat → Pixel) (R C : Nat) (m : Mat) (r c : Nat) :
    (forEachPixel R C (fun r c mr => mr.set r c (f r c)) m).px r c =
      if r < R ∧ c < C then f r c else m.px r c := by
  have h := forEachPixel_px (fun _ _ => True) f R C m r c
  simp only [if_true, and_true] at h
  exact h

/-! ## Facts about the individual operations -/

theorem ofInt_rep {n : Int} (h : n.natAbs < 2 ^ 53) : Rep (ofInt n).natAbs := by
  unfold ofInt
  rw [Int.natAbs_mul, Int.natAbs_ofNat, one64_eq]
  exact (rep_of_lt h).mul_two_pow 1074

theorem roundDbl_ofInt {n : Int} (h : n.natAbs < 2 ^ 53) : roundDbl (ofInt n) 1 = ofInt n := by
  have := roundDbl_exact (ofInt_rep h) 1 (by norm_num)
  simpa using this

theorem ofInt_add (x y : Int) : ofInt x + ofInt y = ofInt (x + y) := by
  unfold ofInt; ring

theorem ofInt_le {x y : Int} (h : x ≤ y) : ofInt x ≤ ofInt y := by
  unfold ofInt
  exact Int.mul_le_mul_of_nonneg_right h (Int.natCast_nonneg _)

theorem ofInt_lt {x y : Int} (h : x < y) : ofInt x < ofInt y := by
  unfold ofInt
  exact Int.mul_lt_mul_of_pos_right h (by exact_mod_cast one64_pos)

theorem ofInt_nonneg {x : Int} (h : 0 ≤ x) : 0 ≤ ofInt x := by
  have := ofInt_le h
  simpa [ofInt] using this

theorem fadd_ofInt (x y : Int) (h : (x + y).natAbs < 2 ^ 53) :
    fadd (ofInt x) (ofInt y) = ofInt (x + y) := by
  unfold fadd
  rw [ofInt_add, roundDbl_ofInt h]

theorem fdiv_ofNat (a : Int) (m : Nat) (hm : 0 < m) : fdiv a (ofInt m) = roundDbl a m := by
  unfold fdiv ofInt
  have hpos : (0 : Int) < (m : Int) * (one64 : Int) :=
    Int.mul_pos (by exact_mod_cast hm) (by exact_mod_cast one64_pos)
  rw [Int.sign_eq_one_of_pos hpos, mul_one]
  have e : ((m : Int) * (one64 : Int)).natAbs = m * one64 := by
    rw [Int.natAbs_mul, Int.natAbs_ofNat, Int.natAbs_ofNat]
  rw [e, roundDbl_scale a m one64 one64_pos hm]

theorem fmul_ofInt_right (a n : Int) : fmul a (ofInt n) = roundDbl (a * n) 1 := by
  unfold fmul ofInt
  have := roundDbl_scale (a * n) 1 one64 one64_pos (by norm_num)
  rw [one_mul] at this
  rw [← this]
  congr 1
  ring

theorem fmul_ofInt_left (n a : Int) : fmul (ofInt n) a = roundDbl (n * a) 1 := by
  unfold fmul ofInt
  have := roundDbl_scale (n * a) 1 one64 one64_pos (by norm_num)
  rw [one_mul] at this
  rw [← this]
  congr 1
  ring

theorem fadd_mono {a a' b b' : Int} (ha : a ≤ a') (hb : b ≤ b') : fadd a b ≤ fadd a' b' := by
  unfold fadd
  exact roundDbl_mono 1 (by norm_num) (by omega)

theorem fadd_nonneg {a b : Int} (ha : 0 ≤ a) (hb : 0 ≤ b) : 0 ≤ fadd a b := by
  unfold fadd
  exact roundDbl_nonneg 1 (by omega)

theorem lit_nonneg (n d : Nat) : 0 ≤ lit n d := by
  unfold lit
  exact roundDbl_nonneg d (by positivity)

theorem ofUchar_nonneg (v : Fin 256) : 0 ≤ ofUchar v := by
  unfold ofUchar
  exact ofInt_nonneg (by positivity)

theorem ofUchar_le (v : Fin 256) : ofUchar v ≤ ofInt 255 := by
  unfold ofUchar
  exact ofInt_le (by have := v.isLt; omega)

/-- Multiplication by a non-negative factor is monotone in the other factor. -/
theorem fmul_mono_right {c a a' : Int} (hc : 0 ≤ c) (h : a ≤ a') : fmul c a ≤ fmul c a' := by
  unfold fmul
  exact roundDbl_mono one64 one64_pos (Int.mul_le_mul_of_nonneg_left h hc)

theorem fmul_mono_left {c a a' : Int} (hc : 0 ≤ c) (h : a ≤ a') : fmul a c ≤ fmul a' c := by
  unfold fmul
  exact roundDbl_mono one64 one64_pos (Int.mul_le_mul_of_nonneg_right h hc)

theorem fmul_nonneg {a b : Int} (ha : 0 ≤ a) (hb : 0 ≤ b) : 0 ≤ fmul a b := by
  unfold fmul
  exact roundDbl_nonneg one64 (Int.mul_nonneg ha hb)

theorem trunc_nonneg {a : Int} (h : 0 ≤ a) : 0 ≤ trunc a := by
  unfold trunc
  rw [Int.tdiv_eq_ediv h (Int.natCast_nonneg _)]
  exact Int.ediv_nonneg h (Int.natCast_nonneg _)

theorem trunc_le {a n : Int} (h0 : 0 ≤ a) (h : a ≤ ofInt n) : trunc a ≤ n := by
  unfold trunc
  rw [Int.tdiv_eq_ediv h0 (Int.natCast_nonneg _)]
  have hpos : (0 : Int) < one64 := by exact_mod_cast one64_pos
  have : a / (one64 : Int) ≤ ofInt n / (one64 : Int) := Int.ediv_le_ediv hpos h
  unfold ofInt at this
  rwa [Int.mul_ediv_cancel _ (ne_of_gt hpos)] at this

theorem trunc_ofInt (n : Int) : trunc (ofInt n) = n := by
  unfold trunc ofInt
  have hpos : (0 : Int) < one64 := by exact_mod_cast one64_pos
  exact Int.mul_tdiv_cancel _ (ne_of_gt hpos)

/-- A non-negative value whose integer part is at most 255 is stored into a channel without
wrap-around. -/
theorem toUchar_val_of_trunc {a : Int} (h0 : 0 ≤ a) (h : trunc a ≤ 255) :
    ((toUchar a).val : Int) = trunc a := by
  have h1 := trunc_nonneg h0
  unfold toUchar
  simp only
  omega

/-- A value in `[0, 255]` is stored into a channel without wrap-around. -/
theorem toUchar_val {a : Int} (h0 : 0 ≤ a) (h : a ≤ ofInt 255) :
    ((toUchar a).val : Int) = trunc a :=
  toUchar_val_of_trunc h0 (trunc_le h0 h)

/-! ## Error of one rounding -/

/-- Absolute error of one rounding: for a value below `2^(53+j)` units the result is within
half of `2^j` units of the exact quotient. -/
theorem roundNat_abs_error (p d j : Nat) (hd : 0 < d) (h : p < 2 ^ (53 + j) * d) :
    2 * (roundNat p d * d) ≤ 2 * p + d * 2 ^ j ∧ 2 * p ≤ 2 * (roundNat p d * d) + d * 2 ^ j := by
  have hk : excessBits (p / d) (p / d) ≤ j := by
    by_contra hlt
    have hlt : j < excessBits (p / d) (p / d) := Nat.lt_of_not_le hlt
    rcases excess_ge (p / d) with h0 | h0
    · omega
    · rw [Nat.le_div_iff_mul_le hd] at h0
      have h1 : 2 ^ (53 + j) ≤ 2 ^ (52 + excessBits (p / d) (p / d)) :=
        Nat.pow_le_pow_right (by norm_num) (by omega)
      have h2 : 2 ^ (53 + j) * d ≤ 2 ^ (52 + excessBits (p / d) (p / d)) * d :=
        Nat.mul_le_mul_right _ h1
      omega
  have hD : d * 2 ^ excessBits (p / d) (p / d) ≤ d * 2 ^ j :=
    Nat.mul_le_mul_left _ (Nat.pow_le_pow_right (by norm_num) hk)
  have he := roundHalfEven_error p (d * 2 ^ excessBits (p / d) (p / d)) (by positivity)
  have e : roundNat p d * d =
      roundHalfEven p (d * 2 ^ excessBits (p / d) (p / d)) *
        (d * 2 ^ excessBits (p / d) (p / d)) := by
    rw [roundNat_eq]; ring
  rw [e]
  omega


theorem lit_eq (n d : Nat) : lit n d = ((roundNat (n * one64) d : Nat) : Int) := by
  unfold lit
  rw [← roundDbl_natCast]
  congr 1

theorem fmul_natCast (a b : Nat) :
    fmul (a : Int) (ofInt (b : Int)) = ((roundNat (a * b) 1 : Nat) : Int) := by
  rw [fmul_ofInt_right, ← roundDbl_natCast]
  congr 1

theorem fadd_natCast (a b : Nat) :
    fadd (a : Int) (b : Int) = ((roundNat (a + b) 1 : Nat) : Int) := by
  unfold fadd
  rw [← roundDbl_natCast]
  congr 1

theorem trunc_natCast (a : Nat) : trunc (a : Int) = ((a / one64 : Nat) : Int) := by
  unfold trunc
  rw [Int.tdiv_eq_ediv (Int.natCast_nonneg _) (Int.natCast_nonneg _)]
  norm_cast


/-! ## blackWhite -/

theorem average_eq (p : Pixel) :
    fdiv (fadd (fadd (ofUchar p.b) (ofUchar p.g)) (ofUchar p.r)) (ofInt 3) =
      roundDbl (ofInt ((p.b.val : Int) + p.g.val + p.r.val)) 3 := by
  have hb := p.b.isLt
  have hg := p.g.isLt
  have hr := p.r.isLt
  unfold ofUchar
  rw [fadd_ofInt _ _ (by omega), fadd_ofInt _ _ (by omega)]
  have := fdiv_ofNat (ofInt ((p.b.val : Int) + p.g.val + p.r.val)) 3 (by norm_num)
  simpa using this

theorem average_gt_iff (T : Int) (s : Int) (hs0 : 0 ≤ s) (hs : s ≤ 765) :
    ofInt T < roundDbl (ofInt s) 3 ↔ 3 * T < s := by
  have hVpos : (0 : Int) < 2 ^ 1072 := by positivity
  have hU : (one64 : Int) = 4 * 2 ^ 1072 := by
    rw [one64_eq]; push_cast; ring
  constructor
  · intro h
    by_contra hn
    have hT0 : 0 ≤ T := by omega
    have h3 : s ≤ 3 * min T 255 := by
      rcases le_total T 255 with h255 | h255
      · rw [min_eq_left h255]; omega
      · rw [min_eq_right h255]; omega
    have hrep : Rep (ofInt (min T 255)).natAbs := ofInt_rep (by
      have : min T 255 ≤ 255 := min_le_right _ _
      have : 0 ≤ min T 255 := le_min hT0 (by norm_num)
      omega)
    have e := roundDbl_exact hrep 3 (by norm_num)
    have hle : ofInt s ≤ ofInt (min T 255) * ((3 : Nat) : Int) := by
      have := ofInt_le h3
      unfold ofInt at this ⊢
      push_cast
      linarith
    have h5 := roundDbl_mono 3 (by norm_num) hle
    rw [e] at h5
    have h6 : ofInt (min T 255) ≤ ofInt T := ofInt_le (min_le_left _ _)
    omega
  · intro h
    by_cases hT : T < 0
    · have h1 : ofInt T < ofInt 0 := ofInt_lt hT
      have h2 := roundDbl_nonneg 3 (ofInt_nonneg hs0)
      have h3 : ofInt 0 = 0 := by simp [ofInt]
      omega
    · have hT0 : 0 ≤ T := by omega
      have hrep : Rep ((4 * T + 1) * 2 ^ 1072 : Int).natAbs := by
        rw [Int.natAbs_mul, Int.natAbs_pow]
        exact (rep_of_lt (by omega)).mul_two_pow 1072
      have e := roundDbl_exact hrep 3 (by norm_num)
      have hle : (4 * T + 1) * 2 ^ 1072 * ((3 : Nat) : Int) ≤ ofInt s := by
        unfold ofInt
        rw [hU]
        push_cast
        nlinarith
      have h5 := roundDbl_mono 3 (by norm_num) hle
      rw [e] at h5
      have h6 : ofInt T < (4 * T + 1) * 2 ^ 1072 := by
        unfold ofInt
        rw [hU]
        nlinarith
      omega

theorem blackWhitePixel_spec (T : Int) (p : Pixel) :
    blackWhitePixel T p =
      if 3 * T < (p.b.val : Int) + p.g.val + p.r.val then white else black := by
  unfold blackWhitePixel
  rw [average_eq]
  have hb := p.b.isLt
  have hg := p.g.isLt
  have hr := p.r.isLt
  have := average_gt_iff T ((p.b.val : Int) + p.g.val + p.r.val) (by omega) (by omega)
  simp only [this]

/-- C1. `blackWhite`: every pixel inside the buffer becomes white exactly when the real
average `(B+G+R)/3` of the source pixel exceeds the threshold, i.e. when `B+G+R > 3*T`, and
black otherwise; so a pixel whose average equals the threshold is black. -/
theorem blackWhite_threshold (s : Globals) (r c : Nat)
    (hr : r < s.modified.rows) (hc : c < s.modified.cols) :
    ((blackWhite s).modified.px r c =
        if (s.bwThreshold : ℚ) <
            (((s.original.px r c).b.val : ℚ) + (s.original.px r c).g.val +
              (s.original.px r c).r.val) / 3
        then white else black) ∧
    ((blackWhite s).modified.px r c = white ↔
        3 * s.bwThreshold <
          ((s.original.px r c).b.val : Int) + (s.original.px r c).g.val +
            (s.original.px r c).r.val) ∧
    (((s.original.px r c).b.val : Int) + (s.original.px r c).g.val +
          (s.original.px r c).r.val = 3 * s.bwThreshold →
        (blackWhite s).modified.px r c = black) := by
  have hpx : (blackWhite s).modified.px r c =
      blackWhitePixel s.bwThreshold (s.original.px r c) := by
    unfold blackWhite
    simp only
    rw [forEachPixel_set_px, if_pos ⟨hr, hc⟩]
  rw [hpx, blackWhitePixel_spec]
  have hq : ((s.bwThreshold : ℚ) <
      (((s.original.px r c).b.val : ℚ) + (s.original.px r c).g.val +
        (s.original.px r c).r.val) / 3) ↔
      3 * s.bwThreshold < ((s.original.px r c).b.val : Int) + (s.original.px r c).g.val +
        (s.original.px r c).r.val := by
    rw [lt_div_iff₀ (by norm_num : (0 : ℚ) < 3)]
    constructor
    · intro h
      have h' : ((3 * s.bwThreshold : Int) : ℚ) <
          ((((s.original.px r c).b.val : Int) + (s.original.px r c).g.val +
            (s.original.px r c).r.val : Int) : ℚ) := by
        push_cast; linarith
      exact_mod_cast h'
    · intro h
      have h' : ((3 * s.bwThreshold : Int) : ℚ) <
          ((((s.original.px r c).b.val : Int) + (s.original.px r c).g.val +
            (s.original.px r c).r.val : Int) : ℚ) := by
        exact_mod_cast h
      push_cast at h'; linarith
  refine ⟨?_, ?_, ?_⟩
  · simp only [hq]
  · constructor
    · intro h
      by_contra hn
      rw [if_neg hn] at h
      exact absurd h (by decide)
    · intro h
      rw [if_pos h]
  · intro h
    rw [if_neg (by omega)]

theorem blackWhite_threshold_witness :
    1 < grayDemo.modified.rows ∧ 2 < grayDemo.modified.cols ∧
      (blackWhite grayDemo).modified.px 1 2 = black :=
  ⟨by decide, by decide,
    (blackWhite_threshold grayDemo 1 2 (by decide) (by decide)).2.2 (by decide)⟩

/-! ## grayscale -/

theorem grayValue_eq (p : Pixel) :
    grayValue p =
      ((roundNat
        (roundNat (roundNat (roundNat (299 * one64) 1000 * p.r.val) 1 +
            roundNat (roundNat (587 * one64) 1000 * p.g.val) 1) 1 +
          roundNat (roundNat (114 * one64) 1000 * p.b.val) 1) 1 : Nat) : Int) := by
  unfold grayValue ofUchar
  rw [lit_eq, lit_eq, lit_eq, fmul_natCast, fmul_natCast, fmul_natCast, fadd_natCast,
    fadd_natCast]

/-- The arithmetic behind `gray_bracket`: `rn` rounds with absolute error at most `128 V` below
`2^61 V`, the coefficients `c1`, `c2`, `c3` are within `V/2` of `0.299`, `0.587`, `0.114` times
`2^53 V`, and the channel values are at most 255. -/
theorem gray_bracket_core (V : Nat) (hV : 0 < V) (rn : Nat → Nat)
    (es : ∀ x, x < 2305843009213693952 * V → 2 * rn x ≤ 2 * x + 256 * V ∧ 2 * x ≤ 2 * rn x + 256 * V)
    (c1 c2 c3 : Nat)
    (c1a : 2 * (c1 * 1000) ≤ 2 * (299 * (9007199254740992 * V)) + 1000 * V)
    (c1b : 2 * (299 * (9007199254740992 * V)) ≤ 2 * (c1 * 1000) + 1000 * V)
    (c2a : 2 * (c2 * 1000) ≤ 2 * (587 * (9007199254740992 * V)) + 1000 * V)
    (c2b : 2 * (587 * (9007199254740992 * V)) ≤ 2 * (c2 * 1000) + 1000 * V)
    (c3a : 2 * (c3 * 1000) ≤ 2 * (114 * (9007199254740992 * V)) + 1000 * V)
    (c3b : 2 * (114 * (9007199254740992 * V)) ≤ 2 * (c3 * 1000) + 1000 * V)
    (R G B : Nat) (hR : R ≤ 255) (hG : G ≤ 255) (hB : B ≤ 255) :
    rn (rn (rn (c1 * R) + rn (c2 * G)) + rn (c3 * B)) / (9007199254740992 * V) ≤
      (299 * R + 587 * G + 114 * B) / 1000 ∧
    (299 * R + 587 * G + 114 * B) / 1000 ≤
      rn (rn (rn (c1 * R) + rn (c2 * G)) + rn (c3 * B)) / (9007199254740992 * V) + 1 ∧
    ((299 * R + 587 * G + 114 * B) % 1000 ≠ 0 →
      rn (rn (rn (c1 * R) + rn (c2 * G)) + rn (c3 * B)) / (9007199254740992 * V) =
        (299 * R + 587 * G + 114 * B) / 1000) := by
  have hUp : 0 < 9007199254740992 * V := by omega
  have hX1 := Nat.mul_le_mul_left c1 hR
  have hX2 := Nat.mul_le_mul_left c2 hG
  have hX3 := Nat.mul_le_mul_left c3 hB
  obtain ⟨q1a, q1b⟩ := es (c1 * R) (by omega)
  obtain ⟨q2a, q2b⟩ := es (c2 * G) (by omega)
  obtain ⟨q3a, q3b⟩ := es (c3 * B) (by omega)
  obtain ⟨s1a, s1b⟩ := es (rn (c1 * R) + rn (c2 * G)) (by omega)
  obtain ⟨s2a, s2b⟩ := es (rn (rn (c1 * R) + rn (c2 * G)) + rn (c3 * B)) (by omega)
  -- scale the coefficient estimates by the channel values
  have m1a := Nat.mul_le_mul_left R c1a
  have m1b := Nat.mul_le_mul_left R c1b
  have m2a := Nat.mul_le_mul_left G c2a
  have m2b := Nat.mul_le_mul_left G c2b
  have m3a := Nat.mul_le_mul_left B c3a
  have m3b := Nat.mul_le_mul_left B c3b
  have f1 : ∀ c v : Nat, v * (2 * (c * 1000)) = 2000 * (c * v) := fun c v => by ring
  have f2 : ∀ k v : Nat, v * (2 * (k * (9007199254740992 * V)) + 1000 * V) =
      18014398509481984 * (k * (v * V)) + 1000 * (v * V) := fun k v => by ring
  have f3 : ∀ k v : Nat, v * (2 * (k * (9007199254740992 * V))) =
      18014398509481984 * (k * (v * V)) := fun k v => by ring
  have f4 : ∀ c v : Nat, v * (2 * (c * 1000) + 1000 * V) = 2000 * (c * v) + 1000 * (v * V) :=
    fun c v => by ring
  rw [f1, f2] at m1a m2a m3a
  rw [f3, f4] at m1b m2b m3b
  have hRV : R * V ≤ 255 * V := Nat.mul_le_mul_right _ hR
  have hGV : G * V ≤ 255 * V := Nat.mul_le_mul_right _ hG
  have hBV : B * V ≤ 255 * V := Nat.mul_le_mul_right _ hB
  have hN := Nat.div_add_mod (299 * R + 587 * G + 114 * B) 1000
  have hrem := Nat.mod_lt (299 * R + 587 * G + 114 * B) (by norm_num : 0 < 1000)
  generalize (299 * R + 587 * G + 114 * B) / 1000 = n at hN ⊢
  generalize (299 * R + 587 * G + 114 * B) % 1000 = rem at hN hrem ⊢
  have hNV : 299 * (R * V) + 587 * (G * V) + 114 * (B * V) = 1000 * (n * V) + rem * V := by
    have : 299 * (R * V) + 587 * (G * V) + 114 * (B * V) = (299 * R + 587 * G + 114 * B) * V := by
      ring
    rw [this, ← hN]; ring
  have remV : rem * V ≤ 999 * V := Nat.mul_le_mul_right _ (by omega)
  have hremV : rem ≠ 0 → V ≤ rem * V := fun h => Nat.le_mul_of_pos_left _ (Nat.pos_of_ne_zero h)
  have b1 : (n + 1) * (9007199254740992 * V) =
      9007199254740992 * (n * V) + 9007199254740992 * V := by ring
  have b2 : n * (9007199254740992 * V) = 9007199254740992 * (n * V) := by ring
  clear hN es c1a c1b c2a c2b c3a c3b f1 f2 f3 f4 hX1 hX2 hX3
  generalize rn (rn (rn (c1 * R) + rn (c2 * G)) + rn (c3 * B)) = S2 at *
  generalize rn (rn (c1 * R) + rn (c2 * G)) = S1 at *
  generalize rn (c1 * R) = P1 at *
  generalize rn (c2 * G) = P2 at *
  generalize rn (c3 * B) = P3 at *
  generalize c1 * R = X1 at *
  generalize c2 * G = X2 at *
  generalize c3 * B = X3 at *
  generalize R * V = RV at *
  generalize G * V = GV at *
  generalize B * V = BV at *
  generalize n * V = nV at *
  generalize rem * V = remV' at *
  refine ⟨?_, ?_, ?_⟩
  · apply Nat.lt_succ_iff.1
    rw [Nat.div_lt_iff_lt_mul hUp, b1]
    linarith
  · rcases Nat.eq_zero_or_pos n with h0 | h0
    · rw [h0]; exact Nat.zero_le _
    · have h1 : n - 1 ≤ S2 / (9007199254740992 * V) := by
        rw [Nat.le_div_iff_mul_le hUp]
        have : (n - 1) * (9007199254740992 * V) + 9007199254740992 * V =
            9007199254740992 * nV := by
          rw [← b2, ← Nat.succ_mul]
          congr 1
          omega
        linarith
      exact Nat.le_succ_of_pred_le h1
  · intro hne
    have hrem1 := hremV hne
    apply le_antisymm
    · apply Nat.lt_succ_iff.1
      rw [Nat.div_lt_iff_lt_mul hUp, b1]
      linarith
    · rw [Nat.le_div_iff_mul_le hUp, b2]
      linarith

/-- The double value `.299*R + .587*G + .114*B` against the exact luminosity
`(299 R + 587 G + 114 B) / 1000`. -/
theorem gray_bracket (R G B : Nat) (hR : R ≤ 255) (hG : G ≤ 255) (hB : B ≤ 255) :
    roundNat
        (roundNat (roundNat (roundNat (299 * one64) 1000 * R) 1 +
            roundNat (roundNat (587 * one64) 1000 * G) 1) 1 +
          roundNat (roundNat (114 * one64) 1000 * B) 1) 1 / one64 ≤
      (299 * R + 587 * G + 114 * B) / 1000 ∧
    (299 * R + 587 * G + 114 * B) / 1000 ≤
      roundNat
        (roundNat (roundNat (roundNat (299 * one64) 1000 * R) 1 +
            roundNat (roundNat (587 * one64) 1000 * G) 1) 1 +
          roundNat (roundNat (114 * one64) 1000 * B) 1) 1 / one64 + 1 ∧
    ((299 * R + 587 * G + 114 * B) % 1000 ≠ 0 →
      roundNat
        (roundNat (roundNat (roundNat (299 * one64) 1000 * R) 1 +
            roundNat (roundNat (587 * one64) 1000 * G) 1) 1 +
          roundNat (roundNat (114 * one64) 1000 * B) 1) 1 / one64 =
        (299 * R + 587 * G + 114 * B) / 1000) := by
  have hU : one64 = 9007199254740992 * 2 ^ 1021 := by
    rw [one64_eq, show (1074 : Nat) = 53 + 1021 from rfl, pow_add,
      show (2 : Nat) ^ 53 = 9007199254740992 by norm_num]
  have hV : 0 < 2 ^ 1021 := by positivity
  have p1 : (2 : Nat) ^ (53 + 1021) = 9007199254740992 * 2 ^ 1021 := by
    rw [pow_add, show (2 : Nat) ^ 53 = 9007199254740992 by norm_num]
  have p2 : (2 : Nat) ^ (53 + 1029) = 2305843009213693952 * 2 ^ 1021 := by
    rw [show (53 : Nat) + 1029 = 61 + 1021 from rfl, pow_add,
      show (2 : Nat) ^ 61 = 2305843009213693952 by norm_num]
  have p3 : (2 : Nat) ^ 1029 = 256 * 2 ^ 1021 := by
    rw [show (1029 : Nat) = 8 + 1021 from rfl, pow_add, show (2 : Nat) ^ 8 = 256 by norm_num]
  have ec := fun k : Nat => roundNat_abs_error (k * one64) 1000 1021 (by norm_num)
  have es := fun x : Nat => roundNat_abs_error x 1 1029 (by norm_num)
  simp only [p1, hU] at ec
  simp only [p2, p3, Nat.mul_one, Nat.one_mul] at es
  rw [hU]
  generalize (2 : Nat) ^ 1021 = V at hV ec es ⊢
  exact gray_bracket_core V hV (fun x => roundNat x 1) es _ _ _
    (ec 299 (by omega)).1 (ec 299 (by omega)).2
    (ec 587 (by omega)).1 (ec 587 (by omega)).2
    (ec 114 (by omega)).1 (ec 114 (by omega)).2 R G B hR hG hB

theorem grayscalePixel_spec (p : Pixel) :
    ((toUchar (grayValue p)).val : Int) = trunc (grayValue p) ∧
    (toUchar (grayValue p)).val ≤ (299 * p.r.val + 587 * p.g.val + 114 * p.b.val) / 1000 ∧
    (299 * p.r.val + 587 * p.g.val + 114 * p.b.val) / 1000 ≤ (toUchar (grayValue p)).val + 1 ∧
    ((299 * p.r.val + 587 * p.g.val + 114 * p.b.val) % 1000 ≠ 0 →
      (toUchar (grayValue p)).val = (299 * p.r.val + 587 * p.g.val + 114 * p.b.val) / 1000) := by
  have hr := p.r.isLt
  have hg := p.g.isLt
  have hb := p.b.isLt
  obtain ⟨h1, h2, h3⟩ := gray_bracket p.r.val p.g.val p.b.val (by omega) (by omega) (by omega)
  have hv : ((toUchar (grayValue p)).val : Int) = trunc (grayValue p) := by
    apply toUchar_val_of_trunc
    · rw [grayValue_eq]; exact Int.natCast_nonneg _
    · rw [grayValue_eq, trunc_natCast]
      have : (299 * p.r.val + 587 * p.g.val + 114 * p.b.val) / 1000 ≤ 255 := by omega
      exact_mod_cast le_trans h1 this
  have hn : ((toUchar (grayValue p)).val : Int) =
      ((roundNat
        (roundNat (roundNat (roundNat (299 * one64) 1000 * p.r.val) 1 +
            roundNat (roundNat (587 * one64) 1000 * p.g.val) 1) 1 +
          roundNat (roundNat (114 * one64) 1000 * p.b.val) 1) 1 / one64 : Nat) : Int) := by
    rw [hv, grayValue_eq, trunc_natCast]
  have hn' := Int.ofNat_inj.1 hn
  refine ⟨hv, ?_, ?_, ?_⟩
  · rw [hn']; exact h1
  · rw [hn']; exact h2
  · rw [hn']; exact h3

/-- C2 (as amended). `grayscale`: the three output channels of every pixel inside the buffer are
equal to one value, the luminosity `.299*R + .587*G + .114*B` evaluated in double precision and
truncated toward zero (not rounded to the nearest integer).  That value is
`⌊(299R + 587G + 114B)/1000⌋` when `299R + 587G + 114B` is not a multiple of 1000, and that
floor or one less when it is; in particular it lies in `[0,255]`. -/
theorem grayscale_truncates (s : Globals) (r c : Nat)
    (hr : r < s.original.rows) (hc : c < s.original.cols) :
    ((grayscale s).modified.px r c).g = ((grayscale s).modified.px r c).b ∧
    ((grayscale s).modified.px r c).r = ((grayscale s).modified.px r c).b ∧
    ((((grayscale s).modified.px r c).b.val : Int) = trunc (grayValue (s.original.px r c))) ∧
    ((grayscale s).modified.px r c).b.val ≤
      (299 * (s.original.px r c).r.val + 587 * (s.original.px r c).g.val +
        114 * (s.original.px r c).b.val) / 1000 ∧
    (299 * (s.original.px r c).r.val + 587 * (s.original.px r c).g.val +
        114 * (s.original.px r c).b.val) / 1000 ≤ ((grayscale s).modified.px r c).b.val + 1 ∧
    ((299 * (s.original.px r c).r.val + 587 * (s.original.px r c).g.val +
        114 * (s.original.px r c).b.val) % 1000 ≠ 0 →
      ((grayscale s).modified.px r c).b.val =
        (299 * (s.original.px r c).r.val + 587 * (s.original.px r c).g.val +
          114 * (s.original.px r c).b.val) / 1000) := by
  have hpx : (grayscale s).modified.px r c = grayscalePixel (s.original.px r c) := by
    unfold grayscale
    simp only
    rw [forEachPixel_set_px, if_pos ⟨hr, hc⟩]
  rw [hpx]
  exact ⟨rfl, rfl, grayscalePixel_spec (s.original.px r c)⟩

theorem grayscale_truncates_witness :
    1 < grayDemo.original.rows ∧ 2 < grayDemo.original.cols ∧
      ((grayscale grayDemo).modified.px 1 2).b.val ≤
        (299 * (grayDemo.original.px 1 2).r.val + 587 * (grayDemo.original.px 1 2).g.val +
          114 * (grayDemo.original.px 1 2).b.val) / 1000 :=
  ⟨by decide, by decide, (grayscale_truncates grayDemo 1 2 (by decide) (by decide)).2.2.2.1⟩

/-- C2 (counterexample to the claim as stated). For the source pixel `(B,G,R) = (0,0,2)` the
luminosity is `0.598`, whose nearest integer is `1`, but `grayscale` stores `0` in all three
channels; for `(B,G,R) = (24,72,0)` the luminosity is exactly `45` and `grayscale` stores
`44`. -/
theorem grayscale_not_rounded :
    round ((0.299 * 2 + 0.587 * 0 + 0.114 * 0 : ℚ)) = 1 ∧
      grayscalePixel ⟨0, 0, 2⟩ = ⟨0, 0, 0⟩ ∧
    round ((0.299 * 0 + 0.587 * 72 + 0.114 * 24 : ℚ)) = 45 ∧
      grayscalePixel ⟨24, 72, 0⟩ = ⟨44, 44, 44⟩ := by
  refine ⟨?_, by decide, ?_, by decide⟩
  · rw [round_eq, Int.floor_eq_iff]
    norm_num
  · rw [round_eq, Int.floor_eq_iff]
    norm_num

/-! ## purify -/

/-- C4 (the code at the failing input). With blue and green tied for the maximum and red
smaller, `(B,G,R) = (5,5,1)`, `purify` forces the red channel, the smallest component. -/
theorem purify_tie_forces_red : purifyPixel ⟨5, 5, 1⟩ = ⟨0, 0, 255⟩ := by decide

theorem purifyPixel_one_hot (p : Pixel) :
    purifyPixel p = ⟨255, 0, 0⟩ ∨ purifyPixel p = ⟨0, 255, 0⟩ ∨ purifyPixel p = ⟨0, 0, 255⟩ := by
  unfold purifyPixel
  split_ifs
  · exact Or.inl rfl
  · exact Or.inr (Or.inl rfl)
  · exact Or.inr (Or.inr rfl)

/-- C5. `purify`: every output pixel inside the buffer has exactly one channel equal to 255
and the other two equal to 0: it is `(255,0,0)`, `(0,255,0)` or `(0,0,255)` in B,G,R order. -/
theorem purify_one_hot (s : Globals) (r c : Nat)
    (hr : r < s.original.rows) (hc : c < s.original.cols) :
    (purify s).modified.px r c = ⟨255, 0, 0⟩ ∨ (purify s).modified.px r c = ⟨0, 255, 0⟩ ∨
      (purify s).modified.px r c = ⟨0, 0, 255⟩ := by
  have hpx : (purify s).modified.px r c = purifyPixel (s.original.px r c) := by
    unfold purify
    simp only
    rw [forEachPixel_set_px, if_pos ⟨hr, hc⟩]
  rw [hpx]
  exact purifyPixel_one_hot _

theorem purify_one_hot_witness :
    1 < grayDemo.original.rows ∧ 2 < grayDemo.original.cols ∧
      ((purify grayDemo).modified.px 1 2 = ⟨255, 0, 0⟩ ∨
        (purify grayDemo).modified.px 1 2 = ⟨0, 255, 0⟩ ∨
        (purify grayDemo).modified.px 1 2 = ⟨0, 0, 255⟩) :=
  ⟨by decide, by decide, purify_one_hot grayDemo 1 2 (by decide) (by decide)⟩

/-! ## darken -/

theorem darkenChannel_spec (k : Int) (hk0 : 0 ≤ k) (hk1 : k ≤ one64) (v : Fin 256) :
    ((darkenChannel k v).val : Int) = trunc (fmul (ofUchar v) k) ∧
      (darkenChannel k v).val ≤ v.val := by
  have hv := v.isLt
  have h0 : 0 ≤ fmul (ofUchar v) k := fmul_nonneg (ofUchar_nonneg v) hk0
  have h1 : fmul (ofUchar v) k ≤ ofInt v.val := by
    have hm : fmul (ofUchar v) k ≤ fmul (ofUchar v) (ofInt 1) :=
      fmul_mono_right (ofUchar_nonneg v) (by unfold ofInt; omega)
    rw [fmul_ofInt_right, mul_one] at hm
    unfold ofUchar at hm ⊢
    rwa [roundDbl_ofInt (by omega)] at hm
  have h2 : fmul (ofUchar v) k ≤ ofInt 255 := le_trans h1 (ofInt_le (by omega))
  have e := toUchar_val h0 h2
  have h3 := trunc_le h0 h1
  unfold darkenChannel
  refine ⟨e, ?_⟩
  omega

/-! ## rgbPercentages -/

theorem percent_product_eq (v p : Nat) :
    fmul (ofInt v) (fdiv (ofInt p) (ofInt 100)) =
      ((roundNat (v * roundNat (p * one64) 100) 1 : Nat) : Int) := by
  have h100 : fdiv (ofInt p) (ofInt 100) = roundDbl (ofInt p) 100 := by
    have := fdiv_ofNat (ofInt p) 100 (by norm_num)
    simpa using this
  rw [h100, fmul_ofInt_left]
  have e1 : ofInt (p : Int) = ((p * one64 : Nat) : Int) := by unfold ofInt; push_cast; ring
  rw [e1, roundDbl_natCast, ← roundDbl_natCast]
  congr 1

/-- The double product `v * (p / 100.0)` against the exact quotient `v*p/100`. -/
theorem percent_bracket (v p : Nat) (hv : v ≤ 255) (hp : p ≤ 150) :
    roundNat (v * roundNat (p * one64) 100) 1 / one64 ≤ v * p / 100 ∧
    v * p / 100 ≤ roundNat (v * roundNat (p * one64) 100) 1 / one64 + 1 ∧
    (v * p % 100 ≠ 0 → roundNat (v * roundNat (p * one64) 100) 1 / one64 = v * p / 100) := by
  have hUpos := one64_pos
  have hU : one64 = 2 ^ 52 * 2 ^ 1022 := by rw [one64_eq, ← pow_add]
  have hW : 0 < 2 ^ 1022 := by positivity
  have p1 : (2 : Nat) ^ (53 + 1022) = 2 ^ 53 * 2 ^ 1022 := pow_add _ _ _
  have p2 : (2 : Nat) ^ (53 + 1030) = 2 ^ 61 * 2 ^ 1022 := by
    rw [← pow_add]
  have p3 : (2 : Nat) ^ 1030 = 2 ^ 8 * 2 ^ 1022 := by
    rw [← pow_add]
  have e1 := roundNat_abs_error (p * one64) 100 1022 (by norm_num)
  have e2 := fun x => roundNat_abs_error (v * x) 1 1030 (by norm_num)
  rw [p1] at e1
  simp only [p2, p3] at e2
  rw [hU] at e1 hUpos ⊢
  generalize (2 : Nat) ^ 1022 = W at *
  norm_num at e1 e2 hUpos ⊢
  have pW : p * W ≤ 150 * W := Nat.mul_le_mul_right _ hp
  have hUp : 0 < 4503599627370496 * W := by omega
  have e1' := e1 (by nlinarith)
  generalize roundNat (p * (4503599627370496 * W)) 100 = x at e1' ⊢
  have hx : x * 100 ≤ 2 * (4503599627370496 * W) * 100 := by nlinarith
  have hvx : v * x ≤ 255 * (2 * (4503599627370496 * W)) :=
    Nat.mul_le_mul hv (by omega)
  have e2' := e2 x (by nlinarith)
  generalize roundNat (v * x) 1 = y at e2' ⊢
  have vW : v * W ≤ 255 * W := Nat.mul_le_mul_right _ hv
  have m1 := Nat.mul_le_mul_left v e1'.1
  have m2 := Nat.mul_le_mul_left v e1'.2
  have hN := Nat.div_add_mod (v * p) 100
  have hrem := Nat.mod_lt (v * p) (by norm_num : 0 < 100)
  generalize v * p / 100 = n at hN ⊢
  generalize v * p % 100 = rem at hN hrem ⊢
  have remW : rem * W ≤ 99 * W := Nat.mul_le_mul_right _ (by omega)
  have a1 : v * (2 * (x * 100)) = 200 * (v * x) := by ring
  have a2 : v * (2 * (p * (4503599627370496 * W)) + 100 * W) =
      900719925474099200 * (n * W) + 9007199254740992 * (rem * W) + 100 * (v * W) := by
    have : v * (2 * (p * (4503599627370496 * W)) + 100 * W) =
        9007199254740992 * ((v * p) * W) + 100 * (v * W) := by ring
    rw [this, ← hN]; ring
  have a3 : v * (2 * (p * (4503599627370496 * W))) =
      900719925474099200 * (n * W) + 9007199254740992 * (rem * W) := by
    have : v * (2 * (p * (4503599627370496 * W))) = 9007199254740992 * ((v * p) * W) := by ring
    rw [this, ← hN]; ring
  have a4 : v * (2 * (x * 100) + 100 * W) = 200 * (v * x) + 100 * (v * W) := by ring
  rw [a1, a2] at m1
  rw [a3, a4] at m2
  have b1 : (n + 1) * (4503599627370496 * W) = 4503599627370496 * (n * W) + 4503599627370496 * W := by
    ring
  have b2 : n * (4503599627370496 * W) = 4503599627370496 * (n * W) := by ring
  obtain ⟨e2a, e2b⟩ := e2'
  have hremW : rem ≠ 0 → W ≤ rem * W := fun h => Nat.le_mul_of_pos_left _ (Nat.pos_of_ne_zero h)
  generalize v * x = A at *
  generalize n * W = B at *
  generalize rem * W = C at *
  generalize v * W = D at *
  refine ⟨?_, ?_, ?_⟩
  · apply Nat.lt_succ_iff.1
    rw [Nat.div_lt_iff_lt_mul hUp, b1]
    omega
  · rcases Nat.eq_zero_or_pos n with h0 | h0
    · rw [h0]; exact Nat.zero_le _
    · have : n ≤ y / (4503599627370496 * W) + 1 := by
        have h1 : n - 1 ≤ y / (4503599627370496 * W) := by
          rw [Nat.le_div_iff_mul_le hUp]
          have : (n - 1) * (4503599627370496 * W) + 4503599627370496 * W = 4503599627370496 * B := by
            rw [← b2, ← Nat.succ_mul]
            congr 1
            omega
          omega
        exact Nat.le_succ_of_pred_le h1
      exact this
  · intro hne
    have hrem1 : W ≤ C := hremW hne
    apply le_antisymm
    · apply Nat.lt_succ_iff.1
      rw [Nat.div_lt_iff_lt_mul hUp, b1]
      omega
    · rw [Nat.le_div_iff_mul_le hUp, b2]
      omega

theorem percentChannel_spec (p : Nat) (hp : p ≤ 150) (v : Fin 256)
    (h : v.val * p / 100 ≤ 255) :
    ((percentChannel (ofInt p) v).val : Int) =
        trunc (fmul (ofUchar v) (fdiv (ofInt p) (ofInt 100))) ∧
    (percentChannel (ofInt p) v).val ≤ v.val * p / 100 ∧
    v.val * p / 100 ≤ (percentChannel (ofInt p) v).val + 1 ∧
    (v.val * p % 100 ≠ 0 → (percentChannel (ofInt p) v).val = v.val * p / 100) := by
  have hv := v.isLt
  obtain ⟨h1, h2, h3⟩ := percent_bracket v.val p (by omega) hp
  have e : fmul (ofUchar v) (fdiv (ofInt p) (ofInt 100)) =
      ((roundNat (v.val * roundNat (p * one64) 100) 1 : Nat) : Int) := percent_product_eq v.val p
  have hval : ((percentChannel (ofInt p) v).val : Int) =
      trunc (fmul (ofUchar v) (fdiv (ofInt p) (ofInt 100))) := by
    unfold percentChannel
    apply toUchar_val_of_trunc
    · rw [e]; exact Int.natCast_nonneg _
    · rw [e, trunc_natCast]
      exact_mod_cast le_trans h1 h
  have hn : ((percentChannel (ofInt p) v).val : Int) =
      ((roundNat (v.val * roundNat (p * one64) 100) 1 / one64 : Nat) : Int) := by
    rw [hval, e, trunc_natCast]
  have hn' := Int.ofNat_inj.1 hn
  refine ⟨hval, ?_, ?_, ?_⟩
  · rw [hn']; exact h1
  · rw [hn']; exact h2
  · rw [hn']; exact h3

/-- C3 (counterexample to the claim as stated). A channel of 255 at 150 percent gives the
product `382.5`; nothing clamps it, and the channel receives the low eight bits of 382, which
is 126, not 255.  Also below the overflow the claimed value can be missed: a channel of 100 at
29 percent gives 28, because the double `29/100.0` lies just below `0.29`. -/
theorem percent_not_clamped :
    percentChannel (ofInt 150) 255 = 126 ∧ min 255 (255 * 150 / 100) = 255 ∧
      percentChannel (ofInt 29) 100 = 28 ∧ min 255 (100 * 29 / 100) = 29 := by decide

/-- C3 (as amended). `rgbPercentages` with integer percentages in `[0,150]` (blue uses
`blueMult`, green `greenMult`, red `redMult`): for every pixel inside the buffer and each
channel with source value `v` and percentage `p` such that `⌊v*p/100⌋ ≤ 255`, the output channel
is the double product `v * (p / 100.0)` truncated toward zero; it equals `⌊v*p/100⌋` when `v*p`
is not a multiple of 100, and that floor or one less when it is. -/
theorem rgbPercentages_truncates (s : Globals) (pb pg pr : Nat) (r c : Nat)
    (hb : s.blueMult = ofInt pb) (hg : s.greenMult = ofInt pg) (hr : s.redMult = ofInt pr)
    (hpb : pb ≤ 150) (hpg : pg ≤ 150) (hpr : pr ≤ 150)
    (hrow : r < s.original.rows) (hcol : c < s.original.cols) :
    ((s.original.px r c).b.val * pb / 100 ≤ 255 →
      ((((rgbPercentages s).modified.px r c).b.val : Int) =
          trunc (fmul (ofUchar (s.original.px r c).b) (fdiv s.blueMult (ofInt 100))) ∧
        ((rgbPercentages s).modified.px r c).b.val ≤ (s.original.px r c).b.val * pb / 100 ∧
        (s.original.px r c).b.val * pb / 100 ≤ ((rgbPercentages s).modified.px r c).b.val + 1 ∧
        ((s.original.px r c).b.val * pb % 100 ≠ 0 →
          ((rgbPercentages s).modified.px r c).b.val = (s.original.px r c).b.val * pb / 100))) ∧
    ((s.original.px r c).g.val * pg / 100 ≤ 255 →
      ((((rgbPercentages s).modified.px r c).g.val : Int) =
          trunc (fmul (ofUchar (s.original.px r c).g) (fdiv s.greenMult (ofInt 100))) ∧
        ((rgbPercentages s).modified.px r c).g.val ≤ (s.original.px r c).g.val * pg / 100 ∧
        (s.original.px r c).g.val * pg / 100 ≤ ((rgbPercentages s).modified.px r c).g.val + 1 ∧
        ((s.original.px r c).g.val * pg % 100 ≠ 0 →
          ((rgbPercentages s).modified.px r c).g.val = (s.original.px r c).g.val * pg / 100))) ∧
    ((s.original.px r c).r.val * pr / 100 ≤ 255 →
      ((((rgbPercentages s).modified.px r c).r.val : Int) =
          trunc (fmul (ofUchar (s.original.px r c).r) (fdiv s.redMult (ofInt 100))) ∧
        ((rgbPercentages s).modified.px r c).r.val ≤ (s.original.px r c).r.val * pr / 100 ∧
        (s.original.px r c).r.val * pr / 100 ≤ ((rgbPercentages s).modified.px r c).r.val + 1 ∧
        ((s.original.px r c).r.val * pr % 100 ≠ 0 →
          ((rgbPercentages s).modified.px r c).r.val = (s.original.px r c).r.val * pr / 100))) := by
  have hpx : (rgbPercentages s).modified.px r c =
      rgbPercentagesPixel s.blueMult s.greenMult s.redMult (s.original.px r c) := by
    unfold rgbPercentages
    simp only
    rw [forEachPixel_set_px, if_pos ⟨hrow, hcol⟩]
  rw [hpx, hb, hg, hr]
  unfold rgbPercentagesPixel
  exact ⟨percentChannel_spec pb hpb _, percentChannel_spec pg hpg _,
    percentChannel_spec pr hpr _⟩

theorem rgbPercentages_truncates_witness :
    grayDemo.greenMult = ofInt 33 ∧ 33 ≤ 150 ∧ 1 < grayDemo.original.rows ∧
      2 < grayDemo.original.cols ∧
      ((rgbPercentages grayDemo).modified.px 1 2).g.val =
        (grayDemo.original.px 1 2).g.val * 33 / 100 :=
  ⟨rfl, by decide, by decide, by decide,
    ((rgbPercentages_truncates grayDemo 100 33 150 1 2 rfl rfl rfl (by decide) (by decide)
      (by decide) (by decide) (by decide)).2.1 (by decide)).2.2.2 (by decide)⟩

/-! ## Exact cancellation in the Sobel sums -/

theorem roundNat_of_excess {n k : Nat} (h1 : 2 ^ (52 + k) ≤ n) (h2 : n < 2 ^ (53 + k)) :
    roundNat n 1 = roundHalfEven n (2 ^ k) * 2 ^ k := by
  rw [roundNat_eq, Nat.div_one, excess_unique h1 h2, Nat.one_mul]

theorem roundNat_small {n : Nat} (h : n < 2 ^ 53) : roundNat n 1 = n := by
  have := roundNat_exact (rep_of_lt h) 1 (by norm_num)
  simpa using this

/-- Rounding commutes with scaling by a power of two above the subnormal range. -/
theorem roundNat_scale_pow (X j : Nat) (h : 2 ^ 52 ≤ X ∨ j = 0) :
    roundNat (X * 2 ^ j) 1 = roundNat X 1 * 2 ^ j := by
  rcases h with h | h
  · have a := excess_lt X
    have b : 2 ^ (52 + excessBits X X) ≤ X := by
      rcases excess_ge X with b | b
      · rw [b]; exact h
      · exact b
    have h1 : 2 ^ (52 + (excessBits X X + j)) ≤ X * 2 ^ j := by
      rw [← Nat.add_assoc, pow_add]
      exact Nat.mul_le_mul_right _ b
    have h2 : X * 2 ^ j < 2 ^ (53 + (excessBits X X + j)) := by
      rw [← Nat.add_assoc, pow_add (2 : Nat) (53 + excessBits X X) j]
      exact Nat.mul_lt_mul_of_pos_right a (by positivity)
    rw [roundNat_of_excess h1 h2, roundNat_of_excess b a, pow_add,
      roundHalfEven_scale _ _ _ (by positivity)]
    ring
  · subst h; simp

theorem Rep.normal {n : Nat} (h : Rep n) :
    ∃ M j : Nat, n = M * 2 ^ j ∧ M < 2 ^ 53 ∧ (2 ^ 52 ≤ M ∨ j = 0) := by
  obtain ⟨t, ht⟩ := h.excess_dvd
  have e : n = t * 2 ^ excessBits n n := ht.trans (Nat.mul_comm _ _)
  refine ⟨t, excessBits n n, e, ?_, ?_⟩
  · have a := excess_lt n
    rw [pow_add] at a
    by_contra hge
    have hge : 2 ^ 53 ≤ t := Nat.le_of_not_lt hge
    have : 2 ^ 53 * 2 ^ excessBits n n ≤ t * 2 ^ excessBits n n := Nat.mul_le_mul_right _ hge
    omega
  · rcases excess_ge n with b | b
    · exact Or.inr b
    · left
      rw [pow_add] at b
      by_contra hlt
      have hlt : t < 2 ^ 52 := Nat.lt_of_not_le hlt
      have : t * 2 ^ excessBits n n < 2 ^ 52 * 2 ^ excessBits n n :=
        Nat.mul_lt_mul_of_pos_right hlt (by positivity)
      omega

theorem roundHalfEven_two (n : Nat) :
    roundHalfEven n 2 * 2 = if n % 2 = 0 then n else if n % 4 = 1 then n - 1 else n + 1 := by
  unfold roundHalfEven
  split_ifs <;> omega

theorem roundHalfEven_four (n : Nat) :
    roundHalfEven n 4 * 4 =
      if n % 4 = 0 then n else if n % 4 = 1 then n - 1 else if n % 4 = 3 then n + 1
      else if n % 8 = 2 then n - 2 else n + 2 := by
  unfold roundHalfEven
  split_ifs <;> omega

theorem roundNat_lt55 {n : Nat} (h : n < 2 ^ 55) :
    roundNat n 1 =
      if n < 2 ^ 53 then n
      else if n < 2 ^ 54 then
        (if n % 2 = 0 then n else if n % 4 = 1 then n - 1 else n + 1)
      else
        (if n % 4 = 0 then n else if n % 4 = 1 then n - 1 else if n % 4 = 3 then n + 1
          else if n % 8 = 2 then n - 2 else n + 2) := by
  by_cases h1 : n < 2 ^ 53
  · rw [if_pos h1, roundNat_small h1]
  · rw [if_neg h1]
    by_cases h2 : n < 2 ^ 54
    · rw [if_pos h2, ← roundHalfEven_two]
      exact roundNat_of_excess (k := 1) (by omega) (by omega)
    · rw [if_neg h2, ← roundHalfEven_four]
      exact roundNat_of_excess (k := 2) (by omega) (by omega)

/-- The result of rounding a number below `2^55`, as a formula. -/
theorem roundNat_lt55_iff {n m : Nat} (h : n < 2 ^ 55) :
    roundNat n 1 = m ↔
      (n < 2 ^ 53 ∧ m = n) ∨
      (2 ^ 53 ≤ n ∧ n < 2 ^ 54 ∧ (m = n ∧ n % 2 = 0 ∨ m + 1 = n ∧ m % 4 = 0 ∨
        m = n + 1 ∧ m % 4 = 0)) ∨
      (2 ^ 54 ≤ n ∧ m % 4 = 0 ∧ (m ≤ n + 1 ∧ n ≤ m + 1 ∨ m + 2 = n ∧ m % 8 = 0 ∨
        m = n + 2 ∧ m % 8 = 0)) := by
  rw [roundNat_lt55 h]
  split_ifs <;> omega

/-- For a 53-bit significand `M`, the two roundings in `(M + 2M) + M` give exactly `4M`. -/
theorem triple_then_add_significand {M : Nat} (h : M < 2 ^ 53) :
    roundNat (roundNat (3 * M) 1 + M) 1 = 4 * M := by
  have h3 : 3 * M < 2 ^ 55 := by omega
  have e3 := (roundNat_lt55_iff (m := roundNat (3 * M) 1) h3).1 rfl
  have h4 : roundNat (3 * M) 1 + M < 2 ^ 55 := by omega
  rw [roundNat_lt55_iff h4]
  omega

theorem triple_then_add {A : Nat} (h : Rep A) : roundNat (roundNat (3 * A) 1 + A) 1 = 4 * A := by
  obtain ⟨M, j, rfl, hM, hn⟩ := h.normal
  have e1 : 3 * (M * 2 ^ j) = 3 * M * 2 ^ j := by ring
  have c1 : 2 ^ 52 ≤ 3 * M ∨ j = 0 := by
    rcases hn with hn | hn
    · left; omega
    · exact Or.inr hn
  rw [e1, roundNat_scale_pow _ _ c1]
  have e2 : roundNat (3 * M) 1 * 2 ^ j + M * 2 ^ j = (roundNat (3 * M) 1 + M) * 2 ^ j := by ring
  have c2 : 2 ^ 52 ≤ roundNat (3 * M) 1 + M ∨ j = 0 := by
    rcases hn with hn | hn
    · left; omega
    · exact Or.inr hn
  rw [e2, roundNat_scale_pow _ _ c2, triple_then_add_significand hM]
  ring

theorem roundDbl_one_exact {x : Int} (h : Rep x.natAbs) : roundDbl x 1 = x := by
  have := roundDbl_exact h 1 (by norm_num)
  simpa using this

theorem roundDbl_zero (d : Nat) (hd : 0 < d) : roundDbl 0 d = 0 := by
  have := roundDbl_natCast 0 d
  rw [roundNat_zero d hd] at this
  simpa using this

theorem fmul_ofInt_exact (a n : Int) (h : Rep (a * n).natAbs) : fmul a (ofInt n) = a * n := by
  rw [fmul_ofInt_right, roundDbl_one_exact h]

/-- The vertical kernel applied to six equal luminosities is exactly zero in double
arithmetic: `((((a + a*2) + a) + a*-2) + a*-1) + a*-1 = 0`. -/
theorem sobel_vert_cancel {a : Int} (h0 : 0 ≤ a) (h : IsDouble a) :
    fadd (fadd (fadd (fadd (fadd a (fmul a (ofInt 2))) a) (fmul a (ofInt (-2))))
      (fmul a (ofInt (-1)))) (fmul a (ofInt (-1))) = 0 := by
  obtain ⟨A, rfl⟩ := Int.eq_ofNat_of_zero_le h0
  have hA : Rep A := by simpa using (isDouble_iff_rep _).1 h
  have r2 : Rep (A * 2 ^ 1) := hA.mul_two_pow 1
  have m2 : fmul (A : Int) (ofInt 2) = (A : Int) * 2 :=
    fmul_ofInt_exact _ _ (by rw [Int.natAbs_mul]; simpa using r2)
  have mn2 : fmul (A : Int) (ofInt (-2)) = (A : Int) * (-2) :=
    fmul_ofInt_exact _ _ (by rw [Int.natAbs_mul]; simpa using r2)
  have mn1 : fmul (A : Int) (ofInt (-1)) = (A : Int) * (-1) :=
    fmul_ofInt_exact _ _ (by rw [Int.natAbs_mul]; simpa using hA)
  rw [m2, mn2, mn1]
  have s1 : fadd (A : Int) ((A : Int) * 2) = ((roundNat (3 * A) 1 : Nat) : Int) := by
    unfold fadd
    rw [← roundDbl_natCast]
    congr 1
    push_cast; ring
  have s2 : fadd ((roundNat (3 * A) 1 : Nat) : Int) (A : Int) = ((4 * A : Nat) : Int) := by
    unfold fadd
    rw [← triple_then_add hA, ← roundDbl_natCast]
    congr 1
  have s3 : fadd ((4 * A : Nat) : Int) ((A : Int) * (-2)) = (A : Int) * 2 := by
    unfold fadd
    have e : ((4 * A : Nat) : Int) + (A : Int) * (-2) = (A : Int) * 2 := by push_cast; ring
    rw [e]
    exact roundDbl_one_exact (by rw [Int.natAbs_mul]; simpa using r2)
  have s4 : fadd ((A : Int) * 2) ((A : Int) * (-1)) = (A : Int) := by
    unfold fadd
    have e : (A : Int) * 2 + (A : Int) * (-1) = (A : Int) := by ring
    rw [e]
    exact roundDbl_one_exact (by simpa using hA)
  have s5 : fadd (A : Int) ((A : Int) * (-1)) = 0 := by
    unfold fadd
    have e : (A : Int) + (A : Int) * (-1) = 0 := by ring
    rw [e]
    exact roundDbl_zero 1 (by norm_num)
  rw [s1, s2, s3, s4, s5]

/-- The horizontal kernel applied to six equal luminosities is exactly zero in double
arithmetic: `((((a*-1 + a*-2) + a*-1) + a*2) + a) + a = 0`. -/
theorem sobel_horz_cancel {a : Int} (h0 : 0 ≤ a) (h : IsDouble a) :
    fadd (fadd (fadd (fadd (fadd (fmul a (ofInt (-1))) (fmul a (ofInt (-2))))
      (fmul a (ofInt (-1)))) (fmul a (ofInt 2))) a) a = 0 := by
  obtain ⟨A, rfl⟩ := Int.eq_ofNat_of_zero_le h0
  have hA : Rep A := by simpa using (isDouble_iff_rep _).1 h
  have r2 : Rep (A * 2 ^ 1) := hA.mul_two_pow 1
  have m2 : fmul (A : Int) (ofInt 2) = (A : Int) * 2 :=
    fmul_ofInt_exact _ _ (by rw [Int.natAbs_mul]; simpa using r2)
  have mn2 : fmul (A : Int) (ofInt (-2)) = (A : Int) * (-2) :=
    fmul_ofInt_exact _ _ (by rw [Int.natAbs_mul]; simpa using r2)
  have mn1 : fmul (A : Int) (ofInt (-1)) = (A : Int) * (-1) :=
    fmul_ofInt_exact _ _ (by rw [Int.natAbs_mul]; simpa using hA)
  rw [m2, mn2, mn1]
  have s1 : fadd ((A : Int) * (-1)) ((A : Int) * (-2)) = -((roundNat (3 * A) 1 : Nat) : Int) := by
    unfold fadd
    rw [← roundDbl_neg_natCast _ _ (by norm_num)]
    congr 1
    push_cast; ring
  have s2 : fadd (-((roundNat (3 * A) 1 : Nat) : Int)) ((A : Int) * (-1)) =
      -((4 * A : Nat) : Int) := by
    unfold fadd
    have e : -((roundNat (3 * A) 1 : Nat) : Int) + (A : Int) * (-1) =
        -((roundNat (3 * A) 1 + A : Nat) : Int) := by push_cast; ring
    rw [e, roundDbl_neg_natCast _ _ (by norm_num), triple_then_add hA]
  have s3 : fadd (-((4 * A : Nat) : Int)) ((A : Int) * 2) = (A : Int) * (-2) := by
    unfold fadd
    have e : -((4 * A : Nat) : Int) + (A : Int) * 2 = (A : Int) * (-2) := by push_cast; ring
    rw [e]
    exact roundDbl_one_exact (by rw [Int.natAbs_mul]; simpa using r2)
  have s4 : fadd ((A : Int) * (-2)) (A : Int) = (A : Int) * (-1) := by
    unfold fadd
    have e : (A : Int) * (-2) + (A : Int) = (A : Int) * (-1) := by ring
    rw [e]
    exact roundDbl_one_exact (by rw [Int.natAbs_mul]; simpa using hA)
  have s5 : fadd ((A : Int) * (-1)) (A : Int) = 0 := by
    unfold fadd
    have e : (A : Int) * (-1) + (A : Int) = 0 := by ring
    rw [e]
    exact roundDbl_zero 1 (by norm_num)
  rw [s1, s2, s3, s4, s5]

theorem getLuminosity_isDouble (b g r : Int) : IsDouble (getLuminosity b g r) := by
  rw [isDouble_iff_rep]
  unfold getLuminosity fadd
  exact roundDbl_rep _ 1 (by norm_num)

theorem getLuminosity_nonneg {b g r : Int} (hb : 0 ≤ b) (hg : 0 ≤ g) (hr : 0 ≤ r) :
    0 ≤ getLuminosity b g r := by
  unfold getLuminosity
  exact fadd_nonneg
    (fadd_nonneg (fmul_nonneg (lit_nonneg _ _) hr) (fmul_nonneg (lit_nonneg _ _) hg))
    (fmul_nonneg (lit_nonneg _ _) hb)

theorem magnitude_of_zero : fsqrt (fadd (fmul 0 0) (fmul 0 0)) = 0 := by decide

theorem classify_zero : classify 0 = black := by decide

/-! ## strobelOutline -/

theorem le_trunc {a n : Int} (h0 : 0 ≤ a) (h : ofInt n ≤ a) : n ≤ trunc a := by
  unfold trunc
  rw [Int.tdiv_eq_ediv h0 (Int.natCast_nonneg _)]
  have hpos : (0 : Int) < one64 := by exact_mod_cast one64_pos
  exact (Int.le_ediv_iff_mul_le hpos).2 h

/-- What `strobelOutline` leaves in the destination: the classification of the magnitude at
the positions that pass the guard, the previous content everywhere else. -/
theorem strobelOutline_px (s : Globals) (r c : Nat) :
    (strobelOutline s).modified.px r c =
      if r < s.original.rows ∧ c < s.original.cols ∧ processed s.original r c
      then classify (magnitude s.original r c) else s.modified.px r c := by
  unfold strobelOutline
  simp only
  exact forEachPixel_px (processed s.original)
    (fun r c => classify (magnitude s.original r c)) _ _ _ r c

theorem processed_in_bounds {o : Mat} {r c : Nat} (h : processed o r c) :
    2 ≤ r ∧ r + 1 < o.rows ∧ 2 ≤ c ∧ c + 1 < o.cols := by
  unfold processed at h
  omega

theorem strobelOutline_px_processed (s : Globals) (r c : Nat) (h : processed s.original r c) :
    (strobelOutline s).modified.px r c = classify (magnitude s.original r c) := by
  have hb := processed_in_bounds h
  rw [strobelOutline_px, if_pos ⟨by omega, by omega, h⟩]

theorem strobelOutline_px_skipped (s : Globals) (r c : Nat) (h : ¬ processed s.original r c) :
    (strobelOutline s).modified.px r c = s.modified.px r c := by
  rw [strobelOutline_px, if_neg (fun hh => h hh.2.2)]

theorem classify_cases (m : Int) :
    (ofInt 100 < m → classify m = white) ∧
    (ofInt 30 < m → m ≤ ofInt 100 →
      classify m = ⟨toUchar m, toUchar m, toUchar m⟩ ∧ ((toUchar m).val : Int) = trunc m ∧
        30 ≤ trunc m ∧ trunc m ≤ 100) ∧
    (m ≤ ofInt 30 → classify m = black) := by
  have h30 : ofInt 30 < ofInt 100 := ofInt_lt (by norm_num)
  have h0 : (0 : Int) ≤ ofInt 30 := ofInt_nonneg (by norm_num)
  refine ⟨?_, ?_, ?_⟩
  · intro h
    unfold classify
    rw [if_pos h]
  · intro h1 h2
    have hm0 : 0 ≤ m := by omega
    have h255 : m ≤ ofInt 255 := le_trans h2 (ofInt_le (by norm_num))
    refine ⟨?_, toUchar_val hm0 h255, le_trunc hm0 (le_of_lt h1), trunc_le hm0 h2⟩
    unfold classify
    rw [if_neg (by omega), if_pos h1]
  · intro h
    unfold classify
    rw [if_neg (by omega), if_neg (by omega)]

/-- C9. `strobelOutline` frame: with source and destination of equal size, every border pixel
of the destination (row 0, the last row, column 0, the last column) keeps the value it had
before the call, and the source buffer is unchanged. -/
theorem strobelOutline_frame (s : Globals) (r c : Nat)
    (hrows : s.modified.rows = s.original.rows) (hcols : s.modified.cols = s.original.cols)
    (hb : r = 0 ∨ r + 1 = s.modified.rows ∨ c = 0 ∨ c + 1 = s.modified.cols) :
    (strobelOutline s).modified.px r c = s.modified.px r c ∧
      (strobelOutline s).original = s.original := by
  refine ⟨?_, rfl⟩
  apply strobelOutline_px_skipped
  intro hp
  have := processed_in_bounds hp
  omega

theorem strobelOutline_frame_witness :
    grayDemo.modified.rows = grayDemo.original.rows ∧
      grayDemo.modified.cols = grayDemo.original.cols ∧
      (strobelOutline grayDemo).modified.px 3 1 = grayDemo.modified.px 3 1 ∧
      (strobelOutline grayDemo).original = grayDemo.original :=
  ⟨by decide, by decide,
    strobelOutline_frame grayDemo 3 1 (by decide) (by decide) (by decide)⟩

/-- On a source of one colour, both kernel sums vanish at every position whose 3×3
neighbourhood lies inside the buffer. -/
theorem sobel_uniform (o : Mat) (p : Pixel)
    (hu : ∀ r c, r < o.rows → c < o.cols → o.px r c = p) (r c : Nat)
    (h : processed o r c) :
    vertY o r c = 0 ∧ horzX o r c = 0 ∧ magnitude o r c = 0 := by
  obtain ⟨h1, h2, h3, h4⟩ := processed_in_bounds h
  have e : ∀ r' c', r' ≤ r + 1 → c' ≤ c + 1 →
      lumAt o r' c' = getLuminosity (ofUchar p.b) (ofUchar p.g) (ofUchar p.r) := by
    intro r' c' hr' hc'
    unfold lumAt
    rw [hu r' c' (by omega) (by omega)]
  have hd := getLuminosity_isDouble (ofUchar p.b) (ofUchar p.g) (ofUchar p.r)
  have hn := getLuminosity_nonneg (ofUchar_nonneg p.b) (ofUchar_nonneg p.g) (ofUchar_nonneg p.r)
  have hv : vertY o r c = 0 := by
    unfold vertY
    rw [e _ _ (by omega) (by omega), e _ _ (by omega) (by omega), e _ _ (by omega) (by omega),
      e _ _ (by omega) (by omega), e _ _ (by omega) (by omega), e _ _ (by omega) (by omega)]
    exact sobel_vert_cancel hn hd
  have hh : horzX o r c = 0 := by
    unfold horzX
    rw [e _ _ (by omega) (by omega), e _ _ (by omega) (by omega), e _ _ (by omega) (by omega),
      e _ _ (by omega) (by omega), e _ _ (by omega) (by omega),
      hu (r - 1) (c + 1) (by omega) (by omega), hu (r + 1) (c - 1) (by omega) (by omega)]
    exact sobel_horz_cancel hn hd
  refine ⟨hv, hh, ?_⟩
  unfold magnitude
  rw [hv, hh]
  exact magnitude_of_zero

/-- C10. `strobelOutline` on a uniform source: when all pixels of the source have the same
colour, at every pixel the edge detector processes the vertical and the horizontal kernel sums
are both exactly 0 (the horizontal one with its mixed-coordinate last term), so the magnitude
is 0 and the pixel is written black. -/
theorem strobelOutline_uniform (s : Globals) (p : Pixel)
    (hu : ∀ r c, r < s.original.rows → c < s.original.cols → s.original.px r c = p)
    (r c : Nat) (h : processed s.original r c) :
    vertY s.original r c = 0 ∧ horzX s.original r c = 0 ∧ magnitude s.original r c = 0 ∧
      (strobelOutline s).modified.px r c = black := by
  obtain ⟨hv, hh, hm⟩ := sobel_uniform s.original p hu r c h
  refine ⟨hv, hh, hm, ?_⟩
  rw [strobelOutline_px_processed s r c h, hm]
  exact classify_zero

theorem strobelOutline_uniform_witness :
    processed grayDemo.original 2 2 ∧ vertY grayDemo.original 2 2 = 0 ∧
      horzX grayDemo.original 2 2 = 0 ∧ (strobelOutline grayDemo).modified.px 2 2 = black :=
  have h := strobelOutline_uniform grayDemo ⟨128, 128, 128⟩ (fun _ _ _ _ => rfl) 2 2 (by decide)
  ⟨by decide, h.1, h.2.1, h.2.2.2⟩

/-- C7 (the code at the failing input). For the 4×4 all-(128,128,128) source and an all-white
destination, the edge detector writes only position (2,2): the interior positions (1,1), (1,2)
and (2,1) in row 1 or column 1 still hold the white they held before the call. -/
theorem strobelOutline_skips_row_and_column_one :
    (strobelOutline grayDemo).modified.px 1 1 = white ∧
      (strobelOutline grayDemo).modified.px 1 2 = white ∧
      (strobelOutline grayDemo).modified.px 2 1 = white ∧
      (strobelOutline grayDemo).modified.px 2 2 = black := by
  refine ⟨?_, ?_, ?_, ?_⟩
  · rw [strobelOutline_px_skipped _ _ _ (by decide)]; rfl
  · rw [strobelOutline_px_skipped _ _ _ (by decide)]; rfl
  · rw [strobelOutline_px_skipped _ _ _ (by decide)]; rfl
  · rw [strobelOutline_px_processed _ _ _ (by decide),
      (sobel_uniform grayDemo.original ⟨128, 128, 128⟩ (fun _ _ _ _ => rfl) 2 2 (by decide)).2.2]
    exact classify_zero

/-! ## motionDetection -/

theorem motionPixel_spec (cur prev : Pixel) :
    motionPixel cur prev = if 110 < channelDelta cur prev then white else black := by
  unfold motionPixel absDiff channelDelta
  have hb : |(cur.b.val : Int) - prev.b.val| ≤ 255 := by
    have := cur.b.isLt; have := prev.b.isLt; rw [abs_le]; omega
  have hg : |(cur.g.val : Int) - prev.g.val| ≤ 255 := by
    have := cur.g.isLt; have := prev.g.isLt; rw [abs_le]; omega
  have hr : |(cur.r.val : Int) - prev.r.val| ≤ 255 := by
    have := cur.r.isLt; have := prev.r.isLt; rw [abs_le]; omega
  have hb0 := abs_nonneg ((cur.b.val : Int) - prev.b.val)
  have hg0 := abs_nonneg ((cur.g.val : Int) - prev.g.val)
  have hr0 := abs_nonneg ((cur.r.val : Int) - prev.r.val)
  generalize |(cur.b.val : Int) - prev.b.val| = x at *
  generalize |(cur.g.val : Int) - prev.g.val| = y at *
  generalize |(cur.r.val : Int) - prev.r.val| = z at *
  rw [fadd_ofInt x y (by omega), fadd_ofInt (x + y) z (by omega)]
  by_cases h : 110 < x + y + z
  · rw [if_pos (ofInt_lt h), if_pos h]
  · rw [if_neg (not_lt.mpr (ofInt_le (not_lt.mp h))), if_neg h]

theorem channelDelta_self (p : Pixel) : channelDelta p p = 0 := by
  simp [channelDelta]

theorem motionDetection_modified_px (s : Globals) (r c : Nat)
    (hr : r < s.original.rows) (hc : c < s.original.cols) :
    (motionDetection s).modified.px r c =
      if 110 < channelDelta (s.original.px r c) ((retainedFrame s).px r c) then white
      else black := by
  unfold motionDetection
  simp only
  rw [forEachPixel_set_px, if_pos ⟨hr, hc⟩, motionPixel_spec]

theorem motionDetection_prevFrame_px (s : Globals) (r c : Nat)
    (hr : r < s.original.rows) (hc : c < s.original.cols) :
    (motionDetection s).prevFrame.px r c = s.original.px r c := by
  unfold motionDetection
  simp only
  rw [forEachPixel_set_px, if_pos ⟨hr, hc⟩]

theorem motionDetection_prevFrame_dims (s : Globals) :
    (motionDetection s).prevFrame.rows = (retainedFrame s).rows ∧
    (motionDetection s).prevFrame.cols = (retainedFrame s).cols := by
  unfold motionDetection
  simp only
  have h := forEachPixel_dims (fun _ _ => True) (fun r c => s.original.px r c)
    s.original.rows s.original.cols (retainedFrame s)
  simp only [if_true] at h
  exact h

theorem retainedFrame_not_empty (s : Globals) (r c : Nat)
    (hr : r < s.original.rows) (hc : c < s.original.cols) :
    (retainedFrame s).empty = false := by
  unfold retainedFrame
  by_cases h : s.prevFrame.empty = true
  · rw [if_pos h]
    simp only [Mat.empty, decide_eq_false_iff_not]
    omega
  · rw [if_neg h]
    simpa using h

/-- C11. `motionDetection` with a retained previous frame: every pixel of the output is
white exactly when `|B-B'| + |G-G'| + |R-R'| > 110` between the current and the retained
frame, and black otherwise.  So a pixel equal in both frames is black, a pixel whose deltas
sum to 111 is white, and one whose deltas sum to exactly 110 is black. -/
theorem motionDetection_classification (s : Globals) (r c : Nat)
    (hprev : s.prevFrame.empty = false)
    (hr : r < s.original.rows) (hc : c < s.original.cols) :
    ((motionDetection s).modified.px r c =
        if 110 < channelDelta (s.original.px r c) (s.prevFrame.px r c) then white else black) ∧
    ((motionDetection s).modified.px r c = white ↔
        110 < channelDelta (s.original.px r c) (s.prevFrame.px r c)) ∧
    (s.original.px r c = s.prevFrame.px r c → (motionDetection s).modified.px r c = black) ∧
    (channelDelta (s.original.px r c) (s.prevFrame.px r c) = 111 →
        (motionDetection s).modified.px r c = white) ∧
    (channelDelta (s.original.px r c) (s.prevFrame.px r c) = 110 →
        (motionDetection s).modified.px r c = black) := by
  have hret : retainedFrame s = s.prevFrame := by
    unfold retainedFrame
    rw [if_neg (by rw [hprev]; decide)]
  have hpx := motionDetection_modified_px s r c hr hc
  rw [hret] at hpx
  rw [hpx]
  refine ⟨rfl, ?_, ?_, ?_, ?_⟩
  · constructor
    · intro h
      by_contra hn
      rw [if_neg hn] at h
      exact absurd h (by decide)
    · intro h
      rw [if_pos h]
  · intro h
    rw [h, channelDelta_self, if_neg (by decide)]
  · intro h
    rw [h, if_pos (by decide)]
  · intro h
    rw [h, if_neg (by decide)]

theorem motionDetection_classification_witness :
    motionDemo.prevFrame.empty = false ∧ 1 < motionDemo.original.rows ∧
      2 < motionDemo.original.cols ∧ (motionDetection motionDemo).modified.px 1 2 = white :=
  ⟨by decide, by decide, by decide,
    (motionDetection_classification motionDemo 1 2 (by decide) (by decide) (by decide)).2.2.2.1
      (by decide)⟩

/-- C12. First call of `motionDetection`: when no previous frame is retained, every pixel of
the output is black, whatever the frame holds. -/
theorem motionDetection_first_call (s : Globals) (r c : Nat)
    (hprev : s.prevFrame.empty = true)
    (hr : r < s.original.rows) (hc : c < s.original.cols) :
    (motionDetection s).modified.px r c = black := by
  have hret : retainedFrame s = s.original := by
    unfold retainedFrame
    rw [if_pos hprev]
  rw [motionDetection_modified_px s r c hr hc, hret, channelDelta_self, if_neg (by decide)]

theorem motionDetection_first_call_witness :
    grayDemo.prevFrame.empty = true ∧ 3 < grayDemo.original.rows ∧
      0 < grayDemo.original.cols ∧ (motionDetection grayDemo).modified.px 3 0 = black :=
  ⟨by decide, by decide, by decide,
    motionDetection_first_call grayDemo 3 0 (by decide) (by decide) (by decide)⟩

/-- C13. State update of `motionDetection`: after a call (first or later) the retained frame
is not empty and holds, at every position of the frame passed to the call, that frame's pixel.
Hence the output of the following call on a frame `next` is decided by `next` and the frame of
this call alone, whatever was retained before. -/
theorem motionDetection_retains_frame (s : Globals) (next : Mat) (r c : Nat)
    (hr : r < s.original.rows) (hc : c < s.original.cols)
    (hr2 : r < next.rows) (hc2 : c < next.cols) :
    (motionDetection s).prevFrame.px r c = s.original.px r c ∧
    (motionDetection s).prevFrame.empty = false ∧
    (motionDetection { motionDetection s with original := next }).modified.px r c =
      (if 110 < channelDelta (next.px r c) (s.original.px r c) then white else black) ∧
    (motionDetection { motionDetection s with original := next }).prevFrame.px r c =
      next.px r c := by
  have h1 := motionDetection_prevFrame_px s r c hr hc
  have h2 : (motionDetection s).prevFrame.empty = false := by
    have hd := motionDetection_prevFrame_dims s
    have hne := retainedFrame_not_empty s r c hr hc
    simp only [Mat.empty, decide_eq_false_iff_not] at hne ⊢
    rw [hd.1, hd.2]
    exact hne
  refine ⟨h1, h2, ?_, ?_⟩
  · have h3 := motionDetection_modified_px { motionDetection s with original := next } r c hr2 hc2
    have hret : retainedFrame { motionDetection s with original := next } =
        (motionDetection s).prevFrame := by
      unfold retainedFrame
      simp only
      rw [if_neg (by rw [h2]; decide)]
    rw [hret] at h3
    simp only at h3
    rw [h3, h1]
  · exact motionDetection_prevFrame_px { motionDetection s with original := next } r c hr2 hc2

theorem motionDetection_retains_frame_witness :
    1 < motionDemo.original.rows ∧ 2 < motionDemo.original.cols ∧
      (motionDetection { motionDetection motionDemo with
        original := constMat 2 3 ⟨10, 20, 70⟩ }).modified.px 1 2 = white :=
  ⟨by decide, by decide, by
    have h := (motionDetection_retains_frame motionDemo (constMat 2 3 ⟨10, 20, 70⟩) 1 2
      (by decide) (by decide) (by decide) (by decide)).2.2.1
    rw [h]; decide⟩

/-! ## Square root -/

theorem sqrtBits_spec (M : Nat) : ∀ i r : Nat, r * r ≤ M → M < (r + 2 ^ i) * (r + 2 ^ i) →
    sqrtBits i M r * sqrtBits i M r ≤ M ∧ M < (sqrtBits i M r + 1) * (sqrtBits i M r + 1) := by
  intro i
  induction i with
  | zero =>
    intro r h1 h2
    simpa [sqrtBits] using ⟨h1, h2⟩
  | succ i ih =>
    intro r h1 h2
    simp only [sqrtBits, Nat.one_shiftLeft]
    by_cases h : (r + 2 ^ i) * (r + 2 ^ i) ≤ M
    · rw [if_pos h]
      apply ih _ h
      have e : r + 2 ^ i + 2 ^ i = r + 2 ^ (i + 1) := by rw [pow_succ]; omega
      rw [e]; exact h2
    · rw [if_neg h]
      exact ih _ h1 (not_le.mp h)

/-- Shape of `fsqrt` on a positive argument: an integer root `n` of the scaled radicand and
the rounding decision. -/
theorem fsqrt_shape (a : Int) (ha : 0 < a) :
    ∃ n : Nat,
      n * n ≤ a.toNat * one64 / 2 ^ (2 * ((excessBits (a.toNat * one64) (a.toNat * one64) - 52) / 2)) ∧
      a.toNat * one64 / 2 ^ (2 * ((excessBits (a.toNat * one64) (a.toNat * one64) - 52) / 2)) <
        (n + 1) * (n + 1) ∧
      fsqrt a = (((if 4 * (a.toNat * one64) < ((2 * n + 1) * (2 * n + 1)) *
            2 ^ (2 * ((excessBits (a.toNat * one64) (a.toNat * one64) - 52) / 2)) then n
          else if ((2 * n + 1) * (2 * n + 1)) *
            2 ^ (2 * ((excessBits (a.toNat * one64) (a.toNat * one64) - 52) / 2)) <
              4 * (a.toNat * one64) then n + 1
          else if n % 2 = 0 then n else n + 1) *
          2 ^ ((excessBits (a.toNat * one64) (a.toNat * one64) - 52) / 2) : Nat) : Int) := by
  generalize hN : a.toNat * one64 = N
  generalize hk : (excessBits N N - 52) / 2 = k
  have hM : N / 2 ^ (2 * k) < (0 + 2 ^ 53) * (0 + 2 ^ 53) := by
    have h1 := excess_lt N
    rw [Nat.div_lt_iff_lt_mul (by positivity)]
    have h2 : 53 + excessBits N N ≤ 106 + 2 * k := by omega
    calc N < 2 ^ (53 + excessBits N N) := h1
      _ ≤ 2 ^ (106 + 2 * k) := Nat.pow_le_pow_right (by norm_num) h2
      _ = (0 + 2 ^ 53) * (0 + 2 ^ 53) * 2 ^ (2 * k) := by
        rw [Nat.zero_add, ← pow_add, ← pow_add]
  have hs := sqrtBits_spec (N / 2 ^ (2 * k)) 53 0 (by simp) hM
  refine ⟨sqrtBits 53 (N / 2 ^ (2 * k)) 0, hs.1, hs.2, ?_⟩
  unfold fsqrt
  rw [if_neg (not_le.mpr ha)]
  simp only [hN, hk, Nat.shiftRight_eq_div_pow, Nat.shiftLeft_eq]


/-- Lower bound: a multiple `t * 2^k` of the result's unit whose square does not exceed the
radicand is at most the computed root. -/
theorem fsqrt_ge_of_sq_le (a : Int) (ha : 0 < a) (t : Nat)
    (h : (t * 2 ^ ((excessBits (a.toNat * one64) (a.toNat * one64) - 52) / 2)) *
        (t * 2 ^ ((excessBits (a.toNat * one64) (a.toNat * one64) - 52) / 2)) ≤
        a.toNat * one64) :
    ((t * 2 ^ ((excessBits (a.toNat * one64) (a.toNat * one64) - 52) / 2) : Nat) : Int) ≤
      fsqrt a := by
  obtain ⟨n, h1, h2, h3⟩ := fsqrt_shape a ha
  rw [h3]
  generalize a.toNat * one64 = N at *
  generalize (excessBits N N - 52) / 2 = k at *
  have e : 2 ^ (2 * k) = 2 ^ k * 2 ^ k := by rw [two_mul, pow_add]
  have ht : t * t ≤ N / 2 ^ (2 * k) := by
    rw [Nat.le_div_iff_mul_le (by positivity), e]
    calc t * t * (2 ^ k * 2 ^ k) = (t * 2 ^ k) * (t * 2 ^ k) := by ring
      _ ≤ N := h
  have htn : t ≤ n := by
    by_contra hc
    have : (n + 1) * (n + 1) ≤ t * t := Nat.mul_le_mul (by omega) (by omega)
    omega
  have hm : n ≤ (if 4 * N < ((2 * n + 1) * (2 * n + 1)) * 2 ^ (2 * k) then n
          else if ((2 * n + 1) * (2 * n + 1)) * 2 ^ (2 * k) < 4 * N then n + 1
          else if n % 2 = 0 then n else n + 1) := by
    split_ifs <;> omega
  exact_mod_cast Nat.mul_le_mul_right _ (htn.trans hm)

/-- Upper bound: a multiple `t * 2^k` whose square exceeds the radicand, and which is more
than half a unit above the exact root, is above the computed root. -/
theorem fsqrt_lt_of_lt_sq (a : Int) (ha : 0 < a) (t : Nat)
    (h : 4 * (a.toNat * one64) < ((2 * t - 1) * (2 * t - 1)) *
        2 ^ (2 * ((excessBits (a.toNat * one64) (a.toNat * one64) - 52) / 2))) :
    fsqrt a <
      ((t * 2 ^ ((excessBits (a.toNat * one64) (a.toNat * one64) - 52) / 2) : Nat) : Int) := by
  obtain ⟨n, h1, h2, h3⟩ := fsqrt_shape a ha
  rw [h3]
  generalize a.toNat * one64 = N at *
  generalize (excessBits N N - 52) / 2 = k at *
  have hpos : 0 < 2 ^ (2 * k) := by positivity
  -- `2 n < 2 t - 1`, from `4 n² ≤ 4 M < (2 t - 1)²`
  have hnt : 2 * n < 2 * t - 1 := by
    by_contra hc
    have h4 : (2 * t - 1) * (2 * t - 1) ≤ (2 * n) * (2 * n) := Nat.mul_le_mul (by omega) (by omega)
    have h5 : n * n * 2 ^ (2 * k) ≤ N := (Nat.le_div_iff_mul_le hpos).1 h1
    have h6 : (2 * t - 1) * (2 * t - 1) * 2 ^ (2 * k) ≤ 4 * N :=
      calc (2 * t - 1) * (2 * t - 1) * 2 ^ (2 * k) ≤ (2 * n) * (2 * n) * 2 ^ (2 * k) :=
            Nat.mul_le_mul_right _ h4
        _ = 4 * (n * n * 2 ^ (2 * k)) := by ring
        _ ≤ 4 * N := Nat.mul_le_mul_left _ h5
    omega
  have hm : (if 4 * N < ((2 * n + 1) * (2 * n + 1)) * 2 ^ (2 * k) then n
          else if ((2 * n + 1) * (2 * n + 1)) * 2 ^ (2 * k) < 4 * N then n + 1
          else if n % 2 = 0 then n else n + 1) < t := by
    by_cases hc : n + 1 < t
    · split_ifs <;> omega
    · have e : 2 * n + 1 = 2 * t - 1 := by omega
      rw [e, if_pos h]; omega
  exact_mod_cast Nat.mul_lt_mul_of_pos_right hm (by positivity)

/-- The exponent of the result's unit for the root of an integer below `2^32`. -/
theorem fsqrt_unit_le (q : Nat) (hq : q < 2 ^ 32) :
    (excessBits (q * one64 * one64) (q * one64 * one64) - 52) / 2 ≤ 1037 := by
  rcases excess_ge (q * one64 * one64) with h | h
  · rw [h]; norm_num
  · have h1 : q * one64 * one64 < 2 ^ (32 + 2148) := by
      rw [one64_eq, Nat.mul_assoc, ← pow_add, pow_add 2 32 2148]
      exact Nat.mul_lt_mul_of_pos_right hq (by positivity)
    have h2 : 52 + excessBits (q * one64 * one64) (q * one64 * one64) < 32 + 2148 :=
      (Nat.pow_lt_pow_iff_right (by norm_num)).1 (lt_of_le_of_lt h h1)
    omega

/-- The computed distance compares with an integer threshold as the exact one does:
`sqrt(q) < s` holds in double arithmetic exactly when `q < s²`. -/
theorem fsqrt_ofInt_lt_iff (q s : Nat) (hq : q < 2 ^ 32) (hs : s < 2 ^ 32) :
    fsqrt (ofInt q) < ofInt s ↔ q < s * s := by
  rcases Nat.eq_zero_or_pos q with h0 | h0
  · subst h0
    have e : fsqrt (ofInt ((0 : Nat) : Int)) = 0 := by decide
    rw [e]
    constructor
    · intro h
      have : 0 < s := by
        by_contra hc
        have hs0 : s = 0 := by omega
        subst hs0
        exact absurd h (by decide)
      exact Nat.mul_pos this this
    · intro h
      have : 0 < s := Nat.pos_of_mul_pos_right h
      have := ofInt_lt (show (0 : Int) < (s : Int) by exact_mod_cast this)
      simpa [ofInt] using this
  · have ha : 0 < ofInt (q : Int) := by
      have := ofInt_lt (show (0 : Int) < (q : Int) by exact_mod_cast h0)
      simpa [ofInt] using this
    have hN : (ofInt (q : Int)).toNat * one64 = q * one64 * one64 := by
      unfold ofInt
      rw [show ((q : Int) * (one64 : Int)) = ((q * one64 : Nat) : Int) by push_cast; rfl,
        Int.toNat_ofNat]
    have hk := fsqrt_unit_le q hq
    have hlow := fsqrt_ge_of_sq_le (ofInt (q : Int)) ha
    have hupp := fsqrt_lt_of_lt_sq (ofInt (q : Int)) ha
    rw [hN] at hlow hupp
    generalize (excessBits (q * one64 * one64) (q * one64 * one64) - 52) / 2 = k at *
    obtain ⟨j, hj⟩ : ∃ j, 1074 = k + j := ⟨1074 - k, by omega⟩
    have hj37 : 37 ≤ j := by omega
    have h1 : one64 = 2 ^ j * 2 ^ k := by rw [one64_eq, hj, pow_add, Nat.mul_comm]
    have hS : ofInt (s : Int) = ((s * 2 ^ j * 2 ^ k : Nat) : Int) := by
      unfold ofInt
      rw [h1]; push_cast; ring
    have hsj : s < 2 ^ j :=
      lt_of_lt_of_le hs (Nat.pow_le_pow_right (by norm_num) (by omega))
    rw [hS]
    constructor
    · intro h
      by_contra hc
      have hc' : s * s ≤ q := not_lt.mp hc
      have := hlow (s * 2 ^ j) (by
        rw [h1]
        calc s * 2 ^ j * 2 ^ k * (s * 2 ^ j * 2 ^ k)
            = s * s * (2 ^ j * 2 ^ k) * (2 ^ j * 2 ^ k) := by ring
          _ ≤ q * (2 ^ j * 2 ^ k) * (2 ^ j * 2 ^ k) :=
            Nat.mul_le_mul_right _ (Nat.mul_le_mul_right _ hc'))
      omega
    · intro h
      apply hupp (s * 2 ^ j)
      have e2 : 2 ^ (2 * k) = 2 ^ k * 2 ^ k := by rw [two_mul, pow_add]
      rw [h1, e2]
      generalize 2 ^ j = J at *
      generalize 2 ^ k = K at *
      have hK : 0 < K := by
        rcases Nat.eq_zero_or_pos K with h0 | h0
        · subst h0; simp [one64_eq] at h1
        · exact h0
      -- 4 q J² < (2 s J - 1)²
      have hsJ : 1 ≤ s * J := Nat.mul_pos (Nat.pos_of_mul_pos_right (lt_of_le_of_lt (Nat.zero_le _) h))
        (by omega)
      have key : 4 * (q * J * J) < (2 * (s * J) - 1) * (2 * (s * J) - 1) := by
        have hq' : q + 1 ≤ s * s := h
        obtain ⟨u, hu⟩ : ∃ u, 2 * (s * J) = u + 1 := ⟨2 * (s * J) - 1, by omega⟩
        rw [hu, Nat.add_sub_cancel]
        have h3 : 4 * ((q + 1) * J * J) ≤ 4 * (s * s * J * J) :=
          Nat.mul_le_mul_left _ (Nat.mul_le_mul_right _ (Nat.mul_le_mul_right _ hq'))
        have h4 : 4 * (s * s * J * J) = (u + 1) * (u + 1) := by rw [← hu]; ring
        have h5 : s * J < J * J := Nat.mul_lt_mul_of_pos_right hsj (by omega)
        nlinarith
      calc 4 * (q * (J * K) * (J * K)) = 4 * (q * J * J) * (K * K) := by ring
        _ < (2 * (s * J) - 1) * (2 * (s * J) - 1) * (K * K) :=
          Nat.mul_lt_mul_of_pos_right key (Nat.mul_pos hK hK)

/-! ## Runs of the model -/

theorem Safe.ok {α : Type} {P : α → Prop} {L : Prop} {a : α} (h : P a) :
    Safe P L (.ok a) := Or.inl ⟨a, rfl, h⟩

theorem Safe.bind {α β : Type} {P : α → Prop} {Q : β → Prop} {L : Prop}
    {x : Except Fault α} {f : α → Except Fault β}
    (hx : Safe P L x) (hf : ∀ a, P a → Safe Q L (f a)) : Safe Q L (x.bind f) := by
  rcases hx with ⟨a, rfl, ha⟩ | ⟨rfl, hL⟩
  · exact hf a ha
  · exact Or.inr ⟨rfl, hL⟩

theorem Safe.mono {α : Type} {P Q : α → Prop} {L L' : Prop} {x : Except Fault α}
    (hx : Safe P L x) (hPQ : ∀ a, P a → Q a) (hL : L → L') : Safe Q L' x := by
  rcases hx with ⟨a, rfl, ha⟩ | ⟨rfl, h⟩
  · exact Or.inl ⟨a, rfl, hPQ a ha⟩
  · exact Or.inr ⟨rfl, hL h⟩

theorem Safe.not_outOfBounds {α : Type} {P : α → Prop} {L : Prop} {x : Except Fault α}
    (hx : Safe P L x) : x ≠ .error .outOfBounds := by
  rcases hx with ⟨a, rfl, _⟩ | ⟨rfl, _⟩
  · intro h; cases h
  · intro h; cases h

theorem Safe.returns {α : Type} {P : α → Prop} {L : Prop} {x : Except Fault α}
    (hx : Safe P L x) (hL : ¬ L) : ∃ a, x = .ok a ∧ P a := by
  rcases hx with h | ⟨_, h⟩
  · exact h
  · exact absurd h hL

/-- The rule for `while`: an invariant `I` kept by the body and a measure `μ` that the body
decreases.  The loop then ends in a state with `I` where the condition is false, unless the
fuel is below the measure of the initial state. -/
theorem whileLoop_safe {σ : Type} (cond : σ → Bool) (body : σ → Except Fault σ)
    (I : σ → Prop) (μ : σ → Nat) (L : Prop)
    (hbody : ∀ s, I s → cond s = true → Safe (fun s' => I s' ∧ μ s' < μ s) L (body s)) :
    ∀ (fuel : Nat) (s : σ), I s →
      Safe (fun s' => I s' ∧ cond s' = false) (L ∨ fuel < μ s) (whileLoop cond body fuel s) := by
  intro fuel
  induction fuel with
  | zero =>
    intro s hI
    unfold whileLoop
    by_cases hc : cond s = true
    · rw [if_pos hc]
      refine Or.inr ⟨rfl, ?_⟩
      rcases hbody s hI hc with ⟨s', _, _, hlt⟩ | ⟨_, hL⟩
      · exact Or.inr (by omega)
      · exact Or.inl hL
    · rw [if_neg hc]
      exact Safe.ok ⟨hI, by simpa using hc⟩
  | succ fuel ih =>
    intro s hI
    unfold whileLoop
    by_cases hc : cond s = true
    · rw [if_pos hc]
      rcases hbody s hI hc with ⟨s', hs', hI', hlt⟩ | ⟨he, hL⟩
      · rw [hs']
        exact (ih s' hI').mono (fun _ h => h) (fun h => h.imp id (fun h => by omega))
      · rw [he]
        exact Or.inr ⟨rfl, Or.inl hL⟩
    · rw [if_neg hc]
      exact Safe.ok ⟨hI, by simpa using hc⟩

/-! ## Colour distance -/

theorem ofInt_injective {x y : Int} (h : ofInt x = ofInt y) : x = y := by
  unfold ofInt at h
  exact Int.eq_of_mul_eq_mul_right (by have := one64_pos; omega) h

theorem ofInt_inj (x y : Int) : ofInt x = ofInt y ↔ x = y :=
  ⟨ofInt_injective, fun h => by rw [h]⟩

theorem ofInt_lt_iff (x y : Int) : ofInt x < ofInt y ↔ x < y := by
  constructor
  · intro h
    by_contra hc
    exact absurd (ofInt_le (not_lt.mp hc)) (not_le.mpr h)
  · exact ofInt_lt

theorem fsub_ofInt (x y : Int) (h : (x - y).natAbs < 2 ^ 53) :
    fsub (ofInt x) (ofInt y) = ofInt (x - y) := by
  unfold fsub
  rw [show ofInt x - ofInt y = ofInt (x - y) by unfold ofInt; ring]
  exact roundDbl_ofInt h

theorem fmul_ofInt_ofInt (x y : Int) (h : (x * y).natAbs < 2 ^ 53) :
    fmul (ofInt x) (ofInt y) = ofInt (x * y) := by
  rw [fmul_ofInt_right, show ofInt x * y = ofInt (x * y) by unfold ofInt; ring]
  exact roundDbl_ofInt h

theorem sqDist_cast (p q : Pixel) :
    ((sqDist p q : Nat) : Int) =
      ((p.b.val : Int) - q.b.val) * ((p.b.val : Int) - q.b.val) +
      ((p.g.val : Int) - q.g.val) * ((p.g.val : Int) - q.g.val) +
      ((p.r.val : Int) - q.r.val) * ((p.r.val : Int) - q.r.val) := by
  unfold sqDist
  push_cast
  simp only [Int.natCast_natAbs, sq_abs]
  ring

theorem sqDist_le (p q : Pixel) : sqDist p q ≤ 195075 := by
  have hb : ((p.b.val : Int) - q.b.val).natAbs ≤ 255 := by
    have := p.b.isLt; have := q.b.isLt; omega
  have hg : ((p.g.val : Int) - q.g.val).natAbs ≤ 255 := by
    have := p.g.isLt; have := q.g.isLt; omega
  have hr : ((p.r.val : Int) - q.r.val).natAbs ≤ 255 := by
    have := p.r.isLt; have := q.r.isLt; omega
  unfold sqDist
  have h1 := Nat.pow_le_pow_left hb 2
  have h2 := Nat.pow_le_pow_left hg 2
  have h3 := Nat.pow_le_pow_left hr 2
  omega

/-- The sum under the root of `getDistance` and `isClose` is computed exactly. -/
theorem sum_of_squares_eq (seed p : Pixel) :
    fadd (fadd
      (fmul (fsub (ofUchar seed.b) (ofUchar p.b)) (fsub (ofUchar seed.b) (ofUchar p.b)))
      (fmul (fsub (ofUchar seed.g) (ofUchar p.g)) (fsub (ofUchar seed.g) (ofUchar p.g))))
      (fmul (fsub (ofUchar seed.r) (ofUchar p.r)) (fsub (ofUchar seed.r) (ofUchar p.r))) =
    ofInt ((sqDist seed p : Nat) : Int) := by
  have hle := sqDist_le seed p
  have hc := sqDist_cast seed p
  have hb : -255 ≤ (seed.b.val : Int) - p.b.val ∧ (seed.b.val : Int) - p.b.val ≤ 255 := by
    have := seed.b.isLt; have := p.b.isLt; omega
  have hg : -255 ≤ (seed.g.val : Int) - p.g.val ∧ (seed.g.val : Int) - p.g.val ≤ 255 := by
    have := seed.g.isLt; have := p.g.isLt; omega
  have hr : -255 ≤ (seed.r.val : Int) - p.r.val ∧ (seed.r.val : Int) - p.r.val ≤ 255 := by
    have := seed.r.isLt; have := p.r.isLt; omega
  unfold ofUchar
  rw [fsub_ofInt _ _ (by omega), fsub_ofInt _ _ (by omega), fsub_ofInt _ _ (by omega), hc]
  generalize (seed.b.val : Int) - p.b.val = x at *
  generalize (seed.g.val : Int) - p.g.val = y at *
  generalize (seed.r.val : Int) - p.r.val = z at *
  have hx : 0 ≤ x * x ∧ x * x ≤ 65025 := ⟨mul_self_nonneg x, by nlinarith⟩
  have hy : 0 ≤ y * y ∧ y * y ≤ 65025 := ⟨mul_self_nonneg y, by nlinarith⟩
  have hz : 0 ≤ z * z ∧ z * z ≤ 65025 := ⟨mul_self_nonneg z, by nlinarith⟩
  rw [fmul_ofInt_ofInt x x (by omega), fmul_ofInt_ofInt y y (by omega),
    fmul_ofInt_ofInt z z (by omega), fadd_ofInt _ _ (by omega), fadd_ofInt _ _ (by omega)]

theorem distanceTo_eq (seed p : Pixel) :
    distanceTo seed p = fsqrt (ofInt ((sqDist seed p : Nat) : Int)) := by
  unfold distanceTo getDistance
  rw [sum_of_squares_eq]

/-- `isClose` decides the exact comparison: the pixel is close when its squared distance
to the seed colour is below `strength²`. -/
theorem closeTo_eq (seed p : Pixel) (strength : Nat) (hs : strength < 2 ^ 32) :
    closeTo seed p strength = if sqDist seed p < strength * strength then 1 else 0 := by
  unfold closeTo isClose
  rw [sum_of_squares_eq]
  have h := fsqrt_ofInt_lt_iff (sqDist seed p) strength
    (lt_of_le_of_lt (sqDist_le seed p) (by norm_num)) hs
  by_cases hc : sqDist seed p < strength * strength
  · rw [if_pos (h.2 hc), if_pos hc]
  · rw [if_neg (fun h' => hc (h.1 h')), if_neg hc]

/-- Every distance the program computes is below the sentinel. -/
theorem distanceTo_lt_sentinel (seed p : Pixel) : distanceTo seed p < ofInt 442 := by
  rw [distanceTo_eq]
  have h := fsqrt_ofInt_lt_iff (sqDist seed p) 442
    (lt_of_le_of_lt (sqDist_le seed p) (by norm_num)) (by norm_num)
  exact h.2 (lt_of_le_of_lt (sqDist_le seed p) (by norm_num))

theorem strengthOf_pos (count : Int) : 0 < strengthOf count ∧ strengthOf count ≤ 90 := by
  unfold strengthOf
  split_ifs <;> omega

/-! ## Selection of the two directions -/

theorem ofInt_code_ne (a b : Int) (h : a ≠ b) : ofInt a ≠ ofInt b :=
  fun e => h (ofInt_injective e)

theorem selectDirections_mk (u l r le : Int) :
    selectDirections ⟨u, l, r, le⟩ =
      if min (min u l) (min r le) = u then
        (ofInt 1,
          if min l (min r le) = l then ofInt 3
          else if min l (min r le) = r then ofInt 2
          else ofInt 4)
      else if min (min u l) (min r le) = r then
        (ofInt 2,
          if min (min u l) le = u then ofInt 1
          else if min (min u l) le = l then ofInt 3
          else ofInt 4)
      else if min (min u l) (min r le) = l then
        (ofInt 3,
          if min u (min r le) = u then ofInt 1
          else if min u (min r le) = r then ofInt 2
          else if min u (min r le) = le then ofInt 4
          else min u (min r le))
      else
        (ofInt 4,
          if min (min u l) r = u then ofInt 1
          else if min (min u l) r = r then ofInt 2
          else if min (min u l) r = l then ofInt 3
          else min (min u l) r) := rfl

theorem min3_right (x y z : Int) :
    min x (min y z) ≤ x ∧ min x (min y z) ≤ y ∧ min x (min y z) ≤ z ∧
      (min x (min y z) = x ∨ min x (min y z) = y ∨ min x (min y z) = z) := by
  rcases le_total y z with h | h <;> rcases le_total x y with h2 | h2 <;>
    rcases le_total x z with h3 | h3 <;>
    simp [min_eq_left, min_eq_right, h, h2, h3] <;> omega

theorem min3_left (x y z : Int) :
    min (min x y) z ≤ x ∧ min (min x y) z ≤ y ∧ min (min x y) z ≤ z ∧
      (min (min x y) z = x ∨ min (min x y) z = y ∨ min (min x y) z = z) := by
  rcases le_total x y with h | h <;> rcases le_total x z with h2 | h2 <;>
    rcases le_total y z with h3 | h3 <;>
    simp [min_eq_left, min_eq_right, h, h2, h3] <;> omega

theorem min4 (x y z w : Int) :
    min (min x y) (min z w) ≤ x ∧ min (min x y) (min z w) ≤ y ∧
    min (min x y) (min z w) ≤ z ∧ min (min x y) (min z w) ≤ w ∧
      (min (min x y) (min z w) = x ∨ min (min x y) (min z w) = y ∨
        min (min x y) (min z w) = z ∨ min (min x y) (min z w) = w) := by
  have h1 := min3_left x y (min z w)
  have h2 := min_choice z w
  have h3 := min_le_left z w
  have h4 := min_le_right z w
  generalize min (min x y) (min z w) = M at *
  generalize min z w = B at *
  omega

/-- The pair `(smallest, secondSmallest)` is always a pair of two different direction codes.
When no gradient exceeds a bound `S`, a horizontal direction that is selected has a gradient
strictly below `S`. -/
theorem selectDirections_spec_mk (u l r le S : Int)
    (hu : u ≤ S) (hl : l ≤ S) (hr : r ≤ S) (hle : le ≤ S) :
    (∃ a b : Int, selectDirections ⟨u, l, r, le⟩ = (ofInt a, ofInt b) ∧ 1 ≤ a ∧ a ≤ 4 ∧
      1 ≤ b ∧ b ≤ 4 ∧ a ≠ b ∧
      ((a = 2 ∨ b = 2) → r < S) ∧ ((a = 4 ∨ b = 4) → le < S)) := by
  rw [selectDirections_mk]
  have e := min4 u l r le
  generalize min (min u l) (min r le) = M at e ⊢
  by_cases h1 : M = u
  · rw [if_pos h1]
    have f := min3_right l r le
    generalize min l (min r le) = N at f ⊢
    by_cases k0 : N = l
    · rw [if_pos k0]
      exact ⟨_, _, rfl, by omega⟩
    · rw [if_neg k0]
      by_cases k1 : N = r
      · rw [if_pos k1]
        exact ⟨_, _, rfl, by omega⟩
      · rw [if_neg k1]
        exact ⟨_, _, rfl, by omega⟩
  · rw [if_neg h1]
    by_cases h2 : M = r
    · rw [if_pos h2]
      have f := min3_left u l le
      generalize min (min u l) le = N at f ⊢
      by_cases k0 : N = u
      · rw [if_pos k0]
        exact ⟨_, _, rfl, by omega⟩
      · rw [if_neg k0]
        by_cases k1 : N = l
        · rw [if_pos k1]
          exact ⟨_, _, rfl, by omega⟩
        · rw [if_neg k1]
          exact ⟨_, _, rfl, by omega⟩
    · rw [if_neg h2]
      by_cases h3 : M = l
      · rw [if_pos h3]
        have f := min3_right u r le
        generalize min u (min r le) = N at f ⊢
        by_cases k0 : N = u
        · rw [if_pos k0]
          exact ⟨_, _, rfl, by omega⟩
        · rw [if_neg k0]
          by_cases k1 : N = r
          · rw [if_pos k1]
            exact ⟨_, _, rfl, by omega⟩
          · rw [if_neg k1]
            by_cases k2 : N = le
            · rw [if_pos k2]
              exact ⟨_, _, rfl, by omega⟩
            · rw [if_neg k2]
              exfalso; omega
      · rw [if_neg h3]
        have f := min3_left u l r
        generalize min (min u l) r = N at f ⊢
        by_cases k0 : N = u
        · rw [if_pos k0]
          exact ⟨_, _, rfl, by omega⟩
        · rw [if_neg k0]
          by_cases k1 : N = r
          · rw [if_pos k1]
            exact ⟨_, _, rfl, by omega⟩
          · rw [if_neg k1]
            by_cases k2 : N = l
            · rw [if_pos k2]
              exact ⟨_, _, rfl, by omega⟩
            · rw [if_neg k2]
              exfalso; omega

theorem selectDirections_spec (g : Gradients) (S : Int)
    (hu : g.upperGrad ≤ S) (hl : g.lowerGrad ≤ S) (hr : g.rightGrad ≤ S) (hle : g.leftGrad ≤ S) :
    (∃ a b : Int, selectDirections g = (ofInt a, ofInt b) ∧ 1 ≤ a ∧ a ≤ 4 ∧ 1 ≤ b ∧ b ≤ 4 ∧
      a ≠ b ∧
      ((a = 2 ∨ b = 2) → g.rightGrad < S) ∧ ((a = 4 ∨ b = 4) → g.leftGrad < S)) := by
  obtain ⟨u, l, r, le⟩ := g
  exact selectDirections_spec_mk u l r le S hu hl hr hle

/-- What the selection computes: `smallest` is a direction of minimal gradient, and
`secondSmallest` a different direction whose gradient is minimal among the other three. -/
theorem selectDirections_minimal (g : Gradients) :
    ∃ a b : Int, selectDirections g = (ofInt a, ofInt b) ∧ 1 ≤ a ∧ a ≤ 4 ∧ 1 ≤ b ∧ b ≤ 4 ∧
      a ≠ b ∧
      (g.of a ≤ g.of 1 ∧ g.of a ≤ g.of 2 ∧ g.of a ≤ g.of 3 ∧ g.of a ≤ g.of 4) ∧
      (a ≠ 1 → g.of b ≤ g.of 1) ∧ (a ≠ 2 → g.of b ≤ g.of 2) ∧
      (a ≠ 3 → g.of b ≤ g.of 3) ∧ (a ≠ 4 → g.of b ≤ g.of 4) := by
  obtain ⟨u, l, r, le⟩ := g
  have o1 : Gradients.of ⟨u, l, r, le⟩ 1 = u := rfl
  have o2 : Gradients.of ⟨u, l, r, le⟩ 2 = r := rfl
  have o3 : Gradients.of ⟨u, l, r, le⟩ 3 = l := rfl
  have o4 : Gradients.of ⟨u, l, r, le⟩ 4 = le := rfl
  rw [selectDirections_mk]
  have e := min4 u l r le
  generalize min (min u l) (min r le) = M at e ⊢
  by_cases h1 : M = u
  · rw [if_pos h1]
    have f := min3_right l r le
    generalize min l (min r le) = N at f ⊢
    by_cases k0 : N = l
    · rw [if_pos k0]
      (refine ⟨_, _, rfl, ?_⟩; simp only [o1, o2, o3, o4]; omega)
    · rw [if_neg k0]
      by_cases k1 : N = r
      · rw [if_pos k1]
        (refine ⟨_, _, rfl, ?_⟩; simp only [o1, o2, o3, o4]; omega)
      · rw [if_neg k1]
        (refine ⟨_, _, rfl, ?_⟩; simp only [o1, o2, o3, o4]; omega)
  · rw [if_neg h1]
    by_cases h2 : M = r
    · rw [if_pos h2]
      have f := min3_left u l le
      generalize min (min u l) le = N at f ⊢
      by_cases k0 : N = u
      · rw [if_pos k0]
        (refine ⟨_, _, rfl, ?_⟩; simp only [o1, o2, o3, o4]; omega)
      · rw [if_neg k0]
        by_cases k1 : N = l
        · rw [if_pos k1]
          (refine ⟨_, _, rfl, ?_⟩; simp only [o1, o2, o3, o4]; omega)
        · rw [if_neg k1]
          (refine ⟨_, _, rfl, ?_⟩; simp only [o1, o2, o3, o4]; omega)
    · rw [if_neg h2]
      by_cases h3 : M = l
      · rw [if_pos h3]
        have f := min3_right u r le
        generalize min u (min r le) = N at f ⊢
        by_cases k0 : N = u
        · rw [if_pos k0]
          (refine ⟨_, _, rfl, ?_⟩; simp only [o1, o2, o3, o4]; omega)
        · rw [if_neg k0]
          by_cases k1 : N = r
          · rw [if_pos k1]
            (refine ⟨_, _, rfl, ?_⟩; simp only [o1, o2, o3, o4]; omega)
          · rw [if_neg k1]
            by_cases k2 : N = le
            · rw [if_pos k2]
              (refine ⟨_, _, rfl, ?_⟩; simp only [o1, o2, o3, o4]; omega)
            · rw [if_neg k2]
              exfalso; omega
      · rw [if_neg h3]
        have f := min3_left u l r
        generalize min (min u l) r = N at f ⊢
        by_cases k0 : N = u
        · rw [if_pos k0]
          (refine ⟨_, _, rfl, ?_⟩; simp only [o1, o2, o3, o4]; omega)
        · rw [if_neg k0]
          by_cases k1 : N = r
          · rw [if_pos k1]
            (refine ⟨_, _, rfl, ?_⟩; simp only [o1, o2, o3, o4]; omega)
          · rw [if_neg k1]
            by_cases k2 : N = l
            · rw [if_pos k2]
              (refine ⟨_, _, rfl, ?_⟩; simp only [o1, o2, o3, o4]; omega)
            · rw [if_neg k2]
              exfalso; omega

/-! ## Gradients -/

theorem atChecked_ok (o : Mat) (r c : Int) (hr0 : 0 ≤ r) (hr : r < o.rows) (hc0 : 0 ≤ c)
    (hc : c < o.cols) : o.atChecked r c = .ok (o.px r.toNat c.toNat) := by
  unfold Mat.atChecked
  rw [if_pos ⟨hr0, hr, hc0, hc⟩]

theorem setChecked_ok (m : Mat) (r c : Int) (p : Pixel) (hr0 : 0 ≤ r) (hr : r < m.rows)
    (hc0 : 0 ≤ c) (hc : c < m.cols) : m.setChecked r c p = .ok (m.set r.toNat c.toNat p) := by
  unfold Mat.setChecked
  rw [if_pos ⟨hr0, hr, hc0, hc⟩]

/-- For a seed inside the buffer the four gradient computations read inside the buffer; the
gradient of a direction is the sentinel when its guard holds and a distance below the sentinel
otherwise. -/
theorem gradients_spec (o : Mat) (seed : Pixel) (randomR randomC : Int)
    (hr0 : 0 ≤ randomR) (hr : randomR < o.rows) (hc0 : 0 ≤ randomC) (hc : randomC < o.cols) :
    ∃ g, gradients o seed randomR randomC = .ok g ∧
      (∀ d, 1 ≤ d → d ≤ 4 → sentinelDir o randomR randomC d = true → g.of d = ofInt 442) ∧
      (∀ d, 1 ≤ d → d ≤ 4 → sentinelDir o randomR randomC d = false → g.of d < ofInt 442) := by
  have hgrad : ∀ (guard : Bool) (r c : Int),
      (guard = false → 0 ≤ r ∧ r < o.rows ∧ 0 ≤ c ∧ c < o.cols) →
      ∃ v, gradient o seed guard r c = .ok v ∧ (guard = true → v = ofInt 442) ∧
        (guard = false → v < ofInt 442) := by
    intro guard r c h
    unfold gradient
    cases guard with
    | true =>
      refine ⟨ofInt 442, rfl, fun _ => rfl, fun h => ?_⟩
      exact absurd h (by decide)
    | false =>
      obtain ⟨h1, h2, h3, h4⟩ := h rfl
      rw [if_neg (by decide), atChecked_ok o r c h1 h2 h3 h4]
      refine ⟨distanceTo seed (o.px r.toNat c.toNat), rfl, fun h => ?_,
        fun _ => distanceTo_lt_sentinel _ _⟩
      exact absurd h (by decide)
  obtain ⟨u, hu, hu1, hu2⟩ := hgrad (decide (randomR - 2 < 0)) (randomR - 1) randomC
    (fun h => by simp only [decide_eq_false_iff_not] at h; omega)
  obtain ⟨l, hl, hl1, hl2⟩ := hgrad (decide (randomR + 2 > o.rows)) (randomR + 1) randomC
    (fun h => by simp only [decide_eq_false_iff_not] at h; omega)
  obtain ⟨r, hrr, hr1, hr2⟩ := hgrad (decide (randomC + 2 > o.cols)) randomR (randomC + 1)
    (fun h => by simp only [decide_eq_false_iff_not] at h; omega)
  obtain ⟨le, hle, hle1, hle2⟩ := hgrad (decide (randomC - 2 < 0)) randomR (randomC - 1)
    (fun h => by simp only [decide_eq_false_iff_not] at h; omega)
  refine ⟨⟨u, l, r, le⟩, ?_, ?_, ?_⟩
  · unfold gradients
    rw [hu, hl, hrr, hle]
    rfl
  · intro d hd1 hd4 hs
    have hd : d = 1 ∨ d = 2 ∨ d = 3 ∨ d = 4 := by omega
    rcases hd with rfl | rfl | rfl | rfl
    · exact hu1 hs
    · exact hr1 hs
    · exact hl1 hs
    · exact hle1 hs
  · intro d hd1 hd4 hs
    have hd : d = 1 ∨ d = 2 ∨ d = 3 ∨ d = 4 := by omega
    rcases hd with rfl | rfl | rfl | rfl
    · exact hu2 hs
    · exact hr2 hs
    · exact hl2 hs
    · exact hle2 hs

/-! ## approximate: strength schedule and direction selection -/

/-- C19. The closeness threshold of an iteration is 90 for `count < 2500`, 60 up to 5000,
45 up to 6000, 30 up to 8000 and 20 from 8000 on; it never increases with the count. -/
theorem strength_schedule (n : Int) :
    (n < 2500 → strengthOf n = 90) ∧
    (2500 ≤ n → n < 5000 → strengthOf n = 60) ∧
    (5000 ≤ n → n < 6000 → strengthOf n = 45) ∧
    (6000 ≤ n → n < 8000 → strengthOf n = 30) ∧
    (8000 ≤ n → strengthOf n = 20) ∧
    (∀ m : Int, n ≤ m → strengthOf m ≤ strengthOf n) := by
  refine ⟨?_, ?_, ?_, ?_, ?_, ?_⟩
  · intro h; unfold strengthOf; rw [if_pos h]
  · intro h1 h2; unfold strengthOf; rw [if_neg (by omega), if_pos h2]
  · intro h1 h2; unfold strengthOf; rw [if_neg (by omega), if_neg (by omega), if_pos h2]
  · intro h1 h2; unfold strengthOf
    rw [if_neg (by omega), if_neg (by omega), if_neg (by omega), if_pos h2]
  · intro h1; unfold strengthOf
    rw [if_neg (by omega), if_neg (by omega), if_neg (by omega), if_neg (by omega)]
  · intro m h
    unfold strengthOf
    split_ifs <;> omega

theorem strength_schedule_witness :
    strengthOf 2499 = 90 ∧ strengthOf 2500 = 60 ∧ strengthOf 7999 = 30 ∧ strengthOf 8000 = 20 :=
  ⟨(strength_schedule 2499).1 (by decide), (strength_schedule 2500).2.1 (by decide) (by decide),
    (strength_schedule 7999).2.2.2.1 (by decide) (by decide),
    (strength_schedule 8000).2.2.2.2.1 (by decide)⟩

theorem selectDirections_fst_mk (u l r le : Int) :
    (selectDirections ⟨u, l, r, le⟩).1 =
      if min (min u l) (min r le) = u then ofInt 1
      else if min (min u l) (min r le) = r then ofInt 2
      else if min (min u l) (min r le) = l then ofInt 3
      else ofInt 4 := by
  rw [selectDirections_mk]
  split_ifs <;> rfl

/-- C17. `smallest` is the first direction, in the order up, right, down, left, whose
gradient equals the minimum of the four gradients. -/
theorem smallest_is_first_minimum (g : Gradients) :
    ((selectDirections g).1 = ofInt 1 ↔ g.upperGrad = g.minimum) ∧
    ((selectDirections g).1 = ofInt 2 ↔ g.upperGrad ≠ g.minimum ∧ g.rightGrad = g.minimum) ∧
    ((selectDirections g).1 = ofInt 3 ↔
      g.upperGrad ≠ g.minimum ∧ g.rightGrad ≠ g.minimum ∧ g.lowerGrad = g.minimum) ∧
    ((selectDirections g).1 = ofInt 4 ↔
      g.upperGrad ≠ g.minimum ∧ g.rightGrad ≠ g.minimum ∧ g.lowerGrad ≠ g.minimum ∧
        g.leftGrad = g.minimum) := by
  obtain ⟨u, l, r, le⟩ := g
  have hm : Gradients.minimum ⟨u, l, r, le⟩ = min (min u r) (min l le) := rfl
  have hu : (⟨u, l, r, le⟩ : Gradients).upperGrad = u := rfl
  have hl : (⟨u, l, r, le⟩ : Gradients).lowerGrad = l := rfl
  have hr : (⟨u, l, r, le⟩ : Gradients).rightGrad = r := rfl
  have hle : (⟨u, l, r, le⟩ : Gradients).leftGrad = le := rfl
  rw [selectDirections_fst_mk, hm, hu, hl, hr, hle]
  have e := min4 u l r le
  have e' := min4 u r l le
  generalize min (min u l) (min r le) = M at e ⊢
  generalize min (min u r) (min l le) = M' at e' ⊢
  have h12 : ofInt 1 ≠ ofInt 2 := ofInt_code_ne 1 2 (by decide)
  have h13 : ofInt 1 ≠ ofInt 3 := ofInt_code_ne 1 3 (by decide)
  have h14 : ofInt 1 ≠ ofInt 4 := ofInt_code_ne 1 4 (by decide)
  have h23 : ofInt 2 ≠ ofInt 3 := ofInt_code_ne 2 3 (by decide)
  have h24 : ofInt 2 ≠ ofInt 4 := ofInt_code_ne 2 4 (by decide)
  have h34 : ofInt 3 ≠ ofInt 4 := ofInt_code_ne 3 4 (by decide)
  have hMM : M = M' := by omega
  subst hMM
  by_cases h1 : M = u
  · rw [if_pos h1]
    exact ⟨⟨fun _ => h1.symm, fun _ => rfl⟩, ⟨fun h => absurd h h12, fun h => absurd h1.symm h.1⟩,
      ⟨fun h => absurd h h13, fun h => absurd h1.symm h.1⟩,
      ⟨fun h => absurd h h14, fun h => absurd h1.symm h.1⟩⟩
  · rw [if_neg h1]
    have h1' : u ≠ M := fun h => h1 h.symm
    by_cases h2 : M = r
    · rw [if_pos h2]
      exact ⟨⟨fun h => absurd h h12.symm, fun h => absurd h h1'⟩,
        ⟨fun _ => ⟨h1', h2.symm⟩, fun _ => rfl⟩,
        ⟨fun h => absurd h h23, fun h => absurd h2.symm h.2.1⟩,
        ⟨fun h => absurd h h24, fun h => absurd h2.symm h.2.1⟩⟩
    · rw [if_neg h2]
      have h2' : r ≠ M := fun h => h2 h.symm
      by_cases h3 : M = l
      · rw [if_pos h3]
        exact ⟨⟨fun h => absurd h h13.symm, fun h => absurd h h1'⟩,
          ⟨fun h => absurd h h23.symm, fun h => absurd h.2 h2'⟩,
          ⟨fun _ => ⟨h1', h2', h3.symm⟩, fun _ => rfl⟩,
          ⟨fun h => absurd h h34, fun h => absurd h3.symm h.2.2.1⟩⟩
      · rw [if_neg h3]
        have h3' : l ≠ M := fun h => h3 h.symm
        have h4 : le = M := by omega
        exact ⟨⟨fun h => absurd h h14.symm, fun h => absurd h h1'⟩,
          ⟨fun h => absurd h h24.symm, fun h => absurd h.2 h2'⟩,
          ⟨fun h => absurd h h34.symm, fun h => absurd h.2.2 h3'⟩,
          ⟨fun _ => ⟨h1', h2', h3', h4⟩, fun _ => rfl⟩⟩

/-- C18 (the code at the failing input). On a uniform 5×5 source with the seed `(2,2)` all
four gradients are `0`; `smallest` is up and `secondSmallest` is down (3), not right (2). -/
theorem secondSmallest_tie_prefers_down :
    (gradients (constMat 5 5 ⟨128, 128, 128⟩) ⟨128, 128, 128⟩ 2 2).toOption =
      some ⟨0, 0, 0, 0⟩ ∧
    selectDirections ⟨0, 0, 0, 0⟩ = (ofInt 1, ofInt 3) := by
  decide

/-- C16 (counterexample to the claim as stated). In the 1×2 source every direction of the
seed `(0,0)` but the right one has the sentinel gradient, and the direction up, whose gradient
is the sentinel, is chosen as `secondSmallest`. -/
theorem sentinel_chosen_in_small_buffer :
    sentinelDir tinyMat 0 0 1 = true ∧
    ((gradients tinyMat (tinyMat.px 0 0) 0 0).toOption.map fun g => g.upperGrad) =
      some (ofInt 442) ∧
    ((gradients tinyMat (tinyMat.px 0 0) 0 0).toOption.map selectDirections) =
      some (ofInt 2, ofInt 1) := by
  decide

/-- C16 (as amended). For a seed inside the buffer with at least two directions whose
gradient is not set to the sentinel, the gradient computation succeeds and neither `smallest`
nor `secondSmallest` is a direction with the sentinel gradient. -/
theorem sentinel_not_chosen (o : Mat) (seed : Pixel) (randomR randomC : Int)
    (hr0 : 0 ≤ randomR) (hr : randomR < o.rows) (hc0 : 0 ≤ randomC) (hc : randomC < o.cols)
    (d1 d2 : Int) (h1 : 1 ≤ d1 ∧ d1 ≤ 4) (h2 : 1 ≤ d2 ∧ d2 ≤ 4) (hne : d1 ≠ d2)
    (hs1 : sentinelDir o randomR randomC d1 = false)
    (hs2 : sentinelDir o randomR randomC d2 = false) :
    ∃ (g : Gradients) (a b : Int), gradients o seed randomR randomC = .ok g ∧
      selectDirections g = (ofInt a, ofInt b) ∧ 1 ≤ a ∧ a ≤ 4 ∧ 1 ≤ b ∧ b ≤ 4 ∧ a ≠ b ∧
      sentinelDir o randomR randomC a = false ∧ g.of a < ofInt 442 ∧
      sentinelDir o randomR randomC b = false ∧ g.of b < ofInt 442 := by
  obtain ⟨g, hg, hsent, hreal⟩ := gradients_spec o seed randomR randomC hr0 hr hc0 hc
  obtain ⟨a, b, hsel, ha1, ha4, hb1, hb4, hab, hmin, hm1, hm2, hm3, hm4⟩ :=
    selectDirections_minimal g
  have hd1 := hreal d1 h1.1 h1.2 hs1
  have hd2 := hreal d2 h2.1 h2.2 hs2
  have hall : ∀ d, 1 ≤ d → d ≤ 4 → g.of a ≤ g.of d := by
    intro d hd hd'
    have : d = 1 ∨ d = 2 ∨ d = 3 ∨ d = 4 := by omega
    rcases this with rfl | rfl | rfl | rfl
    · exact hmin.1
    · exact hmin.2.1
    · exact hmin.2.2.1
    · exact hmin.2.2.2
  have hrest : ∀ d, 1 ≤ d → d ≤ 4 → d ≠ a → g.of b ≤ g.of d := by
    intro d hd hd' hda
    have : d = 1 ∨ d = 2 ∨ d = 3 ∨ d = 4 := by omega
    rcases this with rfl | rfl | rfl | rfl
    · exact hm1 (fun h => hda h.symm)
    · exact hm2 (fun h => hda h.symm)
    · exact hm3 (fun h => hda h.symm)
    · exact hm4 (fun h => hda h.symm)
  have hA : g.of a < ofInt 442 := lt_of_le_of_lt (hall d1 h1.1 h1.2) hd1
  have hB : g.of b < ofInt 442 := by
    by_cases h : d1 = a
    · exact lt_of_le_of_lt (hrest d2 h2.1 h2.2 (fun h' => hne (h.trans h'.symm))) hd2
    · exact lt_of_le_of_lt (hrest d1 h1.1 h1.2 h) hd1
  have hnot : ∀ d, 1 ≤ d → d ≤ 4 → g.of d < ofInt 442 →
      sentinelDir o randomR randomC d = false := by
    intro d hd hd' hlt
    by_contra hc'
    have ht : sentinelDir o randomR randomC d = true := by simpa using hc'
    have := hsent d hd hd' ht
    omega
  exact ⟨g, a, b, hg, hsel, ha1, ha4, hb1, hb4, hab, hnot a ha1 ha4 hA, hA,
    hnot b hb1 hb4 hB, hB⟩

theorem sentinel_not_chosen_witness :
    ∃ (g : Gradients) (a b : Int), gradients demoMat (demoMat.px 0 3) 0 3 = .ok g ∧
      selectDirections g = (ofInt a, ofInt b) ∧ 1 ≤ a ∧ a ≤ 4 ∧ 1 ≤ b ∧ b ≤ 4 ∧ a ≠ b ∧
      sentinelDir demoMat 0 3 a = false ∧ g.of a < ofInt 442 ∧
      sentinelDir demoMat 0 3 b = false ∧ g.of b < ofInt 442 :=
  sentinel_not_chosen demoMat (demoMat.px 0 3) 0 3 (by decide) (by decide) (by decide)
    (by decide) 2 3 (by decide) (by decide) (by decide) (by decide) (by decide)

/-! ## The walks -/

theorem closeTo_zero_or_one (seed p : Pixel) (strength : Int) :
    closeTo seed p strength = 0 ∨ closeTo seed p strength = 1 := by
  unfold closeTo isClose
  split_ifs
  · exact Or.inr rfl
  · exact Or.inl rfl

/-- The walks up and left.  `f x` is the source pixel at position `x` of the walk.  The walk
ends at `v`: the seed position itself when there is no room (`start ≤ 2`), otherwise a
position in `[2, start)`; every pixel strictly between `v` and the seed is close, and the
walk stopped at `v` because the pixel there is not close or because `v = 2`. -/
theorem walkBack_safe (fuel : Nat) (readAt : Int → Except Fault Pixel) (f : Int → Pixel)
    (seed : Pixel) (strength start : Int)
    (hread : ∀ x, 1 < x → x < start → readAt x = .ok (f x)) :
    Safe (fun v =>
        (start ≤ 2 → v = start) ∧ (2 < start → 2 ≤ v ∧ v < start) ∧
        (∀ x, v < x → x < start → closeTo seed (f x) strength ≠ 0) ∧
        (v < start → closeTo seed (f v) strength = 0 ∨
          (v = 2 ∧ closeTo seed (f v) strength ≠ 0)))
      (fuel < (start - 2).toNat)
      (walkBack fuel readAt seed strength start) := by
  unfold walkBack
  have hloop := whileLoop_safe
    (fun s : Int × Int => decide (s.1 ≠ 0 ∧ s.2 > 1))
    (fun s => (readAt s.2).bind fun p => .ok (closeTo seed p strength, s.2 - 1))
    (fun s => s.2 ≤ start - 1 ∧ (2 < start → 1 ≤ s.2) ∧ (start ≤ 2 → s.2 = start - 1) ∧
      (s.2 = start - 1 → s.1 ≠ 0) ∧
      (∀ y, s.2 + 1 < y → y < start → closeTo seed (f y) strength ≠ 0) ∧
      (s.1 ≠ 0 → s.2 + 1 < start → closeTo seed (f (s.2 + 1)) strength ≠ 0) ∧
      (s.1 = 0 → s.2 + 1 < start ∧ closeTo seed (f (s.2 + 1)) strength = 0))
    (fun s => (s.2 - 1).toNat) False
    (by
      rintro ⟨cl, x⟩ ⟨h1, h2, h3, h4, h5, h6, h7⟩ hc
      simp only [decide_eq_true_eq] at hc
      simp only at h1 h2 h3 h4 h5 h6 h7 hc
      simp only
      rw [hread x hc.2 (by omega)]
      refine Safe.ok ⟨⟨by omega, fun _ => by omega, fun _ => by omega, fun _ => by omega,
        ?_, ?_, ?_⟩, by omega⟩
      · intro y hy1 hy2
        by_cases hy : y = x + 1
        · subst hy; exact h6 hc.1 hy2
        · exact h5 y (by omega) hy2
      · intro hcl _
        rw [show x - 1 + 1 = x by ring]
        exact hcl
      · intro hcl
        rw [show x - 1 + 1 = x by ring]
        exact ⟨by omega, hcl⟩)
    fuel (1, start - 1)
    ⟨le_refl _, fun _ => by omega, fun _ => rfl, fun _ => one_ne_zero,
      fun y h1 h2 => by omega, fun _ h => by simp only at h; omega,
      fun h => absurd h one_ne_zero⟩
  refine Safe.bind (hloop.mono (fun _ h => h) (fun h => ?_)) ?_
  · rcases h with h | h
    · exact absurd h id
    · simpa [show start - 1 - 1 = start - 2 by ring] using h
  · rintro ⟨cl, x⟩ ⟨⟨h1, h2, h3, h4, h5, h6, h7⟩, hc⟩
    simp only [decide_eq_false_iff_not, not_and_or, not_not, not_lt] at hc
    simp only at h1 h2 h3 h4 h5 h6 h7 hc
    refine Safe.ok ⟨fun hs => by have := h3 hs; omega, fun hs => ?_, ?_, ?_⟩
    · refine ⟨by have := h2 hs; omega, ?_⟩
      by_contra hcon
      have hx : x = start - 1 := by omega
      have := h4 hx
      rcases hc with hc | hc
      · exact this hc
      · omega
    · intro y hy1 hy2
      exact h5 y hy1 hy2
    · intro hv
      by_cases hcl : cl = 0
      · exact Or.inl (h7 hcl).2
      · right
        have hx1 : x ≤ 1 := by
          rcases hc with hc | hc
          · exact absurd hc hcl
          · omega
        have hs : 2 < start := by omega
        have := h2 hs
        exact ⟨by omega, h6 hcl (by omega)⟩

/-- The walks right and down, with `limit` the number of columns or rows.  The walk ends at
`v`: the seed position itself when there is no room (`limit ≤ start + 2`), otherwise a
position in `(start, limit - 2]`; every pixel strictly between the seed and `v` is close, and
the walk stopped at `v` because the pixel there is not close or because `v = limit - 2`. -/
theorem walkForth_safe (fuel : Nat) (readAt : Int → Except Fault Pixel) (f : Int → Pixel)
    (seed : Pixel) (strength start limit : Int)
    (hread : ∀ x, start < x → x + 1 < limit → readAt x = .ok (f x)) :
    Safe (fun v =>
        (limit ≤ start + 2 → v = start) ∧ (start + 2 < limit → start < v ∧ v ≤ limit - 2) ∧
        (∀ x, start < x → x < v → closeTo seed (f x) strength ≠ 0) ∧
        (start < v → closeTo seed (f v) strength = 0 ∨
          (v = limit - 2 ∧ closeTo seed (f v) strength ≠ 0)))
      (fuel < (limit - 2 - start).toNat)
      (walkForth fuel readAt seed strength start limit) := by
  unfold walkForth
  have hloop := whileLoop_safe
    (fun s : Int × Int => decide (s.1 ≠ 0 ∧ s.2 + 1 < limit))
    (fun s => (readAt s.2).bind fun p => .ok (closeTo seed p strength, s.2 + 1))
    (fun s => start + 1 ≤ s.2 ∧ (start + 2 < limit → s.2 ≤ limit - 1) ∧
      (limit ≤ start + 2 → s.2 = start + 1) ∧
      (s.2 = start + 1 → s.1 ≠ 0) ∧
      (∀ y, start < y → y < s.2 - 1 → closeTo seed (f y) strength ≠ 0) ∧
      (s.1 ≠ 0 → start < s.2 - 1 → closeTo seed (f (s.2 - 1)) strength ≠ 0) ∧
      (s.1 = 0 → start < s.2 - 1 ∧ closeTo seed (f (s.2 - 1)) strength = 0))
    (fun s => (limit - 1 - s.2).toNat) False
    (by
      rintro ⟨cl, x⟩ ⟨h1, h2, h3, h4, h5, h6, h7⟩ hc
      simp only [decide_eq_true_eq] at hc
      simp only at h1 h2 h3 h4 h5 h6 h7 hc
      simp only
      rw [hread x (by omega) hc.2]
      refine Safe.ok ⟨⟨by omega, fun _ => by omega, fun _ => by omega, fun _ => by omega,
        ?_, ?_, ?_⟩, by omega⟩
      · intro y hy1 hy2
        by_cases hy : y = x - 1
        · subst hy; exact h6 hc.1 hy1
        · exact h5 y hy1 (by omega)
      · intro hcl _
        rw [show x + 1 - 1 = x by ring]
        exact hcl
      · intro hcl
        rw [show x + 1 - 1 = x by ring]
        exact ⟨by omega, hcl⟩)
    fuel (1, start + 1)
    ⟨le_refl _, fun _ => by omega, fun _ => rfl, fun _ => one_ne_zero,
      fun y h1 h2 => by simp only at h2; omega, fun _ h => by simp only at h; omega,
      fun h => absurd h one_ne_zero⟩
  refine Safe.bind (hloop.mono (fun _ h => h) (fun h => ?_)) ?_
  · rcases h with h | h
    · exact absurd h id
    · simpa [show limit - 1 - (start + 1) = limit - 2 - start by ring] using h
  · rintro ⟨cl, x⟩ ⟨⟨h1, h2, h3, h4, h5, h6, h7⟩, hc⟩
    simp only [decide_eq_false_iff_not, not_and_or, not_not, not_lt] at hc
    simp only at h1 h2 h3 h4 h5 h6 h7 hc
    refine Safe.ok ⟨fun hs => by have := h3 hs; omega, fun hs => ?_, ?_, ?_⟩
    · refine ⟨?_, by have := h2 hs; omega⟩
      by_contra hcon
      have hx : x = start + 1 := by omega
      have := h4 hx
      rcases hc with hc | hc
      · exact this hc
      · omega
    · intro y hy1 hy2
      exact h5 y hy1 hy2
    · intro hv
      by_cases hcl : cl = 0
      · exact Or.inl (h7 hcl).2
      · right
        have hx1 : limit ≤ x + 1 := by
          rcases hc with hc | hc
          · exact absurd hc hcl
          · omega
        have hs : start + 2 < limit := by omega
        have := h2 hs
        exact ⟨by omega, h6 hcl (by omega)⟩

theorem closeTo_ne_zero_iff (seed p : Pixel) (strength : Int) (h0 : 0 ≤ strength)
    (h : strength < 2 ^ 32) : closeTo seed p strength ≠ 0 ↔ Near seed p strength := by
  obtain ⟨s, rfl⟩ := Int.eq_ofNat_of_zero_le h0
  have hs : s < 2 ^ 32 := by exact_mod_cast h
  rw [closeTo_eq seed p s hs]
  unfold Near
  by_cases hc : sqDist seed p < s * s
  · rw [if_pos hc]
    exact ⟨fun _ => by exact_mod_cast hc, fun _ => one_ne_zero⟩
  · rw [if_neg hc]
    exact ⟨fun h => absurd rfl h, fun h => absurd (by exact_mod_cast h) hc⟩

theorem strengthOf_range (count : Int) :
    0 ≤ strengthOf count ∧ strengthOf count < 2 ^ 32 := by
  have := strengthOf_pos count
  exact ⟨by omega, by omega⟩

/-- The walk up or left along a line of source pixels `f`, in terms of the exact distance. -/
theorem walkBack_near (fuel : Nat) (readAt : Int → Except Fault Pixel) (f : Int → Pixel)
    (seed : Pixel) (count start : Int)
    (hread : ∀ x, 1 < x → x < start → readAt x = .ok (f x))
    (hstart : 2 ≤ start) (hfuel : start ≤ fuel) :
    ∃ v, walkBack fuel readAt seed (strengthOf count) start = .ok v ∧ 2 ≤ v ∧ v ≤ start ∧
      (∀ x, v < x → x < start → Near seed (f x) (strengthOf count)) ∧
      (∀ x, 2 ≤ x → x < start → ¬ Near seed (f x) (strengthOf count) →
        (∀ y, x < y → y < start → Near seed (f y) (strengthOf count)) → v = x) := by
  obtain ⟨h0, h32⟩ := strengthOf_range count
  obtain ⟨v, hv, h1, h2, h3, h4⟩ :=
    (walkBack_safe fuel readAt f seed (strengthOf count) start hread).returns (by omega)
  refine ⟨v, hv, by omega, by omega, ?_, ?_⟩
  · intro x hx1 hx2
    exact (closeTo_ne_zero_iff seed (f x) _ h0 h32).1 (h3 x hx1 hx2)
  · intro x hx1 hx2 hfar hbetween
    by_contra hne
    rcases lt_or_gt_of_ne hne with hlt | hgt
    · exact hfar ((closeTo_ne_zero_iff seed (f x) _ h0 h32).1 (h3 x hlt hx2))
    · have hvs : v < start := by omega
      rcases h4 hvs with h5 | ⟨h5, _⟩
      · exact (closeTo_ne_zero_iff seed (f v) _ h0 h32).2 (hbetween v hgt hvs) h5
      · omega

/-- The walk right or down along a line of source pixels `f`, in terms of the exact
distance. -/
theorem walkForth_near (fuel : Nat) (readAt : Int → Except Fault Pixel) (f : Int → Pixel)
    (seed : Pixel) (count start limit : Int)
    (hread : ∀ x, start < x → x + 1 < limit → readAt x = .ok (f x))
    (hstart : start + 2 ≤ limit) (h0 : 0 ≤ start) (hfuel : limit ≤ fuel) :
    ∃ v, walkForth fuel readAt seed (strengthOf count) start limit = .ok v ∧ start ≤ v ∧
      v ≤ limit - 2 ∧
      (∀ x, start < x → x < v → Near seed (f x) (strengthOf count)) ∧
      (∀ x, start < x → x ≤ limit - 2 → ¬ Near seed (f x) (strengthOf count) →
        (∀ y, start < y → y < x → Near seed (f y) (strengthOf count)) → v = x) := by
  obtain ⟨hs0, h32⟩ := strengthOf_range count
  obtain ⟨v, hv, h1, h2, h3, h4⟩ :=
    (walkForth_safe fuel readAt f seed (strengthOf count) start limit hread).returns (by omega)
  refine ⟨v, hv, by omega, by omega, ?_, ?_⟩
  · intro x hx1 hx2
    exact (closeTo_ne_zero_iff seed (f x) _ hs0 h32).1 (h3 x hx1 hx2)
  · intro x hx1 hx2 hfar hbetween
    by_contra hne
    rcases lt_or_gt_of_ne hne with hlt | hgt
    · have hvs : start < v := by omega
      rcases h4 hvs with h5 | ⟨h5, _⟩
      · exact (closeTo_ne_zero_iff seed (f v) _ hs0 h32).2 (hbetween v hvs hlt) h5
      · omega
    · exact hfar ((closeTo_ne_zero_iff seed (f x) _ hs0 h32).1 (h3 x hx1 hgt))

/-- C20. The walks of `approximate`.  For a seed inside the buffer and each direction whose
gradient is not set to the sentinel, the walk in that direction returns a vertex `v` on the
seed's column (up, down) or row (right, left), on that direction's side of the seed (possibly
the seed position itself); every source pixel strictly between the seed and the vertex has a
distance to the seed colour below the strength; and if a pixel within the reach of the walk is
not close while all pixels before it are, the vertex is that pixel. -/
theorem walk_vertices (o : Mat) (count randomR randomC : Int) (fuel : Nat)
    (hr0 : 0 ≤ randomR) (hr : randomR < o.rows) (hc0 : 0 ≤ randomC) (hc : randomC < o.cols)
    (hfuel : o.rows + o.cols ≤ fuel) :
    (sentinelDir o randomR randomC 1 = false →
      ∃ v, walkUp fuel o (o.px randomR.toNat randomC.toNat) (strengthOf count) randomR randomC =
          .ok v ∧ 2 ≤ v ∧ v ≤ randomR ∧
        (∀ r, v < r → r < randomR →
          Near (o.px randomR.toNat randomC.toNat) (o.px r.toNat randomC.toNat)
            (strengthOf count)) ∧
        (∀ r, 2 ≤ r → r < randomR →
          ¬ Near (o.px randomR.toNat randomC.toNat) (o.px r.toNat randomC.toNat)
            (strengthOf count) →
          (∀ y, r < y → y < randomR →
            Near (o.px randomR.toNat randomC.toNat) (o.px y.toNat randomC.toNat)
              (strengthOf count)) → v = r)) ∧
    (sentinelDir o randomR randomC 2 = false →
      ∃ v, walkRight fuel o (o.px randomR.toNat randomC.toNat) (strengthOf count) randomR
          randomC = .ok v ∧ randomC ≤ v ∧ v ≤ o.cols - 2 ∧
        (∀ c, randomC < c → c < v →
          Near (o.px randomR.toNat randomC.toNat) (o.px randomR.toNat c.toNat)
            (strengthOf count)) ∧
        (∀ c, randomC < c → c ≤ o.cols - 2 →
          ¬ Near (o.px randomR.toNat randomC.toNat) (o.px randomR.toNat c.toNat)
            (strengthOf count) →
          (∀ y, randomC < y → y < c →
            Near (o.px randomR.toNat randomC.toNat) (o.px randomR.toNat y.toNat)
              (strengthOf count)) → v = c)) ∧
    (sentinelDir o randomR randomC 3 = false →
      ∃ v, walkDown fuel o (o.px randomR.toNat randomC.toNat) (strengthOf count) randomR
          randomC = .ok v ∧ randomR ≤ v ∧ v ≤ o.rows - 2 ∧
        (∀ r, randomR < r → r < v →
          Near (o.px randomR.toNat randomC.toNat) (o.px r.toNat randomC.toNat)
            (strengthOf count)) ∧
        (∀ r, randomR < r → r ≤ o.rows - 2 →
          ¬ Near (o.px randomR.toNat randomC.toNat) (o.px r.toNat randomC.toNat)
            (strengthOf count) →
          (∀ y, randomR < y → y < r →
            Near (o.px randomR.toNat randomC.toNat) (o.px y.toNat randomC.toNat)
              (strengthOf count)) → v = r)) ∧
    (sentinelDir o randomR randomC 4 = false →
      ∃ v, walkLeft fuel o (o.px randomR.toNat randomC.toNat) (strengthOf count) randomR
          randomC = .ok v ∧ 2 ≤ v ∧ v ≤ randomC ∧
        (∀ c, v < c → c < randomC →
          Near (o.px randomR.toNat randomC.toNat) (o.px randomR.toNat c.toNat)
            (strengthOf count)) ∧
        (∀ c, 2 ≤ c → c < randomC →
          ¬ Near (o.px randomR.toNat randomC.toNat) (o.px randomR.toNat c.toNat)
            (strengthOf count) →
          (∀ y, c < y → y < randomC →
            Near (o.px randomR.toNat randomC.toNat) (o.px randomR.toNat y.toNat)
              (strengthOf count)) → v = c)) := by
  refine ⟨fun hs => ?_, fun hs => ?_, fun hs => ?_, fun hs => ?_⟩
  · have hs' : ¬ randomR - 2 < 0 := by simpa [sentinelDir] using hs
    exact walkBack_near fuel (fun r => o.atChecked r randomC)
      (fun r => o.px r.toNat randomC.toNat) _ count randomR
      (fun x h1 h2 => atChecked_ok o x randomC (by omega) (by omega) hc0 hc)
      (by omega) (by omega)
  · have hs' : ¬ randomC + 2 > o.cols := by simpa [sentinelDir] using hs
    exact walkForth_near fuel (fun c => o.atChecked randomR c)
      (fun c => o.px randomR.toNat c.toNat) _ count randomC o.cols
      (fun x h1 h2 => atChecked_ok o randomR x hr0 hr (by omega) (by omega))
      (by omega) hc0 (by omega)
  · have hs' : ¬ randomR + 2 > o.rows := by simpa [sentinelDir] using hs
    exact walkForth_near fuel (fun r => o.atChecked r randomC)
      (fun r => o.px r.toNat randomC.toNat) _ count randomR o.rows
      (fun x h1 h2 => atChecked_ok o x randomC (by omega) (by omega) hc0 hc)
      (by omega) hr0 (by omega)
  · have hs' : ¬ randomC - 2 < 0 := by simpa [sentinelDir] using hs
    exact walkBack_near fuel (fun c => o.atChecked randomR c)
      (fun c => o.px randomR.toNat c.toNat) _ count randomC
      (fun x h1 h2 => atChecked_ok o randomR x hr0 hr (by omega) (by omega))
      (by omega) (by omega)

theorem walk_vertices_witness :
    (0 : Int) ≤ 3 ∧ (3 : Int) < demoMat.rows ∧ (3 : Int) < demoMat.cols ∧
      demoMat.rows + demoMat.cols ≤ 13 ∧ sentinelDir demoMat 3 3 2 = false ∧
      ∃ v, walkRight 13 demoMat (demoMat.px (3 : Int).toNat (3 : Int).toNat) (strengthOf 0) 3 3 =
          .ok v ∧ v = 5 := by
  refine ⟨by decide, by decide, by decide, by decide, by decide, ?_⟩
  obtain ⟨v, hv, _, _, _, h⟩ :=
    (walk_vertices demoMat 0 3 3 13 (by decide) (by decide) (by decide) (by decide)
      (by decide)).2.1 (by decide)
  exact ⟨v, hv, h 5 (by decide) (by decide) (by decide) (by
    intro y h1 h2
    have : y = 4 := by omega
    subst this
    decide)⟩

/-! ## Drawing -/

theorem setChecked_safe (m : Mat) (R C : Nat) (r c : Int) (p : Pixel)
    (hd : m.rows = R ∧ m.cols = C) (hr0 : 0 ≤ r) (hr : r < R) (hc0 : 0 ≤ c) (hc : c < C) :
    ∃ m', m.setChecked r c p = .ok m' ∧ m'.rows = R ∧ m'.cols = C := by
  refine ⟨m.set r.toNat c.toNat p, ?_, ?_, ?_⟩
  · exact setChecked_ok m r c p hr0 (by rw [hd.1]; exact hr) hc0 (by rw [hd.2]; exact hc)
  · rw [Mat.set_rows]; exact hd.1
  · rw [Mat.set_cols]; exact hd.2

/-- A straight segment whose positions can all be written keeps the size of the buffer. -/
theorem drawSegment_safe (fuel : Nat) (writeAt : Mat → Int → Except Fault Mat) (R C : Nat)
    (lo stop : Int) (modified : Mat) (hd : modified.rows = R ∧ modified.cols = C)
    (hwrite : ∀ (m : Mat) (x : Int), m.rows = R ∧ m.cols = C → lo ≤ x → x ≤ stop →
      ∃ m', writeAt m x = .ok m' ∧ m'.rows = R ∧ m'.cols = C) :
    Safe (fun m => m.rows = R ∧ m.cols = C) (fuel < (stop + 1 - lo).toNat)
      (drawSegment fuel writeAt lo stop modified) := by
  unfold drawSegment
  have hloop := whileLoop_safe
    (fun s : Int × Mat => decide (s.1 ≤ stop))
    (fun s => (writeAt s.2 s.1).bind fun m => .ok (s.1 + 1, m))
    (fun s => lo ≤ s.1 ∧ s.2.rows = R ∧ s.2.cols = C)
    (fun s => (stop + 1 - s.1).toNat) False
    (by
      rintro ⟨x, m⟩ ⟨h1, h2⟩ hc
      simp only [decide_eq_true_eq] at hc
      simp only at h1 h2 hc
      obtain ⟨m', hm', hd'⟩ := hwrite m x h2 h1 hc
      simp only
      rw [hm']
      exact Safe.ok ⟨⟨by omega, hd'⟩, by omega⟩)
    fuel (lo, modified) ⟨le_refl _, hd⟩
  refine Safe.bind (hloop.mono (fun _ h => h) (fun h => ?_)) ?_
  · rcases h with h | h
    · exact absurd h id
    · exact h
  · rintro ⟨x, m⟩ ⟨⟨_, h2⟩, _⟩
    exact Safe.ok h2

/-- One scanline whose candidate columns lie inside the buffer keeps the size of the
destination. -/
theorem fillLine_safe (fuel : Nat) (o : Mat) (seed : Pixel) (strength : Int) (right : Bool)
    (randomC eachLine r : Int) (modified : Mat) (R C : Nat)
    (ho : o.rows = R ∧ o.cols = C) (hd : modified.rows = R ∧ modified.cols = C)
    (hr0 : 0 ≤ r) (hr : r < R) (hc0 : 0 ≤ randomC) (hc : randomC < C)
    (hright : right = true → randomC + eachLine < C)
    (hleft : right = false → 0 ≤ randomC - eachLine) :
    Safe (fun m => m.rows = R ∧ m.cols = C) (fuel < (eachLine + 1).toNat)
      (fillLine fuel o seed strength right randomC eachLine r modified) := by
  unfold fillLine
  have hloop := whileLoop_safe
    (fun s : Int × Mat =>
      if right then decide (s.1 ≤ randomC + eachLine) else decide (s.1 ≥ randomC - eachLine))
    (fun s => (o.atChecked r s.1).bind fun p =>
      (if closeTo seed p strength ≠ 0 then s.2.setChecked r s.1 (paint seed)
        else .ok s.2).bind fun m =>
      .ok (if right then s.1 + 1 else s.1 - 1, m))
    (fun s => (right = true → randomC ≤ s.1) ∧ (right = false → s.1 ≤ randomC) ∧
      s.2.rows = R ∧ s.2.cols = C)
    (fun s => if right then (randomC + eachLine + 1 - s.1).toNat
      else (s.1 - (randomC - eachLine) + 1).toNat) False
    (by
      rintro ⟨x, m⟩ ⟨h1, h2, h3⟩ hc'
      simp only at h1 h2 h3 hc'
      have hx : 0 ≤ x ∧ x < C := by
        cases right with
        | true =>
          simp only [if_true, decide_eq_true_eq] at hc'
          have := h1 rfl; have := hright rfl; omega
        | false =>
          simp only [Bool.false_eq_true, if_false, decide_eq_true_eq] at hc'
          have := h2 rfl; have := hleft rfl; omega
      simp only
      rw [atChecked_ok o r x hr0 (by rw [ho.1]; exact hr) hx.1 (by rw [ho.2]; exact hx.2)]
      have hw : ∃ m', (if closeTo seed (o.px r.toNat x.toNat) strength ≠ 0
          then m.setChecked r x (paint seed) else .ok m) = .ok m' ∧
          m'.rows = R ∧ m'.cols = C := by
        by_cases hcl : closeTo seed (o.px r.toNat x.toNat) strength ≠ 0
        · rw [if_pos hcl]
          exact setChecked_safe m R C r x _ h3 hr0 hr hx.1 hx.2
        · rw [if_neg hcl]
          exact ⟨m, rfl, h3⟩
      obtain ⟨m', hm', hd'⟩ := hw
      rw [show ((Except.ok (o.px r.toNat x.toNat) : Except Fault Pixel).bind fun p =>
          (if closeTo seed p strength ≠ 0 then m.setChecked r x (paint seed)
            else .ok m).bind fun m => .ok (if right then x + 1 else x - 1, m)) =
          ((if closeTo seed (o.px r.toNat x.toNat) strength ≠ 0
            then m.setChecked r x (paint seed) else .ok m).bind fun m =>
            .ok (if right then x + 1 else x - 1, m)) from rfl, hm']
      cases right with
      | true =>
        simp only [if_true, decide_eq_true_eq] at hc'
        refine Safe.ok ⟨⟨fun _ => ?_, fun h => absurd h (by decide), hd'⟩, ?_⟩
        · have := h1 rfl; simp only [if_true]; omega
        · simp only [if_true]; omega
      | false =>
        simp only [Bool.false_eq_true, if_false, decide_eq_true_eq] at hc'
        refine Safe.ok ⟨⟨fun h => absurd h (by decide), fun _ => ?_, hd'⟩, ?_⟩
        · have := h2 rfl; simp only [Bool.false_eq_true, if_false]; omega
        · simp only [Bool.false_eq_true, if_false]; omega)
    fuel (randomC, modified) ⟨fun _ => le_refl _, fun _ => le_refl _, hd⟩
  refine Safe.bind (hloop.mono (fun _ h => h) (fun h => ?_)) ?_
  · rcases h with h | h
    · exact absurd h id
    · cases right with
      | true =>
        simp only [if_true] at h
        rw [show randomC + eachLine + 1 - randomC = eachLine + 1 by ring] at h
        exact h
      | false =>
        simp only [Bool.false_eq_true, if_false] at h
        rw [show randomC - (randomC - eachLine) + 1 = eachLine + 1 by ring] at h
        exact h
  · rintro ⟨x, m⟩ ⟨⟨_, _, h3⟩, _⟩
    exact Safe.ok h3

/-- A triangle whose rows and widest scanline lie inside the buffer keeps the size of the
destination. -/
theorem fillTriangle_safe (fuel : Nat) (o : Mat) (seed : Pixel) (strength : Int)
    (up right : Bool) (randomR randomC vertDistance horzDistance subPerLine : Int)
    (modified : Mat) (R C : Nat)
    (ho : o.rows = R ∧ o.cols = C) (hd : modified.rows = R ∧ modified.cols = C)
    (hr0 : 0 ≤ randomR) (hr : randomR < R) (hc0 : 0 ≤ randomC) (hc : randomC < C)
    (hsub : 0 ≤ subPerLine)
    (hup : up = true → 0 ≤ randomR - vertDistance)
    (hdown : up = false → randomR + vertDistance < R)
    (hright : right = true → randomC + horzDistance < C)
    (hleft : right = false → 0 ≤ randomC - horzDistance) :
    Safe (fun m => m.rows = R ∧ m.cols = C)
      (fuel < (horzDistance + 1).toNat ∨ fuel < (vertDistance + 1).toNat)
      (fillTriangle fuel o seed strength up right randomR randomC vertDistance horzDistance
        subPerLine modified) := by
  unfold fillTriangle
  have hloop := whileLoop_safe
    (fun s : Int × Int × Mat =>
      if up then decide (s.1 ≥ randomR - vertDistance)
      else decide (s.1 ≤ randomR + vertDistance))
    (fun s => (fillLine fuel o seed strength right randomC s.2.1 s.1 s.2.2).bind fun m =>
      .ok (if up then s.1 - 1 else s.1 + 1, s.2.1 - subPerLine, m))
    (fun s => (up = true → s.1 ≤ randomR) ∧ (up = false → randomR ≤ s.1) ∧
      s.2.1 ≤ horzDistance ∧ s.2.2.rows = R ∧ s.2.2.cols = C)
    (fun s => if up then (s.1 - (randomR - vertDistance) + 1).toNat
      else (randomR + vertDistance + 1 - s.1).toNat)
    (fuel < (horzDistance + 1).toNat)
    (by
      rintro ⟨r, eachLine, m⟩ ⟨h1, h2, h3, h4⟩ hc'
      simp only at h1 h2 h3 h4 hc'
      have hrow : 0 ≤ r ∧ r < R := by
        cases up with
        | true =>
          simp only [if_true, decide_eq_true_eq] at hc'
          have := h1 rfl; have := hup rfl; omega
        | false =>
          simp only [Bool.false_eq_true, if_false, decide_eq_true_eq] at hc'
          have := h2 rfl; have := hdown rfl; omega
      have hline := fillLine_safe fuel o seed strength right randomC eachLine r m R C ho h4
        hrow.1 hrow.2 hc0 hc (fun h => by have := hright h; omega)
        (fun h => by have := hleft h; omega)
      simp only
      refine Safe.bind (hline.mono (fun _ h => h) (fun h => by omega)) ?_
      intro m' hm'
      cases up with
      | true =>
        simp only [if_true, decide_eq_true_eq] at hc'
        refine Safe.ok ⟨⟨fun _ => ?_, fun h => absurd h (by decide), by simp only; omega, hm'⟩,
          ?_⟩
        · have := h1 rfl; simp only [if_true]; omega
        · simp only [if_true]; omega
      | false =>
        simp only [Bool.false_eq_true, if_false, decide_eq_true_eq] at hc'
        refine Safe.ok ⟨⟨fun h => absurd h (by decide), fun _ => ?_, by simp only; omega, hm'⟩,
          ?_⟩
        · have := h2 rfl; simp only [Bool.false_eq_true, if_false]; omega
        · simp only [Bool.false_eq_true, if_false]; omega)
    fuel (randomR, horzDistance, modified)
    ⟨fun _ => le_refl _, fun _ => le_refl _, le_refl _, hd⟩
  refine Safe.bind (hloop.mono (fun _ h => h) (fun h => ?_)) ?_
  · rcases h with h | h
    · exact Or.inl h
    · right
      cases up with
      | true =>
        simp only [if_true] at h
        rw [show randomR - (randomR - vertDistance) + 1 = vertDistance + 1 by ring] at h
        exact h
      | false =>
        simp only [Bool.false_eq_true, if_false] at h
        rw [show randomR + vertDistance + 1 - randomR = vertDistance + 1 by ring] at h
        exact h
  · rintro ⟨r, eachLine, m⟩ ⟨⟨_, _, _, h4⟩, _⟩
    exact Safe.ok h4

/-! ## One iteration -/

theorem walkUp_bounds (fuel : Nat) (o : Mat) (seed : Pixel) (strength randomR randomC : Int)
    (R C : Nat) (ho : o.rows = R ∧ o.cols = C)
    (hr0 : 0 ≤ randomR) (hr : randomR < R) (hc0 : 0 ≤ randomC) (hc : randomC < C) :
    Safe (fun v => 0 ≤ v ∧ v ≤ randomR) (fuel < R + C)
      (walkUp fuel o seed strength randomR randomC) := by
  refine (walkBack_safe fuel (fun r => o.atChecked r randomC)
    (fun r => o.px r.toNat randomC.toNat) seed strength randomR
    (fun x h1 h2 => atChecked_ok o x randomC (by omega) (by rw [ho.1]; omega) hc0
      (by rw [ho.2]; omega))).mono ?_ (fun h => by omega)
  rintro v ⟨h1, h2, _, _⟩
  omega

theorem walkLeft_bounds (fuel : Nat) (o : Mat) (seed : Pixel) (strength randomR randomC : Int)
    (R C : Nat) (ho : o.rows = R ∧ o.cols = C)
    (hr0 : 0 ≤ randomR) (hr : randomR < R) (hc0 : 0 ≤ randomC) (hc : randomC < C) :
    Safe (fun v => 0 ≤ v ∧ v ≤ randomC) (fuel < R + C)
      (walkLeft fuel o seed strength randomR randomC) := by
  refine (walkBack_safe fuel (fun c => o.atChecked randomR c)
    (fun c => o.px randomR.toNat c.toNat) seed strength randomC
    (fun x h1 h2 => atChecked_ok o randomR x hr0 (by rw [ho.1]; omega) (by omega)
      (by rw [ho.2]; omega))).mono ?_ (fun h => by omega)
  rintro v ⟨h1, h2, _, _⟩
  omega

theorem walkRight_bounds (fuel : Nat) (o : Mat) (seed : Pixel) (strength randomR randomC : Int)
    (R C : Nat) (ho : o.rows = R ∧ o.cols = C)
    (hr0 : 0 ≤ randomR) (hr : randomR < R) (hc0 : 0 ≤ randomC) (hc : randomC < C) :
    Safe (fun v => randomC ≤ v ∧ v < C) (fuel < R + C)
      (walkRight fuel o seed strength randomR randomC) := by
  refine (walkForth_safe fuel (fun c => o.atChecked randomR c)
    (fun c => o.px randomR.toNat c.toNat) seed strength randomC o.cols
    (fun x h1 h2 => atChecked_ok o randomR x hr0 (by rw [ho.1]; omega) (by omega)
      (by omega))).mono ?_ (fun h => by rw [ho.2] at h; omega)
  rintro v ⟨h1, h2, _, _⟩
  rw [ho.2] at h1 h2
  omega

theorem walkDown_bounds (fuel : Nat) (o : Mat) (seed : Pixel) (strength randomR randomC : Int)
    (R C : Nat) (ho : o.rows = R ∧ o.cols = C)
    (hr0 : 0 ≤ randomR) (hr : randomR < R) (hc0 : 0 ≤ randomC) (hc : randomC < C) :
    Safe (fun v => randomR ≤ v ∧ v < R) (fuel < R + C)
      (walkDown fuel o seed strength randomR randomC) := by
  refine (walkForth_safe fuel (fun r => o.atChecked r randomC)
    (fun r => o.px r.toNat randomC.toNat) seed strength randomR o.rows
    (fun x h1 h2 => atChecked_ok o x randomC (by omega) (by omega) hc0
      (by rw [ho.2]; omega))).mono ?_ (fun h => by rw [ho.1] at h; omega)
  rintro v ⟨h1, h2, _, _⟩
  rw [ho.1] at h1 h2
  omega

theorem bind_ok {α β : Type} (a : α) (f : α → Except Fault β) :
    (Except.ok a : Except Fault α).bind f = f a := rfl

theorem bind_bind {α β γ : Type} (x : Except Fault α) (f : α → Except Fault β)
    (g : β → Except Fault γ) : (x.bind f).bind g = x.bind (fun a => (f a).bind g) := by
  cases x <;> rfl

/-- The two walks of an iteration stay inside the buffer and store, for `smallest` and for
`secondSmallest`, a vertex on that direction's side of the seed. -/
theorem findPoints_safe (fuel : Nat) (o : Mat) (seed : Pixel) (strength randomR randomC : Int)
    (R C : Nat) (ho : o.rows = R ∧ o.cols = C)
    (hr0 : 0 ≤ randomR) (hr : randomR < R) (hc0 : 0 ≤ randomC) (hc : randomC < C)
    (a b : Int) (ha1 : 1 ≤ a) (ha4 : a ≤ 4) (hb1 : 1 ≤ b) (hb4 : b ≤ 4) (hab : a ≠ b) :
    Safe (fun pts => VertexOk R C randomR randomC a pts.pt1Row pts.pt1Col ∧
        VertexOk R C randomR randomC b pts.pt2Row pts.pt2Col) (fuel < R + C)
      (findPoints fuel o seed strength randomR randomC (ofInt a) (ofInt b)) := by
  have hU := walkUp_bounds fuel o seed strength randomR randomC R C ho hr0 hr hc0 hc
  have hR := walkRight_bounds fuel o seed strength randomR randomC R C ho hr0 hr hc0 hc
  have hD := walkDown_bounds fuel o seed strength randomR randomC R C ho hr0 hr hc0 hc
  have hL := walkLeft_bounds fuel o seed strength randomR randomC R C ho hr0 hr hc0 hc
  have ha : a = 1 ∨ a = 2 ∨ a = 3 ∨ a = 4 := by omega
  have hb : b = 1 ∨ b = 2 ∨ b = 3 ∨ b = 4 := by omega
  rcases ha with rfl | rfl | rfl | rfl <;> rcases hb with rfl | rfl | rfl | rfl <;>
    first
    | exact absurd rfl hab
    | (unfold findPoints storePoint
       simp only [ofInt_inj]
       norm_num
       simp only [bind_ok, bind_bind]
       refine Safe.bind (by first | exact hU | exact hR | exact hD) (fun v hv => ?_)
       refine Safe.bind (by first | exact hU | exact hR | exact hD | exact hL) (fun w hw => ?_)
       refine Safe.ok ?_
       norm_num [VertexOk]
       omega)

theorem vertDistanceOf_eq (randomR : Int) (pts : Points)
    (h : pts.pt1Row = randomR ∨ pts.pt2Row = randomR) :
    vertDistanceOf randomR pts = |pts.pt1Row - randomR| + |pts.pt2Row - randomR| := by
  unfold vertDistanceOf
  rcases h with h | h
  · rw [h, sub_self, abs_zero, zero_add]
    split_ifs with h0
    · exact h0.symm
    · rfl
  · rw [h, sub_self, abs_zero, add_zero, if_pos rfl]

theorem horzDistanceOf_eq (randomC : Int) (pts : Points)
    (h : pts.pt1Col = randomC ∨ pts.pt2Col = randomC) :
    horzDistanceOf randomC pts =
      if |pts.pt1Col - randomC| + |pts.pt2Col - randomC| = 0 then 1
      else |pts.pt1Col - randomC| + |pts.pt2Col - randomC| := by
  have e : (if |pts.pt2Col - randomC| = 0 then |pts.pt1Col - randomC|
      else |pts.pt2Col - randomC|) = |pts.pt1Col - randomC| + |pts.pt2Col - randomC| := by
    rcases h with h | h
    · rw [h, sub_self, abs_zero, zero_add]
      split_ifs with h0
      · exact h0.symm
      · rfl
    · rw [h, sub_self, abs_zero, add_zero, if_pos rfl]
  unfold horzDistanceOf
  rw [e]

theorem segment_rows_safe (fuel : Nat) (seed : Pixel) (randomC p1 p2 : Int) (modified : Mat)
    (R C : Nat) (hd : modified.rows = R ∧ modified.cols = C)
    (h1 : 0 ≤ p1 ∧ p1 < R) (h2 : 0 ≤ p2 ∧ p2 < R) (hc0 : 0 ≤ randomC) (hc : randomC < C) :
    Safe (fun m => m.rows = R ∧ m.cols = C) (fuel < R + C)
      (drawSegment fuel (fun m r => m.setChecked r randomC (paint seed))
        (min p1 p2) (max p1 p2) modified) := by
  have hlo : 0 ≤ min p1 p2 := le_min h1.1 h2.1
  have hhi : max p1 p2 < R := max_lt h1.2 h2.2
  refine (drawSegment_safe fuel _ R C _ _ modified hd ?_).mono (fun _ h => h)
    (fun h => by omega)
  intro m x hm hx1 hx2
  exact setChecked_safe m R C x randomC _ hm (by omega) (by omega) hc0 hc

theorem segment_cols_safe (fuel : Nat) (seed : Pixel) (randomR p1 p2 : Int) (modified : Mat)
    (R C : Nat) (hd : modified.rows = R ∧ modified.cols = C)
    (h1 : 0 ≤ p1 ∧ p1 < C) (h2 : 0 ≤ p2 ∧ p2 < C) (hr0 : 0 ≤ randomR) (hr : randomR < R) :
    Safe (fun m => m.rows = R ∧ m.cols = C) (fuel < R + C)
      (drawSegment fuel (fun m c => m.setChecked randomR c (paint seed))
        (min p1 p2) (max p1 p2) modified) := by
  have hlo : 0 ≤ min p1 p2 := le_min h1.1 h2.1
  have hhi : max p1 p2 < C := max_lt h1.2 h2.2
  refine (drawSegment_safe fuel _ R C _ _ modified hd ?_).mono (fun _ h => h)
    (fun h => by omega)
  intro m x hm hx1 hx2
  exact setChecked_safe m R C randomR x _ hm hr0 hr (by omega) (by omega)

/-- A right triangle spanned by a vertical and a horizontal vertex inside the buffer is
filled without leaving the buffer; a horizontal extent of `0` is replaced by `1`, for which
the neighbouring column must exist on the side of the triangle. -/
theorem triangle_safe (fuel : Nat) (o : Mat) (seed : Pixel) (strength : Int) (up right : Bool)
    (randomR randomC : Int) (pts : Points) (modified : Mat) (R C : Nat)
    (ho : o.rows = R ∧ o.cols = C) (hd : modified.rows = R ∧ modified.cols = C)
    (hr0 : 0 ≤ randomR) (hr : randomR < R) (hc0 : 0 ≤ randomC) (hc : randomC < C)
    (hv : pts.pt1Row = randomR ∨ pts.pt2Row = randomR)
    (hh : pts.pt1Col = randomC ∨ pts.pt2Col = randomC)
    (hup : up = true → 0 ≤ pts.pt1Row ∧ pts.pt1Row ≤ randomR ∧ 0 ≤ pts.pt2Row ∧
      pts.pt2Row ≤ randomR)
    (hdown : up = false → randomR ≤ pts.pt1Row ∧ pts.pt1Row < R ∧ randomR ≤ pts.pt2Row ∧
      pts.pt2Row < R)
    (hright : right = true → randomC ≤ pts.pt1Col ∧ pts.pt1Col < C ∧ randomC ≤ pts.pt2Col ∧
      pts.pt2Col < C ∧ randomC + 1 < C)
    (hleft : right = false → 0 ≤ pts.pt1Col ∧ pts.pt1Col ≤ randomC ∧ 0 ≤ pts.pt2Col ∧
      pts.pt2Col ≤ randomC ∧ 1 ≤ randomC) :
    Safe (fun m => m.rows = R ∧ m.cols = C) (fuel < R + C)
      (fillTriangle fuel o seed strength up right randomR randomC (vertDistanceOf randomR pts)
        (horzDistanceOf randomC pts)
        (Int.tdiv (vertDistanceOf randomR pts) (horzDistanceOf randomC pts)) modified) := by
  have eV := vertDistanceOf_eq randomR pts hv
  have eH := horzDistanceOf_eq randomC pts hh
  have a1 := abs_cases (pts.pt1Row - randomR)
  have a2 := abs_cases (pts.pt2Row - randomR)
  have a3 := abs_cases (pts.pt1Col - randomC)
  have a4 := abs_cases (pts.pt2Col - randomC)
  generalize vertDistanceOf randomR pts = V at eV ⊢
  generalize horzDistanceOf randomC pts = H at eH ⊢
  generalize |pts.pt1Row - randomR| = A1 at *
  generalize |pts.pt2Row - randomR| = A2 at *
  generalize |pts.pt1Col - randomC| = A3 at *
  generalize |pts.pt2Col - randomC| = A4 at *
  have hV0 : 0 ≤ V := by omega
  have hH1 : 1 ≤ H := by
    rw [eH]; split_ifs <;> omega
  have hHle : H ≤ A3 + A4 + 1 ∧ (A3 + A4 = 0 → H = 1) ∧ (A3 + A4 ≠ 0 → H = A3 + A4) := by
    rw [eH]; split_ifs <;> omega
  refine (fillTriangle_safe fuel o seed strength up right randomR randomC V H _ modified R C
    ho hd hr0 hr hc0 hc (Int.tdiv_nonneg hV0 (by omega)) ?_ ?_ ?_ ?_).mono (fun _ h => h) ?_
  · intro h; have := hup h; omega
  · intro h; have := hdown h; omega
  · intro h; have := hright h; omega
  · intro h; have := hleft h; omega
  · intro h
    cases up <;> cases right <;>
      simp only [Bool.false_eq_true, false_implies, true_implies] at hup hdown hright hleft <;>
      omega

/-- The drawing step keeps the size of the destination when both vertices are as the walks
leave them and a selected horizontal direction has a neighbouring column. -/
theorem draw_safe (fuel : Nat) (o : Mat) (seed : Pixel) (strength randomR randomC : Int)
    (pts : Points) (modified : Mat) (R C : Nat)
    (ho : o.rows = R ∧ o.cols = C) (hd : modified.rows = R ∧ modified.cols = C)
    (hr0 : 0 ≤ randomR) (hr : randomR < R) (hc0 : 0 ≤ randomC) (hc : randomC < C)
    (a b : Int) (ha1 : 1 ≤ a) (ha4 : a ≤ 4) (hb1 : 1 ≤ b) (hb4 : b ≤ 4) (hab : a ≠ b)
    (h2 : a = 2 ∨ b = 2 → randomC + 1 < C) (h4 : a = 4 ∨ b = 4 → 1 ≤ randomC)
    (hp1 : VertexOk R C randomR randomC a pts.pt1Row pts.pt1Col)
    (hp2 : VertexOk R C randomR randomC b pts.pt2Row pts.pt2Col) :
    Safe (fun m => m.rows = R ∧ m.cols = C) (fuel < R + C)
      (draw fuel o seed strength randomR randomC (ofInt a) (ofInt b) pts modified) := by
  have ha : a = 1 ∨ a = 2 ∨ a = 3 ∨ a = 4 := by omega
  have hb : b = 1 ∨ b = 2 ∨ b = 3 ∨ b = 4 := by omega
  unfold VertexOk at hp1 hp2
  rcases ha with rfl | rfl | rfl | rfl <;> rcases hb with rfl | rfl | rfl | rfl <;>
    first
    | exact absurd rfl hab
    | (unfold draw
       simp only [ofInt_inj]
       norm_num at hp1 hp2 h2 h4 ⊢
       first
       | exact segment_rows_safe fuel seed randomC _ _ modified R C hd (by omega) (by omega)
           hc0 hc
       | exact segment_cols_safe fuel seed randomR _ _ modified R C hd (by omega) (by omega)
           hr0 hr
       | exact triangle_safe fuel o seed strength _ _ randomR randomC pts modified R C ho hd
           hr0 hr hc0 hc (by omega) (by omega)
           (by norm_num; try omega) (by norm_num; try omega)
           (by norm_num; try omega) (by norm_num; try omega))

/-- One iteration for a seed inside the buffer, with a destination of the size of the source:
no access leaves the buffers, the destination keeps its size, and the iteration is complete
when the fuel is at least `rows + cols`. -/
theorem iterationAt_safe (fuel : Nat) (o : Mat) (count randomR randomC : Int) (modified : Mat)
    (R C : Nat) (ho : o.rows = R ∧ o.cols = C) (hd : modified.rows = R ∧ modified.cols = C)
    (hr0 : 0 ≤ randomR) (hr : randomR < R) (hc0 : 0 ≤ randomC) (hc : randomC < C) :
    Safe (fun m => m.rows = R ∧ m.cols = C) (fuel < R + C)
      (iterationAt fuel o count randomR randomC modified) := by
  unfold iterationAt
  rw [atChecked_ok o randomR randomC hr0 (by rw [ho.1]; exact hr) hc0 (by rw [ho.2]; exact hc),
    bind_ok]
  obtain ⟨g, hg, hsent, hreal⟩ := gradients_spec o (o.px randomR.toNat randomC.toNat)
    randomR randomC hr0 (by rw [ho.1]; exact hr) hc0 (by rw [ho.2]; exact hc)
  rw [hg, bind_ok]
  have hle : ∀ d, 1 ≤ d → d ≤ 4 → g.of d ≤ ofInt 442 := by
    intro d h1 h4
    by_cases hs : sentinelDir o randomR randomC d = true
    · exact le_of_eq (hsent d h1 h4 hs)
    · exact le_of_lt (hreal d h1 h4 (by simpa using hs))
  have hnot : ∀ d, 1 ≤ d → d ≤ 4 → g.of d < ofInt 442 →
      sentinelDir o randomR randomC d = false := by
    intro d h1 h4 hlt
    by_contra hc'
    have := hsent d h1 h4 (by simpa using hc')
    omega
  obtain ⟨a, b, hsel, ha1, ha4, hb1, hb4, hab, h2, h4⟩ := selectDirections_spec g (ofInt 442)
    (hle 1 (by decide) (by decide)) (hle 3 (by decide) (by decide))
    (hle 2 (by decide) (by decide)) (hle 4 (by decide) (by decide))
  rw [hsel]
  refine Safe.bind (findPoints_safe fuel o _ _ randomR randomC R C ho hr0 hr hc0 hc a b
    ha1 ha4 hb1 hb4 hab) ?_
  rintro pts ⟨hp1, hp2⟩
  refine draw_safe fuel o _ _ randomR randomC pts modified R C ho hd hr0 hr hc0 hc a b
    ha1 ha4 hb1 hb4 hab ?_ ?_ hp1 hp2
  · intro h
    have hs := hnot 2 (by decide) (by decide) (h2 h)
    have hs' : ¬ randomC + 2 > o.cols := by simpa [sentinelDir] using hs
    rw [ho.2] at hs'
    omega
  · intro h
    have hs := hnot 4 (by decide) (by decide) (h4 h)
    have hs' : ¬ randomC - 2 < 0 := by simpa [sentinelDir] using hs
    omega

/-! ## approximate: bounds and termination -/

/-- C14. Bounds safety of one iteration of `approximate`.  For every source, a destination
of the same size, every seed inside the buffer (so the buffer is not empty) and every count, the
iteration never reads the source or paints the destination outside the buffer, whatever the
fuel; with fuel `rows + cols` it runs to completion and the destination keeps its size.  This
covers the gradient reads, the walks, the straight segments and the four triangles, including
a horizontal extent of `0` replaced by `1`. -/
theorem iteration_in_bounds (o modified : Mat) (count randomR randomC : Int)
    (hd : modified.rows = o.rows ∧ modified.cols = o.cols)
    (hr0 : 0 ≤ randomR) (hr : randomR < o.rows) (hc0 : 0 ≤ randomC) (hc : randomC < o.cols) :
    (∀ fuel : Nat, iterationAt fuel o count randomR randomC modified ≠ .error .outOfBounds) ∧
    (∀ fuel : Nat, o.rows + o.cols ≤ fuel →
      ∃ m, iterationAt fuel o count randomR randomC modified = .ok m ∧
        m.rows = o.rows ∧ m.cols = o.cols) := by
  have h := fun fuel => iterationAt_safe fuel o count randomR randomC modified o.rows o.cols
    ⟨rfl, rfl⟩ hd hr0 hr hc0 hc
  exact ⟨fun fuel => (h fuel).not_outOfBounds, fun fuel hf => (h fuel).returns (by omega)⟩

theorem iteration_in_bounds_witness :
    (5 : Int) < demoMat.rows ∧ (6 : Int) < demoMat.cols ∧
      (∀ fuel : Nat,
        iterationAt fuel demoMat 9000 5 6 (constMat 6 7 white) ≠ .error .outOfBounds) :=
  ⟨by decide, by decide,
    (iteration_in_bounds demoMat (constMat 6 7 white) 9000 5 6
      ⟨rfl, rfl⟩ (by decide) (by decide) (by decide) (by decide)).1⟩

/-- One pass through the body of the `do` loop on a non-empty source: the seed lies in the
buffer, so the pass is safe, keeps the size of the destination, adds one to `count` and
consumes two values of the generator. -/
theorem iteration_safe (rand : Nat → Nat) (fuel : Nat) (o : Mat) (s : ApproxState)
    (hrows : 1 ≤ o.rows) (hcols : 1 ≤ o.cols)
    (hd : s.modified.rows = o.rows ∧ s.modified.cols = o.cols) :
    Safe (fun t => (t.modified.rows = o.rows ∧ t.modified.cols = o.cols) ∧
        t.count = s.count + 1 ∧ t.randCalls = s.randCalls + 2)
      (fuel < o.rows + o.cols) (iteration rand fuel o s) := by
  unfold iteration
  have hR : (0 : Int) < o.rows := by omega
  have hC : (0 : Int) < o.cols := by omega
  refine Safe.bind (iterationAt_safe fuel o s.count _ _ s.modified o.rows o.cols ⟨rfl, rfl⟩ hd
    (Int.emod_nonneg _ (by omega)) (Int.emod_lt_of_pos _ hR)
    (Int.emod_nonneg _ (by omega)) (Int.emod_lt_of_pos _ hC)) ?_
  intro m hm
  exact Safe.ok ⟨hm, rfl, rfl⟩

theorem iterations_succ (rand : Nat → Nat) (fuel : Nat) (o : Mat) (k : Nat) (s : ApproxState) :
    iterations rand fuel o (k + 1) s = (iteration rand fuel o s).bind (iterations rand fuel o k) :=
  rfl

/-- The `do` loop runs the body exactly `k + 1` times when `count + k + 1` reaches 10000
without a cancellation, or when the first cancellation is seen at the test after the
`(k + 1)`-th pass. -/
theorem approximateLoop_run (rand : Nat → Nat) (waitKey : Nat → Int) (fuel : Nat) (o : Mat)
    (hrows : 1 ≤ o.rows) (hcols : 1 ≤ o.cols) (hfuel : o.rows + o.cols ≤ fuel) :
    ∀ (k n keyCalls : Nat) (s : ApproxState),
      s.modified.rows = o.rows ∧ s.modified.cols = o.cols → k + 1 ≤ n →
      s.count + k + 1 ≤ 10000 →
      (∀ i, i < k → waitKey (keyCalls + i) ≠ 27) →
      (s.count + k + 1 < 10000 → waitKey (keyCalls + k) = 27) →
      ∃ t, iterations rand fuel o (k + 1) s = .ok t ∧
        (t.modified.rows = o.rows ∧ t.modified.cols = o.cols) ∧
        t.count = s.count + k + 1 ∧ t.randCalls = s.randCalls + 2 * (k + 1) ∧
        approximateLoop rand waitKey fuel o n keyCalls s = .ok t := by
  intro k
  induction k with
  | zero =>
    intro n keyCalls s hd hn hcount hkeys hlast
    obtain ⟨n', rfl⟩ : ∃ n', n = n' + 1 := ⟨n - 1, by omega⟩
    simp only [Nat.cast_zero, add_zero] at hcount hlast
    obtain ⟨t, ht, hdt, hc, hrc⟩ :=
      (iteration_safe rand fuel o s hrows hcols hd).returns (by omega)
    refine ⟨t, ?_, hdt, by simp only [Nat.cast_zero, add_zero]; exact hc, by rw [hrc], ?_⟩
    · rw [iterations_succ, ht]; rfl
    · unfold approximateLoop
      rw [ht, bind_ok, hc]
      by_cases hlt : s.count + 1 < 10000
      · rw [if_pos hlt, if_neg (by rw [hlast hlt]; exact fun h => h rfl)]
      · rw [if_neg hlt]
  | succ k ih =>
    intro n keyCalls s hd hn hcount hkeys hlast
    obtain ⟨n', rfl⟩ : ∃ n', n = n' + 1 := ⟨n - 1, by omega⟩
    push_cast at hcount hlast
    obtain ⟨s1, hs1, hd1, hc1, hrc1⟩ :=
      (iteration_safe rand fuel o s hrows hcols hd).returns (by omega)
    obtain ⟨t, ht, hdt, hc, hrc, hloop⟩ := ih n' (keyCalls + 1) s1 hd1
      (by omega) (by rw [hc1]; omega)
      (by
        intro i hi
        rw [show keyCalls + 1 + i = keyCalls + (i + 1) by ring]
        exact hkeys (i + 1) (by omega))
      (by
        intro h
        rw [show keyCalls + 1 + k = keyCalls + (k + 1) by ring]
        apply hlast
        rw [hc1] at h
        omega)
    refine ⟨t, ?_, hdt, by rw [hc, hc1]; push_cast; ring, by rw [hrc, hrc1]; ring, ?_⟩
    · rw [iterations_succ, hs1]; exact ht
    · unfold approximateLoop
      rw [hs1, bind_ok, hc1, if_pos (by omega),
        if_pos (by have := hkeys 0 (by omega); simpa using this)]
      exact hloop

theorem whiteCanvas_dims (s : Globals) :
    (whiteCanvas s).modified.rows = s.modified.rows ∧
      (whiteCanvas s).modified.cols = s.modified.cols := by
  have h := forEachPixel_dims (fun _ _ => True) (fun _ _ => white) s.original.rows
    s.original.cols s.modified
  simp only [if_true] at h
  exact h

/-- C15. Termination of `approximate` on a non-empty source with a destination of the same
size.  With fuel `rows + cols` every loop inside an iteration ends, so each pass through the
body returns.  When no cancellation is observed the body runs exactly 10000 times: the
function returns the state after 10000 passes, with `count = 10000`.  When the first
cancellation is observed at the test after pass `k` (`1 ≤ k < 10000`), it returns the state
after exactly `k` passes: the destination is the one pass `k` produced. -/
theorem approximate_terminates (rand : Nat → Nat) (waitKey : Nat → Int) (loopFuel fuel : Nat)
    (s : Globals) (hrows : 1 ≤ s.original.rows) (hcols : 1 ≤ s.original.cols)
    (hd : s.modified.rows = s.original.rows ∧ s.modified.cols = s.original.cols)
    (hloop : 10000 ≤ loopFuel) (hfuel : s.original.rows + s.original.cols ≤ fuel) :
    ((∀ i, waitKey i ≠ 27) →
      ∃ t, iterations rand fuel s.original 10000 (whiteCanvas s) = .ok t ∧
        approximate rand waitKey loopFuel fuel s = .ok t ∧
        t.count = 10000 ∧ t.randCalls = 20000) ∧
    (∀ k : Nat, 1 ≤ k → k < 10000 → (∀ i, i + 1 < k → waitKey i ≠ 27) →
      waitKey (k - 1) = 27 →
      ∃ t, iterations rand fuel s.original k (whiteCanvas s) = .ok t ∧
        approximate rand waitKey loopFuel fuel s = .ok t ∧
        t.count = k ∧ t.randCalls = 2 * k) := by
  have hcd : (whiteCanvas s).modified.rows = s.original.rows ∧
      (whiteCanvas s).modified.cols = s.original.cols := by
    have := whiteCanvas_dims s
    exact ⟨this.1.trans hd.1, this.2.trans hd.2⟩
  have hc0 : (whiteCanvas s).count = 0 := rfl
  have hr0 : (whiteCanvas s).randCalls = 0 := rfl
  constructor
  · intro hkeys
    obtain ⟨t, ht, _, hc, hrc, hrun⟩ := approximateLoop_run rand waitKey fuel s.original hrows
      hcols hfuel 9999 loopFuel 0 (whiteCanvas s) hcd (by omega) (by rw [hc0]; norm_num)
      (fun i _ => hkeys _) (fun h => by rw [hc0] at h; norm_num at h)
    exact ⟨t, ht, hrun, by rw [hc, hc0]; norm_num, by rw [hrc, hr0]⟩
  · intro k hk1 hk hkeys hlast
    obtain ⟨j, rfl⟩ : ∃ j, k = j + 1 := ⟨k - 1, by omega⟩
    obtain ⟨t, ht, _, hc, hrc, hrun⟩ := approximateLoop_run rand waitKey fuel s.original hrows
      hcols hfuel j loopFuel 0 (whiteCanvas s) hcd (by omega)
      (by rw [hc0]; have : (j : Int) + 1 < 10000 := by exact_mod_cast hk
          omega)
      (fun i hi => by rw [Nat.zero_add]; exact hkeys i (by omega))
      (fun _ => by rw [Nat.zero_add]; simpa using hlast)
    exact ⟨t, ht, hrun, by rw [hc, hc0]; push_cast; ring, by rw [hrc, hr0]; ring⟩

theorem approximate_terminates_witness :
    1 ≤ grayDemo.original.rows ∧ 1 ≤ grayDemo.original.cols ∧
      ∃ t, iterations (fun i => 7 * i + 3) 8 grayDemo.original 10000 (whiteCanvas grayDemo) =
          .ok t ∧
        approximate (fun i => 7 * i + 3) (fun _ => -1) 10000 8 grayDemo = .ok t ∧
        t.count = 10000 ∧ t.randCalls = 20000 :=
  ⟨by decide, by decide,
    (approximate_terminates (fun i => 7 * i + 3) (fun _ => -1) 10000 8 grayDemo (by decide)
      (by decide) ⟨rfl, rfl⟩ (by decide) (by decide)).1 (fun _ => by decide)⟩

/-! ## Sentinel gradients on buffers of at least 3×3 -/

/-- The four gradients of a seed inside the buffer: the sentinel where the guard of the
direction holds, else the distance from the seed colour to the neighbour in that direction. -/
theorem gradients_values (o : Mat) (seed : Pixel) (randomR randomC : Int)
    (hr0 : 0 ≤ randomR) (hr : randomR < o.rows) (hc0 : 0 ≤ randomC) (hc : randomC < o.cols) :
    ∃ g, gradients o seed randomR randomC = .ok g ∧
      (∀ d, 1 ≤ d → d ≤ 4 → sentinelDir o randomR randomC d = true → g.of d = ofInt 442) ∧
      (∀ d, 1 ≤ d → d ≤ 4 → sentinelDir o randomR randomC d = false →
        g.of d = distanceTo seed (neighbour o randomR randomC d)) := by
  have hgrad : ∀ (guard : Bool) (r c : Int),
      (guard = false → 0 ≤ r ∧ r < o.rows ∧ 0 ≤ c ∧ c < o.cols) →
      ∃ v, gradient o seed guard r c = .ok v ∧ (guard = true → v = ofInt 442) ∧
        (guard = false → v = distanceTo seed (o.px r.toNat c.toNat)) := by
    intro guard r c h
    unfold gradient
    cases guard with
    | true =>
      refine ⟨ofInt 442, rfl, fun _ => rfl, fun h => ?_⟩
      exact absurd h (by decide)
    | false =>
      obtain ⟨h1, h2, h3, h4⟩ := h rfl
      rw [if_neg (by decide), atChecked_ok o r c h1 h2 h3 h4]
      refine ⟨distanceTo seed (o.px r.toNat c.toNat), rfl, fun h => ?_, fun _ => rfl⟩
      exact absurd h (by decide)
  obtain ⟨u, hu, hu1, hu2⟩ := hgrad (decide (randomR - 2 < 0)) (randomR - 1) randomC
    (fun h => by simp only [decide_eq_false_iff_not] at h; omega)
  obtain ⟨l, hl, hl1, hl2⟩ := hgrad (decide (randomR + 2 > o.rows)) (randomR + 1) randomC
    (fun h => by simp only [decide_eq_false_iff_not] at h; omega)
  obtain ⟨r, hrr, hr1, hr2⟩ := hgrad (decide (randomC + 2 > o.cols)) randomR (randomC + 1)
    (fun h => by simp only [decide_eq_false_iff_not] at h; omega)
  obtain ⟨le, hle, hle1, hle2⟩ := hgrad (decide (randomC - 2 < 0)) randomR (randomC - 1)
    (fun h => by simp only [decide_eq_false_iff_not] at h; omega)
  refine ⟨⟨u, l, r, le⟩, ?_, ?_, ?_⟩
  · unfold gradients
    rw [hu, hl, hrr, hle]
    rfl
  · intro d hd1 hd4 hs
    have hd : d = 1 ∨ d = 2 ∨ d = 3 ∨ d = 4 := by omega
    rcases hd with rfl | rfl | rfl | rfl
    · exact hu1 hs
    · exact hr1 hs
    · exact hl1 hs
    · exact hle1 hs
  · intro d hd1 hd4 hs
    have hd : d = 1 ∨ d = 2 ∨ d = 3 ∨ d = 4 := by omega
    rcases hd with rfl | rfl | rfl | rfl
    · exact hu2 hs
    · exact hr2 hs
    · exact hl2 hs
    · exact hle2 hs

/-- C27. Sentinel exclusion on buffers with at least 3 rows and 3 columns.  For every seed
inside such a buffer at most one vertical and at most one horizontal direction has its gradient
set to the sentinel `442`; the gradient of every other direction is the distance from the seed
colour to the neighbour in that direction, the square root of a squared distance of at most
`3 * 255²`, and is strictly below `442`; and neither `smallest` nor `secondSmallest` is a
direction with the sentinel gradient. -/
theorem sentinel_excluded_on_realistic_buffers (o : Mat) (randomR randomC : Int)
    (hrows : 3 ≤ o.rows) (hcols : 3 ≤ o.cols)
    (hr0 : 0 ≤ randomR) (hr : randomR < o.rows) (hc0 : 0 ≤ randomC) (hc : randomC < o.cols) :
    ¬ (sentinelDir o randomR randomC 1 = true ∧ sentinelDir o randomR randomC 3 = true) ∧
    ¬ (sentinelDir o randomR randomC 2 = true ∧ sentinelDir o randomR randomC 4 = true) ∧
    ∃ (g : Gradients) (a b : Int),
      gradients o (o.px randomR.toNat randomC.toNat) randomR randomC = .ok g ∧
      (∀ d, 1 ≤ d → d ≤ 4 → sentinelDir o randomR randomC d = true → g.of d = ofInt 442) ∧
      (∀ d, 1 ≤ d → d ≤ 4 → sentinelDir o randomR randomC d = false →
        g.of d = distanceTo (o.px randomR.toNat randomC.toNat) (neighbour o randomR randomC d) ∧
        g.of d = fsqrt (ofInt ((sqDist (o.px randomR.toNat randomC.toNat)
          (neighbour o randomR randomC d) : Nat) : Int)) ∧
        sqDist (o.px randomR.toNat randomC.toNat) (neighbour o randomR randomC d) ≤
          3 * 255 ^ 2 ∧
        g.of d < ofInt 442) ∧
      selectDirections g = (ofInt a, ofInt b) ∧ 1 ≤ a ∧ a ≤ 4 ∧ 1 ≤ b ∧ b ≤ 4 ∧ a ≠ b ∧
      sentinelDir o randomR randomC a = false ∧ sentinelDir o randomR randomC b = false := by
  have hv : ¬ (sentinelDir o randomR randomC 1 = true ∧ sentinelDir o randomR randomC 3 = true) := by
    simp only [sentinelDir]
    norm_num
    omega
  have hh : ¬ (sentinelDir o randomR randomC 2 = true ∧ sentinelDir o randomR randomC 4 = true) := by
    simp only [sentinelDir]
    norm_num
    omega
  refine ⟨hv, hh, ?_⟩
  obtain ⟨g, hg, hsent, hval⟩ := gradients_values o (o.px randomR.toNat randomC.toNat)
    randomR randomC hr0 hr hc0 hc
  obtain ⟨a, b, hsel, ha1, ha4, hb1, hb4, hab, hmin, hm1, hm2, hm3, hm4⟩ :=
    selectDirections_minimal g
  have hreal : ∀ d, 1 ≤ d → d ≤ 4 → sentinelDir o randomR randomC d = false →
      g.of d < ofInt 442 := by
    intro d h1 h4 hs
    rw [hval d h1 h4 hs]
    exact distanceTo_lt_sentinel _ _
  have hnot : ∀ d, 1 ≤ d → d ≤ 4 → g.of d < ofInt 442 →
      sentinelDir o randomR randomC d = false := by
    intro d hd hd' hlt
    by_contra hc'
    have ht : sentinelDir o randomR randomC d = true := by simpa using hc'
    have := hsent d hd hd' ht
    omega
  -- a vertical and a horizontal direction without the sentinel
  obtain ⟨dv, hdv, hsv⟩ : ∃ dv, (dv = 1 ∨ dv = 3) ∧ sentinelDir o randomR randomC dv = false := by
    by_cases h1 : sentinelDir o randomR randomC 1 = true
    · refine ⟨3, Or.inr rfl, ?_⟩
      by_contra h3
      exact hv ⟨h1, by simpa using h3⟩
    · exact ⟨1, Or.inl rfl, by simpa using h1⟩
  obtain ⟨dh, hdh, hsh⟩ : ∃ dh, (dh = 2 ∨ dh = 4) ∧ sentinelDir o randomR randomC dh = false := by
    by_cases h2 : sentinelDir o randomR randomC 2 = true
    · refine ⟨4, Or.inr rfl, ?_⟩
      by_contra h4
      exact hh ⟨h2, by simpa using h4⟩
    · exact ⟨2, Or.inl rfl, by simpa using h2⟩
  have hlv := hreal dv (by omega) (by omega) hsv
  have hlh := hreal dh (by omega) (by omega) hsh
  have hA : g.of a < ofInt 442 := by
    rcases hdv with rfl | rfl
    · exact lt_of_le_of_lt hmin.1 hlv
    · exact lt_of_le_of_lt hmin.2.2.1 hlv
  have hB : g.of b < ofInt 442 := by
    by_cases h : a = dv
    · have hne : a ≠ dh := by omega
      rcases hdh with rfl | rfl
      · exact lt_of_le_of_lt (hm2 hne) hlh
      · exact lt_of_le_of_lt (hm4 hne) hlh
    · rcases hdv with rfl | rfl
      · exact lt_of_le_of_lt (hm1 h) hlv
      · exact lt_of_le_of_lt (hm3 h) hlv
  refine ⟨g, a, b, hg, hsent, ?_, hsel, ha1, ha4, hb1, hb4, hab, hnot a ha1 ha4 hA,
    hnot b hb1 hb4 hB⟩
  intro d h1 h4 hs
  refine ⟨hval d h1 h4 hs, ?_, ?_, hreal d h1 h4 hs⟩
  · rw [hval d h1 h4 hs, distanceTo_eq]
  · exact le_trans (sqDist_le _ _) (by norm_num)

theorem sentinel_excluded_on_realistic_buffers_witness :
    3 ≤ demoMat.rows ∧ 3 ≤ demoMat.cols ∧
    ¬ (sentinelDir demoMat 0 3 1 = true ∧ sentinelDir demoMat 0 3 3 = true) ∧
    ¬ (sentinelDir demoMat 0 3 2 = true ∧ sentinelDir demoMat 0 3 4 = true) ∧
    ∃ (g : Gradients) (a b : Int),
      gradients demoMat (demoMat.px (0 : Int).toNat (3 : Int).toNat) 0 3 = .ok g ∧
      (∀ d, 1 ≤ d → d ≤ 4 → sentinelDir demoMat 0 3 d = true → g.of d = ofInt 442) ∧
      (∀ d, 1 ≤ d → d ≤ 4 → sentinelDir demoMat 0 3 d = false →
        g.of d = distanceTo (demoMat.px (0 : Int).toNat (3 : Int).toNat)
          (neighbour demoMat 0 3 d) ∧
        g.of d = fsqrt (ofInt ((sqDist (demoMat.px (0 : Int).toNat (3 : Int).toNat)
          (neighbour demoMat 0 3 d) : Nat) : Int)) ∧
        sqDist (demoMat.px (0 : Int).toNat (3 : Int).toNat) (neighbour demoMat 0 3 d) ≤
          3 * 255 ^ 2 ∧
        g.of d < ofInt 442) ∧
      selectDirections g = (ofInt a, ofInt b) ∧ 1 ≤ a ∧ a ≤ 4 ∧ 1 ≤ b ∧ b ≤ 4 ∧ a ≠ b ∧
      sentinelDir demoMat 0 3 a = false ∧ sentinelDir demoMat 0 3 b = false :=
  ⟨by decide, by decide,
    sentinel_excluded_on_realistic_buffers demoMat 0 3 (by decide) (by decide) (by decide)
      (by decide) (by decide) (by decide)⟩

/-! ## The margin of the walks -/

/-- C21 (what the code does). For a seed inside the buffer and a direction whose gradient
is not set to the sentinel, when every source pixel between the seed and the buffer edge is
within the strength threshold, the walks right and down stop one pixel inside the edge (column
`cols - 2`, row `rows - 2`), but the walks up and left stop at row 2 and column 2, two pixels
inside the edge, not at row 1 and column 1. -/
theorem walk_margin (o : Mat) (count randomR randomC : Int) (fuel : Nat)
    (hr0 : 0 ≤ randomR) (hr : randomR < o.rows) (hc0 : 0 ≤ randomC) (hc : randomC < o.cols)
    (hfuel : o.rows + o.cols ≤ fuel) :
    (sentinelDir o randomR randomC 1 = false →
      (∀ r : Int, 0 ≤ r → r < randomR →
        Near (o.px randomR.toNat randomC.toNat) (o.px r.toNat randomC.toNat)
          (strengthOf count)) →
      walkUp fuel o (o.px randomR.toNat randomC.toNat) (strengthOf count) randomR randomC =
        .ok 2) ∧
    (sentinelDir o randomR randomC 2 = false →
      (∀ c : Int, randomC < c → c < o.cols →
        Near (o.px randomR.toNat randomC.toNat) (o.px randomR.toNat c.toNat)
          (strengthOf count)) →
      walkRight fuel o (o.px randomR.toNat randomC.toNat) (strengthOf count) randomR randomC =
        .ok (o.cols - 2)) ∧
    (sentinelDir o randomR randomC 3 = false →
      (∀ r : Int, randomR < r → r < o.rows →
        Near (o.px randomR.toNat randomC.toNat) (o.px r.toNat randomC.toNat)
          (strengthOf count)) →
      walkDown fuel o (o.px randomR.toNat randomC.toNat) (strengthOf count) randomR randomC =
        .ok (o.rows - 2)) ∧
    (sentinelDir o randomR randomC 4 = false →
      (∀ c : Int, 0 ≤ c → c < randomC →
        Near (o.px randomR.toNat randomC.toNat) (o.px randomR.toNat c.toNat)
          (strengthOf count)) →
      walkLeft fuel o (o.px randomR.toNat randomC.toNat) (strengthOf count) randomR randomC =
        .ok 2) := by
  obtain ⟨h0, h32⟩ := strengthOf_range count
  refine ⟨fun hs hnear => ?_, fun hs hnear => ?_, fun hs hnear => ?_, fun hs hnear => ?_⟩
  · have hs' : ¬ randomR - 2 < 0 := by simpa [sentinelDir] using hs
    obtain ⟨v, hv, h1, h2, _, h4⟩ :=
      (walkBack_safe fuel (fun r => o.atChecked r randomC)
        (fun r => o.px r.toNat randomC.toNat) (o.px randomR.toNat randomC.toNat)
        (strengthOf count) randomR
        (fun x h1 h2 => atChecked_ok o x randomC (by omega) (by omega) hc0 hc)).returns
        (by omega)
    have hv2 : v = 2 := by
      by_cases hlt : v < randomR
      · rcases h4 hlt with h5 | ⟨h5, _⟩
        · have h2' := h2 (by omega)
          exact absurd h5 ((closeTo_ne_zero_iff _ _ _ h0 h32).2 (hnear v (by omega) hlt))
        · exact h5
      · have : randomR ≤ 2 := by
          by_contra hcon
          have := h2 (by omega)
          omega
        have := h1 this
        omega
    unfold walkUp
    rw [hv, hv2]
  · have hs' : ¬ randomC + 2 > o.cols := by simpa [sentinelDir] using hs
    obtain ⟨v, hv, h1, h2, _, h4⟩ :=
      (walkForth_safe fuel (fun c => o.atChecked randomR c)
        (fun c => o.px randomR.toNat c.toNat) (o.px randomR.toNat randomC.toNat)
        (strengthOf count) randomC o.cols
        (fun x h1 h2 => atChecked_ok o randomR x hr0 hr (by omega) (by omega))).returns
        (by omega)
    have hv2 : v = o.cols - 2 := by
      by_cases hlt : randomC < v
      · rcases h4 hlt with h5 | ⟨h5, _⟩
        · have h2' := h2 (by omega)
          exact absurd h5 ((closeTo_ne_zero_iff _ _ _ h0 h32).2 (hnear v hlt (by omega)))
        · exact h5
      · have : (o.cols : Int) ≤ randomC + 2 := by
          by_contra hcon
          have := h2 (by omega)
          omega
        have := h1 this
        omega
    unfold walkRight
    rw [hv, hv2]
  · have hs' : ¬ randomR + 2 > o.rows := by simpa [sentinelDir] using hs
    obtain ⟨v, hv, h1, h2, _, h4⟩ :=
      (walkForth_safe fuel (fun r => o.atChecked r randomC)
        (fun r => o.px r.toNat randomC.toNat) (o.px randomR.toNat randomC.toNat)
        (strengthOf count) randomR o.rows
        (fun x h1 h2 => atChecked_ok o x randomC (by omega) (by omega) hc0 hc)).returns
        (by omega)
    have hv2 : v = o.rows - 2 := by
      by_cases hlt : randomR < v
      · rcases h4 hlt with h5 | ⟨h5, _⟩
        · have h2' := h2 (by omega)
          exact absurd h5 ((closeTo_ne_zero_iff _ _ _ h0 h32).2 (hnear v hlt (by omega)))
        · exact h5
      · have : (o.rows : Int) ≤ randomR + 2 := by
          by_contra hcon
          have := h2 (by omega)
          omega
        have := h1 this
        omega
    unfold walkDown
    rw [hv, hv2]
  · have hs' : ¬ randomC - 2 < 0 := by simpa [sentinelDir] using hs
    obtain ⟨v, hv, h1, h2, _, h4⟩ :=
      (walkBack_safe fuel (fun c => o.atChecked randomR c)
        (fun c => o.px randomR.toNat c.toNat) (o.px randomR.toNat randomC.toNat)
        (strengthOf count) randomC
        (fun x h1 h2 => atChecked_ok o randomR x hr0 hr (by omega) (by omega))).returns
        (by omega)
    have hv2 : v = 2 := by
      by_cases hlt : v < randomC
      · rcases h4 hlt with h5 | ⟨h5, _⟩
        · have h2' := h2 (by omega)
          exact absurd h5 ((closeTo_ne_zero_iff _ _ _ h0 h32).2 (hnear v (by omega) hlt))
        · exact h5
      · have : randomC ≤ 2 := by
          by_contra hcon
          have := h2 (by omega)
          omega
        have := h1 this
        omega
    unfold walkLeft
    rw [hv, hv2]

theorem walk_margin_witness :
    sentinelDir (constMat 350 550 ⟨128, 128, 128⟩) 175 275 1 = false ∧
    sentinelDir (constMat 350 550 ⟨128, 128, 128⟩) 175 275 4 = false ∧
    walkUp 900 (constMat 350 550 ⟨128, 128, 128⟩) ⟨128, 128, 128⟩ (strengthOf 0) 175 275 =
      .ok 2 ∧
    walkRight 900 (constMat 350 550 ⟨128, 128, 128⟩) ⟨128, 128, 128⟩ (strengthOf 0) 175 275 =
      .ok 548 ∧
    walkDown 900 (constMat 350 550 ⟨128, 128, 128⟩) ⟨128, 128, 128⟩ (strengthOf 0) 175 275 =
      .ok 348 ∧
    walkLeft 900 (constMat 350 550 ⟨128, 128, 128⟩) ⟨128, 128, 128⟩ (strengthOf 0) 175 275 =
      .ok 2 :=
  have h := walk_margin (constMat 350 550 ⟨128, 128, 128⟩) 0 175 275 900 (by decide) (by decide)
    (by decide) (by decide) (by decide)
  have hn : Near (⟨128, 128, 128⟩ : Pixel) ⟨128, 128, 128⟩ (strengthOf 0) := by decide
  ⟨by decide, by decide, h.1 (by decide) (fun _ _ _ => hn),
    h.2.1 (by decide) (fun _ _ _ => hn), h.2.2.1 (by decide) (fun _ _ _ => hn),
    h.2.2.2 (by decide) (fun _ _ _ => hn)⟩
/-! ## What the drawing loops paint -/

theorem bind_eq_ok {α β : Type} {x : Except Fault α} {f : α → Except Fault β} {b : β}
    (h : x.bind f = .ok b) : ∃ a, x = .ok a ∧ f a = .ok b := by
  cases x with
  | error e => cases h
  | ok a => exact ⟨a, rfl, h⟩

theorem atChecked_inv {o : Mat} {r c : Int} {p : Pixel} (h : o.atChecked r c = .ok p) :
    (0 ≤ r ∧ r < o.rows ∧ 0 ≤ c ∧ c < o.cols) ∧ p = o.px r.toNat c.toNat := by
  unfold Mat.atChecked at h
  by_cases hb : 0 ≤ r ∧ r < o.rows ∧ 0 ≤ c ∧ c < o.cols
  · rw [if_pos hb] at h
    injection h with h
    exact ⟨hb, h.symm⟩
  · rw [if_neg hb] at h
    cases h

theorem setChecked_inv {m m' : Mat} {r c : Int} {p : Pixel}
    (h : m.setChecked r c p = .ok m') :
    (0 ≤ r ∧ r < m.rows ∧ 0 ≤ c ∧ c < m.cols) ∧ m' = m.set r.toNat c.toNat p := by
  unfold Mat.setChecked at h
  by_cases hb : 0 ≤ r ∧ r < m.rows ∧ 0 ≤ c ∧ c < m.cols
  · rw [if_pos hb] at h
    injection h with h
    exact ⟨hb, h.symm⟩
  · rw [if_neg hb] at h
    cases h

/-- The rule for `while` without the measure: a property kept by every completed pass through
the body holds when the loop has ended, and the condition is then false. -/
theorem whileLoop_inv {σ : Type} (cond : σ → Bool) (body : σ → Except Fault σ)
    (I : σ → Prop)
    (hbody : ∀ s s', I s → cond s = true → body s = .ok s' → I s') :
    ∀ (fuel : Nat) (s s' : σ), I s → whileLoop cond body fuel s = .ok s' →
      I s' ∧ cond s' = false := by
  intro fuel
  induction fuel with
  | zero =>
    intro s s' hI h
    unfold whileLoop at h
    by_cases hc : cond s = true
    · rw [if_pos hc] at h
      cases h
    · rw [if_neg hc] at h
      injection h with h
      subst h
      exact ⟨hI, by simpa using hc⟩
  | succ n ih =>
    intro s s' hI h
    unfold whileLoop at h
    by_cases hc : cond s = true
    · rw [if_pos hc] at h
      obtain ⟨s1, h1, h2⟩ := bind_eq_ok h
      exact ih s1 s' (hbody s s1 hI hc h1) h2
    · rw [if_neg hc] at h
      injection h with h
      subst h
      exact ⟨hI, by simpa using hc⟩

theorem PaintedOn.none (p : Pixel) (m : Mat) : PaintedOn (fun _ _ => False) p m m :=
  ⟨rfl, rfl, fun _ _ => ⟨fun h => absurd h id, fun _ => rfl⟩⟩

theorem PaintedOn.congr {S S' : Nat → Nat → Prop} {p : Pixel} {m m' : Mat}
    (h : PaintedOn S p m m') (hS : ∀ i j, S' i j ↔ S i j) : PaintedOn S' p m m' :=
  ⟨h.1, h.2.1, fun i j => ⟨fun hs => (h.2.2 i j).1 ((hS i j).1 hs),
    fun hs => (h.2.2 i j).2 (fun hs' => hs ((hS i j).2 hs'))⟩⟩

theorem PaintedOn.set {S S' : Nat → Nat → Prop} {p : Pixel} {m m1 : Mat}
    (h : PaintedOn S p m m1) (r c : Nat)
    (hS : ∀ i j, S' i j ↔ (S i j ∨ (i = r ∧ j = c))) : PaintedOn S' p m (m1.set r c p) := by
  refine ⟨h.1, h.2.1, fun i j => ?_⟩
  rw [Mat.set_px]
  by_cases hrc : i = r ∧ j = c
  · rw [if_pos hrc]
    exact ⟨fun _ => rfl, fun hs => absurd ((hS i j).2 (Or.inr hrc)) hs⟩
  · rw [if_neg hrc]
    refine ⟨fun hs => ?_, fun hs => ?_⟩
    · rcases (hS i j).1 hs with h1 | h1
      · exact (h.2.2 i j).1 h1
      · exact absurd h1 hrc
    · exact (h.2.2 i j).2 (fun h1 => hs ((hS i j).2 (Or.inl h1)))

theorem PaintedOn.trans {S1 S2 S : Nat → Nat → Prop} {p : Pixel} {m m1 m2 : Mat}
    (h1 : PaintedOn S1 p m m1) (h2 : PaintedOn S2 p m1 m2)
    (hS : ∀ i j, S i j ↔ (S1 i j ∨ S2 i j)) : PaintedOn S p m m2 := by
  refine ⟨h2.1.trans h1.1, h2.2.1.trans h1.2.1, fun i j => ?_⟩
  by_cases hs2 : S2 i j
  · exact ⟨fun _ => (h2.2.2 i j).1 hs2, fun hs => absurd ((hS i j).2 (Or.inr hs2)) hs⟩
  · rw [(h2.2.2 i j).2 hs2]
    refine ⟨fun hs => ?_, fun hs => ?_⟩
    · rcases (hS i j).1 hs with h | h
      · exact (h1.2.2 i j).1 h
      · exact absurd h hs2
    · exact (h1.2.2 i j).2 (fun h => hs ((hS i j).2 (Or.inl h)))

/-- The colour painted is the seed colour itself: the `float`s hold the channel values. -/
theorem paint_eq (seed : Pixel) : paint seed = seed := by
  have h : ∀ v : Fin 256, toUchar (ofUchar v) = v := by
    intro v
    apply Fin.ext
    have hv := v.isLt
    unfold toUchar ofUchar
    simp only [trunc_ofInt]
    omega
  unfold paint
  rw [h, h, h]

/-- A checked write paints exactly the pixel written. -/
theorem setChecked_paints {m m' : Mat} {r c : Int} {p : Pixel}
    (h : m.setChecked r c p = .ok m') :
    PaintedOn (fun i j => (i : Int) = r ∧ (j : Int) = c) p m m' := by
  obtain ⟨hb, rfl⟩ := setChecked_inv h
  refine (PaintedOn.none p m).set r.toNat c.toNat ?_
  intro i j
  constructor
  · rintro ⟨h1, h2⟩
    right
    omega
  · rintro (h1 | ⟨h1, h2⟩)
    · exact absurd h1 id
    · omega

/-- A straight segment paints the positions `lo..stop`, each as its write does. -/
theorem drawSegment_paints (fuel : Nat) (writeAt : Mat → Int → Except Fault Mat)
    (At : Int → Nat → Nat → Prop) (p : Pixel) (lo stop : Int) (modified m' : Mat)
    (hw : ∀ (m m1 : Mat) (x : Int), writeAt m x = .ok m1 → PaintedOn (At x) p m m1)
    (h : drawSegment fuel writeAt lo stop modified = .ok m') :
    PaintedOn (fun i j => ∃ x, lo ≤ x ∧ x ≤ stop ∧ At x i j) p modified m' := by
  unfold drawSegment at h
  obtain ⟨⟨x, m⟩, hloop, hm⟩ := bind_eq_ok h
  injection hm with hm
  simp only at hm
  subst hm
  have hinv := whileLoop_inv
    (fun s : Int × Mat => decide (s.1 ≤ stop))
    (fun s => (writeAt s.2 s.1).bind fun m => .ok (s.1 + 1, m))
    (fun s => lo ≤ s.1 ∧ (s.1 ≤ stop + 1 ∨ s.1 = lo) ∧
      PaintedOn (fun i j => ∃ y, lo ≤ y ∧ y < s.1 ∧ At y i j) p modified s.2)
    (by
      rintro ⟨y, m0⟩ ⟨y', m1⟩ ⟨hlo, _, hI⟩ hc hb
      simp only [decide_eq_true_eq] at hc
      simp only at hlo hI hc hb ⊢
      obtain ⟨m2, hm2, hb2⟩ := bind_eq_ok hb
      injection hb2 with hb2
      injection hb2 with e1 e2
      subst e1 e2
      refine ⟨by omega, Or.inl (by omega), hI.trans (hw m0 m2 y hm2) ?_⟩
      intro i j
      constructor
      · rintro ⟨z, hz1, hz2, hz4⟩
        by_cases hzy : z = y
        · subst hzy; exact Or.inr hz4
        · exact Or.inl ⟨z, hz1, by omega, hz4⟩
      · rintro (⟨z, hz1, hz2, hz4⟩ | hz)
        · exact ⟨z, hz1, by omega, hz4⟩
        · exact ⟨y, hlo, by omega, hz⟩)
    fuel (lo, modified) (x, m)
    ⟨le_refl _, Or.inr rfl, (PaintedOn.none p modified).congr (fun i j =>
      ⟨fun ⟨y, h1, h2, _⟩ => by simp only at h2; omega, fun h => absurd h id⟩)⟩
    hloop
  obtain ⟨⟨hlo, hhi, hI⟩, hc⟩ := hinv
  simp only [decide_eq_false_iff_not, not_le] at hc
  simp only at hlo hhi hI hc ⊢
  refine hI.congr (fun i j => ?_)
  constructor
  · rintro ⟨y, h1, h2, h3⟩
    exact ⟨y, h1, by omega, h3⟩
  · rintro ⟨y, h1, h2, h3⟩
    exact ⟨y, h1, by omega, h3⟩

/-- One scanline paints the close pixels among its candidate columns. -/
theorem fillLine_paints (fuel : Nat) (o : Mat) (seed : Pixel) (strength : Int) (right : Bool)
    (randomC eachLine r : Int) (modified m' : Mat)
    (h : fillLine fuel o seed strength right randomC eachLine r modified = .ok m') :
    PaintedOn (fun i j => (i : Int) = r ∧ OnLine right randomC eachLine j ∧
      closeTo seed (o.px i j) strength ≠ 0) (paint seed) modified m' := by
  unfold fillLine at h
  obtain ⟨⟨x, m⟩, hloop, hm⟩ := bind_eq_ok h
  injection hm with hm
  simp only at hm
  subst hm
  have hinv := whileLoop_inv
    (fun s : Int × Mat =>
      if right then decide (s.1 ≤ randomC + eachLine) else decide (s.1 ≥ randomC - eachLine))
    (fun s => (o.atChecked r s.1).bind fun p =>
      (if closeTo seed p strength ≠ 0 then s.2.setChecked r s.1 (paint seed)
        else .ok s.2).bind fun m =>
      .ok (if right then s.1 + 1 else s.1 - 1, m))
    (fun s =>
      (right = true → randomC ≤ s.1 ∧ (s.1 ≤ randomC + eachLine + 1 ∨ s.1 = randomC)) ∧
      (right = false → s.1 ≤ randomC ∧ (randomC - eachLine - 1 ≤ s.1 ∨ s.1 = randomC)) ∧
      PaintedOn (fun i j => (i : Int) = r ∧
        (if right then randomC ≤ j ∧ (j : Int) < s.1 else s.1 < j ∧ (j : Int) ≤ randomC) ∧
        closeTo seed (o.px i j) strength ≠ 0) (paint seed) modified s.2)
    (by
      rintro ⟨y, m0⟩ ⟨y', m1⟩ ⟨hR, hL, hI⟩ hc hb
      simp only at hR hL hI hc hb ⊢
      obtain ⟨p, hp, hb1⟩ := bind_eq_ok hb
      obtain ⟨hbounds, rfl⟩ := atChecked_inv hp
      obtain ⟨m2, hm2, hb2⟩ := bind_eq_ok hb1
      injection hb2 with hb2
      injection hb2 with e1 e2
      subst e1 e2
      have hstep : PaintedOn (fun i j => (i : Int) = r ∧ (j : Int) = y ∧
          closeTo seed (o.px i j) strength ≠ 0) (paint seed) m0 m2 := by
        by_cases hcl : closeTo seed (o.px r.toNat y.toNat) strength ≠ 0
        · rw [if_pos hcl] at hm2
          refine (setChecked_paints hm2).congr (fun i j => ?_)
          constructor
          · rintro ⟨h1, h2, _⟩
            exact ⟨h1, h2⟩
          · rintro ⟨h1, h2⟩
            refine ⟨h1, h2, ?_⟩
            have e1 : i = r.toNat := by omega
            have e2 : j = y.toNat := by omega
            rw [e1, e2]
            exact hcl
        · rw [if_neg hcl] at hm2
          injection hm2 with hm2
          subst hm2
          refine (PaintedOn.none (paint seed) m0).congr (fun i j => ?_)
          constructor
          · rintro ⟨h1, h2, h3⟩
            have e1 : i = r.toNat := by omega
            have e2 : j = y.toNat := by omega
            rw [e1, e2] at h3
            exact hcl h3
          · exact fun hf => absurd hf id
      cases right with
      | true =>
        simp only [if_true, decide_eq_true_eq] at hc hI ⊢
        have hR' := hR rfl
        refine ⟨fun _ => ⟨by omega, Or.inl (by omega)⟩, fun hf => absurd hf (by decide),
          hI.trans hstep (fun i j => ?_)⟩
        constructor
        · rintro ⟨h1, ⟨h2, h3⟩, h4⟩
          by_cases hj : (j : Int) = y
          · exact Or.inr ⟨h1, hj, h4⟩
          · exact Or.inl ⟨h1, ⟨h2, by omega⟩, h4⟩
        · rintro (⟨h1, ⟨h2, h3⟩, h4⟩ | ⟨h1, h2, h4⟩)
          · exact ⟨h1, ⟨h2, by omega⟩, h4⟩
          · exact ⟨h1, ⟨by omega, by omega⟩, h4⟩
      | false =>
        simp only [Bool.false_eq_true, if_false, decide_eq_true_eq] at hc hI ⊢
        have hL' := hL rfl
        refine ⟨fun hf => absurd hf (by decide), fun _ => ⟨by omega, Or.inl (by omega)⟩,
          hI.trans hstep (fun i j => ?_)⟩
        constructor
        · rintro ⟨h1, ⟨h2, h3⟩, h4⟩
          by_cases hj : (j : Int) = y
          · exact Or.inr ⟨h1, hj, h4⟩
          · exact Or.inl ⟨h1, ⟨by omega, h3⟩, h4⟩
        · rintro (⟨h1, ⟨h2, h3⟩, h4⟩ | ⟨h1, h2, h4⟩)
          · exact ⟨h1, ⟨by omega, h3⟩, h4⟩
          · exact ⟨h1, ⟨by omega, by omega⟩, h4⟩)
    fuel (randomC, modified) (x, m)
    ⟨fun _ => ⟨le_refl _, Or.inr rfl⟩, fun _ => ⟨le_refl _, Or.inr rfl⟩,
      (PaintedOn.none (paint seed) modified).congr (fun i j =>
        ⟨fun ⟨_, h2, _⟩ => by
          cases right with
          | true => simp only [if_true] at h2; omega
          | false => simp only [Bool.false_eq_true, if_false] at h2; omega,
         fun hf => absurd hf id⟩)⟩
    hloop
  obtain ⟨⟨hR, hL, hI⟩, hc⟩ := hinv
  simp only at hR hL hI hc ⊢
  refine hI.congr (fun i j => ?_)
  unfold OnLine
  cases right with
  | true =>
    simp only [if_true, decide_eq_false_iff_not, not_le] at hc ⊢
    have := hR rfl
    constructor
    · rintro ⟨h1, ⟨h2, h3⟩, h4⟩
      exact ⟨h1, ⟨h2, by omega⟩, h4⟩
    · rintro ⟨h1, ⟨h2, h3⟩, h4⟩
      exact ⟨h1, ⟨h2, by omega⟩, h4⟩
  | false =>
    simp only [Bool.false_eq_true, if_false, decide_eq_false_iff_not, not_le, ge_iff_le] at hc ⊢
    have := hL rfl
    constructor
    · rintro ⟨h1, ⟨h2, h3⟩, h4⟩
      exact ⟨h1, ⟨by omega, h3⟩, h4⟩
    · rintro ⟨h1, ⟨h2, h3⟩, h4⟩
      exact ⟨h1, ⟨by omega, h3⟩, h4⟩
/-- A triangle paints the close pixels among its candidate pixels: scanline `k = 0..V` is the
row `k` steps from the seed and extends `H - k * s` columns from the seed's column. -/
theorem fillTriangle_paints (fuel : Nat) (o : Mat) (seed : Pixel) (strength : Int)
    (up right : Bool) (randomR randomC V H s : Int) (modified m' : Mat)
    (h : fillTriangle fuel o seed strength up right randomR randomC V H s modified = .ok m') :
    PaintedOn (fun i j => Candidate up right randomR randomC V H s i j ∧
      closeTo seed (o.px i j) strength ≠ 0) (paint seed) modified m' := by
  unfold fillTriangle at h
  obtain ⟨⟨x, e, m⟩, hloop, hm⟩ := bind_eq_ok h
  injection hm with hm
  simp only at hm
  subst hm
  have hinv := whileLoop_inv
    (fun t : Int × Int × Mat =>
      if up then decide (t.1 ≥ randomR - V) else decide (t.1 ≤ randomR + V))
    (fun t => (fillLine fuel o seed strength right randomC t.2.1 t.1 t.2.2).bind fun m =>
      .ok (if up then t.1 - 1 else t.1 + 1, t.2.1 - s, m))
    (fun t =>
      0 ≤ (if up then randomR - t.1 else t.1 - randomR) ∧
      ((if up then randomR - t.1 else t.1 - randomR) ≤ V + 1 ∨
        (if up then randomR - t.1 else t.1 - randomR) = 0) ∧
      t.2.1 = H - (if up then randomR - t.1 else t.1 - randomR) * s ∧
      PaintedOn (fun i j =>
        (∃ k : Int, 0 ≤ k ∧ k < (if up then randomR - t.1 else t.1 - randomR) ∧
          (i : Int) = (if up then randomR - k else randomR + k) ∧
          OnLine right randomC (H - k * s) j) ∧
        closeTo seed (o.px i j) strength ≠ 0) (paint seed) modified t.2.2)
    (by
      rintro ⟨y, e0, m0⟩ ⟨y', e1, m1⟩ ⟨h0, _, he, hI⟩ hc hb
      simp only at h0 he hI hc hb ⊢
      obtain ⟨m2, hm2, hb2⟩ := bind_eq_ok hb
      injection hb2 with hb2
      injection hb2 with e1' hb3
      injection hb3 with e2' e3'
      subst e1' e2' e3'
      have hline := fillLine_paints fuel o seed strength right randomC e0 y m0 m2 hm2
      cases up with
      | true =>
        simp only [if_true, decide_eq_true_eq] at h0 he hI hc ⊢
        refine ⟨by omega, Or.inl (by omega), by rw [he]; ring, hI.trans hline (fun i j => ?_)⟩
        constructor
        · rintro ⟨⟨k, hk0, hk1, hk2, hk3⟩, hcl⟩
          by_cases hk : k = randomR - y
          · right
            refine ⟨by omega, ?_, hcl⟩
            rw [he, ← hk]
            exact hk3
          · exact Or.inl ⟨⟨k, hk0, by omega, hk2, hk3⟩, hcl⟩
        · rintro (⟨⟨k, hk0, hk1, hk2, hk3⟩, hcl⟩ | ⟨h1, h2, hcl⟩)
          · exact ⟨⟨k, hk0, by omega, hk2, hk3⟩, hcl⟩
          · refine ⟨⟨randomR - y, h0, by omega, by omega, ?_⟩, hcl⟩
            rw [← he]
            exact h2
      | false =>
        simp only [Bool.false_eq_true, if_false, decide_eq_true_eq] at h0 he hI hc ⊢
        refine ⟨by omega, Or.inl (by omega), by rw [he]; ring, hI.trans hline (fun i j => ?_)⟩
        constructor
        · rintro ⟨⟨k, hk0, hk1, hk2, hk3⟩, hcl⟩
          by_cases hk : k = y - randomR
          · right
            refine ⟨by omega, ?_, hcl⟩
            rw [he, ← hk]
            exact hk3
          · exact Or.inl ⟨⟨k, hk0, by omega, hk2, hk3⟩, hcl⟩
        · rintro (⟨⟨k, hk0, hk1, hk2, hk3⟩, hcl⟩ | ⟨h1, h2, hcl⟩)
          · exact ⟨⟨k, hk0, by omega, hk2, hk3⟩, hcl⟩
          · refine ⟨⟨y - randomR, h0, by omega, by omega, ?_⟩, hcl⟩
            rw [← he]
            exact h2)
    fuel (randomR, H, modified) (x, e, m)
    (by
      simp only
      refine ⟨by split_ifs <;> omega, Or.inr (by split_ifs <;> omega),
        by split_ifs <;> simp, (PaintedOn.none (paint seed) modified).congr (fun i j => ?_)⟩
      constructor
      · rintro ⟨⟨k, hk0, hk1, _⟩, _⟩
        split_ifs at hk1 <;> omega
      · exact fun hf => absurd hf id)
    hloop
  obtain ⟨⟨h0, h1, he, hI⟩, hc⟩ := hinv
  simp only at h0 h1 he hI hc ⊢
  refine hI.congr (fun i j => ?_)
  unfold Candidate
  cases up with
  | true =>
    simp only [if_true, decide_eq_false_iff_not, not_le, ge_iff_le] at h0 h1 hc ⊢
    constructor
    · rintro ⟨⟨k, hk0, hk1, hk2, hk3⟩, hcl⟩
      exact ⟨⟨k, hk0, by omega, hk2, hk3⟩, hcl⟩
    · rintro ⟨⟨k, hk0, hk1, hk2, hk3⟩, hcl⟩
      exact ⟨⟨k, hk0, by omega, hk2, hk3⟩, hcl⟩
  | false =>
    simp only [Bool.false_eq_true, if_false, decide_eq_false_iff_not, not_le] at h0 h1 hc ⊢
    constructor
    · rintro ⟨⟨k, hk0, hk1, hk2, hk3⟩, hcl⟩
      exact ⟨⟨k, hk0, by omega, hk2, hk3⟩, hcl⟩
    · rintro ⟨⟨k, hk0, hk1, hk2, hk3⟩, hcl⟩
      exact ⟨⟨k, hk0, by omega, hk2, hk3⟩, hcl⟩
/-! ## What one iteration paints -/

/-- One iteration once the gradients and the two directions are known: the walks, then the
drawing. -/
theorem iterationAt_eq (fuel : Nat) (o : Mat) (count randomR randomC : Int) (modified : Mat)
    (g : Gradients) (a b : Int)
    (hr0 : 0 ≤ randomR) (hr : randomR < o.rows) (hc0 : 0 ≤ randomC) (hc : randomC < o.cols)
    (hg : gradients o (o.px randomR.toNat randomC.toNat) randomR randomC = .ok g)
    (hsel : selectDirections g = (ofInt a, ofInt b)) :
    iterationAt fuel o count randomR randomC modified =
      (findPoints fuel o (o.px randomR.toNat randomC.toNat) (strengthOf count) randomR randomC
        (ofInt a) (ofInt b)).bind fun pts =>
      draw fuel o (o.px randomR.toNat randomC.toNat) (strengthOf count) randomR randomC
        (ofInt a) (ofInt b) pts modified := by
  unfold iterationAt
  rw [atChecked_ok o randomR randomC hr0 hr hc0 hc, bind_ok, hg, bind_ok, hsel]

/-- An iteration whose directions are up and down paints the seed's column from the upper
vertex to the lower vertex with the seed colour. -/
theorem rows_iteration_paints (o modified : Mat) (count randomR randomC : Int) (fuel : Nat)
    (g : Gradients)
    (hd : modified.rows = o.rows ∧ modified.cols = o.cols)
    (hr0 : 0 ≤ randomR) (hr : randomR < o.rows) (hc0 : 0 ≤ randomC) (hc : randomC < o.cols)
    (hfuel : o.rows + o.cols ≤ fuel)
    (hg : gradients o (o.px randomR.toNat randomC.toNat) randomR randomC = .ok g)
    (hsel : selectDirections g = (ofInt 1, ofInt 3) ∨ selectDirections g = (ofInt 3, ofInt 1)) :
    ∃ vU vD m,
      walkUp fuel o (o.px randomR.toNat randomC.toNat) (strengthOf count) randomR randomC =
        .ok vU ∧
      walkDown fuel o (o.px randomR.toNat randomC.toNat) (strengthOf count) randomR randomC =
        .ok vD ∧
      vU ≤ randomR ∧ randomR ≤ vD ∧
      iterationAt fuel o count randomR randomC modified = .ok m ∧
      PaintedOn (fun i j => vU ≤ i ∧ (i : Int) ≤ vD ∧ (j : Int) = randomC)
        (o.px randomR.toNat randomC.toNat) modified m := by
  obtain ⟨m, hm, -⟩ := (iterationAt_safe fuel o count randomR randomC modified o.rows o.cols
    ⟨rfl, rfl⟩ hd hr0 hr hc0 hc).returns (by omega)
  obtain ⟨vU, hU, hU0, hU1⟩ := (walkUp_bounds fuel o (o.px randomR.toNat randomC.toNat)
    (strengthOf count) randomR randomC o.rows o.cols ⟨rfl, rfl⟩ hr0 hr hc0 hc).returns
    (by omega)
  obtain ⟨vD, hD, hD0, hD1⟩ := (walkDown_bounds fuel o (o.px randomR.toNat randomC.toNat)
    (strengthOf count) randomR randomC o.rows o.cols ⟨rfl, rfl⟩ hr0 hr hc0 hc).returns
    (by omega)
  refine ⟨vU, vD, m, hU, hD, hU1, hD0, hm, ?_⟩
  have hseg : drawSegment fuel
      (fun m r => m.setChecked r randomC (paint (o.px randomR.toNat randomC.toNat)))
      vU vD modified = .ok m := by
    rcases hsel with hsel | hsel
    · rw [iterationAt_eq fuel o count randomR randomC modified g _ _ hr0 hr hc0 hc hg hsel] at hm
      unfold findPoints draw storePoint at hm
      simp only [ofInt_inj] at hm
      norm_num at hm
      simp only [bind_ok, bind_bind, hU, hD] at hm
      rw [min_eq_left (by omega), max_eq_right (by omega)] at hm
      exact hm
    · rw [iterationAt_eq fuel o count randomR randomC modified g _ _ hr0 hr hc0 hc hg hsel] at hm
      unfold findPoints draw storePoint at hm
      simp only [ofInt_inj] at hm
      norm_num at hm
      simp only [bind_ok, bind_bind, hU, hD] at hm
      rw [min_eq_right (by omega), max_eq_left (by omega)] at hm
      exact hm
  have hp := drawSegment_paints fuel _ (fun x i j => (i : Int) = x ∧ (j : Int) = randomC)
    (paint (o.px randomR.toNat randomC.toNat)) vU vD modified m
    (fun m0 m1 x hw => setChecked_paints hw) hseg
  rw [paint_eq] at hp
  refine hp.congr (fun i j => ?_)
  constructor
  · rintro ⟨h1, h2, h3⟩
    exact ⟨i, h1, h2, rfl, h3⟩
  · rintro ⟨x, h1, h2, h3, h4⟩
    exact ⟨by omega, by omega, h4⟩

/-- An iteration whose directions are left and right paints the seed's row from the left
vertex to the right vertex with the seed colour. -/
theorem cols_iteration_paints (o modified : Mat) (count randomR randomC : Int) (fuel : Nat)
    (g : Gradients)
    (hd : modified.rows = o.rows ∧ modified.cols = o.cols)
    (hr0 : 0 ≤ randomR) (hr : randomR < o.rows) (hc0 : 0 ≤ randomC) (hc : randomC < o.cols)
    (hfuel : o.rows + o.cols ≤ fuel)
    (hg : gradients o (o.px randomR.toNat randomC.toNat) randomR randomC = .ok g)
    (hsel : selectDirections g = (ofInt 2, ofInt 4) ∨ selectDirections g = (ofInt 4, ofInt 2)) :
    ∃ vL vR m,
      walkLeft fuel o (o.px randomR.toNat randomC.toNat) (strengthOf count) randomR randomC =
        .ok vL ∧
      walkRight fuel o (o.px randomR.toNat randomC.toNat) (strengthOf count) randomR randomC =
        .ok vR ∧
      vL ≤ randomC ∧ randomC ≤ vR ∧
      iterationAt fuel o count randomR randomC modified = .ok m ∧
      PaintedOn (fun i j => (i : Int) = randomR ∧ vL ≤ j ∧ (j : Int) ≤ vR)
        (o.px randomR.toNat randomC.toNat) modified m := by
  obtain ⟨m, hm, -⟩ := (iterationAt_safe fuel o count randomR randomC modified o.rows o.cols
    ⟨rfl, rfl⟩ hd hr0 hr hc0 hc).returns (by omega)
  obtain ⟨vL, hL, hL0, hL1⟩ := (walkLeft_bounds fuel o (o.px randomR.toNat randomC.toNat)
    (strengthOf count) randomR randomC o.rows o.cols ⟨rfl, rfl⟩ hr0 hr hc0 hc).returns
    (by omega)
  obtain ⟨vR, hR, hR0, hR1⟩ := (walkRight_bounds fuel o (o.px randomR.toNat randomC.toNat)
    (strengthOf count) randomR randomC o.rows o.cols ⟨rfl, rfl⟩ hr0 hr hc0 hc).returns
    (by omega)
  refine ⟨vL, vR, m, hL, hR, hL1, hR0, hm, ?_⟩
  have hseg : drawSegment fuel
      (fun m c => m.setChecked randomR c (paint (o.px randomR.toNat randomC.toNat)))
      vL vR modified = .ok m := by
    rcases hsel with hsel | hsel
    · rw [iterationAt_eq fuel o count randomR randomC modified g _ _ hr0 hr hc0 hc hg hsel] at hm
      unfold findPoints draw storePoint at hm
      simp only [ofInt_inj] at hm
      norm_num at hm
      simp only [bind_ok, bind_bind, hL, hR] at hm
      rw [min_eq_right (by omega), max_eq_left (by omega)] at hm
      exact hm
    · rw [iterationAt_eq fuel o count randomR randomC modified g _ _ hr0 hr hc0 hc hg hsel] at hm
      unfold findPoints draw storePoint at hm
      simp only [ofInt_inj] at hm
      norm_num at hm
      simp only [bind_ok, bind_bind, hL, hR] at hm
      rw [min_eq_left (by omega), max_eq_right (by omega)] at hm
      exact hm
  have hp := drawSegment_paints fuel _ (fun x i j => (i : Int) = randomR ∧ (j : Int) = x)
    (paint (o.px randomR.toNat randomC.toNat)) vL vR modified m
    (fun m0 m1 x hw => setChecked_paints hw) hseg
  rw [paint_eq] at hp
  refine hp.congr (fun i j => ?_)
  constructor
  · rintro ⟨h1, h2, h3⟩
    exact ⟨j, h2, h3, h1, rfl⟩
  · rintro ⟨x, h1, h2, h3, h4⟩
    exact ⟨h3, by omega, by omega⟩

theorem vertDistanceOf_first (randomR v c1 c2 : Int) :
    vertDistanceOf randomR ⟨v, c1, randomR, c2⟩ = |v - randomR| := by
  unfold vertDistanceOf
  simp

theorem vertDistanceOf_second (randomR v c1 c2 : Int) :
    vertDistanceOf randomR ⟨randomR, c1, v, c2⟩ = |v - randomR| := by
  unfold vertDistanceOf
  simp only [sub_self, abs_zero]
  split_ifs with h
  · exact h.symm
  · rfl

theorem horzDistanceOf_first (randomC v r1 r2 : Int) :
    horzDistanceOf randomC ⟨r1, v, r2, randomC⟩ =
      if |v - randomC| = 0 then 1 else |v - randomC| := by
  unfold horzDistanceOf
  simp

theorem horzDistanceOf_second (randomC v r1 r2 : Int) :
    horzDistanceOf randomC ⟨r1, randomC, r2, v⟩ =
      if |v - randomC| = 0 then 1 else |v - randomC| := by
  unfold horzDistanceOf
  simp only [sub_self, abs_zero]
  by_cases h : |v - randomC| = 0
  · simp [h]
  · simp [h]

/-- An iteration whose directions are a vertical and a horizontal one paints, with the seed
colour, the close pixels among the candidate pixels of the triangle: the vertical extent is the
row distance from the seed to the vertical vertex, the horizontal extent the column distance to
the horizontal vertex, replaced by `1` when it is `0`, and the decrement per scanline is the
quotient of the two. -/
theorem triangle_iteration_paints (o modified : Mat) (count randomR randomC : Int)
    (fuel : Nat) (g : Gradients) (up right : Bool)
    (hd : modified.rows = o.rows ∧ modified.cols = o.cols)
    (hr0 : 0 ≤ randomR) (hr : randomR < o.rows) (hc0 : 0 ≤ randomC) (hc : randomC < o.cols)
    (hfuel : o.rows + o.cols ≤ fuel)
    (hg : gradients o (o.px randomR.toNat randomC.toNat) randomR randomC = .ok g)
    (hsel : selectDirections g = (ofInt (verticalCode up), ofInt (horizontalCode right)) ∨
      selectDirections g = (ofInt (horizontalCode right), ofInt (verticalCode up))) :
    ∃ vV vH m,
      walkVertical up fuel o (o.px randomR.toNat randomC.toNat) (strengthOf count) randomR
        randomC = .ok vV ∧
      walkHorizontal right fuel o (o.px randomR.toNat randomC.toNat) (strengthOf count) randomR
        randomC = .ok vH ∧
      iterationAt fuel o count randomR randomC modified = .ok m ∧
      PaintedOn (fun i j =>
          Candidate up right randomR randomC |vV - randomR|
            (if |vH - randomC| = 0 then 1 else |vH - randomC|)
            (|vV - randomR| / (if |vH - randomC| = 0 then 1 else |vH - randomC|)) i j ∧
          Near (o.px randomR.toNat randomC.toNat) (o.px i j) (strengthOf count))
        (o.px randomR.toNat randomC.toNat) modified m := by
  obtain ⟨m, hm, -⟩ := (iterationAt_safe fuel o count randomR randomC modified o.rows o.cols
    ⟨rfl, rfl⟩ hd hr0 hr hc0 hc).returns (by omega)
  obtain ⟨vU, hU, -⟩ := (walkUp_bounds fuel o (o.px randomR.toNat randomC.toNat)
    (strengthOf count) randomR randomC o.rows o.cols ⟨rfl, rfl⟩ hr0 hr hc0 hc).returns
    (by omega)
  obtain ⟨vD, hD, -⟩ := (walkDown_bounds fuel o (o.px randomR.toNat randomC.toNat)
    (strengthOf count) randomR randomC o.rows o.cols ⟨rfl, rfl⟩ hr0 hr hc0 hc).returns
    (by omega)
  obtain ⟨vL, hL, -⟩ := (walkLeft_bounds fuel o (o.px randomR.toNat randomC.toNat)
    (strengthOf count) randomR randomC o.rows o.cols ⟨rfl, rfl⟩ hr0 hr hc0 hc).returns
    (by omega)
  obtain ⟨vR, hR, -⟩ := (walkRight_bounds fuel o (o.px randomR.toNat randomC.toNat)
    (strengthOf count) randomR randomC o.rows o.cols ⟨rfl, rfl⟩ hr0 hr hc0 hc).returns
    (by omega)
  obtain ⟨hs0, hs32⟩ := strengthOf_range count
  have key : ∀ vV vH : Int,
      fillTriangle fuel o (o.px randomR.toNat randomC.toNat) (strengthOf count) up right
        randomR randomC |vV - randomR| (if |vH - randomC| = 0 then 1 else |vH - randomC|)
        (Int.tdiv |vV - randomR| (if |vH - randomC| = 0 then 1 else |vH - randomC|))
        modified = .ok m →
      PaintedOn (fun i j =>
          Candidate up right randomR randomC |vV - randomR|
            (if |vH - randomC| = 0 then 1 else |vH - randomC|)
            (|vV - randomR| / (if |vH - randomC| = 0 then 1 else |vH - randomC|)) i j ∧
          Near (o.px randomR.toNat randomC.toNat) (o.px i j) (strengthOf count))
        (o.px randomR.toNat randomC.toNat) modified m := by
    intro vV vH hfill
    have hp := fillTriangle_paints fuel o _ _ up right randomR randomC _ _ _ modified m hfill
    rw [paint_eq, Int.tdiv_eq_ediv (abs_nonneg _) (by split_ifs <;> positivity)] at hp
    refine hp.congr (fun i j => ?_)
    rw [closeTo_ne_zero_iff _ _ _ hs0 hs32]
  have hm0 := hm
  cases up <;> cases right <;> rcases hsel with hsel | hsel <;>
    simp only [verticalCode, horizontalCode, if_true, if_false, Bool.false_eq_true] at hsel <;>
    rw [iterationAt_eq fuel o count randomR randomC modified g _ _ hr0 hr hc0 hc hg hsel]
      at hm <;>
    unfold findPoints draw storePoint at hm <;>
    simp only [ofInt_inj] at hm <;>
    norm_num at hm <;>
    simp only [bind_ok, bind_bind, hU, hD, hL, hR, vertDistanceOf_first, vertDistanceOf_second,
      horzDistanceOf_first, horzDistanceOf_second] at hm <;>
    simp only [walkVertical, walkHorizontal, if_true, if_false, Bool.false_eq_true]
  · exact ⟨vD, vL, m, hD, hL, hm0, key vD vL hm⟩
  · exact ⟨vD, vL, m, hD, hL, hm0, key vD vL hm⟩
  · exact ⟨vD, vR, m, hD, hR, hm0, key vD vR hm⟩
  · exact ⟨vD, vR, m, hD, hR, hm0, key vD vR hm⟩
  · exact ⟨vU, vL, m, hU, hL, hm0, key vU vL hm⟩
  · exact ⟨vU, vL, m, hU, hL, hm0, key vU vL hm⟩
  · exact ⟨vU, vR, m, hU, hR, hm0, key vU vR hm⟩
  · exact ⟨vU, vR, m, hU, hR, hm0, key vU vR hm⟩
theorem PaintedOn.changed {S : Nat → Nat → Prop} {p : Pixel} {m m' : Mat}
    (h : PaintedOn S p m m') {i j : Nat} (hne : m'.px i j ≠ m.px i j) :
    S i j ∧ m'.px i j = p := by
  by_cases hs : S i j
  · exact ⟨hs, (h.2.2 i j).1 hs⟩
  · exact absurd ((h.2.2 i j).2 hs) hne

/-- The two directions of an iteration for a seed inside the buffer are direction codes. -/
theorem selection_codes (o : Mat) (seed : Pixel) (randomR randomC : Int) (g : Gradients)
    (hr0 : 0 ≤ randomR) (hr : randomR < o.rows) (hc0 : 0 ≤ randomC) (hc : randomC < o.cols)
    (hg : gradients o seed randomR randomC = .ok g) :
    ∃ a b : Int, selectDirections g = (ofInt a, ofInt b) ∧ 1 ≤ a ∧ a ≤ 4 ∧ 1 ≤ b ∧ b ≤ 4 ∧
      a ≠ b := by
  obtain ⟨g', hg', hsent, hreal⟩ := gradients_spec o seed randomR randomC hr0 hr hc0 hc
  rw [hg] at hg'
  injection hg' with hg'
  subst hg'
  have hle : ∀ d, 1 ≤ d → d ≤ 4 → g.of d ≤ ofInt 442 := by
    intro d h1 h4
    by_cases hs : sentinelDir o randomR randomC d = true
    · exact le_of_eq (hsent d h1 h4 hs)
    · exact le_of_lt (hreal d h1 h4 (by simpa using hs))
  obtain ⟨a, b, hsel, ha1, ha4, hb1, hb4, hab, -, -⟩ := selectDirections_spec g (ofInt 442)
    (hle 1 (by decide) (by decide)) (hle 3 (by decide) (by decide))
    (hle 2 (by decide) (by decide)) (hle 4 (by decide) (by decide))
  exact ⟨a, b, hsel, ha1, ha4, hb1, hb4, hab⟩

/-- Two different direction codes are opposite, or one is vertical and the other
horizontal. -/
theorem direction_pair_cases (a b : Int) (ha1 : 1 ≤ a) (ha4 : a ≤ 4) (hb1 : 1 ≤ b)
    (hb4 : b ≤ 4) (hab : a ≠ b) :
    ((a = 1 ∧ b = 3) ∨ (a = 3 ∧ b = 1)) ∨ ((a = 2 ∧ b = 4) ∨ (a = 4 ∧ b = 2)) ∨
    ∃ up right : Bool, (a = verticalCode up ∧ b = horizontalCode right) ∨
      (a = horizontalCode right ∧ b = verticalCode up) := by
  have ha : a = 1 ∨ a = 2 ∨ a = 3 ∨ a = 4 := by omega
  have hb : b = 1 ∨ b = 2 ∨ b = 3 ∨ b = 4 := by omega
  rcases ha with rfl | rfl | rfl | rfl <;> rcases hb with rfl | rfl | rfl | rfl <;>
    first
    | exact absurd rfl hab
    | exact Or.inl (Or.inl ⟨rfl, rfl⟩)
    | exact Or.inl (Or.inr ⟨rfl, rfl⟩)
    | exact Or.inr (Or.inl (Or.inl ⟨rfl, rfl⟩))
    | exact Or.inr (Or.inl (Or.inr ⟨rfl, rfl⟩))
    | exact Or.inr (Or.inr ⟨true, true, Or.inl ⟨rfl, rfl⟩⟩)
    | exact Or.inr (Or.inr ⟨true, true, Or.inr ⟨rfl, rfl⟩⟩)
    | exact Or.inr (Or.inr ⟨true, false, Or.inl ⟨rfl, rfl⟩⟩)
    | exact Or.inr (Or.inr ⟨true, false, Or.inr ⟨rfl, rfl⟩⟩)
    | exact Or.inr (Or.inr ⟨false, true, Or.inl ⟨rfl, rfl⟩⟩)
    | exact Or.inr (Or.inr ⟨false, true, Or.inr ⟨rfl, rfl⟩⟩)
    | exact Or.inr (Or.inr ⟨false, false, Or.inl ⟨rfl, rfl⟩⟩)
    | exact Or.inr (Or.inr ⟨false, false, Or.inr ⟨rfl, rfl⟩⟩)

theorem near_self (p : Pixel) (strength : Int) (h : 0 < strength) : Near p p strength := by
  unfold Near sqDist
  simp only [sub_self, Int.natAbs_zero]
  positivity

/-- The seed pixel is a candidate pixel of every triangle with a positive horizontal
extent. -/
theorem candidate_seed (up right : Bool) (randomR randomC v h s : Int) (hv : 0 ≤ v)
    (hh : 0 ≤ h) : Candidate up right randomR randomC v h s randomR randomC := by
  refine ⟨0, le_refl _, hv, by split_ifs <;> simp, ?_⟩
  unfold OnLine
  split_ifs <;> constructor <;> simp <;> omega

/-- C22. The straight segments.  When the two chosen directions are up and down, the
iteration returns a destination in which every pixel of the seed's column between the upper and
the lower vertex inclusive holds the seed's source colour and every other pixel is unchanged;
when they are left and right, the same holds for the seed's row between the left and the right
vertex. -/
theorem straight_segment (o modified : Mat) (count randomR randomC : Int) (fuel : Nat)
    (g : Gradients)
    (hd : modified.rows = o.rows ∧ modified.cols = o.cols)
    (hr0 : 0 ≤ randomR) (hr : randomR < o.rows) (hc0 : 0 ≤ randomC) (hc : randomC < o.cols)
    (hfuel : o.rows + o.cols ≤ fuel)
    (hg : gradients o (o.px randomR.toNat randomC.toNat) randomR randomC = .ok g) :
    ((selectDirections g = (ofInt 1, ofInt 3) ∨ selectDirections g = (ofInt 3, ofInt 1)) →
      ∃ vU vD m,
        walkUp fuel o (o.px randomR.toNat randomC.toNat) (strengthOf count) randomR randomC =
          .ok vU ∧
        walkDown fuel o (o.px randomR.toNat randomC.toNat) (strengthOf count) randomR randomC =
          .ok vD ∧
        vU ≤ randomR ∧ randomR ≤ vD ∧
        iterationAt fuel o count randomR randomC modified = .ok m ∧
        m.rows = modified.rows ∧ m.cols = modified.cols ∧
        ∀ i j : Nat,
          (vU ≤ i ∧ (i : Int) ≤ vD ∧ (j : Int) = randomC →
            m.px i j = o.px randomR.toNat randomC.toNat) ∧
          (¬ (vU ≤ i ∧ (i : Int) ≤ vD ∧ (j : Int) = randomC) →
            m.px i j = modified.px i j)) ∧
    ((selectDirections g = (ofInt 2, ofInt 4) ∨ selectDirections g = (ofInt 4, ofInt 2)) →
      ∃ vL vR m,
        walkLeft fuel o (o.px randomR.toNat randomC.toNat) (strengthOf count) randomR randomC =
          .ok vL ∧
        walkRight fuel o (o.px randomR.toNat randomC.toNat) (strengthOf count) randomR randomC =
          .ok vR ∧
        vL ≤ randomC ∧ randomC ≤ vR ∧
        iterationAt fuel o count randomR randomC modified = .ok m ∧
        m.rows = modified.rows ∧ m.cols = modified.cols ∧
        ∀ i j : Nat,
          ((i : Int) = randomR ∧ vL ≤ j ∧ (j : Int) ≤ vR →
            m.px i j = o.px randomR.toNat randomC.toNat) ∧
          (¬ ((i : Int) = randomR ∧ vL ≤ j ∧ (j : Int) ≤ vR) →
            m.px i j = modified.px i j)) :=
  ⟨fun hsel => rows_iteration_paints o modified count randomR randomC fuel g hd hr0 hr hc0 hc
      hfuel hg hsel,
    fun hsel => cols_iteration_paints o modified count randomR randomC fuel g hd hr0 hr hc0 hc
      hfuel hg hsel⟩

theorem straight_segment_witness :
    selectDirections ⟨0, 0, 0, 0⟩ = (ofInt 1, ofInt 3) ∧
    ∃ vU vD m,
      walkUp 10 (constMat 5 5 ⟨128, 128, 128⟩)
        ((constMat 5 5 ⟨128, 128, 128⟩).px (2 : Int).toNat (2 : Int).toNat) (strengthOf 0)
        2 2 = .ok vU ∧
      walkDown 10 (constMat 5 5 ⟨128, 128, 128⟩)
        ((constMat 5 5 ⟨128, 128, 128⟩).px (2 : Int).toNat (2 : Int).toNat) (strengthOf 0)
        2 2 = .ok vD ∧
      vU ≤ 2 ∧ 2 ≤ vD ∧
      iterationAt 10 (constMat 5 5 ⟨128, 128, 128⟩) 0 2 2 (constMat 5 5 white) = .ok m ∧
      m.rows = (constMat 5 5 white).rows ∧ m.cols = (constMat 5 5 white).cols ∧
      ∀ i j : Nat,
        (vU ≤ i ∧ (i : Int) ≤ vD ∧ (j : Int) = 2 →
          m.px i j = (constMat 5 5 ⟨128, 128, 128⟩).px (2 : Int).toNat (2 : Int).toNat) ∧
        (¬ (vU ≤ i ∧ (i : Int) ≤ vD ∧ (j : Int) = 2) →
          m.px i j = (constMat 5 5 white).px i j) :=
  ⟨by decide,
    (straight_segment (constMat 5 5 ⟨128, 128, 128⟩) (constMat 5 5 white) 0 2 2 10
      ⟨0, 0, 0, 0⟩ ⟨rfl, rfl⟩ (by decide) (by decide) (by decide) (by decide) (by decide)
      rfl).1 (Or.inl (by decide))⟩
/-- A scanline of negative extent has no column. -/
theorem onLine_empty (right : Bool) (randomC eachLine j : Int) (h : eachLine < 0) :
    ¬ OnLine right randomC eachLine j := by
  intro hon
  unfold OnLine at hon
  split_ifs at hon <;> omega

/-- C24. The scanlines of a right triangle.  When the two chosen directions are a vertical
one (up or down) and a horizontal one (right or left), in either order, let `v` be the row
distance from the seed to the vertical vertex and `h` the column distance from the seed to the
horizontal vertex, replaced by `1` when it is `0`.  The iteration returns a destination in
which exactly the close candidate pixels are set to the seed colour, the candidate pixels being
those on the scanlines `k = 0..v`: scanline `k` is the row `k` steps from the seed toward the
vertical vertex and covers the columns from the seed's column out to `h - k * (v / h)` columns
toward the horizontal vertex; a scanline whose extent is negative is empty. -/
theorem scanline_extents (o modified : Mat) (count randomR randomC : Int)
    (fuel : Nat) (g : Gradients) (up right : Bool)
    (hd : modified.rows = o.rows ∧ modified.cols = o.cols)
    (hr0 : 0 ≤ randomR) (hr : randomR < o.rows) (hc0 : 0 ≤ randomC) (hc : randomC < o.cols)
    (hfuel : o.rows + o.cols ≤ fuel)
    (hg : gradients o (o.px randomR.toNat randomC.toNat) randomR randomC = .ok g)
    (hsel : selectDirections g = (ofInt (verticalCode up), ofInt (horizontalCode right)) ∨
      selectDirections g = (ofInt (horizontalCode right), ofInt (verticalCode up))) :
    ∃ vV vH m,
      walkVertical up fuel o (o.px randomR.toNat randomC.toNat) (strengthOf count) randomR
        randomC = .ok vV ∧
      walkHorizontal right fuel o (o.px randomR.toNat randomC.toNat) (strengthOf count) randomR
        randomC = .ok vH ∧
      iterationAt fuel o count randomR randomC modified = .ok m ∧
      PaintedOn (fun i j =>
          (∃ k : Int, 0 ≤ k ∧ k ≤ |vV - randomR| ∧
            (i : Int) = (if up then randomR - k else randomR + k) ∧
            OnLine right randomC
              ((if |vH - randomC| = 0 then 1 else |vH - randomC|) -
                k * (|vV - randomR| / (if |vH - randomC| = 0 then 1 else |vH - randomC|))) j) ∧
          Near (o.px randomR.toNat randomC.toNat) (o.px i j) (strengthOf count))
        (o.px randomR.toNat randomC.toNat) modified m ∧
      ∀ k j : Int,
        (if |vH - randomC| = 0 then 1 else |vH - randomC|) -
          k * (|vV - randomR| / (if |vH - randomC| = 0 then 1 else |vH - randomC|)) < 0 →
        ¬ OnLine right randomC
          ((if |vH - randomC| = 0 then 1 else |vH - randomC|) -
            k * (|vV - randomR| / (if |vH - randomC| = 0 then 1 else |vH - randomC|))) j := by
  obtain ⟨vV, vH, m, hV, hH, hm, hp⟩ := triangle_iteration_paints o modified count randomR
    randomC fuel g up right hd hr0 hr hc0 hc hfuel hg hsel
  refine ⟨vV, vH, m, hV, hH, hm, hp, ?_⟩
  intro k j hneg
  exact onLine_empty right randomC _ j hneg

theorem scanline_extents_witness :
    selectDirections ⟨distanceTo ⟨100, 100, 100⟩ ⟨0, 0, 0⟩, 0, 0,
      distanceTo ⟨100, 100, 100⟩ ⟨0, 0, 0⟩⟩ = (ofInt 2, ofInt 3) ∧
    ∃ vV vH m,
      walkVertical false 13 demoMat (demoMat.px (2 : Int).toNat (2 : Int).toNat) (strengthOf 0)
        2 2 = .ok vV ∧
      walkHorizontal true 13 demoMat (demoMat.px (2 : Int).toNat (2 : Int).toNat)
        (strengthOf 0) 2 2 = .ok vH ∧
      iterationAt 13 demoMat 0 2 2 (constMat 6 7 white) = .ok m ∧
      PaintedOn (fun i j =>
          (∃ k : Int, 0 ≤ k ∧ k ≤ |vV - 2| ∧
            (i : Int) = (if false then 2 - k else 2 + k) ∧
            OnLine true 2
              ((if |vH - 2| = 0 then 1 else |vH - 2|) -
                k * (|vV - 2| / (if |vH - 2| = 0 then 1 else |vH - 2|))) j) ∧
          Near (demoMat.px (2 : Int).toNat (2 : Int).toNat) (demoMat.px i j) (strengthOf 0))
        (demoMat.px (2 : Int).toNat (2 : Int).toNat) (constMat 6 7 white) m :=
  ⟨by decide,
    have h := scanline_extents demoMat (constMat 6 7 white) 0 2 2 13
      ⟨distanceTo ⟨100, 100, 100⟩ ⟨0, 0, 0⟩, 0, 0, distanceTo ⟨100, 100, 100⟩ ⟨0, 0, 0⟩⟩
      false true ⟨rfl, rfl⟩ (by decide) (by decide) (by decide) (by decide) (by decide) rfl
      (Or.inr (by decide))
    match h with
    | ⟨vV, vH, m, h1, h2, h3, h4, _⟩ => ⟨vV, vH, m, h1, h2, h3, h4⟩⟩

/-- C23. The porous fill.  In an iteration whose two directions are not opposite, a
destination pixel is changed only if the source pixel at the same coordinate has a distance to
the seed's source colour strictly below the strength, and every changed pixel holds exactly
the seed's source colour. -/
theorem porous_fill (o modified : Mat) (count randomR randomC : Int) (fuel : Nat)
    (g : Gradients) (a b : Int)
    (hd : modified.rows = o.rows ∧ modified.cols = o.cols)
    (hr0 : 0 ≤ randomR) (hr : randomR < o.rows) (hc0 : 0 ≤ randomC) (hc : randomC < o.cols)
    (hfuel : o.rows + o.cols ≤ fuel)
    (hg : gradients o (o.px randomR.toNat randomC.toNat) randomR randomC = .ok g)
    (hsel : selectDirections g = (ofInt a, ofInt b))
    (hopp : ¬ ((a = 1 ∧ b = 3) ∨ (a = 3 ∧ b = 1) ∨ (a = 2 ∧ b = 4) ∨ (a = 4 ∧ b = 2))) :
    ∃ m, iterationAt fuel o count randomR randomC modified = .ok m ∧
      ∀ i j : Nat, m.px i j ≠ modified.px i j →
        Near (o.px randomR.toNat randomC.toNat) (o.px i j) (strengthOf count) ∧
        m.px i j = o.px randomR.toNat randomC.toNat := by
  obtain ⟨a', b', hsel', ha1, ha4, hb1, hb4, hab⟩ := selection_codes o _ randomR randomC g
    hr0 hr hc0 hc hg
  rw [hsel] at hsel'
  injection hsel' with e1 e2
  have ea := ofInt_injective e1
  have eb := ofInt_injective e2
  subst ea eb
  rcases direction_pair_cases a b ha1 ha4 hb1 hb4 hab with h | h | ⟨up, right, h⟩
  · exact absurd (h.elim Or.inl (fun h => Or.inr (Or.inl h))) hopp
  · exact absurd (Or.inr (Or.inr h)) hopp
  · have hsel2 : selectDirections g = (ofInt (verticalCode up), ofInt (horizontalCode right)) ∨
        selectDirections g = (ofInt (horizontalCode right), ofInt (verticalCode up)) := by
      rcases h with ⟨h1, h2⟩ | ⟨h1, h2⟩
      · exact Or.inl (by rw [hsel, h1, h2])
      · exact Or.inr (by rw [hsel, h1, h2])
    obtain ⟨vV, vH, m, -, -, hm, hp⟩ := triangle_iteration_paints o modified count randomR
      randomC fuel g up right hd hr0 hr hc0 hc hfuel hg hsel2
    refine ⟨m, hm, fun i j hne => ?_⟩
    obtain ⟨⟨-, hnear⟩, hpx⟩ := hp.changed hne
    exact ⟨hnear, hpx⟩

theorem porous_fill_witness :
    ∃ m, iterationAt 13 demoMat 0 2 2 (constMat 6 7 white) = .ok m ∧
      ∀ i j : Nat, m.px i j ≠ (constMat 6 7 white).px i j →
        Near (demoMat.px (2 : Int).toNat (2 : Int).toNat) (demoMat.px i j) (strengthOf 0) ∧
        m.px i j = demoMat.px (2 : Int).toNat (2 : Int).toNat :=
  porous_fill demoMat (constMat 6 7 white) 0 2 2 13
    ⟨distanceTo ⟨100, 100, 100⟩ ⟨0, 0, 0⟩, 0, 0, distanceTo ⟨100, 100, 100⟩ ⟨0, 0, 0⟩⟩ 2 3
    ⟨rfl, rfl⟩ (by decide) (by decide) (by decide) (by decide) (by decide) rfl (by decide)
    (by decide)

/-- C28. The seed pixel.  For every seed inside the buffer and every count, the iteration
returns a destination whose pixel at the seed coordinate equals the source pixel at the seed
coordinate, whether a straight segment or a right triangle was drawn, and every destination
pixel the iteration changed holds the seed's source colour. -/
theorem seed_pixel_painted (o modified : Mat) (count randomR randomC : Int) (fuel : Nat)
    (hd : modified.rows = o.rows ∧ modified.cols = o.cols)
    (hr0 : 0 ≤ randomR) (hr : randomR < o.rows) (hc0 : 0 ≤ randomC) (hc : randomC < o.cols)
    (hfuel : o.rows + o.cols ≤ fuel) :
    ∃ m, iterationAt fuel o count randomR randomC modified = .ok m ∧
      m.px randomR.toNat randomC.toNat = o.px randomR.toNat randomC.toNat ∧
      ∀ i j : Nat, m.px i j ≠ modified.px i j →
        m.px i j = o.px randomR.toNat randomC.toNat := by
  obtain ⟨g, hg, -, -⟩ := gradients_spec o (o.px randomR.toNat randomC.toNat) randomR randomC
    hr0 hr hc0 hc
  obtain ⟨a, b, hsel, ha1, ha4, hb1, hb4, hab⟩ := selection_codes o _ randomR randomC g
    hr0 hr hc0 hc hg
  have hR : ((randomR.toNat : Nat) : Int) = randomR := Int.toNat_of_nonneg hr0
  have hC : ((randomC.toNat : Nat) : Int) = randomC := Int.toNat_of_nonneg hc0
  rcases direction_pair_cases a b ha1 ha4 hb1 hb4 hab with h | h | ⟨up, right, h⟩
  · obtain ⟨vU, vD, m, -, -, h1, h2, hm, hp⟩ := rows_iteration_paints o modified count randomR
      randomC fuel g hd hr0 hr hc0 hc hfuel hg
      (by rcases h with ⟨h1, h2⟩ | ⟨h1, h2⟩
          · exact Or.inl (by rw [hsel, h1, h2])
          · exact Or.inr (by rw [hsel, h1, h2]))
    exact ⟨m, hm, (hp.2.2 _ _).1 ⟨by omega, by omega, hC⟩, fun i j hne => (hp.changed hne).2⟩
  · obtain ⟨vL, vR, m, -, -, h1, h2, hm, hp⟩ := cols_iteration_paints o modified count randomR
      randomC fuel g hd hr0 hr hc0 hc hfuel hg
      (by rcases h with ⟨h1, h2⟩ | ⟨h1, h2⟩
          · exact Or.inl (by rw [hsel, h1, h2])
          · exact Or.inr (by rw [hsel, h1, h2]))
    exact ⟨m, hm, (hp.2.2 _ _).1 ⟨hR, by omega, by omega⟩, fun i j hne => (hp.changed hne).2⟩
  · obtain ⟨vV, vH, m, -, -, hm, hp⟩ := triangle_iteration_paints o modified count randomR
      randomC fuel g up right hd hr0 hr hc0 hc hfuel hg
      (by rcases h with ⟨h1, h2⟩ | ⟨h1, h2⟩
          · exact Or.inl (by rw [hsel, h1, h2])
          · exact Or.inr (by rw [hsel, h1, h2]))
    refine ⟨m, hm, (hp.2.2 _ _).1 ⟨?_, near_self _ _ (strengthOf_pos count).1⟩,
      fun i j hne => (hp.changed hne).2⟩
    rw [hR, hC]
    exact candidate_seed up right randomR randomC _ _ _ (abs_nonneg _)
      (by split_ifs <;> positivity)

theorem seed_pixel_painted_witness :
    ∃ m, iterationAt 13 demoMat 9000 3 5 (constMat 6 7 white) = .ok m ∧
      m.px (3 : Int).toNat (5 : Int).toNat = demoMat.px (3 : Int).toNat (5 : Int).toNat ∧
      ∀ i j : Nat, m.px i j ≠ (constMat 6 7 white).px i j →
        m.px i j = demoMat.px (3 : Int).toNat (5 : Int).toNat :=
  seed_pixel_painted demoMat (constMat 6 7 white) 9000 3 5 13 ⟨rfl, rfl⟩ (by decide)
    (by decide) (by decide) (by decide) (by decide)
/-! ## darken applied twice -/

/-- Absolute error of one rounding of a non-negative value below `2^(53+j)` units: at most
`2^j / 2` units. -/
theorem roundDbl_error (p : Int) (j : Nat) (h0 : 0 ≤ p) (h : p < 2 ^ (53 + j)) :
    2 * roundDbl p 1 ≤ 2 * p + 2 ^ j ∧ 2 * p ≤ 2 * roundDbl p 1 + 2 ^ j := by
  obtain ⟨n, rfl⟩ := Int.eq_ofNat_of_zero_le h0
  rw [roundDbl_natCast]
  have hn : n < 2 ^ (53 + j) * 1 := by
    rw [mul_one]
    exact_mod_cast h
  have := roundNat_abs_error n 1 j (by norm_num) hn
  simp only [mul_one, one_mul] at this
  exact ⟨by exact_mod_cast this.1, by exact_mod_cast this.2⟩

/-- Absolute error of the product of two constants in `[0, 1]`: at most `2^-53`. -/
theorem fmul_unit_error (k1 k2 : Int) (h1 : 0 ≤ k1 ∧ k1 ≤ one64) (h2 : 0 ≤ k2 ∧ k2 ≤ one64) :
    2 * (fmul k1 k2 * one64) ≤ 2 * (k1 * k2) + one64 * 2 ^ 1022 ∧
    2 * (k1 * k2) ≤ 2 * (fmul k1 k2 * one64) + one64 * 2 ^ 1022 := by
  obtain ⟨a, rfl⟩ := Int.eq_ofNat_of_zero_le h1.1
  obtain ⟨b, rfl⟩ := Int.eq_ofNat_of_zero_le h2.1
  have ha : a ≤ one64 := by exact_mod_cast h1.2
  have hb : b ≤ one64 := by exact_mod_cast h2.2
  unfold fmul
  rw [show ((a : Int) * (b : Int)) = ((a * b : Nat) : Int) by push_cast; ring, roundDbl_natCast]
  have hlt : a * b < 2 ^ (53 + 1022) * one64 := by
    have h3 : a * b ≤ one64 * one64 := Nat.mul_le_mul ha hb
    have h4 : one64 * one64 < 2 ^ (53 + 1022) * one64 :=
      Nat.mul_lt_mul_of_pos_right (by rw [one64_eq]; norm_num) one64_pos
    omega
  have := roundNat_abs_error (a * b) one64 1022 one64_pos hlt
  exact ⟨by exact_mod_cast this.1, by exact_mod_cast this.2⟩

theorem trunc_le_succ {b d : Int} (hb : 0 ≤ b) (hd : 0 ≤ d) (h : b < d + one64) :
    trunc b ≤ trunc d + 1 := by
  unfold trunc
  rw [Int.tdiv_eq_ediv hb (Int.natCast_nonneg _), Int.tdiv_eq_ediv hd (Int.natCast_nonneg _)]
  have hpos : (0 : Int) < one64 := by exact_mod_cast one64_pos
  have h1 : b / (one64 : Int) ≤ (d + 1 * (one64 : Int)) / (one64 : Int) :=
    Int.ediv_le_ediv hpos (by omega)
  rwa [Int.add_mul_ediv_right _ _ (ne_of_gt hpos)] at h1

theorem trunc_mono {a b : Int} (ha : 0 ≤ a) (h : a ≤ b) : trunc a ≤ trunc b := by
  unfold trunc
  rw [Int.tdiv_eq_ediv ha (Int.natCast_nonneg _),
    Int.tdiv_eq_ediv (le_trans ha h) (Int.natCast_nonneg _)]
  exact Int.ediv_le_ediv (by exact_mod_cast one64_pos) h

theorem trunc_bracket {a : Int} (ha : 0 ≤ a) :
    trunc a * one64 ≤ a ∧ a < (trunc a + 1) * one64 := by
  unfold trunc
  rw [Int.tdiv_eq_ediv ha (Int.natCast_nonneg _)]
  have hpos : (0 : Int) < one64 := by exact_mod_cast one64_pos
  constructor
  · exact Int.ediv_mul_le _ (ne_of_gt hpos)
  · exact Int.lt_ediv_add_one_mul_self _ hpos

/-- The stepwise result is at most one above the one-step result. -/
theorem compose_core_le (W E F n m a b c d k1 k2 : Int)
    (hW : 0 < W) (hE : 0 ≤ E) (hF : 0 ≤ F) (hn0 : 0 ≤ n) (hn : n ≤ 255)
    (hk2 : 0 ≤ k2) (hk2' : k2 ≤ W)
    (hsmall : 3 * E + 255 * F < W)
    (hb : 2 * b ≤ 2 * (m * k2) + 2 * E) (ha1 : m * W ≤ a) (ha2 : 2 * a ≤ 2 * (n * k1) + 2 * E)
    (hc : 2 * (k1 * k2) ≤ 2 * (c * W) + W * (2 * F)) (hd : 2 * (n * c) ≤ 2 * d + 2 * E) :
    b < d + W := by
  have h1 : m * W * k2 ≤ a * k2 := mul_le_mul_of_nonneg_right ha1 hk2
  have h2 : 2 * a * k2 ≤ (2 * (n * k1) + 2 * E) * k2 := mul_le_mul_of_nonneg_right ha2 hk2
  have h3 : E * k2 ≤ E * W := mul_le_mul_of_nonneg_left hk2' hE
  have h4 : n * (2 * (k1 * k2)) ≤ n * (2 * (c * W) + W * (2 * F)) :=
    mul_le_mul_of_nonneg_left hc hn0
  have h5 : n * (F * W) ≤ 255 * (F * W) :=
    mul_le_mul_of_nonneg_right hn (mul_nonneg hF (le_of_lt hW))
  have h6 : 2 * (n * c) * W ≤ (2 * d + 2 * E) * W := mul_le_mul_of_nonneg_right hd (le_of_lt hW)
  have h7 : 2 * b * W ≤ (2 * (m * k2) + 2 * E) * W := mul_le_mul_of_nonneg_right hb (le_of_lt hW)
  have h8 : (3 * E + 255 * F) * W < W * W := mul_lt_mul_of_pos_right hsmall hW
  have h9 : b * W < (d + W) * W := by nlinarith
  exact lt_of_mul_lt_mul_right h9 (le_of_lt hW)

/-- The one-step result exceeds the stepwise result by less than one plus the second
constant. -/
theorem compose_core_ge (W E F n m a b c d k1 k2 : Int)
    (hW : 0 < W) (hE : 0 ≤ E) (hF : 0 ≤ F) (hn0 : 0 ≤ n) (hn : n ≤ 255)
    (hk2 : 0 ≤ k2) (hk2' : k2 + 3 * E + 255 * F < W)
    (hb : 2 * (m * k2) ≤ 2 * b + 2 * E) (ha1 : a < (m + 1) * W)
    (ha2 : 2 * (n * k1) ≤ 2 * a + 2 * E)
    (hc : 2 * (c * W) ≤ 2 * (k1 * k2) + W * (2 * F)) (hd : 2 * d ≤ 2 * (n * c) + 2 * E) :
    d < b + W := by
  have h1 : a * k2 ≤ (m + 1) * W * k2 := mul_le_mul_of_nonneg_right (le_of_lt ha1) hk2
  have h2 : 2 * (n * k1) * k2 ≤ (2 * a + 2 * E) * k2 := mul_le_mul_of_nonneg_right ha2 hk2
  have h3 : E * k2 ≤ E * W := mul_le_mul_of_nonneg_left (by linarith) hE
  have h4 : n * (2 * (c * W)) ≤ n * (2 * (k1 * k2) + W * (2 * F)) :=
    mul_le_mul_of_nonneg_left hc hn0
  have h5 : n * (F * W) ≤ 255 * (F * W) :=
    mul_le_mul_of_nonneg_right hn (mul_nonneg hF (le_of_lt hW))
  have h6 : 2 * d * W ≤ (2 * (n * c) + 2 * E) * W := mul_le_mul_of_nonneg_right hd (le_of_lt hW)
  have h7 : 2 * (m * k2) * W ≤ (2 * b + 2 * E) * W := mul_le_mul_of_nonneg_right hb (le_of_lt hW)
  have h8 : (k2 + 3 * E + 255 * F) * W < W * W := mul_lt_mul_of_pos_right hk2' hW
  have h9 : d * W < (b + W) * W := by nlinarith
  exact lt_of_mul_lt_mul_right h9 (le_of_lt hW)
/-- C26 (counterexample to the claim as stated). For the channel value 161, the first
constant `62938504109215 / 2^48` (about `0.2236`) and the second constant `0.75`, both doubles
in `[0, 1]` whose product is a double as well, the product `161 * k1` lies just below 36 and
rounds to 36, so darkening in two steps gives `27`, while darkening once with `k1 * k2` gives
`26`: the first inequality of the claim fails.  The same happens for the channel value 40 with
the constants `0.75` and `0.7` and their double product. -/
theorem darken_twice_exceeds_once :
    0 ≤ lit 62938504109215 281474976710656 ∧ lit 62938504109215 281474976710656 ≤ one64 ∧
    lit 62938504109215 281474976710656 * 281474976710656 = 62938504109215 * one64 ∧
    fmul (lit 62938504109215 281474976710656) (lit 3 4) * one64 =
      lit 62938504109215 281474976710656 * lit 3 4 ∧
    darkenChannel (lit 62938504109215 281474976710656) 161 = 36 ∧
    darkenChannel (lit 3 4) (darkenChannel (lit 62938504109215 281474976710656) 161) = 27 ∧
    darkenChannel (fmul (lit 62938504109215 281474976710656) (lit 3 4)) 161 = 26 ∧
    darkenChannel (lit 7 10) (darkenChannel (lit 3 4) 40) = 21 ∧
    darkenChannel (fmul (lit 3 4) (lit 7 10)) 40 = 20 := by
  decide

/-- C26 (as amended). For every channel value and all double constants `k1`, `k2` in
`[0, 1]`, darkening with `k1` and then with `k2` and darkening once with the double product
`k1 * k2` give results that differ by at most 1, in either direction. -/
theorem darken_twice_within_one (k1 k2 : Int) (h1 : 0 ≤ k1 ∧ k1 ≤ one64)
    (h2 : 0 ≤ k2 ∧ k2 ≤ one64) (hd1 : IsDouble k1) (v : Fin 256) :
    ((darkenChannel k2 (darkenChannel k1 v)).val : Int) ≤
      (darkenChannel (fmul k1 k2) v).val + 1 ∧
    ((darkenChannel (fmul k1 k2) v).val : Int) ≤
      (darkenChannel k2 (darkenChannel k1 v)).val + 1 := by
  have hW : (0 : Int) < one64 := by exact_mod_cast one64_pos
  have hWe : (one64 : Int) = 2 ^ 1074 := by exact_mod_cast one64_eq
  have hv := v.isLt
  have e1 : ofInt 1 = (one64 : Int) := by unfold ofInt; ring
  -- the product of the constants
  have hc0 : 0 ≤ fmul k1 k2 := fmul_nonneg h1.1 h2.1
  have hck : fmul k1 k2 ≤ k1 := by
    have h := fmul_mono_right h1.1 (show k2 ≤ ofInt 1 by rw [e1]; exact h2.2)
    rw [fmul_ofInt_right, mul_one] at h
    unfold IsDouble at hd1
    rwa [hd1] at h
  have hc1 : fmul k1 k2 ≤ one64 := le_trans hck h1.2
  have hce := fmul_unit_error k1 k2 h1 h2
  -- the three darkenings
  obtain ⟨s1, s1'⟩ := darkenChannel_spec k1 h1.1 h1.2 v
  obtain ⟨s2, s2'⟩ := darkenChannel_spec k2 h2.1 h2.2 (darkenChannel k1 v)
  obtain ⟨s3, -⟩ := darkenChannel_spec (fmul k1 k2) hc0 hc1 v
  rw [s2, s3]
  have hm : ofUchar (darkenChannel k1 v) = ofInt (trunc (fmul (ofUchar v) k1)) := by
    show ofInt (((darkenChannel k1 v).val : Nat) : Int) = _
    rw [s1]
  rw [hm]
  have hV : ofUchar v = ofInt (v.val : Int) := rfl
  rw [hV] at s1 ⊢
  generalize hn : (v.val : Int) = n at *
  have hn0 : 0 ≤ n := by omega
  have hn255 : n ≤ 255 := by omega
  have ha0 : 0 ≤ fmul (ofInt n) k1 := fmul_nonneg (ofInt_nonneg hn0) h1.1
  have hbr := trunc_bracket ha0
  have hm0 := trunc_nonneg ha0
  have hmn : trunc (fmul (ofInt n) k1) ≤ n := by
    rw [← s1]
    exact_mod_cast (by omega : ((darkenChannel k1 v).val : Int) ≤ n)
  generalize hmdef : trunc (fmul (ofInt n) k1) = m at *
  have hb0 : 0 ≤ fmul (ofInt m) k2 := fmul_nonneg (ofInt_nonneg hm0) h2.1
  have hd0 : 0 ≤ fmul (ofInt n) (fmul k1 k2) := fmul_nonneg (ofInt_nonneg hn0) hc0
  -- rounding errors
  have hbig : (255 : Int) * one64 < 2 ^ (53 + 1029) := by rw [hWe]; norm_num
  have hae := roundDbl_error (n * k1) 1029 (mul_nonneg hn0 h1.1)
    (lt_of_le_of_lt (mul_le_mul hn255 h1.2 h1.1 (by norm_num)) hbig)
  have hbe := roundDbl_error (m * k2) 1029 (mul_nonneg hm0 h2.1)
    (lt_of_le_of_lt (mul_le_mul (le_trans hmn hn255) h2.2 h2.1 (by norm_num)) hbig)
  have hde := roundDbl_error (n * fmul k1 k2) 1029 (mul_nonneg hn0 hc0)
    (lt_of_le_of_lt (mul_le_mul hn255 hc1 hc0 (by norm_num)) hbig)
  rw [← fmul_ofInt_left] at hae hbe hde
  -- the second constant within `2^-44` of `1`
  have hda : fmul (ofInt n) (fmul k1 k2) ≤ fmul (ofInt n) k1 :=
    fmul_mono_right (ofInt_nonneg hn0) hck
  have hbm : 1 ≤ m → (one64 : Int) ≤ k2 + 3 * 2 ^ 1028 + 255 * 2 ^ 1021 →
      ofInt (m - 1) ≤ fmul (ofInt m) k2 := by
    intro hm1 hk
    have h3 : ofInt (m - 1) ≤ m * k2 := by
      unfold ofInt
      have h4 : m * ((one64 : Int) - (3 * 2 ^ 1028 + 255 * 2 ^ 1021)) ≤ m * k2 :=
        mul_le_mul_of_nonneg_left (by linarith) hm0
      have h5 : m * (3 * 2 ^ 1028 + 255 * 2 ^ 1021) ≤
          255 * (3 * 2 ^ 1028 + 255 * 2 ^ 1021) :=
        mul_le_mul_of_nonneg_right (le_trans hmn hn255) (by positivity)
      have h6 : (255 : Int) * (3 * 2 ^ 1028 + 255 * 2 ^ 1021) ≤ one64 := by
        rw [hWe]; norm_num
      linarith
    have h7 := roundDbl_mono 1 (by norm_num) h3
    rw [roundDbl_ofInt (by omega), ← fmul_ofInt_left] at h7
    exact h7
  generalize fmul (ofInt n) k1 = a at *
  generalize fmul (ofInt m) k2 = b at *
  generalize fmul (ofInt n) (fmul k1 k2) = d at *
  generalize hcdef : fmul k1 k2 = c at *
  have hE : (2 : Int) ^ 1029 = 2 * 2 ^ 1028 := by norm_num
  have hF : (2 : Int) ^ 1022 = 2 * 2 ^ 1021 := by norm_num
  rw [hE] at hae hbe hde
  rw [hF] at hce
  have hsmall : 3 * (2 : Int) ^ 1028 + 255 * 2 ^ 1021 < one64 := by rw [hWe]; norm_num
  constructor
  · exact trunc_le_succ hb0 hd0
      (compose_core_le one64 (2 ^ 1028) (2 ^ 1021) n m a b c d k1 k2 hW (by positivity)
        (by positivity) hn0 hn255 h2.1 h2.2 hsmall hbe.1 hbr.1 hae.1 hce.2 hde.2)
  · by_cases hk : k2 + 3 * 2 ^ 1028 + 255 * 2 ^ 1021 < one64
    · exact trunc_le_succ hd0 hb0
        (compose_core_ge one64 (2 ^ 1028) (2 ^ 1021) n m a b c d k1 k2 hW (by positivity)
          (by positivity) hn0 hn255 h2.1 hk hbe.2 hbr.2 hae.2 hce.1 hde.1)
    · have hR : trunc d ≤ m := by
        rw [← hmdef]
        exact trunc_mono hd0 hda
      by_cases hm1 : 1 ≤ m
      · have := le_trunc hb0 (hbm hm1 (by linarith))
        omega
      · have := trunc_nonneg hb0
        omega

theorem darken_twice_within_one_witness :
    0 ≤ lit 1 2 ∧ lit 1 2 ≤ one64 ∧ IsDouble (lit 1 2) ∧ fmul (lit 1 2) (lit 1 2) = lit 1 4 ∧
    ((darkenChannel (lit 1 2) (darkenChannel (lit 1 2) 201)).val : Int) ≤
      (darkenChannel (fmul (lit 1 2) (lit 1 2)) 201).val + 1 ∧
    ((darkenChannel (fmul (lit 1 2) (lit 1 2)) 201).val : Int) ≤
      (darkenChannel (lit 1 2) (darkenChannel (lit 1 2) 201)).val + 1 :=
  ⟨by decide, by decide, by decide, by decide,
    darken_twice_within_one (lit 1 2) (lit 1 2) ⟨by decide, by decide⟩ ⟨by decide, by decide⟩
      (by decide) 201⟩
/-! ## The two sums of strobelOutline -/

/-- Absolute error of one rounding of a value of magnitude below `2^(53+j)` units. -/
theorem roundDbl_abs_error (p : Int) (j : Nat) (h : |p| < 2 ^ (53 + j)) :
    |2 * roundDbl p 1 - 2 * p| ≤ 2 ^ j := by
  rcases le_or_lt 0 p with hp | hp
  · rw [abs_of_nonneg hp] at h
    have := roundDbl_error p j hp h
    rw [abs_le]
    constructor <;> linarith
  · rw [abs_of_neg hp] at h
    have := roundDbl_error (-p) j (by omega) h
    rw [roundDbl_neg p 1 (by norm_num)] at this
    rw [abs_le]
    constructor <;> linarith

theorem fadd_error (x y : Int) (h : |x + y| < 4096 * one64) :
    |fadd x y - (x + y)| ≤ 2 ^ 1032 := by
  have hWe : (one64 : Int) = 2 ^ 1074 := by exact_mod_cast one64_eq
  have := roundDbl_abs_error (x + y) 1033 (lt_of_lt_of_le h (by rw [hWe]; norm_num))
  unfold fadd
  rw [abs_le] at this ⊢
  have e : (2 : Int) ^ 1033 = 2 * 2 ^ 1032 := by norm_num
  rw [e] at this
  constructor <;> linarith

theorem fmul_int_error (x w : Int) (h : |x * w| < 4096 * one64) :
    |fmul x (ofInt w) - x * w| ≤ 2 ^ 1032 := by
  have hWe : (one64 : Int) = 2 ^ 1074 := by exact_mod_cast one64_eq
  have := roundDbl_abs_error (x * w) 1033 (lt_of_lt_of_le h (by rw [hWe]; norm_num))
  rw [fmul_ofInt_right]
  rw [abs_le] at this ⊢
  have e : (2 : Int) ^ 1033 = 2 * 2 ^ 1032 := by norm_num
  rw [e] at this
  constructor <;> linarith

/-- A literal `n / 10000` below `1` is within `2^-54` of the decimal value. -/
theorem lit_error (n : Nat) (h : n < 10000) :
    |10000 * lit n 10000 - n * one64| ≤ 10000 * 2 ^ 1020 ∧ 0 ≤ lit n 10000 ∧
      lit n 10000 ≤ one64 := by
  have hlt : n * one64 < 2 ^ (53 + 1021) * 10000 := by
    have : (2 : Nat) ^ (53 + 1021) = one64 := by rw [one64_eq]
    rw [this]
    have := one64_pos
    nlinarith
  have herr := roundNat_abs_error (n * one64) 10000 1021 (by norm_num) hlt
  have hle : lit n 10000 ≤ lit 10000 10000 := by
    unfold lit
    exact roundDbl_mono 10000 (by norm_num)
      (Int.mul_le_mul_of_nonneg_right (by exact_mod_cast (le_of_lt h)) (Int.natCast_nonneg _))
  have hone : lit 10000 10000 = one64 := by decide
  rw [hone] at hle
  refine ⟨?_, lit_nonneg _ _, hle⟩
  rw [lit_eq, abs_le]
  have e : (2 : Int) ^ 1021 = 2 * 2 ^ 1020 := by norm_num
  have h1 : (2 : Int) * ((roundNat (n * one64) 10000 : Nat) * 10000) ≤
      2 * ((n : Int) * one64) + 10000 * 2 ^ 1021 := by exact_mod_cast herr.1
  have h2 : (2 : Int) * ((n : Int) * one64) ≤
      2 * ((roundNat (n * one64) 10000 : Nat) * 10000) + 10000 * 2 ^ 1021 := by
    exact_mod_cast herr.2
  rw [e] at h1 h2
  constructor <;> linarith

/-- One product `coefficient * channel` of the luminosity. -/
theorem lum_term_error (n : Nat) (h : n < 10000) (x : Fin 256) :
    |10000 * fmul (lit n 10000) (ofUchar x) - (n * x.val) * one64| ≤
      10000 * (2 ^ 1032 + 255 * 2 ^ 1020) := by
  obtain ⟨hl, hl0, hl1⟩ := lit_error n h
  have hx := x.isLt
  have hx0 : (0 : Int) ≤ (x.val : Int) := Int.natCast_nonneg _
  have hx1 : ((x.val : Nat) : Int) ≤ 255 := by omega
  have hW : (0 : Int) < one64 := by exact_mod_cast one64_pos
  unfold ofUchar
  have hmag : |lit n 10000 * ((x.val : Nat) : Int)| < 4096 * one64 := by
    rw [abs_of_nonneg (mul_nonneg hl0 hx0)]
    have : lit n 10000 * ((x.val : Nat) : Int) ≤ one64 * 255 := mul_le_mul hl1 hx1 hx0 (le_of_lt hW)
    linarith
  have he := fmul_int_error (lit n 10000) ((x.val : Nat) : Int) hmag
  rw [abs_le] at hl he ⊢
  have h1 := mul_le_mul_of_nonneg_right hl.1 hx0
  have h2 := mul_le_mul_of_nonneg_right hl.2 hx0
  have h3 : (10000 : Int) * 2 ^ 1020 * ((x.val : Nat) : Int) ≤ 10000 * 2 ^ 1020 * 255 :=
    mul_le_mul_of_nonneg_left hx1 (by positivity)
  generalize fmul (lit n 10000) (ofInt ((x.val : Nat) : Int)) = f at *
  generalize lit n 10000 = l at *
  generalize ((x.val : Nat) : Int) = xv at *
  constructor <;> nlinarith

/-- The luminosity computed in double arithmetic is within `6 * 2^-42` of the exact value
`(2126*R + 7152*G + 722*B) / 10000`, and lies in `[0, 256]`. -/
theorem getLuminosity_error (b g r : Fin 256) :
    |10000 * getLuminosity (ofUchar b) (ofUchar g) (ofUchar r) -
        (2126 * r.val + 7152 * g.val + 722 * b.val) * one64| ≤ 10000 * (6 * 2 ^ 1032) ∧
    0 ≤ getLuminosity (ofUchar b) (ofUchar g) (ofUchar r) ∧
    getLuminosity (ofUchar b) (ofUchar g) (ofUchar r) ≤ 256 * one64 := by
  have hW : (0 : Int) < one64 := by exact_mod_cast one64_pos
  have hWe : (one64 : Int) = 2 ^ 1074 := by exact_mod_cast one64_eq
  have hE : (0 : Int) < 2 ^ 1032 := by positivity
  have hEW : (64 : Int) * 2 ^ 1032 ≤ one64 := by rw [hWe]; norm_num
  have hu : (4080 : Int) * 2 ^ 1020 ≤ 2 ^ 1032 := by norm_num
  have h1 := lum_term_error 2126 (by norm_num) r
  have h2 := lum_term_error 7152 (by norm_num) g
  have h3 := lum_term_error 722 (by norm_num) b
  have n0 := getLuminosity_nonneg (ofUchar_nonneg b) (ofUchar_nonneg g) (ofUchar_nonneg r)
  have hb := b.isLt
  have hg := g.isLt
  have hr := r.isLt
  have hb' : ((b.val : Nat) : Int) ≤ 255 := by omega
  have hg' : ((g.val : Nat) : Int) ≤ 255 := by omega
  have hr' : ((r.val : Nat) : Int) ≤ 255 := by omega
  have hb0 : (0 : Int) ≤ (b.val : Int) := Int.natCast_nonneg _
  have hg0 : (0 : Int) ≤ (g.val : Int) := Int.natCast_nonneg _
  have hr0 : (0 : Int) ≤ (r.val : Int) := Int.natCast_nonneg _
  have p1 : 0 ≤ fmul (lit 2126 10000) (ofUchar r) := fmul_nonneg (lit_nonneg _ _) (ofUchar_nonneg r)
  have p2 : 0 ≤ fmul (lit 7152 10000) (ofUchar g) := fmul_nonneg (lit_nonneg _ _) (ofUchar_nonneg g)
  have p3 : 0 ≤ fmul (lit 722 10000) (ofUchar b) := fmul_nonneg (lit_nonneg _ _) (ofUchar_nonneg b)
  unfold getLuminosity at n0 ⊢
  push_cast at h1 h2 h3
  rw [abs_le] at h1 h2 h3
  obtain ⟨h1a, h1b⟩ := h1
  obtain ⟨h2a, h2b⟩ := h2
  obtain ⟨h3a, h3b⟩ := h3
  generalize fmul (lit 2126 10000) (ofUchar r) = x1 at *
  generalize fmul (lit 7152 10000) (ofUchar g) = x2 at *
  generalize fmul (lit 722 10000) (ofUchar b) = x3 at *
  generalize ((r.val : Nat) : Int) = rv at *
  generalize ((g.val : Nat) : Int) = gv at *
  generalize ((b.val : Nat) : Int) = bv at *
  have hrW : rv * one64 ≤ 255 * one64 := mul_le_mul_of_nonneg_right hr' (le_of_lt hW)
  have hgW : gv * one64 ≤ 255 * one64 := mul_le_mul_of_nonneg_right hg' (le_of_lt hW)
  have hbW : bv * one64 ≤ 255 * one64 := mul_le_mul_of_nonneg_right hb' (le_of_lt hW)
  have a1 := fadd_error x1 x2 (by rw [abs_of_nonneg (by linarith)]; linarith)
  rw [abs_le] at a1
  obtain ⟨a1a, a1b⟩ := a1
  have q1 : 0 ≤ fadd x1 x2 := fadd_nonneg p1 p2
  generalize fadd x1 x2 = y1 at *
  have a2 := fadd_error y1 x3 (by rw [abs_of_nonneg (by linarith)]; linarith)
  rw [abs_le] at a2
  obtain ⟨a2a, a2b⟩ := a2
  generalize fadd y1 x3 = y2 at *
  generalize (2 : Int) ^ 1032 = E at *
  generalize (2 : Int) ^ 1020 = u at *
  refine ⟨?_, n0, ?_⟩
  · rw [abs_le]
    constructor <;> linarith
  · linarith
theorem fmul_two_comm (x : Int) : fmul x (ofInt 2) = fmul (ofInt 2) x := by
  rw [fmul_ofInt_right, fmul_ofInt_left, mul_comm]

theorem fadd_neg_eq_fsub (x y : Int) : fadd x (-y) = fsub x y := by
  unfold fadd fsub
  rw [sub_eq_add_neg]

theorem fmul_neg_two (x : Int) : fmul x (ofInt (-2)) = -fmul (ofInt 2) x := by
  rw [fmul_ofInt_right, fmul_ofInt_left, ← roundDbl_neg _ 1 (by norm_num)]
  congr 1
  ring

theorem fmul_neg_one {x : Int} (h : IsDouble x) : fmul x (ofInt (-1)) = -x := by
  rw [fmul_ofInt_right, show x * -1 = -x by ring, roundDbl_neg _ 1 (by norm_num)]
  unfold IsDouble at h
  rw [h]

theorem luminosity_eq (p : Pixel) :
    luminosity p = getLuminosity (ofUchar p.b) (ofUchar p.g) (ofUchar p.r) := rfl

theorem luminosity_isDouble (p : Pixel) : IsDouble (luminosity p) :=
  getLuminosity_isDouble _ _ _

/-- The sum `vertY` of the program is the vertical sum of the specification. -/
theorem vertY_eq_vertSum (o : Mat) (r c : Nat) : vertY o r c = vertSum o r c := by
  unfold vertY vertSum lumAt
  simp only [← luminosity_eq]
  rw [fmul_two_comm, fmul_neg_two, fadd_neg_eq_fsub, fmul_neg_one (luminosity_isDouble _),
    fadd_neg_eq_fsub, fmul_neg_one (luminosity_isDouble _), fadd_neg_eq_fsub]

/-- The sum `horzX` of the program is the horizontal sum of the specification, whose last
term mixes two pixels. -/
theorem horzX_eq_horzSum (o : Mat) (r c : Nat) : horzX o r c = horzSum o r c := by
  unfold horzX horzSum lumAt
  have hT : getLuminosity (ofUchar (o.px (r - 1) (c + 1)).b) (ofUchar (o.px (r - 1) (c + 1)).g)
      (ofUchar (o.px (r + 1) (c - 1)).r) = luminosity (mixedPixel o r c) := rfl
  rw [hT]
  simp only [← luminosity_eq]
  rw [fmul_neg_one (luminosity_isDouble _), fmul_neg_two, fadd_neg_eq_fsub,
    fmul_neg_one (luminosity_isDouble _), fadd_neg_eq_fsub, fmul_two_comm]

theorem luminosity_error (p : Pixel) :
    |10000 * luminosity p - lumNum p * one64| ≤ 10000 * (6 * 2 ^ 1032) ∧
    0 ≤ luminosity p ∧ luminosity p ≤ 256 * one64 :=
  getLuminosity_error p.b p.g p.r

/-- Accuracy of the vertical kernel on six luminosities. -/
theorem vert_kernel_error (L1 L2 L3 L4 L5 L6 N1 N2 N3 N4 N5 N6 : Int)
    (e1 : |10000 * L1 - N1 * one64| ≤ 10000 * (6 * 2 ^ 1032) ∧ 0 ≤ L1 ∧ L1 ≤ 256 * one64)
    (e2 : |10000 * L2 - N2 * one64| ≤ 10000 * (6 * 2 ^ 1032) ∧ 0 ≤ L2 ∧ L2 ≤ 256 * one64)
    (e3 : |10000 * L3 - N3 * one64| ≤ 10000 * (6 * 2 ^ 1032) ∧ 0 ≤ L3 ∧ L3 ≤ 256 * one64)
    (e4 : |10000 * L4 - N4 * one64| ≤ 10000 * (6 * 2 ^ 1032) ∧ 0 ≤ L4 ∧ L4 ≤ 256 * one64)
    (e5 : |10000 * L5 - N5 * one64| ≤ 10000 * (6 * 2 ^ 1032) ∧ 0 ≤ L5 ∧ L5 ≤ 256 * one64)
    (e6 : |10000 * L6 - N6 * one64| ≤ 10000 * (6 * 2 ^ 1032) ∧ 0 ≤ L6 ∧ L6 ≤ 256 * one64) :
    |10000 * fadd (fadd (fadd (fadd (fadd L1 (fmul L2 (ofInt 2))) L3) (fmul L4 (ofInt (-2))))
        (fmul L5 (ofInt (-1)))) (fmul L6 (ofInt (-1))) -
      (N1 + 2 * N2 + N3 - 2 * N4 - N5 - N6) * one64| ≤ 10000 * 2 ^ 1038 := by
  have hW : (0 : Int) < one64 := by exact_mod_cast one64_pos
  have hWe : (one64 : Int) = 2 ^ 1074 := by exact_mod_cast one64_eq
  have hE : (0 : Int) < 2 ^ 1032 := by positivity
  have hEW : (64 : Int) * 2 ^ 1032 ≤ one64 := by rw [hWe]; norm_num
  have h38 : (2 : Int) ^ 1038 = 64 * 2 ^ 1032 := by norm_num
  rw [h38]
  obtain ⟨e1, b1, c1⟩ := e1
  obtain ⟨e2, b2, c2⟩ := e2
  obtain ⟨e3, b3, c3⟩ := e3
  obtain ⟨e4, b4, c4⟩ := e4
  obtain ⟨e5, b5, c5⟩ := e5
  obtain ⟨e6, b6, c6⟩ := e6
  rw [abs_le] at e1 e2 e3 e4 e5 e6
  obtain ⟨e1a, e1b⟩ := e1
  obtain ⟨e2a, e2b⟩ := e2
  obtain ⟨e3a, e3b⟩ := e3
  obtain ⟨e4a, e4b⟩ := e4
  obtain ⟨e5a, e5b⟩ := e5
  obtain ⟨e6a, e6b⟩ := e6
  have m2 := fmul_int_error L2 2 (by rw [abs_lt]; constructor <;> linarith)
  have m4 := fmul_int_error L4 (-2) (by rw [abs_lt]; constructor <;> linarith)
  have m5 := fmul_int_error L5 (-1) (by rw [abs_lt]; constructor <;> linarith)
  have m6 := fmul_int_error L6 (-1) (by rw [abs_lt]; constructor <;> linarith)
  rw [abs_le] at m2 m4 m5 m6
  obtain ⟨m2a, m2b⟩ := m2
  obtain ⟨m4a, m4b⟩ := m4
  obtain ⟨m5a, m5b⟩ := m5
  obtain ⟨m6a, m6b⟩ := m6
  generalize fmul L2 (ofInt 2) = M2 at *
  generalize fmul L4 (ofInt (-2)) = M4 at *
  generalize fmul L5 (ofInt (-1)) = M5 at *
  generalize fmul L6 (ofInt (-1)) = M6 at *
  have s1 := fadd_error L1 M2 (by rw [abs_lt]; constructor <;> linarith)
  rw [abs_le] at s1
  obtain ⟨s1a, s1b⟩ := s1
  generalize fadd L1 M2 = S1 at *
  have s2 := fadd_error S1 L3 (by rw [abs_lt]; constructor <;> linarith)
  rw [abs_le] at s2
  obtain ⟨s2a, s2b⟩ := s2
  generalize fadd S1 L3 = S2 at *
  have s3 := fadd_error S2 M4 (by rw [abs_lt]; constructor <;> linarith)
  rw [abs_le] at s3
  obtain ⟨s3a, s3b⟩ := s3
  generalize fadd S2 M4 = S3 at *
  have s4 := fadd_error S3 M5 (by rw [abs_lt]; constructor <;> linarith)
  rw [abs_le] at s4
  obtain ⟨s4a, s4b⟩ := s4
  generalize fadd S3 M5 = S4 at *
  have s5 := fadd_error S4 M6 (by rw [abs_lt]; constructor <;> linarith)
  rw [abs_le] at s5
  obtain ⟨s5a, s5b⟩ := s5
  generalize fadd S4 M6 = S5 at *
  generalize (2 : Int) ^ 1032 = E at *
  rw [abs_le]
  constructor <;> linarith

/-- Accuracy of the horizontal kernel on six luminosities. -/
theorem horz_kernel_error (L1 L2 L3 L4 L5 L6 N1 N2 N3 N4 N5 N6 : Int)
    (e1 : |10000 * L1 - N1 * one64| ≤ 10000 * (6 * 2 ^ 1032) ∧ 0 ≤ L1 ∧ L1 ≤ 256 * one64)
    (e2 : |10000 * L2 - N2 * one64| ≤ 10000 * (6 * 2 ^ 1032) ∧ 0 ≤ L2 ∧ L2 ≤ 256 * one64)
    (e3 : |10000 * L3 - N3 * one64| ≤ 10000 * (6 * 2 ^ 1032) ∧ 0 ≤ L3 ∧ L3 ≤ 256 * one64)
    (e4 : |10000 * L4 - N4 * one64| ≤ 10000 * (6 * 2 ^ 1032) ∧ 0 ≤ L4 ∧ L4 ≤ 256 * one64)
    (e5 : |10000 * L5 - N5 * one64| ≤ 10000 * (6 * 2 ^ 1032) ∧ 0 ≤ L5 ∧ L5 ≤ 256 * one64)
    (e6 : |10000 * L6 - N6 * one64| ≤ 10000 * (6 * 2 ^ 1032) ∧ 0 ≤ L6 ∧ L6 ≤ 256 * one64) :
    |10000 * fadd (fadd (fadd (fadd (fadd (fmul L1 (ofInt (-1))) (fmul L2 (ofInt (-2))))
        (fmul L3 (ofInt (-1)))) (fmul L4 (ofInt 2))) L5) L6 -
      (-N1 - 2 * N2 - N3 + 2 * N4 + N5 + N6) * one64| ≤ 10000 * 2 ^ 1038 := by
  have hW : (0 : Int) < one64 := by exact_mod_cast one64_pos
  have hWe : (one64 : Int) = 2 ^ 1074 := by exact_mod_cast one64_eq
  have hE : (0 : Int) < 2 ^ 1032 := by positivity
  have hEW : (64 : Int) * 2 ^ 1032 ≤ one64 := by rw [hWe]; norm_num
  have h38 : (2 : Int) ^ 1038 = 64 * 2 ^ 1032 := by norm_num
  rw [h38]
  obtain ⟨e1, b1, c1⟩ := e1
  obtain ⟨e2, b2, c2⟩ := e2
  obtain ⟨e3, b3, c3⟩ := e3
  obtain ⟨e4, b4, c4⟩ := e4
  obtain ⟨e5, b5, c5⟩ := e5
  obtain ⟨e6, b6, c6⟩ := e6
  rw [abs_le] at e1 e2 e3 e4 e5 e6
  obtain ⟨e1a, e1b⟩ := e1
  obtain ⟨e2a, e2b⟩ := e2
  obtain ⟨e3a, e3b⟩ := e3
  obtain ⟨e4a, e4b⟩ := e4
  obtain ⟨e5a, e5b⟩ := e5
  obtain ⟨e6a, e6b⟩ := e6
  have m1 := fmul_int_error L1 (-1) (by rw [abs_lt]; constructor <;> linarith)
  have m2 := fmul_int_error L2 (-2) (by rw [abs_lt]; constructor <;> linarith)
  have m3 := fmul_int_error L3 (-1) (by rw [abs_lt]; constructor <;> linarith)
  have m4 := fmul_int_error L4 2 (by rw [abs_lt]; constructor <;> linarith)
  rw [abs_le] at m1 m2 m3 m4
  obtain ⟨m1a, m1b⟩ := m1
  obtain ⟨m2a, m2b⟩ := m2
  obtain ⟨m3a, m3b⟩ := m3
  obtain ⟨m4a, m4b⟩ := m4
  generalize fmul L1 (ofInt (-1)) = M1 at *
  generalize fmul L2 (ofInt (-2)) = M2 at *
  generalize fmul L3 (ofInt (-1)) = M3 at *
  generalize fmul L4 (ofInt 2) = M4 at *
  have s1 := fadd_error M1 M2 (by rw [abs_lt]; constructor <;> linarith)
  rw [abs_le] at s1
  obtain ⟨s1a, s1b⟩ := s1
  generalize fadd M1 M2 = S1 at *
  have s2 := fadd_error S1 M3 (by rw [abs_lt]; constructor <;> linarith)
  rw [abs_le] at s2
  obtain ⟨s2a, s2b⟩ := s2
  generalize fadd S1 M3 = S2 at *
  have s3 := fadd_error S2 M4 (by rw [abs_lt]; constructor <;> linarith)
  rw [abs_le] at s3
  obtain ⟨s3a, s3b⟩ := s3
  generalize fadd S2 M4 = S3 at *
  have s4 := fadd_error S3 L5 (by rw [abs_lt]; constructor <;> linarith)
  rw [abs_le] at s4
  obtain ⟨s4a, s4b⟩ := s4
  generalize fadd S3 L5 = S4 at *
  have s5 := fadd_error S4 L6 (by rw [abs_lt]; constructor <;> linarith)
  rw [abs_le] at s5
  obtain ⟨s5a, s5b⟩ := s5
  generalize fadd S4 L6 = S5 at *
  generalize (2 : Int) ^ 1032 = E at *
  rw [abs_le]
  constructor <;> linarith

/-- C25. The two sums of `strobelOutline`.  At every processed pixel `(r, c)`, with
`L(p) = 0.2126*R + 0.7152*G + 0.0722*B`, the program's `vertY` is the vertical sum
`L(r+1,c+1) + 2*L(r,c+1) + L(r-1,c+1) - 2*L(r,c-1) - L(r+1,c-1) - L(r-1,c-1)` and its `horzX` is
the horizontal sum `-L(r+1,c-1) - 2*L(r+1,c) - L(r+1,c+1) + 2*L(r-1,c) + L(r-1,c-1) + T`, with
`T` the luminosity computed from the blue and green channels of `(r-1,c+1)` and the red channel
of `(r+1,c-1)`; both are evaluated from left to right in double arithmetic, are within `2^-36`
of the exact values, and the pixel written is the classification of the root of the sum of
their squares. -/
theorem strobelOutline_sums (s : Globals) (r c : Nat) (h : processed s.original r c) :
    vertY s.original r c = vertSum s.original r c ∧
    horzX s.original r c = horzSum s.original r c ∧
    |10000 * vertSum s.original r c - vertNum s.original r c * one64| ≤ 10000 * 2 ^ 1038 ∧
    |10000 * horzSum s.original r c - horzNum s.original r c * one64| ≤ 10000 * 2 ^ 1038 ∧
    (strobelOutline s).modified.px r c =
      classify (fsqrt (fadd
        (fmul (vertSum s.original r c) (vertSum s.original r c))
        (fmul (horzSum s.original r c) (horzSum s.original r c)))) := by
  have hv := vertY_eq_vertSum s.original r c
  have hh := horzX_eq_horzSum s.original r c
  refine ⟨hv, hh, ?_, ?_, ?_⟩
  · rw [← hv]
    unfold vertY vertNum lumAt
    simp only [← luminosity_eq]
    exact vert_kernel_error _ _ _ _ _ _ _ _ _ _ _ _ (luminosity_error _) (luminosity_error _)
      (luminosity_error _) (luminosity_error _) (luminosity_error _) (luminosity_error _)
  · rw [← hh]
    unfold horzX horzNum lumAt
    have hT : getLuminosity (ofUchar (s.original.px (r - 1) (c + 1)).b)
        (ofUchar (s.original.px (r - 1) (c + 1)).g)
        (ofUchar (s.original.px (r + 1) (c - 1)).r) =
        luminosity (mixedPixel s.original r c) := rfl
    rw [hT]
    simp only [← luminosity_eq]
    exact horz_kernel_error _ _ _ _ _ _ _ _ _ _ _ _ (luminosity_error _) (luminosity_error _)
      (luminosity_error _) (luminosity_error _) (luminosity_error _) (luminosity_error _)
  · rw [strobelOutline_px_processed s r c h, ← hv, ← hh]
    rfl

theorem strobelOutline_sums_witness :
    processed edgeDemo.original 2 2 ∧
    vertY edgeDemo.original 2 2 = vertSum edgeDemo.original 2 2 ∧
    horzX edgeDemo.original 2 2 = horzSum edgeDemo.original 2 2 ∧
    |10000 * vertSum edgeDemo.original 2 2 - vertNum edgeDemo.original 2 2 * one64| ≤
      10000 * 2 ^ 1038 ∧
    |10000 * horzSum edgeDemo.original 2 2 - horzNum edgeDemo.original 2 2 * one64| ≤
      10000 * 2 ^ 1038 ∧
    (strobelOutline edgeDemo).modified.px 2 2 =
      classify (fsqrt (fadd
        (fmul (vertSum edgeDemo.original 2 2) (vertSum edgeDemo.original 2 2))
        (fmul (horzSum edgeDemo.original 2 2) (horzSum edgeDemo.original 2 2)))) :=
  ⟨by decide, strobelOutline_sums edgeDemo 2 2 (by decide)⟩

/-! ## darken and the exact product -/

/-- C6 (counterexample to the claim as stated). For the channel value 161 and the constant
`62938504109215 / 2^48` (about `0.2236`, a double in `[0, 1]`) the exact product is just below
36, so `floor(v * k) = 35`, but the double product rounds to `36.0` and the program stores
36.  Likewise for the channel value 10 and the double nearest to `0.7`, which is below `0.7`:
`floor(v * k) = 6`, the program stores 7. -/
theorem darken_above_floor :
    0 ≤ lit 62938504109215 281474976710656 ∧ lit 62938504109215 281474976710656 ≤ one64 ∧
    IsDouble (lit 62938504109215 281474976710656) ∧
    lit 62938504109215 281474976710656 * 281474976710656 = 62938504109215 * one64 ∧
    exactDarken (lit 62938504109215 281474976710656) 161 = 35 ∧
    darkenChannel (lit 62938504109215 281474976710656) 161 = 36 ∧
    exactDarken (lit 7 10) 10 = 6 ∧ darkenChannel (lit 7 10) 10 = 7 := by
  decide

/-- One channel of `darken` against the exact product. -/
theorem darkenChannel_darkened (k : Int) (hk0 : 0 ≤ k) (hk1 : k ≤ one64) (v : Fin 256) :
    Darkened k v (darkenChannel k v) := by
  obtain ⟨s1, s2⟩ := darkenChannel_spec k hk0 hk1 v
  have hW : (0 : Int) < one64 := by exact_mod_cast one64_pos
  have hWe : (one64 : Int) = 2 ^ 1074 := by exact_mod_cast one64_eq
  have hv := v.isLt
  have hv0 : (0 : Int) ≤ (v.val : Int) := Int.natCast_nonneg _
  have hv1 : ((v.val : Nat) : Int) ≤ 255 := by omega
  have hp0 : 0 ≤ (v.val : Int) * k := mul_nonneg hv0 hk0
  have hF0 : 0 ≤ (v.val : Int) * k / (one64 : Int) := Int.ediv_nonneg hp0 (le_of_lt hW)
  have hFv : (v.val : Int) * k / (one64 : Int) ≤ v.val := by
    have h1 : (v.val : Int) * k ≤ v.val * one64 := mul_le_mul_of_nonneg_left hk1 hv0
    have h2 := Int.ediv_le_ediv hW h1
    rwa [Int.mul_ediv_cancel _ (ne_of_gt hW)] at h2
  have hlo : (v.val : Int) * k / (one64 : Int) * one64 ≤ (v.val : Int) * k :=
    Int.ediv_mul_le _ (ne_of_gt hW)
  have hhi : (v.val : Int) * k < ((v.val : Int) * k / (one64 : Int) + 1) * one64 :=
    Int.lt_ediv_add_one_mul_self _ hW
  have ha : fmul (ofUchar v) k = roundDbl ((v.val : Int) * k) 1 := by
    unfold ofUchar
    rw [fmul_ofInt_left]
  have ha0 : 0 ≤ fmul (ofUchar v) k := fmul_nonneg (ofUchar_nonneg v) hk0
  have hge : ofInt ((v.val : Int) * k / (one64 : Int)) ≤ fmul (ofUchar v) k := by
    rw [ha, ← roundDbl_ofInt (n := (v.val : Int) * k / (one64 : Int)) (by omega)]
    exact roundDbl_mono 1 (by norm_num) hlo
  have hle : fmul (ofUchar v) k ≤ ofInt ((v.val : Int) * k / (one64 : Int) + 1) := by
    rw [ha, ← roundDbl_ofInt (n := (v.val : Int) * k / (one64 : Int) + 1) (by omega)]
    exact roundDbl_mono 1 (by norm_num) (le_of_lt hhi)
  have hbig : (255 : Int) * one64 < 2 ^ (53 + 1029) := by rw [hWe]; norm_num
  have herr := roundDbl_error ((v.val : Int) * k) 1029 hp0
    (lt_of_le_of_lt (mul_le_mul hv1 hk1 hk0 (by norm_num)) hbig)
  rw [← ha] at herr
  have t1 := le_trunc ha0 hge
  have t2 := trunc_le ha0 hle
  unfold Darkened exactDarken
  rw [s1]
  refine ⟨rfl, s2, t1, t2, fun h => ?_⟩
  have hbr := trunc_bracket ha0
  rw [h] at hbr ⊢
  have heq : fmul (ofUchar v) k = ofInt ((v.val : Int) * k / (one64 : Int) + 1) :=
    le_antisymm hle hbr.1
  refine ⟨heq, ?_⟩
  rw [← heq]
  have e : (2 : Int) ^ 1029 = 2 * 2 ^ 1028 := by norm_num
  rw [e] at herr
  linarith [herr.1]

/-- C6 (as amended). `darken` with a constant `0 ≤ k ≤ 1`: every channel of every output
pixel inside the buffer is the integer part (truncation, not rounding) of the product `v * k`
that the program computes in double precision, stored without wrap-around; it never exceeds the
source channel `v`; and it is `floor(v * k)` or one more, one more only when the exact product
lies at most `2^-46` below an integer and the double product rounds up to that integer. -/
theorem darken_truncates (s : Globals) (r c : Nat)
    (hk0 : 0 ≤ s.brightnessConstant) (hk1 : s.brightnessConstant ≤ one64)
    (hr : r < s.original.rows) (hc : c < s.original.cols) :
    Darkened s.brightnessConstant (s.original.px r c).b ((darken s).modified.px r c).b ∧
    Darkened s.brightnessConstant (s.original.px r c).g ((darken s).modified.px r c).g ∧
    Darkened s.brightnessConstant (s.original.px r c).r ((darken s).modified.px r c).r := by
  have hpx : (darken s).modified.px r c =
      darkenPixel s.brightnessConstant (s.original.px r c) := by
    unfold darken
    simp only
    rw [forEachPixel_set_px, if_pos ⟨hr, hc⟩]
  rw [hpx]
  unfold darkenPixel
  exact ⟨darkenChannel_darkened _ hk0 hk1 _, darkenChannel_darkened _ hk0 hk1 _,
    darkenChannel_darkened _ hk0 hk1 _⟩

theorem darken_truncates_witness :
    0 ≤ grayDemo.brightnessConstant ∧ grayDemo.brightnessConstant ≤ one64 ∧
      Darkened grayDemo.brightnessConstant (grayDemo.original.px 1 2).b
        ((darken grayDemo).modified.px 1 2).b ∧
      exactDarken grayDemo.brightnessConstant (grayDemo.original.px 1 2).b = 64 :=
  ⟨by decide, by decide,
    (darken_truncates grayDemo 1 2 (by decide) (by decide) (by decide) (by decide)).1,
    by decide⟩

/-! ## The magnitude against the exact sums -/

/-- The scaling exponent of `fsqrt` for an argument below `2^22`. -/
theorem fsqrt_shift_le (A : Nat) (hA : A < 2 ^ 22 * one64) :
    (excessBits (A * one64) (A * one64) - 52) / 2 ≤ 1032 := by
  rcases excess_ge (A * one64) with h | h
  · rw [h]; norm_num
  · have h1 : A * one64 < 2 ^ (22 + 2148) := by
      have : A * one64 < 2 ^ 22 * one64 * one64 := Nat.mul_lt_mul_of_pos_right hA one64_pos
      rw [one64_eq] at this ⊢
      rw [pow_add 2 22 2148]
      calc A * 2 ^ 1074 < 2 ^ 22 * 2 ^ 1074 * 2 ^ 1074 := this
        _ = 2 ^ 22 * 2 ^ 2148 := by rw [Nat.mul_assoc, ← pow_add]
    have h2 : 52 + excessBits (A * one64) (A * one64) < 22 + 2148 :=
      (Nat.pow_lt_pow_iff_right (by norm_num)).1 (lt_of_le_of_lt h h1)
    omega

/-- An argument at least `2^-33` above `t²` has a computed root above `t`. -/
theorem fsqrt_gt_ofInt (a : Int) (t : Nat) (ht : t ≤ 101) (ha : a < 2 ^ 22 * one64)
    (h : ((t * t : Nat) : Int) * (one64 : Int) + 2 ^ 1041 ≤ a) : ofInt t < fsqrt a := by
  have hW : (0 : Int) < one64 := by exact_mod_cast one64_pos
  have ha0 : 0 < a := by
    have : (0 : Int) ≤ ((t * t : Nat) : Int) * (one64 : Int) :=
      mul_nonneg (Int.natCast_nonneg _) (le_of_lt hW)
    have : (0 : Int) < 2 ^ 1041 := by positivity
    linarith
  obtain ⟨A, rfl⟩ := Int.eq_ofNat_of_zero_le (le_of_lt ha0)
  have hA : A < 2 ^ 22 * one64 := by exact_mod_cast ha
  have hAt : t * t * one64 + 2 ^ 1041 ≤ A := by exact_mod_cast h
  have hk := fsqrt_shift_le A hA
  have hlow := fsqrt_ge_of_sq_le (A : Int) ha0
  rw [Int.toNat_ofNat] at hlow
  generalize (excessBits (A * one64) (A * one64) - 52) / 2 = k at *
  obtain ⟨j, hj⟩ : ∃ j, 1074 = k + j := ⟨1074 - k, by omega⟩
  have h1 : one64 = 2 ^ j * 2 ^ k := by rw [one64_eq, hj, pow_add, Nat.mul_comm]
  have hK32 : 2 ^ k ≤ 2 ^ 1032 := Nat.pow_le_pow_right (by norm_num) hk
  have hJ1 : 1 ≤ 2 ^ j := Nat.one_le_two_pow
  have hK1 : 1 ≤ 2 ^ k := Nat.one_le_two_pow
  have e41 : (2 : Nat) ^ 1041 = 512 * 2 ^ 1032 := by norm_num
  rw [e41] at hAt
  generalize (2 : Nat) ^ 1032 = B at *
  generalize (2 : Nat) ^ j = J at *
  generalize (2 : Nat) ^ k = K at *
  have hK0 : (0 : Int) < K := by exact_mod_cast hK1
  have hJ0 : (0 : Int) < J := by exact_mod_cast hJ1
  have hKB : (K : Int) ≤ B := by exact_mod_cast hK32
  have ht' : (t : Int) ≤ 101 := by exact_mod_cast ht
  have ht0 : (0 : Int) ≤ t := Int.natCast_nonneg _
  have hW' : (0 : Int) < J * K := mul_pos hJ0 hK0
  have hsq : ((t : Int) * J + 1) * K * (((t : Int) * J + 1) * K) ≤ A * (J * K) := by
    have hAt' : (t : Int) * t * (J * K) + 512 * B ≤ A := by
      rw [h1] at hAt
      exact_mod_cast hAt
    have h2 := mul_le_mul_of_nonneg_right hAt' (le_of_lt hW')
    have h3 : (t : Int) * K ≤ 101 * B := mul_le_mul ht' hKB (le_of_lt hK0) (by norm_num)
    have h4 : (t : Int) * K * (J * K) ≤ 101 * B * (J * K) :=
      mul_le_mul_of_nonneg_right h3 (le_of_lt hW')
    have h5 : (K : Int) * K ≤ B * (J * K) := by
      have hKJ : (K : Int) ≤ J * K := by nlinarith
      exact mul_le_mul hKB hKJ (le_of_lt hK0) (le_trans (le_of_lt hK0) hKB)
    have hB0 : (0 : Int) < B := lt_of_lt_of_le hK0 hKB
    have h6 : (0 : Int) < B * (J * K) := mul_pos hB0 hW'
    linarith
  have hgoal := hlow (t * J + 1) (by
    rw [h1]
    exact_mod_cast hsq)
  have hlt : ofInt (t : Int) < (((t * J + 1) * K : Nat) : Int) := by
    unfold ofInt
    rw [h1]
    push_cast
    have : (0 : Int) < (K : Int) := by exact_mod_cast hK1
    nlinarith
  exact lt_of_lt_of_le hlt hgoal

/-- An argument at least `2^-33` below `t²` has a computed root below `t`. -/
theorem fsqrt_lt_ofInt (a : Int) (t : Nat) (ht1 : 1 ≤ t) (ht : t ≤ 101)
    (h : a + 2 ^ 1041 ≤ ((t * t : Nat) : Int) * (one64 : Int)) : fsqrt a < ofInt t := by
  have hW : (0 : Int) < one64 := by exact_mod_cast one64_pos
  have hpos : 0 < ofInt (t : Int) := by
    have := ofInt_lt (show (0 : Int) < (t : Int) by exact_mod_cast ht1)
    simpa [ofInt] using this
  rcases le_or_lt a 0 with ha0 | ha0
  · have e : fsqrt a = 0 := by
      unfold fsqrt
      rw [if_pos ha0]
    rw [e]
    exact hpos
  · obtain ⟨A, rfl⟩ := Int.eq_ofNat_of_zero_le (le_of_lt ha0)
    have hAt : A + 2 ^ 1041 ≤ t * t * one64 := by exact_mod_cast h
    have hA : A < 2 ^ 22 * one64 := by
      have : t * t ≤ 101 * 101 := Nat.mul_le_mul ht ht
      have : t * t * one64 ≤ 101 * 101 * one64 := Nat.mul_le_mul_right _ this
      have : 101 * 101 * one64 < 2 ^ 22 * one64 :=
        Nat.mul_lt_mul_of_pos_right (by norm_num) one64_pos
      omega
    have hk := fsqrt_shift_le A hA
    have hupp := fsqrt_lt_of_lt_sq (A : Int) ha0
    rw [Int.toNat_ofNat] at hupp
    generalize (excessBits (A * one64) (A * one64) - 52) / 2 = k at *
    obtain ⟨j, hj⟩ : ∃ j, 1074 = k + j := ⟨1074 - k, by omega⟩
    have h1 : one64 = 2 ^ j * 2 ^ k := by rw [one64_eq, hj, pow_add, Nat.mul_comm]
    have hK32 : 2 ^ k ≤ 2 ^ 1032 := Nat.pow_le_pow_right (by norm_num) hk
    have hJ1 : 1 ≤ 2 ^ j := Nat.one_le_two_pow
    have hK1 : 1 ≤ 2 ^ k := Nat.one_le_two_pow
    have e41 : (2 : Nat) ^ 1041 = 512 * 2 ^ 1032 := by norm_num
    have e2 : 2 ^ (2 * k) = 2 ^ k * 2 ^ k := by rw [two_mul, pow_add]
    rw [e41] at hAt
    rw [e2] at hupp
    have hS : ofInt (t : Int) = ((t * 2 ^ j * 2 ^ k : Nat) : Int) := by
      unfold ofInt
      rw [h1]; push_cast; ring
    rw [hS]
    generalize (2 : Nat) ^ 1032 = B at *
    generalize (2 : Nat) ^ j = J at *
    generalize (2 : Nat) ^ k = K at *
    apply hupp (t * J)
    rw [h1] at hAt ⊢
    obtain ⟨u, hu⟩ : ∃ u, 2 * (t * J) = u + 1 := ⟨2 * (t * J) - 1, by
      have : 1 ≤ t * J := Nat.mul_pos (by omega) (by omega)
      omega⟩
    rw [hu, Nat.add_sub_cancel]
    have hAt' : (A : Int) + 512 * B ≤ t * t * (J * K) := by exact_mod_cast hAt
    have hu' : (u : Int) = 2 * (t * J) - 1 := by
      have : ((2 * (t * J) : Nat) : Int) = ((u + 1 : Nat) : Int) := by rw [hu]
      push_cast at this
      linarith
    have hK0 : (0 : Int) < K := by exact_mod_cast hK1
    have hJ0 : (0 : Int) < J := by exact_mod_cast hJ1
    have hKB : (K : Int) ≤ B := by exact_mod_cast hK32
    have ht' : (t : Int) ≤ 101 := by exact_mod_cast ht
    have ht0 : (0 : Int) ≤ t := Int.natCast_nonneg _
    have hgoal : (4 : Int) * (A * (J * K)) < u * u * (K * K) := by
      rw [hu']
      have hW' : (0 : Int) < J * K := mul_pos hJ0 hK0
      have h2 := mul_le_mul_of_nonneg_right hAt' (le_of_lt hW')
      have h3 : (t : Int) * K ≤ 101 * B := mul_le_mul ht' hKB (le_of_lt hK0) (by norm_num)
      have h4 : (t : Int) * K * (J * K) ≤ 101 * B * (J * K) :=
        mul_le_mul_of_nonneg_right h3 (le_of_lt hW')
      have hB0 : (0 : Int) < B := lt_of_lt_of_le hK0 hKB
      have h5 : (0 : Int) < B * (J * K) := mul_pos hB0 hW'
      have h6 : (0 : Int) < K * K := mul_pos hK0 hK0
      linarith
    exact_mod_cast hgoal

theorem lumNum_bounds (p : Pixel) : 0 ≤ lumNum p ∧ lumNum p ≤ 2550000 := by
  have hb := p.b.isLt
  have hg := p.g.isLt
  have hr := p.r.isLt
  unfold lumNum
  constructor <;> omega

theorem vertNum_bounds (o : Mat) (r c : Nat) : |vertNum o r c| ≤ 10200000 := by
  have h1 := lumNum_bounds (o.px (r + 1) (c + 1))
  have h2 := lumNum_bounds (o.px r (c + 1))
  have h3 := lumNum_bounds (o.px (r - 1) (c + 1))
  have h4 := lumNum_bounds (o.px r (c - 1))
  have h5 := lumNum_bounds (o.px (r + 1) (c - 1))
  have h6 := lumNum_bounds (o.px (r - 1) (c - 1))
  unfold vertNum
  rw [abs_le]
  constructor <;> omega

theorem horzNum_bounds (o : Mat) (r c : Nat) : |horzNum o r c| ≤ 10200000 := by
  have h1 := lumNum_bounds (o.px (r + 1) (c - 1))
  have h2 := lumNum_bounds (o.px (r + 1) c)
  have h3 := lumNum_bounds (o.px (r + 1) (c + 1))
  have h4 := lumNum_bounds (o.px (r - 1) c)
  have h5 := lumNum_bounds (o.px (r - 1) (c - 1))
  have h6 := lumNum_bounds (mixedPixel o r c)
  unfold horzNum
  rw [abs_le]
  constructor <;> omega

/-- Rounding error of a square of a value of magnitude at most 1021. -/
theorem fmul_self_error (V : Int) (hV : |V| ≤ 1021 * one64) :
    |2 * (fmul V V * one64) - 2 * (V * V)| ≤ one64 * 2 ^ 1042 ∧ 0 ≤ fmul V V := by
  have hW : (0 : Int) < one64 := by exact_mod_cast one64_pos
  have hsq0 : 0 ≤ V * V := mul_self_nonneg V
  obtain ⟨p, hp⟩ := Int.eq_ofNat_of_zero_le hsq0
  have hlt : p < 2 ^ (53 + 1042) * one64 := by
    have h1 : V * V ≤ (1021 * one64) * (1021 * one64) := by
      have := abs_mul_abs_self V
      rw [← this]
      exact mul_le_mul hV hV (abs_nonneg _) (by positivity)
    have h2 : ((p : Nat) : Int) < ((2 ^ (53 + 1042) * one64 : Nat) : Int) := by
      rw [← hp]
      push_cast
      have hWe : (one64 : Int) = 2 ^ 1074 := by exact_mod_cast one64_eq
      have h3 : (1021 : Int) * one64 * (1021 * one64) < 2 ^ 1095 * one64 := by
        rw [hWe]; norm_num
      linarith
    exact_mod_cast h2
  have herr := roundNat_abs_error p one64 1042 one64_pos hlt
  unfold fmul
  rw [hp, roundDbl_natCast]
  refine ⟨?_, Int.natCast_nonneg _⟩
  have h1 : (2 : Int) * ((roundNat p one64 : Nat) * one64) ≤ 2 * p + one64 * 2 ^ 1042 := by
    exact_mod_cast herr.1
  have h2 : (2 : Int) * p ≤ 2 * ((roundNat p one64 : Nat) * one64) + one64 * 2 ^ 1042 := by
    exact_mod_cast herr.2
  rw [abs_le]
  constructor <;> linarith

/-- The square of a computed sum against the square of the exact sum. -/
theorem square_error_core (W E V n P : Int) (hW : 0 < W) (hE0 : 0 ≤ E) (hEW : E ≤ W)
    (hx : |10000 * V - n * W| ≤ 10000 * E) (hn : |n| ≤ 10200000)
    (hP : |2 * (P * W) - 2 * (V * V)| ≤ W * (16 * E)) :
    |10000 * 10000 * P - n * n * W| ≤ 10000 * 10000 * (2049 * E) := by
  have hy : |10000 * V - n * W + 2 * (n * W)| ≤ 10000 * E + 2 * (10200000 * W) := by
    refine le_trans (abs_add _ _) (add_le_add hx ?_)
    rw [abs_mul, abs_mul, abs_of_pos hW, abs_of_pos (by norm_num : (0 : Int) < 2)]
    have := mul_le_mul_of_nonneg_right hn (le_of_lt hW)
    linarith
  have hxy : |(10000 * V - n * W) * (10000 * V - n * W + 2 * (n * W))| ≤
      10000 * E * (10000 * E + 2 * (10200000 * W)) := by
    rw [abs_mul]
    exact mul_le_mul hx hy (abs_nonneg _) (by positivity)
  have hEE : E * E ≤ E * W := mul_le_mul_of_nonneg_left hEW hE0
  have hid : (10000 * V - n * W) * (10000 * V - n * W + 2 * (n * W)) =
      10000 * 10000 * (V * V) - n * n * (W * W) := by ring
  rw [hid] at hxy
  rw [abs_le] at hxy hP
  obtain ⟨a1, a2⟩ := hxy
  obtain ⟨p1, p2⟩ := hP
  have hgoal : |(10000 * 10000 * P - n * n * W) * W| ≤ 10000 * 10000 * (2049 * E) * W := by
    rw [abs_le]
    constructor <;> nlinarith
  rw [abs_mul, abs_of_pos hW] at hgoal
  exact le_of_mul_le_mul_right hgoal hW

theorem vertY_error (o : Mat) (r c : Nat) :
    |10000 * vertY o r c - vertNum o r c * one64| ≤ 10000 * 2 ^ 1038 := by
  unfold vertY vertNum lumAt
  simp only [← luminosity_eq]
  exact vert_kernel_error _ _ _ _ _ _ _ _ _ _ _ _ (luminosity_error _) (luminosity_error _)
    (luminosity_error _) (luminosity_error _) (luminosity_error _) (luminosity_error _)

theorem horzX_error (o : Mat) (r c : Nat) :
    |10000 * horzX o r c - horzNum o r c * one64| ≤ 10000 * 2 ^ 1038 := by
  unfold horzX horzNum lumAt
  have hT : getLuminosity (ofUchar (o.px (r - 1) (c + 1)).b) (ofUchar (o.px (r - 1) (c + 1)).g)
      (ofUchar (o.px (r + 1) (c - 1)).r) = luminosity (mixedPixel o r c) := rfl
  rw [hT]
  simp only [← luminosity_eq]
  exact horz_kernel_error _ _ _ _ _ _ _ _ _ _ _ _ (luminosity_error _) (luminosity_error _)
    (luminosity_error _) (luminosity_error _) (luminosity_error _) (luminosity_error _)

/-- The square of a computed sum `V` that is within `2^-36` of `n / 10000`. -/
theorem square_error (V n : Int) (hx : |10000 * V - n * one64| ≤ 10000 * 2 ^ 1038)
    (hn : |n| ≤ 10200000) :
    |10000 * 10000 * fmul V V - n * n * one64| ≤ 10000 * 10000 * (2049 * 2 ^ 1038) ∧
      0 ≤ fmul V V := by
  have hW : (0 : Int) < one64 := by exact_mod_cast one64_pos
  have hWe : (one64 : Int) = 2 ^ 1074 := by exact_mod_cast one64_eq
  have hEW : (2 : Int) ^ 1038 ≤ one64 := by rw [hWe]; norm_num
  have hE0 : (0 : Int) ≤ 2 ^ 1038 := by positivity
  have hV : |V| ≤ 1021 * one64 := by
    rw [abs_le] at hx hn ⊢
    obtain ⟨x1, x2⟩ := hx
    obtain ⟨n1, n2⟩ := hn
    have h1 := mul_le_mul_of_nonneg_right n2 (le_of_lt hW)
    have h2 := mul_le_mul_of_nonneg_right n1 (le_of_lt hW)
    constructor <;> linarith
  obtain ⟨hP, hP0⟩ := fmul_self_error V hV
  have e : (2 : Int) ^ 1042 = 16 * 2 ^ 1038 := by norm_num
  rw [e] at hP
  exact ⟨square_error_core one64 (2 ^ 1038) V n (fmul V V) hW hE0 hEW hx hn hP, hP0⟩

theorem fadd_error_wide (x y : Int) (h : |x + y| < 2 ^ 22 * one64) :
    |fadd x y - (x + y)| ≤ 2 ^ 1042 := by
  have hWe : (one64 : Int) = 2 ^ 1074 := by exact_mod_cast one64_eq
  have := roundDbl_abs_error (x + y) 1043 (lt_of_lt_of_le h (by rw [hWe]; norm_num))
  unfold fadd
  rw [abs_le] at this ⊢
  have e : (2 : Int) ^ 1043 = 2 * 2 ^ 1042 := by norm_num
  rw [e] at this
  constructor <;> linarith

/-- The sum of squares under the root of the magnitude is within `2^-24` of the exact
`vertical² + horizontal²`. -/
theorem sum_of_squares_error (o : Mat) (r c : Nat) :
    |10000 * 10000 * fadd (fmul (vertY o r c) (vertY o r c))
        (fmul (horzX o r c) (horzX o r c)) - magSqNum o r c * one64| ≤
      10000 * 10000 * (4114 * 2 ^ 1038) ∧
    fadd (fmul (vertY o r c) (vertY o r c)) (fmul (horzX o r c) (horzX o r c)) <
      2 ^ 22 * one64 := by
  have hW : (0 : Int) < one64 := by exact_mod_cast one64_pos
  have hWe : (one64 : Int) = 2 ^ 1074 := by exact_mod_cast one64_eq
  have hEW : (2 : Int) ^ 36 * 2 ^ 1038 = one64 := by rw [hWe]; norm_num
  have hE0 : (0 : Int) < 2 ^ 1038 := by positivity
  have hvn := vertNum_bounds o r c
  have hhn := horzNum_bounds o r c
  obtain ⟨hv, hv0⟩ := square_error _ _ (vertY_error o r c) hvn
  obtain ⟨hh, hh0⟩ := square_error _ _ (horzX_error o r c) hhn
  have hvv : vertNum o r c * vertNum o r c ≤ 10200000 * 10200000 := by
    rw [← abs_mul_abs_self]
    exact mul_le_mul hvn hvn (abs_nonneg _) (by norm_num)
  have hhh : horzNum o r c * horzNum o r c ≤ 10200000 * 10200000 := by
    rw [← abs_mul_abs_self]
    exact mul_le_mul hhn hhn (abs_nonneg _) (by norm_num)
  have hvvW := mul_le_mul_of_nonneg_right hvv (le_of_lt hW)
  have hhhW := mul_le_mul_of_nonneg_right hhh (le_of_lt hW)
  unfold magSqNum
  rw [abs_le] at hv hh
  obtain ⟨v1, v2⟩ := hv
  obtain ⟨h1, h2⟩ := hh
  generalize fmul (vertY o r c) (vertY o r c) = P at *
  generalize fmul (horzX o r c) (horzX o r c) = PH at *
  generalize vertNum o r c * vertNum o r c = nv at *
  generalize horzNum o r c * horzNum o r c = nh at *
  have hsum : |P + PH| < 2 ^ 22 * one64 := by
    rw [abs_of_nonneg (by linarith)]
    rw [← hEW] at hvvW hhhW v2 h2 ⊢
    generalize (2 : Int) ^ 1038 = E at *
    linarith
  have hS := fadd_error_wide P PH hsum
  rw [abs_le] at hS
  obtain ⟨s1, s2⟩ := hS
  rw [abs_of_nonneg (by linarith)] at hsum
  have e : (2 : Int) ^ 1042 = 16 * 2 ^ 1038 := by norm_num
  rw [e] at s1 s2
  generalize fadd P PH = S at *
  constructor
  · rw [abs_le]
    generalize (2 : Int) ^ 1038 = E at *
    constructor <;> linarith
  · rw [← hEW] at hvvW hhhW v2 h2 ⊢
    generalize (2 : Int) ^ 1038 = E at *
    linarith

/-- The computed magnitude against an integer threshold `t`: when the exact squared
magnitude is at least `8 * 10^-8` above `t²` the computed magnitude is above `t`, and when it
is at least `8 * 10^-8` below `t²` the computed magnitude is below `t`. -/
theorem magnitude_threshold (o : Mat) (r c : Nat) (t : Nat) (ht1 : 1 ≤ t) (ht : t ≤ 101) :
    (((t * t : Nat) : Int) * 10 ^ 8 + 8 ≤ magSqNum o r c → ofInt t < magnitude o r c) ∧
    (magSqNum o r c + 8 ≤ ((t * t : Nat) : Int) * 10 ^ 8 → magnitude o r c < ofInt t) := by
  have hW : (0 : Int) < one64 := by exact_mod_cast one64_pos
  have hWe : (one64 : Int) = 2 ^ 1074 := by exact_mod_cast one64_eq
  have hEW : (2 : Int) ^ 36 * 2 ^ 1038 = one64 := by rw [hWe]; norm_num
  have e41 : (2 : Int) ^ 1041 = 8 * 2 ^ 1038 := by norm_num
  have hE0 : (0 : Int) < 2 ^ 1038 := by positivity
  obtain ⟨herr, hlt⟩ := sum_of_squares_error o r c
  rw [abs_le] at herr
  obtain ⟨e1, e2⟩ := herr
  unfold magnitude
  generalize fadd (fmul (vertY o r c) (vertY o r c)) (fmul (horzX o r c) (horzX o r c)) = S at *
  constructor
  · intro h
    apply fsqrt_gt_ofInt S t ht hlt
    have h1 := mul_le_mul_of_nonneg_right h (le_of_lt hW)
    rw [e41]
    have hgoal : 10000 * 10000 * (((t * t : Nat) : Int) * (one64 : Int) + 8 * 2 ^ 1038) ≤
        10000 * 10000 * S := by
      rw [← hEW] at h1 e1 e2 ⊢
      generalize (2 : Int) ^ 1038 = E at *
      norm_num at h1 e1 e2 ⊢
      linarith
    exact le_of_mul_le_mul_left hgoal (by norm_num)
  · intro h
    apply fsqrt_lt_ofInt S t ht1 ht
    have h1 := mul_le_mul_of_nonneg_right h (le_of_lt hW)
    rw [e41]
    have hgoal : 10000 * 10000 * (S + 8 * 2 ^ 1038) ≤
        10000 * 10000 * (((t * t : Nat) : Int) * (one64 : Int)) := by
      rw [← hEW] at h1 e1 e2 ⊢
      generalize (2 : Int) ^ 1038 = E at *
      norm_num at h1 e1 e2 ⊢
      linarith
    exact le_of_mul_le_mul_left hgoal (by norm_num)

/-- C8 (counterexample to the claim as stated). In `edgeThirty` the exact sums at `(2,2)`
are `-24` and `-18`, so the exact magnitude is exactly 30 and the claim gives black, but the
magnitude computed in double precision is just above 30 and the program writes `(30,30,30)`.
In `edgeForty` the exact sums are `40` and `0`, so the claim gives the gray value 40, but the
computed magnitude is just below 40 and the program writes `(39,39,39)`. -/
theorem strobelOutline_boundary_magnitudes :
    processed edgeThirty.original 2 2 ∧
    vertNum edgeThirty.original 2 2 = -240000 ∧ horzNum edgeThirty.original 2 2 = -180000 ∧
    magSqNum edgeThirty.original 2 2 = 30 * 30 * 10 ^ 8 ∧
    (strobelOutline edgeThirty).modified.px 2 2 = ⟨30, 30, 30⟩ ∧
    processed edgeForty.original 2 2 ∧
    vertNum edgeForty.original 2 2 = 400000 ∧ horzNum edgeForty.original 2 2 = 0 ∧
    magSqNum edgeForty.original 2 2 = 40 * 40 * 10 ^ 8 ∧
    (strobelOutline edgeForty).modified.px 2 2 = ⟨39, 39, 39⟩ := by
  decide

/-- C8 (as amended). `strobelOutline` classification.  At every pixel the edge detector
writes, with `m` the magnitude `sqrt(vertY^2 + horzX^2)` computed in double precision, the
output is white when `m > 100`, the gray pixel with all three channels equal to the integer
part of `m` when `30 < m ≤ 100`, and black when `m ≤ 30`; hence the three channels are equal
and their value is 0, 255 or in `[30,100]`.  The computed `m` follows the exact magnitude `M`
of the exact sums up to rounding: for every integer `1 ≤ t ≤ 101`, `m > t` when
`M² ≥ t² + 8 * 10^-8` and `m < t` when `M² ≤ t² - 8 * 10^-8`.  So the output is white when
`M² ≥ 100² + 8 * 10^-8`, black when `M² ≤ 30² - 8 * 10^-8`, and the gray pixel with value `t`
when `t² + 8 * 10^-8 ≤ M² ≤ (t+1)² - 8 * 10^-8` for an integer `30 ≤ t ≤ 99`. -/
theorem strobelOutline_classification (s : Globals) (r c : Nat)
    (h : processed s.original r c) :
    (ofInt 100 < magnitude s.original r c → (strobelOutline s).modified.px r c = white) ∧
    (ofInt 30 < magnitude s.original r c → magnitude s.original r c ≤ ofInt 100 →
      (((strobelOutline s).modified.px r c).b.val : Int) = trunc (magnitude s.original r c) ∧
      (((strobelOutline s).modified.px r c).g.val : Int) = trunc (magnitude s.original r c) ∧
      (((strobelOutline s).modified.px r c).r.val : Int) = trunc (magnitude s.original r c)) ∧
    (magnitude s.original r c ≤ ofInt 30 → (strobelOutline s).modified.px r c = black) ∧
    ((strobelOutline s).modified.px r c).g = ((strobelOutline s).modified.px r c).b ∧
    ((strobelOutline s).modified.px r c).r = ((strobelOutline s).modified.px r c).b ∧
    (((strobelOutline s).modified.px r c).b.val = 0 ∨
      ((strobelOutline s).modified.px r c).b.val = 255 ∨
      (30 ≤ ((strobelOutline s).modified.px r c).b.val ∧
        ((strobelOutline s).modified.px r c).b.val ≤ 100)) ∧
    (∀ t : Nat, 1 ≤ t → t ≤ 101 →
      (((t * t : Nat) : Int) * 10 ^ 8 + 8 ≤ magSqNum s.original r c →
        ofInt t < magnitude s.original r c) ∧
      (magSqNum s.original r c + 8 ≤ ((t * t : Nat) : Int) * 10 ^ 8 →
        magnitude s.original r c < ofInt t)) ∧
    (100 * 100 * 10 ^ 8 + 8 ≤ magSqNum s.original r c →
      (strobelOutline s).modified.px r c = white) ∧
    (magSqNum s.original r c + 8 ≤ 30 * 30 * 10 ^ 8 →
      (strobelOutline s).modified.px r c = black) ∧
    (∀ t : Nat, 30 ≤ t → t ≤ 99 →
      ((t * t : Nat) : Int) * 10 ^ 8 + 8 ≤ magSqNum s.original r c →
      magSqNum s.original r c + 8 ≤ (((t + 1) * (t + 1) : Nat) : Int) * 10 ^ 8 →
      ((strobelOutline s).modified.px r c).b.val = t ∧
      ((strobelOutline s).modified.px r c).g.val = t ∧
      ((strobelOutline s).modified.px r c).r.val = t) := by
  rw [strobelOutline_px_processed s r c h]
  obtain ⟨hw, hg, hk⟩ := classify_cases (magnitude s.original r c)
  have hth := magnitude_threshold s.original r c
  have hchan : (classify (magnitude s.original r c)).g = (classify (magnitude s.original r c)).b ∧
      (classify (magnitude s.original r c)).r = (classify (magnitude s.original r c)).b ∧
      ((classify (magnitude s.original r c)).b.val = 0 ∨
        (classify (magnitude s.original r c)).b.val = 255 ∨
        (30 ≤ (classify (magnitude s.original r c)).b.val ∧
          (classify (magnitude s.original r c)).b.val ≤ 100)) := by
    rcases lt_or_le (ofInt 100) (magnitude s.original r c) with h1 | h1
    · rw [hw h1]
      exact ⟨rfl, rfl, Or.inr (Or.inl rfl)⟩
    · rcases lt_or_le (ofInt 30) (magnitude s.original r c) with h2 | h2
      · obtain ⟨e, hv, ha, hb⟩ := hg h2 h1
        rw [e]
        refine ⟨rfl, rfl, Or.inr (Or.inr ?_)⟩
        simp only
        omega
      · rw [hk h2]
        exact ⟨rfl, rfl, Or.inl rfl⟩
  refine ⟨hw, ?_, hk, hchan.1, hchan.2.1, hchan.2.2, fun t ht1 ht => hth t ht1 ht, ?_, ?_, ?_⟩
  · intro h1 h2
    obtain ⟨e, hv, _, _⟩ := hg h1 h2
    rw [e]
    exact ⟨hv, hv, hv⟩
  · intro hq
    exact hw ((hth 100 (by norm_num) (by norm_num)).1 (by norm_num at hq ⊢; exact hq))
  · intro hq
    exact hk (le_of_lt ((hth 30 (by norm_num) (by norm_num)).2 (by norm_num at hq ⊢; exact hq)))
  · intro t ht30 ht99 hq1 hq2
    have h1 := (hth t (by omega) (by omega)).1 hq1
    have h2 := (hth (t + 1) (by omega) (by omega)).2 hq2
    have h30 : ofInt 30 < magnitude s.original r c :=
      lt_of_le_of_lt (ofInt_le (by exact_mod_cast ht30)) h1
    have h100 : magnitude s.original r c ≤ ofInt 100 :=
      le_trans (le_of_lt h2) (ofInt_le (by exact_mod_cast (by omega : t + 1 ≤ 100)))
    obtain ⟨e, hv, _, _⟩ := hg h30 h100
    have hm0 : 0 ≤ magnitude s.original r c :=
      le_trans (ofInt_nonneg (by norm_num)) (le_of_lt h30)
    have hlo := le_trunc hm0 (le_of_lt h1)
    have hbr := trunc_bracket hm0
    have hW : (0 : Int) < one64 := by exact_mod_cast one64_pos
    have hhi : trunc (magnitude s.original r c) < t + 1 := by
      by_contra hc
      have hc' : ((t : Int) + 1) ≤ trunc (magnitude s.original r c) := not_lt.mp hc
      have := mul_le_mul_of_nonneg_right hc' (le_of_lt hW)
      unfold ofInt at h2
      push_cast at h2
      linarith [hbr.1]
    have hval : ((toUchar (magnitude s.original r c)).val : Int) = t := by
      rw [hv]; omega
    have hval' : (toUchar (magnitude s.original r c)).val = t := by exact_mod_cast hval
    rw [e]
    exact ⟨hval', hval', hval'⟩

theorem strobelOutline_classification_witness :
    processed edgeDemo.original 2 2 ∧
    100 * 100 * 10 ^ 8 + 8 ≤ magSqNum edgeDemo.original 2 2 ∧
    (strobelOutline edgeDemo).modified.px 2 2 = white :=
  ⟨by decide, by decide,
    (strobelOutline_classification edgeDemo 2 2 (by decide)).2.2.2.2.2.2.2.1 (by decide)⟩

end ImageManipulation
